import Mathlib

/-!
# cursor-pager: cursor codec, pagination calculator and orchestrator

A shallow embedding of `cursorpager.go`, `error.go`, `querier.go` and `order.go`.

Conventions of the embedding.

* A Go `string` is a Lean `String` (valid Unicode text); a `[]byte` is a `List Nat`
  whose entries are below 256.
* A Go `any` is a value of `GoAny`, a sum over the dynamic types that reach the
  cursor: what `encoding/json` stores into an `any` (nil, bool, float64, string,
  `[]any`, `map[string]any`), Go integers, and one constructor for the values
  `json.Marshal` rejects (channels, functions, NaN, ...).
* `int32` is an `Int` together with `wrapInt32` where the source does arithmetic.
* The two standard-library packages the codec calls, `encoding/base64` and
  `encoding/json`, are embedded as executable functions that follow the library's
  documented algorithm for the one struct type marshalled here.
-/

namespace CursorPager

/-! ## encoding/base64, `StdEncoding` -/

/-- The alphabet of `base64.StdEncoding`. -/
def encodeStd : List Char :=
  "ABCDEFGHIJKLMNOPQRSTUVWXYZabcdefghijklmnopqrstuvwxyz0123456789+/".toList

/-- The character for a six-bit value: `enc.encode[v]`. -/
def encodeSextet (v : Nat) : Char := encodeStd.getD v 'A'

/-- The six-bit value of a character, `enc.decodeMap[c]`; `none` stands for `0xff`. -/
def decodeMap (c : Char) : Option Nat :=
  let n := c.toNat
  if 65 ≤ n ∧ n ≤ 90 then some (n - 65)
  else if 97 ≤ n ∧ n ≤ 122 then some (n - 71)
  else if 48 ≤ n ∧ n ≤ 57 then some (n + 4)
  else if n = 43 then some 62
  else if n = 47 then some 63
  else none

/-- `Encoding.EncodeToString` for `StdEncoding`: three bytes give four characters,
the last group is padded with `=`. -/
def base64Encode : List Nat → List Char
  | [] => []
  | [a] => [encodeSextet (a / 4), encodeSextet (a % 4 * 16), '=', '=']
  | [a, b] =>
      [encodeSextet (a / 4), encodeSextet (a % 4 * 16 + b / 16), encodeSextet (b % 16 * 4), '=']
  | a :: b :: c :: rest =>
      encodeSextet (a / 4) :: encodeSextet (a % 4 * 16 + b / 16) ::
        encodeSextet (b % 16 * 4 + c / 64) :: encodeSextet (c % 64) :: base64Encode rest

/-- The bytes of one quantum: `dlen - 1` bytes out of the (zero-filled) 24-bit value. -/
def quantumBytes (sextets : List Nat) : List Nat :=
  let val := ((sextets.getD 0 0 * 64 + sextets.getD 1 0) * 64 + sextets.getD 2 0) * 64
    + sextets.getD 3 0
  [val / 65536 % 256, val / 256 % 256, val % 256].take (sextets.length - 1)

/-- The loop "skip over newlines" of `decodeQuantum`. -/
def skipNewlines : List Char → List Char
  | [] => []
  | c :: cs => if c = '\n' ∨ c = '\r' then skipNewlines cs else c :: cs

/-- `Encoding.Decode` for `StdEncoding` (padded, not strict): `dbuf` holds the sextets
of the quantum being read. `none` is a `CorruptInputError`. -/
def decodeLoop : List Char → List Nat → Option (List Nat)
  | [], dbuf => if dbuf = [] then some [] else none
  | c :: cs, dbuf =>
    match decodeMap c with
    | some v =>
      if dbuf.length = 3 then (decodeLoop cs []).map (quantumBytes (dbuf ++ [v]) ++ ·)
      else decodeLoop cs (dbuf ++ [v])
    | none =>
      if c = '\n' ∨ c = '\r' then decodeLoop cs dbuf
      else if c ≠ '=' then none
      else if dbuf.length < 2 then none
      else if dbuf.length = 2 then
        match skipNewlines cs with
        | [] => none
        | c2 :: cs2 =>
          if c2 ≠ '=' then none
          else if skipNewlines cs2 = [] then some (quantumBytes dbuf) else none
      else if skipNewlines cs = [] then some (quantumBytes dbuf) else none

/-- `base64.StdEncoding.EncodeToString`. -/
def base64StdEncodeToString (src : List Nat) : String := String.mk (base64Encode src)

/-- `base64.StdEncoding.DecodeString`; `none` when it returns an error. -/
def base64StdDecodeString (s : String) : Option (List Nat) := decodeLoop s.toList []

/-! ## Values of type `any` -/

/-- A finite `float64`: the number `(-1)^neg * mant * 2^exp`, with `mant < 2^53`,
`-1074 ≤ exp ≤ 971`, and `mant ≥ 2^52` unless `exp = -1074` (zero has `exp = 0`). -/
structure Float64 where
  neg : Bool
  mant : Nat
  exp : Int
  deriving DecidableEq, Repr

/-- The representation of a finite `float64` is the one the structure documents: zero has
the mantissa and the exponent 0; every other value has a mantissa below `2^53` and an
exponent from `-1074` to `971`, and a mantissa of at least `2^52` unless the exponent is
`-1074`. -/
def Float64.Finite (f : Float64) : Prop :=
  (f.mant = 0 ∧ f.exp = 0) ∨
    (0 < f.mant ∧ f.mant < 2 ^ 53 ∧ -1074 ≤ f.exp ∧ f.exp ≤ 971 ∧
      (2 ^ 52 ≤ f.mant ∨ f.exp = -1074))

instance (f : Float64) : Decidable f.Finite := by
  unfold Float64.Finite; infer_instance

/-- A Go `string`: a sequence of bytes, which need not be valid UTF-8. Two Go strings
are equal when their bytes are. -/
abbrev GoString := List Nat

/-- A Go value held in an `any`. `int` is a value of any Go integer type; `float64`,
`slice` (`[]any`) and `map` (`map[string]any`) are what `json.Unmarshal` stores;
`unsupported` is a value `json.Marshal` returns an error for (a channel, a function,
a NaN). -/
inductive GoAny where
  | nil
  | bool (b : Bool)
  | int (i : Int)
  | float64 (f : Float64)
  | str (s : GoString)
  | slice (xs : List GoAny)
  | map (kvs : List (GoString × GoAny))
  | unsupported
  deriving Repr

/-! ## strconv: numbers -/

/-- Decimal digits of `n`, most significant first, by repeated division
(`fuel` bounds the number of digits). -/
def digitsAux : Nat → Nat → List Nat → List Nat
  | 0, _, acc => acc
  | fuel + 1, n, acc => if n < 10 then n :: acc else digitsAux fuel (n / 10) (n % 10 :: acc)

/-- The decimal digits of `n`: `strconv.Itoa` before the digits become characters. -/
def decimalDigits (n : Nat) : List Nat := digitsAux (n + 1) n []

/-- The ASCII bytes of `strconv.FormatUint(n, 10)`. -/
def formatNat (n : Nat) : List Nat := (decimalDigits n).map (· + 48)

/-- The ASCII bytes of `strconv.FormatInt(i, 10)`. -/
def formatInt (i : Int) : List Nat :=
  if i < 0 then 45 :: formatNat i.natAbs else formatNat i.natAbs

/-- The floor of the binary logarithm, by repeated halving (`fuel` bounds the steps). -/
def log2Aux : Nat → Nat → Nat
  | 0, _ => 0
  | fuel + 1, n => if n < 2 then 0 else log2Aux fuel (n / 2) + 1

/-- The position of the highest set bit of `n` (`bits.Len(n) - 1`), 0 for `n = 0`. -/
def log2 (n : Nat) : Nat := log2Aux n n

/-- The `float64` nearest to `num / den` (`den > 0`), ties to even: what
`strconv.ParseFloat(s, 64)` returns for a decimal literal of that value. `none` is
`ErrRange` (the value rounds beyond the largest `float64`); underflow gives zero. -/
def roundFloat64 (neg : Bool) (num den : Nat) : Option Float64 :=
  if num = 0 then some ⟨neg, 0, 0⟩ else
  let k : Int := (log2 num : Int) - (log2 den : Int)
  let atLeast : Bool :=
    if 0 ≤ k then decide (den * 2 ^ k.toNat ≤ num) else decide (den ≤ num * 2 ^ (-k).toNat)
  let fl : Int := if atLeast then k else k - 1
  let e : Int := max (fl - 52) (-1074)
  let n : Nat := if 0 ≤ e then num else num * 2 ^ (-e).toNat
  let d : Nat := if 0 ≤ e then den * 2 ^ e.toNat else den
  let q := n / d
  let r := n % d
  let m := if d < 2 * r ∨ (2 * r = d ∧ q % 2 = 1) then q + 1 else q
  let m2 := if m = 2 ^ 53 then 2 ^ 52 else m
  let e2 := if m = 2 ^ 53 then e + 1 else e
  if 971 < e2 then none else some ⟨neg, m2, if m2 = 0 then 0 else e2⟩

/-- The `float64` of the decimal `digits * 10^exp10`. -/
def parseDecimal (neg : Bool) (digits : Nat) (exp10 : Int) : Option Float64 :=
  if 0 ≤ exp10 then roundFloat64 neg (digits * 10 ^ exp10.toNat) 1
  else roundFloat64 neg digits (10 ^ (-exp10).toNat)

/-- Does the decimal `digits * 10^exp10` read back as `f`? -/
def readsBack (f : Float64) (digits : Nat) (exp10 : Int) : Bool :=
  decide (parseDecimal f.neg digits exp10 = some f)

/-- The floor of the decimal logarithm of `num / den` for `num, den > 0`
(`fuel` bounds the search, which starts at `lo`). -/
def floorLog10 : Nat → Int → Nat → Nat → Int
  | 0, lo, _, _ => lo
  | fuel + 1, lo, num, den =>
    let next := lo + 1
    let reached : Bool :=
      if 0 ≤ next then decide (den * 10 ^ next.toNat ≤ num)
      else decide (den ≤ num * 10 ^ (-next).toNat)
    if reached then floorLog10 fuel next num den else lo

/-- The shortest decimal that reads back as `f` (`f ≠ 0`), as `(digits, exp10)` with
value `digits * 10^exp10`: for `n = 1, 2, ...` significant digits, the `n`-digit
decimals just below and just above `f` are tried, the nearer first. -/
def shortestDecimal (f : Float64) : Nat × Int :=
  let num : Nat := if 0 ≤ f.exp then f.mant * 2 ^ f.exp.toNat else f.mant
  let den : Nat := if 0 ≤ f.exp then 1 else 2 ^ (-f.exp).toNat
  let p : Int := floorLog10 800 (-400) num den
  let try1 (n : Nat) : Option (Nat × Int) :=
    let sh : Int := p - n + 1
    let sn : Nat := if 0 ≤ sh then num else num * 10 ^ (-sh).toNat
    let sd : Nat := if 0 ≤ sh then den * 10 ^ sh.toNat else den
    let lo := sn / sd
    let r := sn % sd
    let loOk := readsBack f lo sh
    let hiOk := readsBack f (lo + 1) sh
    if loOk ∧ (¬ hiOk ∨ 2 * r ≤ sd) then some (lo, sh)
    else if hiOk then some (lo + 1, sh)
    else none
  ((List.range 17).findSome? fun i => try1 (i + 1)).getD (0, 0)

/-- Remove trailing zeros of a decimal, raising its exponent. -/
def stripZeros : Nat → Nat → Int → Nat × Int
  | 0, d, e => (d, e)
  | fuel + 1, d, e => if d ≠ 0 ∧ d % 10 = 0 then stripZeros fuel (d / 10) (e + 1) else (d, e)

/-- The bytes `encoding/json` writes for a `float64` (`floatEncoder`): the shortest
decimal, in `%f` form, or in `%e` form with a trimmed exponent when the magnitude is
below `1e-6` or at least `1e21` (the ES6 number-to-string rule). -/
def formatFloat64 (f : Float64) : List Nat :=
  let sign : List Nat := if f.neg then [45] else []
  if f.mant = 0 then sign ++ [48] else
  let (d, e) := stripZeros 17 (shortestDecimal f).1 (shortestDecimal f).2
  let ds := formatNat d
  let k : Int := ds.length
  let dp : Int := k + e
  if dp < -5 ∨ 21 < dp then
    let x := dp - 1
    let mantissa := ds.take 1 ++ (if 1 < ds.length then 46 :: ds.drop 1 else [])
    let xs := formatNat x.natAbs
    sign ++ mantissa ++ [101, if x < 0 then 45 else 43] ++ xs
  else if dp ≤ 0 then sign ++ [48, 46] ++ List.replicate (-dp).toNat 48 ++ ds
  else if k ≤ dp then sign ++ ds ++ List.replicate (dp - k).toNat 48
  else sign ++ ds.take dp.toNat ++ [46] ++ ds.drop dp.toNat

/-! ## The cursor record -/

/-- The struct `preCursor`: `valid` carries the tag `json:"-"`, the other fields the
keys `id`, `points_next`, `sub_cursor_name` and `sub_cursor`. The default values are
Go's zero values, so `{}` is `preCursor{}`. -/
structure preCursor where
  valid : Bool := false
  CursorID : GoAny := GoAny.nil
  CursorPointsNext : Bool := false
  SubCursorName : GoString := []
  SubCursor : GoAny := GoAny.nil

/-! ## encoding/json: `Marshal` -/

/-- The bytes of an ASCII string constant. -/
def ascii (s : String) : List Nat := s.toList.map Char.toNat

/-- One lower-case hexadecimal digit, `hex[n]`. -/
def hexDigit (n : Nat) : Nat := if n < 10 then n + 48 else n + 87

/-- The UTF-8 bytes of a code point of at least 128 (`utf8.AppendRune`). -/
def utf8Encode (n : Nat) : List Nat :=
  if n < 2048 then [192 + n / 64, 128 + n % 64]
  else if n < 65536 then [224 + n / 4096, 128 + n / 64 % 64, 128 + n % 64]
  else [240 + n / 262144, 128 + n / 4096 % 64, 128 + n / 64 % 64, 128 + n % 64]

/-- The Go string of a text: its UTF-8 bytes. A string constant of the source is
written as the text, and read through this conversion. -/
def goString (s : String) : GoString :=
  s.toList.flatMap fun c => if c.toNat < 128 then [c.toNat] else utf8Encode c.toNat

instance : Coe String GoString := ⟨goString⟩

/-- Is the byte a UTF-8 continuation byte within `lo..hi`? -/
def inRange (lo hi b : Nat) : Bool := decide (lo ≤ b) && decide (b ≤ hi)

/-- The function `utf8.DecodeRune` at a byte `b0 ≥ 0x80` followed by `rest`: the code
point and what follows it. An invalid or short sequence gives U+FFFD and consumes
the one byte `b0`. -/
def decodeRune (b0 : Nat) (rest : List Nat) : Nat × List Nat :=
  if 194 ≤ b0 ∧ b0 ≤ 223 then
    match rest with
    | b1 :: r => if inRange 128 191 b1 then (b0 % 32 * 64 + b1 % 64, r) else (65533, rest)
    | _ => (65533, rest)
  else if 224 ≤ b0 ∧ b0 ≤ 239 then
    match rest with
    | b1 :: b2 :: r =>
      if inRange (if b0 = 224 then 160 else 128) (if b0 = 237 then 159 else 191) b1
          && inRange 128 191 b2 then
        ((b0 % 16 * 64 + b1 % 64) * 64 + b2 % 64, r)
      else (65533, rest)
    | _ => (65533, rest)
  else if 240 ≤ b0 ∧ b0 ≤ 244 then
    match rest with
    | b1 :: b2 :: b3 :: r =>
      if inRange (if b0 = 240 then 144 else 128) (if b0 = 244 then 143 else 191) b1
          && inRange 128 191 b2 && inRange 128 191 b3 then
        (((b0 % 8 * 64 + b1 % 64) * 64 + b2 % 64) * 64 + b3 % 64, r)
      else (65533, rest)
    | _ => (65533, rest)
  else (65533, rest)

/-- The characters `encoding/json` reads out of a Go string, with `utf8.DecodeRune`: a
byte that does not start a valid UTF-8 sequence counts as U+FFFD. `fuel` bounds the
number of steps; the length of the string is enough. -/
def goRunes : Nat → List Nat → List Char
  | 0, _ => []
  | _ + 1, [] => []
  | fuel + 1, b :: rest =>
    if b < 128 then Char.ofNat b :: goRunes fuel rest
    else Char.ofNat (decodeRune b rest).1 :: goRunes fuel (decodeRune b rest).2

/-- The text a Go string stands for in JSON: valid UTF-8 as it is, every other byte as
U+FFFD. -/
def jsonString (s : GoString) : String := String.mk (goRunes s.length s)

/-- A Go string as it comes back through JSON (`json.Marshal`, then `json.Unmarshal`):
each byte that is not part of valid UTF-8 has become the three bytes of U+FFFD. -/
def toValidUTF8 (s : GoString) : GoString := goString (jsonString s)

/-- The Go string is valid UTF-8: JSON gives it back as it is. -/
def ValidUTF8 (s : GoString) : Prop := toValidUTF8 s = s

instance (s : GoString) : Decidable (ValidUTF8 s) := by
  unfold ValidUTF8; infer_instance


/-- What `appendString` (with `escapeHTML`) writes for one character: characters of
`htmlSafeSet` as they are, the named escapes, `\u00XX` for the other ASCII
characters, a six-character escape for U+2028 and U+2029, and UTF-8 for the rest. -/
def encodeRune (c : Char) : List Nat :=
  let n := c.toNat
  if n < 128 then
    if 32 ≤ n ∧ n ≠ 34 ∧ n ≠ 92 ∧ n ≠ 60 ∧ n ≠ 62 ∧ n ≠ 38 then [n]
    else if n = 92 ∨ n = 34 then [92, n]
    else if n = 8 then [92, 98]
    else if n = 12 then [92, 102]
    else if n = 10 then [92, 110]
    else if n = 13 then [92, 114]
    else if n = 9 then [92, 116]
    else [92, 117, 48, 48, hexDigit (n / 16), hexDigit (n % 16)]
  else if n = 8232 ∨ n = 8233 then [92, 117, 50, 48, 50, hexDigit (n % 16)]
  else utf8Encode n

/-- The body of a JSON string literal, between the quotes. -/
def encodeRunes : List Char → List Nat
  | [] => []
  | c :: cs => encodeRune c ++ encodeRunes cs

/-- The loop of `appendString` (with `escapeHTML`) over the bytes of a Go string: an
ASCII byte is written as `encodeRune` says; at any other byte `utf8.DecodeRune` is
called: when it reports an error of size 1 the six characters `\ufffd` are written,
for U+2028 and U+2029 their escape, and otherwise the bytes of the character are
copied. `fuel` bounds the number of steps; the length of the string is enough. -/
def appendStringLoop : Nat → List Nat → List Nat
  | 0, _ => []
  | _ + 1, [] => []
  | fuel + 1, b :: rest =>
    if b < 128 then encodeRune (Char.ofNat b) ++ appendStringLoop fuel rest
    else
      let c := (decodeRune b rest).1
      let after := (decodeRune b rest).2
      if c = 65533 ∧ after.length = rest.length then
        [92, 117, 102, 102, 102, 100] ++ appendStringLoop fuel after
      else if c = 8232 ∨ c = 8233 then
        [92, 117, 50, 48, 50, hexDigit (c % 16)] ++ appendStringLoop fuel after
      else (b :: rest).take (rest.length + 1 - after.length) ++ appendStringLoop fuel after

/-- The JSON string literal `appendString` writes for the Go string `s`. -/
def encodeString (s : GoString) : List Nat := 34 :: (appendStringLoop s.length s ++ [34])

/-- Items separated by commas. -/
def joinComma : List (List Nat) → List Nat
  | [] => []
  | [x] => x
  | x :: y :: rest => x ++ 44 :: joinComma (y :: rest)

/-- The order of Go strings, byte by byte. -/
def lessBytes : List Nat → List Nat → Bool
  | _, [] => false
  | [], _ :: _ => true
  | a :: as, b :: bs => decide (a < b) || (decide (a = b) && lessBytes as bs)

/-- The comparison `a < b` of two Go strings. -/
def stringLess (a b : GoString) : Bool := lessBytes a b

/-- Insert a rendered map entry in key order (`mapEncoder` sorts the keys). -/
def insertEntry (e : GoString × List Nat) :
    List (GoString × List Nat) → List (GoString × List Nat)
  | [] => [e]
  | x :: xs => if stringLess e.1 x.1 then e :: x :: xs else x :: insertEntry e xs

/-- Rendered map entries in key order. -/
def sortEntries : List (GoString × List Nat) → List (GoString × List Nat)
  | [] => []
  | e :: es => insertEntry e (sortEntries es)

mutual
/-- The JSON text of a value held in an `any`; `none` is the error of `json.Marshal`
(`UnsupportedTypeError` or `UnsupportedValueError`). -/
def marshalAny : GoAny → Option (List Nat)
  | .nil => some (ascii "null")
  | .bool b => some (if b then ascii "true" else ascii "false")
  | .int i => some (formatInt i)
  | .float64 f => some (formatFloat64 f)
  | .str s => some (encodeString s)
  | .slice xs => (marshalElems xs).map fun bs => 91 :: (joinComma bs ++ [93])
  | .map kvs => (marshalMembers kvs).map fun ms =>
      123 :: (joinComma ((sortEntries ms).map fun e => encodeString e.1 ++ 58 :: e.2) ++ [125])
  | .unsupported => none
/-- The JSON texts of the elements of a `[]any`. -/
def marshalElems : List GoAny → Option (List (List Nat))
  | [] => some []
  | x :: xs =>
    match marshalAny x, marshalElems xs with
    | some b, some bs => some (b :: bs)
    | _, _ => none
/-- The JSON texts of the entries of a `map[string]any`. -/
def marshalMembers : List (GoString × GoAny) → Option (List (GoString × List Nat))
  | [] => some []
  | (k, v) :: kvs =>
    match marshalAny v, marshalMembers kvs with
    | some b, some bs => some ((k, b) :: bs)
    | _, _ => none
end

/-- `json.Marshal(cursor)` for a `preCursor`: the exported fields in declaration
order under their tags; `valid` is not written. `none` when `Marshal` fails. -/
def jsonMarshal (c : preCursor) : Option (List Nat) :=
  match marshalAny c.CursorID, marshalAny c.SubCursor with
  | some cid, some sub =>
    some (ascii "\x7b\"id\":" ++ cid ++ ascii ",\"points_next\":"
      ++ (if c.CursorPointsNext then ascii "true" else ascii "false")
      ++ ascii ",\"sub_cursor_name\":" ++ encodeString c.SubCursorName
      ++ ascii ",\"sub_cursor\":" ++ sub ++ ascii "\x7d")
  | _, _ => none

/-! ## encoding/json: `Unmarshal` -/

/-- A parsed JSON value. A number keeps its decimal reading `digits * 10^exp10`: it
becomes a `float64` only when it is stored into an `any`. -/
inductive JVal where
  | null
  | bool (b : Bool)
  | num (neg : Bool) (digits : Nat) (exp10 : Int)
  | str (s : String)
  | arr (xs : List JVal)
  | obj (kvs : List (String × JVal))
  deriving Repr

/-- The scanner's `isSpace`. -/
def isSpace (b : Nat) : Bool := b = 32 || b = 9 || b = 13 || b = 10

/-- Skip JSON white space. -/
def skipSpace : List Nat → List Nat
  | [] => []
  | b :: bs => if isSpace b then skipSpace bs else b :: bs

/-- Is the byte an ASCII digit? -/
def isDigit (b : Nat) : Bool := decide (48 ≤ b) && decide (b ≤ 57)

/-- The longest run of digits at the front, as digit values, and what follows it. -/
def takeDigits : List Nat → List Nat × List Nat
  | [] => ([], [])
  | b :: bs =>
    if isDigit b then ((b - 48) :: (takeDigits bs).1, (takeDigits bs).2) else ([], b :: bs)

/-- The number written by a list of decimal digits. -/
def digitsValue (ds : List Nat) : Nat := ds.foldl (fun a d => 10 * a + d) 0

/-- An optional sign at the front of the input: whether it is `-`, and what follows
(`plus` tells whether `+` is a sign too, as in an exponent). -/
def takeSign (plus : Bool) : List Nat → Bool × List Nat
  | [] => (false, [])
  | b :: r =>
    if b = 45 then (true, r)
    else if plus ∧ b = 43 then (false, r)
    else (false, b :: r)

/-- The exponent part of a number, `[eE][+-]?[0-9]+`, when there is one. -/
def parseExponent : List Nat → Option (Int × List Nat)
  | [] => some (0, [])
  | e :: rest =>
    if e = 101 ∨ e = 69 then
      let signed := takeSign true rest
      let ds := takeDigits signed.2
      if ds.1 = [] then none
      else some (if signed.1 then -(digitsValue ds.1 : Int) else (digitsValue ds.1 : Int), ds.2)
    else some (0, e :: rest)

/-- The fraction part of a number, `\.[0-9]+`, when there is one. -/
def parseFraction : List Nat → Option (List Nat × List Nat)
  | [] => some ([], [])
  | b :: rest =>
    if b = 46 then
      let ds := takeDigits rest
      if ds.1 = [] then none else some ds
    else some ([], b :: rest)

/-- The integer part of a number, `0|[1-9][0-9]*`. -/
def parseWhole : List Nat → Option (List Nat × List Nat)
  | [] => none
  | b :: r =>
    if b = 48 then some ([0], r)
    else if isDigit b then some (takeDigits (b :: r))
    else none

/-- A JSON number, `-?(0|[1-9][0-9]*)(\.[0-9]+)?([eE][+-]?[0-9]+)?`, at the front. -/
def parseNumber (bs : List Nat) : Option (JVal × List Nat) :=
  let signed := takeSign false bs
  match parseWhole signed.2 with
  | none => none
  | some (ip, r1) =>
    match parseFraction r1 with
    | none => none
    | some (fp, r2) =>
      match parseExponent r2 with
      | none => none
      | some (ex, r3) => some (.num signed.1 (digitsValue (ip ++ fp)) (ex - fp.length), r3)

/-- The value of a hexadecimal digit. -/
def hexValue (b : Nat) : Option Nat :=
  if 48 ≤ b ∧ b ≤ 57 then some (b - 48)
  else if 97 ≤ b ∧ b ≤ 102 then some (b - 87)
  else if 65 ≤ b ∧ b ≤ 70 then some (b - 55)
  else none

/-- Four hexadecimal digits at the front of the input, as a number. -/
def readHex4 : List Nat → Option (Nat × List Nat)
  | a :: b :: c :: d :: rest =>
    match hexValue a, hexValue b, hexValue c, hexValue d with
    | some w, some x, some y, some z => some (((w * 16 + x) * 16 + y) * 16 + z, rest)
    | _, _, _, _ => none
  | _ => none

/-- The function `getu4`: a backslash, `u` and four hexadecimal digits at the front of
the input; `none` stands for its result `-1`. -/
def getu4 : List Nat → Option (Nat × List Nat)
  | b :: u :: rest => if b = 92 ∧ u = 117 then readHex4 rest else none
  | _ => none

/-- The character of a one-letter escape. -/
def simpleEscape (e : Nat) : Option Char :=
  if e = 34 then some (Char.ofNat 34)
  else if e = 92 then some (Char.ofNat 92)
  else if e = 47 then some (Char.ofNat 47)
  else if e = 98 then some (Char.ofNat 8)
  else if e = 102 then some (Char.ofNat 12)
  else if e = 110 then some (Char.ofNat 10)
  else if e = 114 then some (Char.ofNat 13)
  else if e = 116 then some (Char.ofNat 9)
  else none

/-- The body of a string literal after its opening quote (the scanner's string states
together with `unquoteBytes`): the characters read so far are in `acc`, reversed.
Gives the string and what follows the closing quote; `none` is a syntax error.
A surrogate escape is joined with a following low surrogate escape, and is U+FFFD
without one. `fuel` bounds the number of steps; the length of the input is enough. -/
def parseStr : Nat → List Nat → List Char → Option (String × List Nat)
  | 0, _, _ => none
  | _ + 1, [], _ => none
  | fuel + 1, b :: rest, acc =>
    if b = 34 then some (String.mk acc.reverse, rest)
    else if b = 92 then
      match rest with
      | [] => none
      | e :: rest1 =>
        if e = 117 then
          match readHex4 rest1 with
          | none => none
          | some (rr, rest2) =>
            if 55296 ≤ rr ∧ rr < 57344 then
              match getu4 rest2 with
              | some (rr1, rest3) =>
                if rr < 56320 ∧ 56320 ≤ rr1 ∧ rr1 < 57344 then
                  parseStr fuel rest3
                    (Char.ofNat ((rr - 55296) * 1024 + (rr1 - 56320) + 65536) :: acc)
                else parseStr fuel rest2 (Char.ofNat 65533 :: acc)
              | none => parseStr fuel rest2 (Char.ofNat 65533 :: acc)
            else parseStr fuel rest2 (Char.ofNat rr :: acc)
        else
          match simpleEscape e with
          | some c => parseStr fuel rest1 (c :: acc)
          | none => none
    else if b < 32 then none
    else if b < 128 then parseStr fuel rest (Char.ofNat b :: acc)
    else parseStr fuel (decodeRune b rest).2 (Char.ofNat (decodeRune b rest).1 :: acc)

/-- The scanner's `maxNestingDepth`. -/
def maxNestingDepth : Nat := 10000

/-- Remove the bytes `lit` from the front of the input, when they are there. -/
def stripLiteral : List Nat → List Nat → Option (List Nat)
  | [], bs => some bs
  | _ :: _, [] => none
  | l :: ls, b :: bs => if l = b then stripLiteral ls bs else none

mutual
/-- One JSON value at the front of the input (no leading white space) and what
follows it; `none` is a syntax error. `depth` is the number of arrays and objects
that may still be opened; `fuel` bounds the recursion. -/
def parseValue : Nat → Nat → List Nat → Option (JVal × List Nat)
  | 0, _, _ => none
  | _ + 1, _, [] => none
  | fuel + 1, depth, b :: rest =>
    if b = 123 then
      if depth = 0 then none
      else
        match skipSpace rest with
        | [] => none
        | c :: r =>
          if c = 125 then some (.obj [], r)
          else (parseMembers fuel (depth - 1) (c :: r)).map fun p => (.obj p.1, p.2)
    else if b = 91 then
      if depth = 0 then none
      else
        match skipSpace rest with
        | [] => none
        | c :: r =>
          if c = 93 then some (.arr [], r)
          else (parseElems fuel (depth - 1) (c :: r)).map fun p => (.arr p.1, p.2)
    else if b = 34 then (parseStr rest.length rest []).map fun p => (.str p.1, p.2)
    else if b = 116 then (stripLiteral [114, 117, 101] rest).map fun r => (.bool true, r)
    else if b = 102 then (stripLiteral [97, 108, 115, 101] rest).map fun r => (.bool false, r)
    else if b = 110 then (stripLiteral [117, 108, 108] rest).map fun r => (.null, r)
    else if b = 45 ∨ isDigit b then parseNumber (b :: rest)
    else none
/-- The elements of an array from its first value up to the closing bracket. -/
def parseElems : Nat → Nat → List Nat → Option (List JVal × List Nat)
  | 0, _, _ => none
  | fuel + 1, depth, bs =>
    match parseValue fuel depth bs with
    | none => none
    | some (v, r) =>
      match skipSpace r with
      | [] => none
      | c :: r2 =>
        if c = 44 then (parseElems fuel depth (skipSpace r2)).map fun p => (v :: p.1, p.2)
        else if c = 93 then some ([v], r2)
        else none
/-- The members of an object from its first key up to the closing brace. -/
def parseMembers : Nat → Nat → List Nat → Option (List (String × JVal) × List Nat)
  | 0, _, _ => none
  | _ + 1, _, [] => none
  | fuel + 1, depth, q :: rest =>
    if q ≠ 34 then none
    else
      match parseStr rest.length rest [] with
      | none => none
      | some (k, r1) =>
        match skipSpace r1 with
        | [] => none
        | c :: r2 =>
          if c ≠ 58 then none
          else
            match parseValue fuel depth (skipSpace r2) with
            | none => none
            | some (v, r3) =>
              match skipSpace r3 with
              | [] => none
              | d :: r4 =>
                if d = 44 then
                  (parseMembers fuel depth (skipSpace r4)).map fun p => ((k, v) :: p.1, p.2)
                else if d = 125 then some ([(k, v)], r4)
                else none
end

/-- The whole input as one JSON value between optional white space (`checkValid`). -/
def parseJSON (data : List Nat) : Option JVal :=
  match parseValue (2 * data.length + 2) maxNestingDepth (skipSpace data) with
  | none => none
  | some (v, rest) => if skipSpace rest = [] then some v else none

/-- Store an entry into a `map[string]any`, kept in key order: `m[k] = v`. -/
def mapStore (k : GoString) (v : GoAny) :
    List (GoString × GoAny) → List (GoString × GoAny)
  | [] => [(k, v)]
  | x :: xs =>
    if k = x.1 then (k, v) :: xs
    else if stringLess k x.1 then (k, v) :: x :: xs
    else x :: mapStore k v xs

mutual
/-- The Go value `json.Unmarshal` stores into an `any` for a JSON value
(`valueInterface`): a number becomes a `float64`. `none` is the
`UnmarshalTypeError` for a number out of the `float64` range. -/
def toAny : JVal → Option GoAny
  | .null => some .nil
  | .bool b => some (.bool b)
  | .num neg digits exp10 => (parseDecimal neg digits exp10).map .float64
  | .str s => some (.str (goString s))
  | .arr xs => (toAnyElems xs).map .slice
  | .obj kvs => (toAnyMembers kvs []).map .map
/-- The elements of `arrayInterface`. -/
def toAnyElems : List JVal → Option (List GoAny)
  | [] => some []
  | x :: xs =>
    match toAny x, toAnyElems xs with
    | some a, some r => some (a :: r)
    | _, _ => none
/-- The map of `objectInterface`, members stored in the order of the text. -/
def toAnyMembers :
    List (String × JVal) → List (GoString × GoAny) → Option (List (GoString × GoAny))
  | [], m => some m
  | (k, v) :: kvs, m =>
    match toAny v with
    | some a => toAnyMembers kvs (mapStore (goString k) a m)
    | none => none
end

/-- The fold of one character of an object key (`foldRune` within `foldName`): ASCII
letters to upper case, and the two characters outside ASCII whose case orbit holds
an ASCII letter, U+017F and U+212A, to `S` and `K`. -/
def foldChar (c : Char) : Char :=
  let n := c.toNat
  if 97 ≤ n ∧ n ≤ 122 then Char.ofNat (n - 32)
  else if n = 383 then 'S'
  else if n = 8490 then 'K'
  else c

/-- Does an object key select the struct field with this tag? The exact name does,
and so does any key equal to it under case folding. -/
def keyMatches (key tag : String) : Bool :=
  key.toList.map foldChar == tag.toList.map foldChar

/-- Decode a JSON value into a `bool` field holding `old` (`literalStore`): `null`
leaves the field as it is, a value that is not a boolean is an
`UnmarshalTypeError` (`none`). -/
def storeBool (v : JVal) (old : Bool) : Option Bool :=
  match v with
  | .bool b => some b
  | .null => some old
  | .num _ _ _ => none
  | .str _ => none
  | .arr _ => none
  | .obj _ => none

/-- Decode a JSON value into a `string` field holding `old`: `null` leaves the field
as it is, a value that is not a string is an `UnmarshalTypeError` (`none`). -/
def storeString (v : JVal) (old : GoString) : Option GoString :=
  match v with
  | .str s => some (goString s)
  | .null => some old
  | .bool _ => none
  | .num _ _ _ => none
  | .arr _ => none
  | .obj _ => none

/-- Decode one object member into the struct (`d.object`): `id` and `sub_cursor` take
any value, `points_next` a boolean, `sub_cursor_name` a string; a key that matches no
field is skipped. `none` is an `UnmarshalTypeError`. -/
def assignField (c : preCursor) (key : String) (v : JVal) : Option preCursor :=
  if keyMatches key "id" then (toAny v).map fun a => { c with CursorID := a }
  else if keyMatches key "points_next" then
    (storeBool v c.CursorPointsNext).map fun b => { c with CursorPointsNext := b }
  else if keyMatches key "sub_cursor_name" then
    (storeString v c.SubCursorName).map fun s => { c with SubCursorName := s }
  else if keyMatches key "sub_cursor" then (toAny v).map fun a => { c with SubCursor := a }
  else some c

/-- Decode the members of an object in the order of the text. -/
def assignFields : List (String × JVal) → preCursor → Option preCursor
  | [], c => some c
  | (k, v) :: kvs, c =>
    match assignField c k v with
    | some c2 => assignFields kvs c2
    | none => none

/-- `json.Unmarshal(data, &cur)` for `var cur preCursor`: the text must be one JSON
value; an object is decoded member by member, `null` leaves the zero value, any other
value is a type error. `none` when `Unmarshal` returns an error. -/
def jsonUnmarshal (data : List Nat) : Option preCursor :=
  match parseJSON data with
  | some (.obj kvs) => assignFields kvs {}
  | some .null => some {}
  | _ => none

/-! ## error.go -/

/-- Go `error` values: the two sentinels of `error.go`, an error of a collaborator,
and `fmt.Errorf(msg + "%w", err)`. -/
inductive GoError where
  | ErrDataNoRecord
  | ErrFailedDecodeCursor
  | other (msg : String)
  | wrap (msg : String) (err : GoError)
  deriving DecidableEq, Repr

/-! ## cursorpager.go -/

/-- The struct `CursorPaginationAttribute`. -/
structure CursorPaginationAttribute where
  NextCursor : String := ""
  PrevCursor : String := ""
  deriving DecidableEq, Repr

/-- `createPreCursor`. -/
def createPreCursor (id : GoAny) (pointsNext : Bool) (name : GoString) (value : GoAny) :
    preCursor :=
  { valid := true, CursorID := id, CursorPointsNext := pointsNext, SubCursorName := name,
    SubCursor := value }

/-- `encodeCursor`. -/
def encodeCursor (cursor : preCursor) : String :=
  if !cursor.valid then ""
  else
    match jsonMarshal cursor with
    | none => ""
    | some serializedCursor => base64StdEncodeToString serializedCursor

/-- `generatePager`. -/
def generatePager (next prev : preCursor) : CursorPaginationAttribute :=
  { NextCursor := encodeCursor next, PrevCursor := encodeCursor prev }

/-- `decodeCursor`: the record and the error it returns. -/
def decodeCursor (cursor : String) : preCursor × Option GoError :=
  match base64StdDecodeString cursor with
  | none => ({}, some .ErrFailedDecodeCursor)
  | some decodedCursor =>
    match jsonUnmarshal decodedCursor with
    | none => ({}, some .ErrFailedDecodeCursor)
    | some cur => (cur, none)

/-- The struct `cursorData`. -/
structure cursorData where
  ID : GoAny
  Name : GoString
  Value : GoAny

/-- `calculatePagination`. -/
def calculatePagination (isFirstPage hasPagination pointsNext : Bool)
    (firstData lastData : cursorData) : CursorPaginationAttribute :=
  if isFirstPage then
    if hasPagination then
      generatePager (createPreCursor lastData.ID true lastData.Name lastData.Value) {}
    else {}
  else if pointsNext then
    let nextCur : preCursor :=
      if hasPagination then createPreCursor lastData.ID true lastData.Name lastData.Value
      else {}
    let prevCur := createPreCursor firstData.ID false firstData.Name firstData.Value
    generatePager nextCur prevCur
  else
    let nextCur := createPreCursor lastData.ID true lastData.Name lastData.Value
    let prevCur : preCursor :=
      if hasPagination then createPreCursor firstData.ID false firstData.Name firstData.Value
      else {}
    generatePager nextCur prevCur

/-- The interface `Querier[T]` of `querier.go`; a query returns its rows and its
error. -/
structure Querier (T : Type) where
  RunQueryWithCursorParamsFunc :
    (subCursor orderMethod : GoString) → (limit : Int) → (cursorDir : GoString) →
    (cursor subCursorValue : GoAny) → List T × Option GoError
  RunQueryWithLimitFunc : (orderMethod : GoString) → (limit : Int) → List T × Option GoError
  CursorIDAndValueSelector : (subCursor : GoString) → (e : T) → GoAny × GoAny

/-- The interface `OrderMethod` of `order.go`. -/
structure OrderMethod where
  GetCursorKeyName : GoString
  GetStringValue : GoString

/-- Arithmetic of `int32`: the value wraps around. -/
def wrapInt32 (x : Int) : Int := (x + 2147483648) % 4294967296 - 2147483648

/-- What a call of `GetCursorData` does: it returns its three results (a nil slice is
the empty list, a nil error is `none`), or it panics at a slice or index expression
that is out of range. -/
inductive Outcome (T : Type) where
  | returned (data : List T) (pageInfo : CursorPaginationAttribute) (err : Option GoError)
  | panicked
  deriving DecidableEq, Repr

/-- The closure `cursorCheck` of `GetCursorData` with the variables it assigns:
whether the cursor is accepted, `decodedCursor`, and `cursorValue`. -/
def cursorCheck (SubCursor : GoString) (cur : String) : Bool × preCursor × GoAny :=
  match decodeCursor cur with
  | (decodedCursor, some _) => (false, decodedCursor, .nil)
  | (decodedCursor, none) =>
    if decodedCursor.SubCursorName ≠ SubCursor then (false, decodedCursor, .nil)
    else (true, decodedCursor, decodedCursor.SubCursor)

/-- The call `GetCursorData` makes on its `Querier`, with the arguments it passes. -/
inductive QueryCall where
  | withCursorParams (subCursor orderMethod : GoString) (limit : Int) (cursorDir : GoString)
      (cursor subCursorValue : GoAny)
  | withLimit (orderMethod : GoString) (limit : Int)
  deriving Repr

/-- The state of `GetCursorData` when it queries: `isFirst`, `pointsNext`, and the call
it is about to make. -/
structure Request where
  isFirst : Bool
  pointsNext : Bool
  call : QueryCall

/-- The part of `GetCursorData` before the query: the cursor is checked, and the
direction and the arguments of the query are taken from it; `limit + 1` is computed
in `int32`. -/
def prepare (cursor : String) (order : OrderMethod) (limit : Int) : Request :=
  let SubCursor := order.GetCursorKeyName
  let check := cursorCheck SubCursor cursor
  let isFirst : Bool := cursor == "" || !check.1
  if !isFirst then
    let decodedCursor := check.2.1
    let cursorValue := check.2.2
    let pointsNext := decodedCursor.CursorPointsNext
    let cursorDir : GoString := if pointsNext then "next" else "prev"
    let ID := decodedCursor.CursorID
    { isFirst := false, pointsNext := pointsNext,
      call := .withCursorParams SubCursor order.GetStringValue (wrapInt32 (limit + 1))
        cursorDir ID cursorValue }
  else
    { isFirst := true, pointsNext := false,
      call := .withLimit order.GetStringValue (wrapInt32 (limit + 1)) }

/-- Make a call on a `Querier`. -/
def runQuery {T : Type} (q : Querier T) : QueryCall → List T × Option GoError
  | .withCursorParams subCursor orderMethod limit cursorDir cursor subCursorValue =>
    q.RunQueryWithCursorParamsFunc subCursor orderMethod limit cursorDir cursor subCursorValue
  | .withLimit orderMethod limit => q.RunQueryWithLimitFunc orderMethod limit

/-- The page `GetCursorData` keeps of the rows it fetched: `data[:limit]` when there
are more than `limit` rows. -/
def trimPage {T : Type} (limit : Int) (data : List T) : List T :=
  if (data.length : Int) > limit then data.take limit.toNat else data

/-- The part of `GetCursorData` after the query: the check for an empty result,
trimming to `limit` rows, the two edge rows, and the calculator, called with the
edges swapped when the request walks backward. -/
def paginate {T : Type} (q : Querier T) (SubCursor : GoString) (limit : Int)
    (isFirst pointsNext : Bool) (data : List T) : Outcome T :=
  if data.length = 0 then .returned [] {} (some .ErrDataNoRecord)
  else
    let hasPagination : Bool := decide ((data.length : Int) > limit)
    if hasPagination ∧ limit < 0 then .panicked
    else
      let data := trimPage limit data
      let eLen : Int := data.length
      let lastIndex : Int := if eLen - 1 < 0 then 0 else eLen - 1
      match data.get? 0, data.get? lastIndex.toNat with
      | some e0, some eLast =>
        let first := q.CursorIDAndValueSelector SubCursor e0
        let last := q.CursorIDAndValueSelector SubCursor eLast
        let firstData : cursorData := { ID := first.1, Name := SubCursor, Value := first.2 }
        let lastData : cursorData := { ID := last.1, Name := SubCursor, Value := last.2 }
        let pageInfo :=
          if pointsNext || isFirst then
            calculatePagination isFirst hasPagination pointsNext firstData lastData
          else calculatePagination isFirst hasPagination pointsNext lastData firstData
        .returned data pageInfo none
      | _, _ => .panicked

/-- `GetCursorData`. -/
def GetCursorData {T : Type} (q : Querier T) (cursor : String) (order : OrderMethod)
    (limit : Int) : Outcome T :=
  let req := prepare cursor order limit
  match runQuery q req.call with
  | (_, some err) =>
    .returned [] {}
      (some (.wrap
        (if req.isFirst then "failed to run query with numbered params: "
          else "failed to run query with cursor params: ") err))
  | (data, none) => paginate q order.GetCursorKeyName limit req.isFirst req.pointsNext data

/-! ## pagination_test.go: the test collaborator -/

/-- The row type `DummyStatus` of the tests, with its key `Pkey` (an `int32`) and the two
sort fields `Name` and `Age` (an `int`). The fields `UUID`, `LastLogin` and `IsActive` are
left out, and with them the orders `last_login` and `r_last_login`, which sort by a
`time.Time`: the collaborator below is the one of the tests under the orders `default`,
`name`, `r_name`, `age` and `r_age`, on rows whose keys are within `int32`. -/
structure DummyStatus where
  Pkey : Int
  Name : GoString
  Age : Int
  deriving DecidableEq, Repr

/-- `DummyStatusOrderMethod.GetCursorKeyName`. -/
def DummyStatusOrderMethod.GetCursorKeyName (m : GoString) : GoString :=
  if m = "default" then "default"
  else if m = "name" then "name"
  else if m = "r_name" then "name"
  else if m = "last_login" then "last_login"
  else if m = "r_last_login" then "last_login"
  else if m = "age" then "age"
  else if m = "r_age" then "age"
  else "default"

/-- A `DummyStatusOrderMethod` (a string) as an `OrderMethod`. -/
def dummyOrder (m : GoString) : OrderMethod :=
  { GetCursorKeyName := DummyStatusOrderMethod.GetCursorKeyName m, GetStringValue := m }

/-- `sort.SliceStable` with the `less` function of an order method (none for an order
method the switch does not list). -/
def sortByMethod (m : GoString) (rows : List DummyStatus) : List DummyStatus :=
  if m = "name" then rows.insertionSort (fun a b => ¬ stringLess b.Name a.Name)
  else if m = "r_name" then rows.insertionSort (fun a b => ¬ stringLess a.Name b.Name)
  else if m = "age" then rows.insertionSort (fun a b => ¬ b.Age < a.Age)
  else if m = "r_age" then rows.insertionSort (fun a b => ¬ a.Age < b.Age)
  else if m = "default" then rows.insertionSort (fun a b => ¬ b.Pkey < a.Pkey)
  else rows

/-- `DummyStatuses.RetrieveWithNumbered` with `offset = 0`, for a `limit` that is not
negative (the slice expression `result[:limit]` of the test panics on a negative one). -/
def RetrieveWithNumbered (d : List DummyStatus) (method : GoString) (limit : Int) :
    List DummyStatus :=
  let result := sortByMethod method d
  if limit < result.length then result.take limit.toNat else result

/-- The `where` condition of `RetrieveWithCursor`. -/
def keysetFilter (method curDir : GoString) (cursor : Int) (nameCur : GoString) (ageCur : Int)
    (v : DummyStatus) : Bool :=
  if curDir = "next" then
    if method = "name" then stringLess nameCur v.Name || (decide (v.Name = nameCur) && decide (v.Pkey > cursor))
    else if method = "r_name" then
      stringLess v.Name nameCur || (decide (v.Name = nameCur) && decide (v.Pkey > cursor))
    else if method = "age" then
      decide (v.Age > ageCur) || (decide (v.Age = ageCur) && decide (v.Pkey > cursor))
    else if method = "r_age" then
      decide (v.Age < ageCur) || (decide (v.Age = ageCur) && decide (v.Pkey > cursor))
    else if method = "default" then decide (v.Pkey > cursor)
    else false
  else if curDir = "prev" then
    if method = "name" then stringLess v.Name nameCur || (decide (v.Name = nameCur) && decide (v.Pkey < cursor))
    else if method = "r_name" then
      stringLess nameCur v.Name || (decide (v.Name = nameCur) && decide (v.Pkey < cursor))
    else if method = "age" then
      decide (v.Age < ageCur) || (decide (v.Age = ageCur) && decide (v.Pkey < cursor))
    else if method = "r_age" then
      decide (v.Age > ageCur) || (decide (v.Age = ageCur) && decide (v.Pkey < cursor))
    else if method = "default" then decide (v.Pkey < cursor)
    else false
  else false

/-- The `ORDER BY` of `RetrieveWithCursor`: by key, then stably by the sort field;
both descending for `prev`. -/
def keysetOrder (method curDir : GoString) (rows : List DummyStatus) : List DummyStatus :=
  if curDir = "next" then
    let byKey := rows.insertionSort (fun a b => ¬ b.Pkey < a.Pkey)
    if method = "name" then byKey.insertionSort (fun a b => ¬ stringLess b.Name a.Name)
    else if method = "r_name" then byKey.insertionSort (fun a b => ¬ stringLess a.Name b.Name)
    else if method = "age" then byKey.insertionSort (fun a b => ¬ b.Age < a.Age)
    else if method = "r_age" then byKey.insertionSort (fun a b => ¬ a.Age < b.Age)
    else byKey
  else if curDir = "prev" then
    let byKey := rows.insertionSort (fun a b => ¬ a.Pkey < b.Pkey)
    if method = "name" then byKey.insertionSort (fun a b => ¬ stringLess a.Name b.Name)
    else if method = "r_name" then byKey.insertionSort (fun a b => ¬ stringLess b.Name a.Name)
    else if method = "age" then byKey.insertionSort (fun a b => ¬ a.Age < b.Age)
    else if method = "r_age" then byKey.insertionSort (fun a b => ¬ b.Age < a.Age)
    else byKey
  else rows

/-- `DummyStatuses.RetrieveWithCursor`, for a `limit` that is not negative. -/
def RetrieveWithCursor (d : List DummyStatus) (method : GoString) (cursor limit : Int)
    (curDir nameCur : GoString) (ageCur : Int) : List DummyStatus :=
  let filtered := keysetOrder method curDir
    (d.filter (keysetFilter method curDir cursor nameCur ageCur))
  if limit < filtered.length then filtered.take limit.toNat else filtered

/-- The conversion of a `float64` to an integer, truncating. -/
def float64ToInt (f : Float64) : Int :=
  let magnitude : Nat :=
    if 0 ≤ f.exp then f.mant * 2 ^ f.exp.toNat else f.mant / 2 ^ (-f.exp).toNat
  if f.neg then -(magnitude : Int) else magnitude

/-- The type assertion `v.(float64)` followed by a conversion to an integer; 0 when
the assertion fails. The tests convert to `int32` for the key and to `int` for the age;
the conversion here is the exact one, which is theirs for values within `int32`. -/
def assertInt : GoAny → Int
  | .float64 f => float64ToInt f
  | _ => 0

/-- The type assertion `v.(string)`; the empty string when it fails. -/
def assertString : GoAny → GoString
  | .str s => s
  | _ => ""

/-- The `cursorQuerier` of the tests over the rows `data`. -/
def cursorQuerier (data : List DummyStatus) : Querier DummyStatus where
  RunQueryWithCursorParamsFunc subCursor orderMethod limit cursorDir cursor subCursorValue :=
    (RetrieveWithCursor data orderMethod (assertInt cursor) limit cursorDir
      (if subCursor = "name" then assertString subCursorValue else "")
      (if subCursor = "age" then assertInt subCursorValue else 0), none)
  RunQueryWithLimitFunc orderMethod limit := (RetrieveWithNumbered data orderMethod limit, none)
  CursorIDAndValueSelector subCursor e :=
    if subCursor = "name" then (.int e.Pkey, .str e.Name)
    else if subCursor = "age" then (.int e.Pkey, .int e.Age)
    else (.int e.Pkey, .nil)

/-- Rows with the keys 1 to 6. -/
def sixRows : List DummyStatus :=
  [⟨1, "f", 30⟩, ⟨2, "e", 31⟩, ⟨3, "d", 32⟩, ⟨4, "c", 33⟩, ⟨5, "b", 34⟩, ⟨6, "a", 35⟩]

/-! ## Notions the statements use -/

/-- A value JSON carries as a scalar: nil, a boolean, a string, a Go integer (of at most
64 bits), or a finite `float64`. -/
def Plain : GoAny → Prop
  | .nil => True
  | .bool _ => True
  | .int i => i.natAbs < 2 ^ 64
  | .float64 f => f.Finite
  | .str _ => True
  | _ => False

instance (a : GoAny) : Decidable (Plain a) := by
  cases a <;> (simp only [Plain]; infer_instance)

/-- The `float64` nearest to an integer. -/
def nearestFloat64 (i : Int) : Float64 :=
  (parseDecimal (decide (i < 0)) i.natAbs 0).getD ⟨false, 0, 0⟩

/-- A scalar as `decodeCursor` gives it back: an integer comes back as a `float64`, and
a string with every byte that is not valid UTF-8 replaced by U+FFFD; nil, a boolean and a
`float64` come back as they are. -/
def readBack : GoAny → GoAny
  | .int i => .float64 (nearestFloat64 i)
  | .str s => .str (toValidUTF8 s)
  | a => a

/-- The JSON value a scalar is written as; for a `float64`, the number its text is read
as. -/
def scalarJSON : GoAny → Option JVal
  | .nil => some .null
  | .bool b => some (.bool b)
  | .int i => some (.num (decide (i < 0)) i.natAbs 0)
  | .float64 f => (parseNumber (formatFloat64 f)).map Prod.fst
  | .str s => some (.str (jsonString s))
  | _ => none

/-- What may follow a value inside the cursor object: a comma, a closing brace or a
closing bracket, or the end of the text. -/
def Delimited (rest : List Nat) : Prop :=
  ∀ b r, rest = b :: r → b = 44 ∨ b = 125 ∨ b = 93

/-- Every entry of the list is a byte. -/
@[reducible] def AllBytes (l : List Nat) : Prop := ∀ b ∈ l, b < 256

/-- Every entry is an ASCII digit. -/
def DigitText (l : List Nat) : Prop := ∀ b ∈ l, isDigit b = true

/-- What may follow a run of digits inside a number or after it. -/
def NotDigitHead (rest : List Nat) : Prop := ∀ b r, rest = b :: r → isDigit b = false

/-- The text of a JSON number as `json.Marshal` writes one. -/
def NumberText (t : List Nat) : Prop :=
  ∃ (neg : Bool) (w fr ex : List Nat) (xneg : Bool) (xsign : List Nat),
    DigitText w ∧ w ≠ [] ∧ (w = [48] ∨ ∀ b r, w = b :: r → b ≠ 48) ∧ DigitText fr ∧ DigitText ex
    ∧ (xsign = [45] ∧ xneg = true ∨ xsign = [43] ∧ xneg = false)
    ∧ t = (if neg then [45] else []) ++ w ++ (if fr = [] then [] else 46 :: fr)
        ++ (if ex = [] then [] else 101 :: (xsign ++ ex))

/-- A text `json.Marshal` writes for a value: it consists of bytes, it starts with a
byte that opens a value, and `parseValue` on it, followed by a delimiter, fails or reads
exactly the text. -/
def ValueText (t : List Nat) : Prop :=
  AllBytes t ∧ (∃ b r, t = b :: r ∧ isSpace b = false ∧ b ≠ 93 ∧ b ≠ 125) ∧
  ∀ fuel depth rest, Delimited rest →
    parseValue fuel depth (t ++ rest) = none ∨
      ∃ v, parseValue fuel depth (t ++ rest) = some (v, rest)

/-- The text of one object member. -/
def memberText (m : GoString × List Nat) : List Nat := encodeString m.1 ++ 58 :: m.2

/-- The edge row of a page as `GetCursorData` hands it to the calculator. -/
def edgeOf {T : Type} (q : Querier T) (SubCursor : GoString) (e : T) : cursorData :=
  { ID := (q.CursorIDAndValueSelector SubCursor e).1, Name := SubCursor,
    Value := (q.CursorIDAndValueSelector SubCursor e).2 }

/-- The record a cursor is minted from: `createPreCursor` on an edge row. -/
def edgeCursor (pointsNext : Bool) (d : cursorData) : preCursor :=
  createPreCursor d.ID pointsNext d.Name d.Value

/-! ## Collaborators, orders and walks the statements use -/

/-- A collaborator whose two queries fail with the error `e`. -/
def failingQuerier (e : GoError) : Querier DummyStatus where
  RunQueryWithCursorParamsFunc _ _ _ _ _ _ := ([], some e)
  RunQueryWithLimitFunc _ _ := ([], some e)
  CursorIDAndValueSelector _ e := (.int e.Pkey, .nil)

/-- A collaborator that answers every query with the same rows. -/
def constQuerier (rows : List DummyStatus) : Querier DummyStatus where
  RunQueryWithCursorParamsFunc _ _ _ _ _ _ := (rows, none)
  RunQueryWithLimitFunc _ _ := (rows, none)
  CursorIDAndValueSelector _ e := (.int e.Pkey, .nil)

/-- Does the value of an object member fit the field its key selects? A member whose
key selects no field fits, and so does `null` in any field. -/
def memberFits (m : String × JVal) : Bool := (assignField {} m.1 m.2).isSome

/-- Standard base64 as the specification names it (RFC 4648, section 4), read from the
position `pos` within a group: groups of four characters of the alphabet, the last group
possibly ending in `=` or `==`; no other character, and no line break. -/
def stdBase64From : Nat → List Char → Bool
  | pos, [] => pos == 0
  | pos, c :: cs =>
    if (decodeMap c).isSome then stdBase64From ((pos + 1) % 4) cs
    else if c = '=' then (pos == 2 && cs == ['=']) || (pos == 3 && cs == [])
    else false

/-- Is the string valid standard base64, as the specification names it? -/
def validStdBase64 (s : String) : Bool := stdBase64From 0 s.toList

/-- The characters of a text without its CR and LF characters. -/
def withoutNewlines (cs : List Char) : List Char :=
  cs.filter fun c => !(c == '\n' || c == '\r')

/-- Are the bytes a well-formed serialized record, as the specification names it, in the
widest reading: one JSON object in which every member that selects a field of the record
holds a value of the type of that field? -/
def wellFormedRecord (data : List Nat) : Bool :=
  match parseJSON data with
  | some (.obj kvs) => kvs.all memberFits
  | _ => false

/-- Are the bytes the JSON value `null`? -/
def nullText (data : List Nat) : Bool :=
  match parseJSON data with
  | some .null => true
  | _ => false

/-- An order method whose cursor key name is not valid UTF-8, the bytes `n` and `0xff`;
its order is `default`. -/
def rawKeyOrder : OrderMethod := { GetCursorKeyName := [110, 255], GetStringValue := "default" }

/-- An order method whose cursor key name is the text `n` followed by U+FFFD; its order is
`default`. -/
def replacedKeyOrder : OrderMethod :=
  { GetCursorKeyName := [110, 239, 191, 189], GetStringValue := "default" }

/-- The rows are in the canonical ascending order of the order method `m`: sorting them
as the first-page query of the tests does leaves them as they are. -/
def Canonical (m : GoString) (rows : List DummyStatus) : Prop := sortByMethod m rows = rows

instance (m : GoString) (rows : List DummyStatus) : Decidable (Canonical m rows) := by
  unfold Canonical; infer_instance

/-- The token `GetCursorData` mints from a row of a page: the cursor of its projection,
pointing forward or backward. -/
def rowToken {T : Type} (q : Querier T) (key : GoString) (pointsNext : Bool) (e : T) :
    String :=
  encodeCursor (edgeCursor pointsNext (edgeOf q key e))

/-- The collaborator `q` respects the keyset forward over the rows `data`, listed in the
canonical order of the order method: the first-page query returns the first `l` rows; and
the forward cursor of each row decodes, and a `next` query with the id and the sort value
that cursor carries returns up to `l` of the rows strictly after the row, in ascending
order. -/
structure KeysetForward {T : Type} (q : Querier T) (order : OrderMethod) (data : List T) :
    Prop where
  firstPage : ∀ l : Nat,
    q.RunQueryWithLimitFunc order.GetStringValue l = (data.take l, none)
  after : ∀ (i : Nat) (e : T), data[i]? = some e →
    ∃ d, decodeCursor (rowToken q order.GetCursorKeyName true e) = (d, none) ∧
      ∀ l : Nat,
        q.RunQueryWithCursorParamsFunc order.GetCursorKeyName order.GetStringValue l "next"
            d.CursorID d.SubCursor
          = ((data.drop (i + 1)).take l, none)

/-- The collaborator `q` respects the keyset backward over the rows `data`: the backward
cursor of each row decodes, and a `prev` query with the id and the sort value that cursor
carries returns up to `l` of the rows strictly before the row, nearest first. -/
structure KeysetBackward {T : Type} (q : Querier T) (order : OrderMethod) (data : List T) :
    Prop where
  before : ∀ (i : Nat) (e : T), data[i]? = some e →
    ∃ d, decodeCursor (rowToken q order.GetCursorKeyName false e) = (d, none) ∧
      ∀ l : Nat,
        q.RunQueryWithCursorParamsFunc order.GetCursorKeyName order.GetStringValue l "prev"
            d.CursorID d.SubCursor
          = ((data.take i).reverse.take l, none)

/-- Follow the next cursors from `cursor` until a page has none, as a client reading
everything does: the pages with their cursors. `none` when a call does not return a page,
or when `fuel` calls do not reach a page without a next cursor. -/
def followNext {T : Type} (q : Querier T) (order : OrderMethod) (limit : Int) :
    Nat → String → Option (List (List T × CursorPaginationAttribute))
  | 0, _ => none
  | fuel + 1, cursor =>
    match GetCursorData q cursor order limit with
    | .returned rows page none =>
      if page.NextCursor = "" then some [(rows, page)]
      else (followNext q order limit fuel page.NextCursor).map ((rows, page) :: ·)
    | .returned _ _ (some _) => none
    | .panicked => none

/-- Call with `cursor`, then follow the next cursor (`true`) or the previous cursor
(`false`) of each page in turn, as the loop of the tests does: the page of the last call.
`none` when a call does not return a page, or when the cursor to follow is empty. -/
def walk {T : Type} (q : Querier T) (order : OrderMethod) (limit : Int) :
    List Bool → String → Option (List T × CursorPaginationAttribute)
  | [], cursor =>
    match GetCursorData q cursor order limit with
    | .returned rows page none => some (rows, page)
    | .returned _ _ (some _) => none
    | .panicked => none
  | d :: ds, cursor =>
    match GetCursorData q cursor order limit with
    | .returned _ page none =>
      if (if d then page.NextCursor else page.PrevCursor) = "" then none
      else walk q order limit ds (if d then page.NextCursor else page.PrevCursor)
    | .returned _ _ (some _) => none
    | .panicked => none

/-- A keyset collaborator over rows that are bare 64-bit integer keys, listed in ascending
order: the first-page query returns the first rows, a cursor query the rows whose key is
above the boundary, ascending, for `next`, and those below it, descending, otherwise; the
boundary is the cursor id converted from `float64` to an integer. -/
def int64Querier (data : List Int) : Querier Int where
  RunQueryWithCursorParamsFunc _ _ limit cursorDir cursor _ :=
    if cursorDir = "next" then
      ((data.filter fun v => decide (v > assertInt cursor)).take limit.toNat, none)
    else ((data.filter fun v => decide (v < assertInt cursor)).reverse.take limit.toNat, none)
  RunQueryWithLimitFunc _ limit := (data.take limit.toNat, none)
  CursorIDAndValueSelector _ e := (.int e, .nil)

/-- Three keys around `2^53`, where `float64` no longer holds every integer. -/
def wideKeys : List Int := [9007199254740992, 9007199254740993, 9007199254740994]

/-- The wire text of a cursor, written from the format the cursor is documented to have:
the JSON object with the keys `id`, `points_next`, `sub_cursor_name` and `sub_cursor`, in
that order, holding the JSON text `idText` of the id, the direction flag, the sub-cursor
name as a JSON string, and the JSON text `valueText` of the sub-cursor value. -/
def wireText (idText : List Nat) (pointsNext : Bool) (name : GoString)
    (valueText : List Nat) : List Nat :=
  ascii "\x7b\"id\":" ++ idText ++ ascii ",\"points_next\":"
    ++ ascii (if pointsNext then "true" else "false")
    ++ ascii ",\"sub_cursor_name\":" ++ encodeString name
    ++ ascii ",\"sub_cursor\":" ++ valueText ++ ascii "\x7d"

/-- The JSON object of a cursor: the four members in the order of the wire format. -/
def wireObject (id : JVal) (pointsNext : Bool) (name : String) (value : JVal) : JVal :=
  .obj [("id", id), ("points_next", .bool pointsNext), ("sub_cursor_name", .str name),
    ("sub_cursor", value)]

/-! ## Theorems: base64 -/

theorem decodeMap_encodeSextet : ∀ v, v < 64 → decodeMap (encodeSextet v) = some v := by
  decide

theorem decodeMap_pad : decodeMap '=' = none := by decide

theorem quantumBytes_four (a b c : Nat) (ha : a < 256) (hb : b < 256) (hc : c < 256) :
    quantumBytes [a / 4, a % 4 * 16 + b / 16, b % 16 * 4 + c / 64, c % 64] = [a, b, c] := by
  simp [quantumBytes]
  omega

theorem quantumBytes_three (a b : Nat) (ha : a < 256) (hb : b < 256) :
    quantumBytes [a / 4, a % 4 * 16 + b / 16, b % 16 * 4] = [a, b] := by
  simp [quantumBytes]
  omega

theorem quantumBytes_two (a : Nat) (ha : a < 256) :
    quantumBytes [a / 4, a % 4 * 16] = [a] := by
  simp [quantumBytes]
  omega

theorem decodeMap_encodeSextet_some (v : Nat) : ∃ s, decodeMap (encodeSextet v) = some s := by
  by_cases h : v < 64
  · exact ⟨v, decodeMap_encodeSextet v h⟩
  · have : encodeSextet v = 'A' := by
      unfold encodeSextet
      rw [List.getD_eq_default]
      simp [encodeStd]; omega
    rw [this]; exact ⟨0, by decide⟩

theorem decodeLoop_sextet (v s : Nat) (hv : decodeMap (encodeSextet v) = some s) (cs : List Char)
    (dbuf : List Nat) (hd : dbuf.length < 3) :
    decodeLoop (encodeSextet v :: cs) dbuf = decodeLoop cs (dbuf ++ [s]) := by
  rw [decodeLoop, hv]
  simp only [if_neg (Nat.ne_of_lt hd)]

theorem decodeLoop_sextet_last (v s : Nat) (hv : decodeMap (encodeSextet v) = some s)
    (cs : List Char) (x y z : Nat) :
    decodeLoop (encodeSextet v :: cs) [x, y, z] =
      (decodeLoop cs []).map (quantumBytes [x, y, z, s] ++ ·) := by
  rw [decodeLoop, hv]
  simp

theorem decodeLoop_pad_two (cs : List Char) (x y : Nat) :
    decodeLoop ('=' :: '=' :: cs) [x, y] =
      if skipNewlines cs = [] then some (quantumBytes [x, y]) else none := by
  rw [decodeLoop, decodeMap_pad]
  simp [skipNewlines]

theorem decodeLoop_pad_three (cs : List Char) (x y z : Nat) :
    decodeLoop ('=' :: cs) [x, y, z] =
      if skipNewlines cs = [] then some (quantumBytes [x, y, z]) else none := by
  rw [decodeLoop, decodeMap_pad]
  simp

/-- Decoding an encoded byte string `bs` followed by any characters `g`: the bytes read
for `bs` are `out`, which is `bs` when its entries are bytes. Without padding the
decoder goes on into `g`; after padding `g` may hold only CR and LF. -/
theorem decodeLoop_encode_append (bs : List Nat) :
    ∃ out, (AllBytes bs → out = bs) ∧ ∀ g : List Char,
      decodeLoop (base64Encode bs ++ g) [] =
        if bs.length % 3 = 0 then (decodeLoop g []).map (out ++ ·)
        else if skipNewlines g = [] then some out else none := by
  induction bs using base64Encode.induct with
  | case1 => exact ⟨[], fun _ => rfl, fun g => by simp [base64Encode]⟩
  | case2 a =>
    obtain ⟨s1, h1⟩ := decodeMap_encodeSextet_some (a / 4)
    obtain ⟨s2, h2⟩ := decodeMap_encodeSextet_some (a % 4 * 16)
    refine ⟨quantumBytes [s1, s2], fun hb => ?_, fun g => ?_⟩
    · have ha : a < 256 := hb a (by simp)
      rw [decodeMap_encodeSextet _ (by omega)] at h1 h2
      simp only [Option.some.injEq] at h1 h2
      subst h1 h2
      exact quantumBytes_two a ha
    · simp only [base64Encode, List.cons_append, List.nil_append]
      rw [decodeLoop_sextet _ _ h1 _ _ (by simp), decodeLoop_sextet _ _ h2 _ _ (by simp)]
      simp only [List.nil_append, List.cons_append]
      rw [decodeLoop_pad_two]
      simp
  | case3 a b =>
    obtain ⟨s1, h1⟩ := decodeMap_encodeSextet_some (a / 4)
    obtain ⟨s2, h2⟩ := decodeMap_encodeSextet_some (a % 4 * 16 + b / 16)
    obtain ⟨s3, h3⟩ := decodeMap_encodeSextet_some (b % 16 * 4)
    refine ⟨quantumBytes [s1, s2, s3], fun hb => ?_, fun g => ?_⟩
    · have ha : a < 256 := hb a (by simp)
      have hb' : b < 256 := hb b (by simp)
      rw [decodeMap_encodeSextet _ (by omega)] at h1 h2 h3
      simp only [Option.some.injEq] at h1 h2 h3
      subst h1 h2 h3
      exact quantumBytes_three a b ha hb'
    · simp only [base64Encode, List.cons_append, List.nil_append]
      rw [decodeLoop_sextet _ _ h1 _ _ (by simp), decodeLoop_sextet _ _ h2 _ _ (by simp),
        decodeLoop_sextet _ _ h3 _ _ (by simp)]
      simp only [List.nil_append, List.cons_append]
      rw [decodeLoop_pad_three]
      simp
  | case4 a b c rest ih =>
    obtain ⟨out, hout, ih⟩ := ih
    obtain ⟨s1, h1⟩ := decodeMap_encodeSextet_some (a / 4)
    obtain ⟨s2, h2⟩ := decodeMap_encodeSextet_some (a % 4 * 16 + b / 16)
    obtain ⟨s3, h3⟩ := decodeMap_encodeSextet_some (b % 16 * 4 + c / 64)
    obtain ⟨s4, h4⟩ := decodeMap_encodeSextet_some (c % 64)
    refine ⟨quantumBytes [s1, s2, s3, s4] ++ out, fun hb => ?_, fun g => ?_⟩
    · have ha : a < 256 := hb a (by simp)
      have hb' : b < 256 := hb b (by simp)
      have hc : c < 256 := hb c (by simp)
      rw [decodeMap_encodeSextet _ (by omega)] at h1 h2 h3 h4
      simp only [Option.some.injEq] at h1 h2 h3 h4
      subst h1 h2 h3 h4
      rw [quantumBytes_four a b c ha hb' hc, hout (fun x hx => hb x (by simp [hx]))]
      rfl
    · simp only [base64Encode, List.cons_append]
      rw [decodeLoop_sextet _ _ h1 _ _ (by simp), decodeLoop_sextet _ _ h2 _ _ (by simp),
        decodeLoop_sextet _ _ h3 _ _ (by simp)]
      simp only [List.nil_append, List.cons_append]
      rw [decodeLoop_sextet_last _ _ h4, ih g]
      have hl : (rest.length + 1 + 1 + 1) % 3 = rest.length % 3 := by omega
      simp only [List.length_cons, hl]
      split
      · cases decodeLoop g [] <;> simp
      · split <;> simp

theorem base64_roundtrip (bs : List Nat) (hbs : AllBytes bs) :
    base64StdDecodeString (base64StdEncodeToString bs) = some bs := by
  obtain ⟨out, hout, h⟩ := decodeLoop_encode_append bs
  have h := h []
  simp only [List.append_nil] at h
  simp only [base64StdDecodeString, base64StdEncodeToString, String.toList]
  rw [h, hout hbs]
  simp [decodeLoop, skipNewlines]

/-! ## Theorems: string literals -/

theorem parseStr_plain (f b : Nat) (rest : List Nat) (acc : List Char)
    (h32 : 32 ≤ b) (h34 : b ≠ 34) (h92 : b ≠ 92) :
    parseStr (f + 1) (b :: rest) acc =
      if b < 128 then parseStr f rest (Char.ofNat b :: acc)
      else parseStr f (decodeRune b rest).2 (Char.ofNat (decodeRune b rest).1 :: acc) := by
  simp only [parseStr, h34, h92, if_false, Nat.not_lt.mpr h32]

theorem parseStr_quote (f : Nat) (rest : List Nat) (acc : List Char) :
    parseStr (f + 1) (34 :: rest) acc = some (String.mk acc.reverse, rest) := by
  simp [parseStr]

theorem parseStr_simpleEscape (f e : Nat) (c : Char) (rest : List Nat) (acc : List Char)
    (he : simpleEscape e = some c) (hu : e ≠ 117) :
    parseStr (f + 1) (92 :: e :: rest) acc = parseStr f rest (c :: acc) := by
  rw [parseStr]
  simp [he, hu]

theorem parseStr_u4 (f a b c d rr : Nat) (rest : List Nat) (acc : List Char)
    (h : readHex4 (a :: b :: c :: d :: rest) = some (rr, rest)) (hs : rr < 55296) :
    parseStr (f + 1) (92 :: 117 :: a :: b :: c :: d :: rest) acc
      = parseStr f rest (Char.ofNat rr :: acc) := by
  rw [parseStr]
  simp [h]
  omega

theorem hexValue_hexDigit (n : Nat) (h : n < 16) : hexValue (hexDigit n) = some n := by
  revert n; decide

theorem utf8_two (n : Nat) (rest : List Nat) (h1 : 128 ≤ n) (h2 : n < 2048) :
    decodeRune (192 + n / 64) ((128 + n % 64) :: rest) = (n, rest) := by
  have hb : 194 ≤ 192 + n / 64 ∧ 192 + n / 64 ≤ 223 := by omega
  have hc : inRange 128 191 (128 + n % 64) = true := by simp [inRange]; omega
  have hv : (192 + n / 64) % 32 * 64 + (128 + n % 64) % 64 = n := by omega
  simp only [decodeRune, if_pos hb, hc, if_true, hv]

theorem utf8_three (n : Nat) (rest : List Nat) (h1 : 2048 ≤ n) (h2 : n < 65536)
    (hs : n < 55296 ∨ 57344 ≤ n) :
    decodeRune (224 + n / 4096) ((128 + n / 64 % 64) :: (128 + n % 64) :: rest) = (n, rest) := by
  have ha : ¬ (194 ≤ 224 + n / 4096 ∧ 224 + n / 4096 ≤ 223) := by omega
  have hb : 224 ≤ 224 + n / 4096 ∧ 224 + n / 4096 ≤ 239 := by omega
  have hc : (inRange (if 224 + n / 4096 = 224 then 160 else 128)
      (if 224 + n / 4096 = 237 then 159 else 191) (128 + n / 64 % 64)
      && inRange 128 191 (128 + n % 64)) = true := by
    simp only [inRange, Bool.and_eq_true, decide_eq_true_eq]
    split <;> split <;> omega
  have hv : ((224 + n / 4096) % 16 * 64 + (128 + n / 64 % 64) % 64) * 64 + (128 + n % 64) % 64
      = n := by omega
  simp only [decodeRune, if_neg ha, if_pos hb, hc, if_true, hv]

theorem utf8_four (n : Nat) (rest : List Nat) (h1 : 65536 ≤ n) (h2 : n < 1114112) :
    decodeRune (240 + n / 262144)
      ((128 + n / 4096 % 64) :: (128 + n / 64 % 64) :: (128 + n % 64) :: rest) = (n, rest) := by
  have ha : ¬ (194 ≤ 240 + n / 262144 ∧ 240 + n / 262144 ≤ 223) := by omega
  have ha2 : ¬ (224 ≤ 240 + n / 262144 ∧ 240 + n / 262144 ≤ 239) := by omega
  have hb : 240 ≤ 240 + n / 262144 ∧ 240 + n / 262144 ≤ 244 := by omega
  have hc : (inRange (if 240 + n / 262144 = 240 then 144 else 128)
      (if 240 + n / 262144 = 244 then 143 else 191) (128 + n / 4096 % 64)
      && inRange 128 191 (128 + n / 64 % 64) && inRange 128 191 (128 + n % 64)) = true := by
    simp only [inRange, Bool.and_eq_true, decide_eq_true_eq]
    split <;> split <;> omega
  have hv : (((240 + n / 262144) % 8 * 64 + (128 + n / 4096 % 64) % 64) * 64
      + (128 + n / 64 % 64) % 64) * 64 + (128 + n % 64) % 64 = n := by omega
  simp only [decodeRune, if_neg ha, if_neg ha2, if_pos hb, hc, if_true, hv]

theorem decodeRune_utf8Encode (c : Char) (rest : List Nat) (h : 128 ≤ c.toNat) :
    ∃ b0 tl, utf8Encode c.toNat = b0 :: tl ∧ 128 ≤ b0 ∧ decodeRune b0 (tl ++ rest) = (c.toNat, rest) := by
  have hv := c.valid
  have hv' : c.toNat < 55296 ∨ (57343 < c.toNat ∧ c.toNat < 1114112) := hv
  unfold utf8Encode
  split
  · exact ⟨_, _, rfl, by omega, utf8_two _ _ h (by assumption)⟩
  · split
    · exact ⟨_, _, rfl, by omega, utf8_three _ _ (by omega) (by assumption) (by omega)⟩
    · exact ⟨_, _, rfl, by omega, utf8_four _ _ (by omega) (by omega)⟩


theorem readHex4_ascii (n : Nat) (tail : List Nat) (h : n < 256) :
    readHex4 (48 :: 48 :: hexDigit (n / 16) :: hexDigit (n % 16) :: tail) = some (n, tail) := by
  have h1 := hexValue_hexDigit (n / 16) (by omega)
  have h2 := hexValue_hexDigit (n % 16) (by omega)
  have h0 : hexValue 48 = some 0 := by decide
  simp only [readHex4, h0, h1, h2]
  simp
  omega

theorem readHex4_202x (n : Nat) (tail : List Nat) (h : n = 8232 ∨ n = 8233) :
    readHex4 (50 :: 48 :: 50 :: hexDigit (n % 16) :: tail) = some (n, tail) := by
  have h2 := hexValue_hexDigit (n % 16) (by omega)
  have h0 : hexValue 48 = some 0 := by decide
  have h5 : hexValue 50 = some 2 := by decide
  simp only [readHex4, h0, h5, h2]
  simp
  omega

theorem parseStr_encodeRune (f : Nat) (c : Char) (tail : List Nat) (acc : List Char) :
    parseStr (f + 1) (encodeRune c ++ tail) acc = parseStr f tail (c :: acc) := by
  have hc : Char.ofNat c.toNat = c := Char.ofNat_toNat c
  by_cases h128 : c.toNat < 128
  · have hc' : ∀ k, c.toNat = k → c = Char.ofNat k := fun k hk => by rw [← hk, hc]
    unfold encodeRune
    simp only [h128, if_true]
    split
    · rename_i hs
      simp only [List.singleton_append]
      rw [parseStr_plain _ _ _ _ hs.1 hs.2.1 hs.2.2.1, if_pos h128, hc]
    · split
      · rename_i h
        rcases h with h | h
        · rw [h, hc' _ h]; exact parseStr_simpleEscape _ _ _ _ _ (by decide) (by decide)
        · rw [h, hc' _ h]; exact parseStr_simpleEscape _ _ _ _ _ (by decide) (by decide)
      · split
        · rename_i h; rw [hc' _ h]; exact parseStr_simpleEscape _ _ _ _ _ (by decide) (by decide)
        · split
          · rename_i h; rw [hc' _ h]
            exact parseStr_simpleEscape _ _ _ _ _ (by decide) (by decide)
          · split
            · rename_i h; rw [hc' _ h]
              exact parseStr_simpleEscape _ _ _ _ _ (by decide) (by decide)
            · split
              · rename_i h; rw [hc' _ h]
                exact parseStr_simpleEscape _ _ _ _ _ (by decide) (by decide)
              · split
                · rename_i h; rw [hc' _ h]
                  exact parseStr_simpleEscape _ _ _ _ _ (by decide) (by decide)
                · have := parseStr_u4 f 48 48 (hexDigit (c.toNat / 16)) (hexDigit (c.toNat % 16))
                    c.toNat tail acc (readHex4_ascii _ _ (by omega)) (by omega)
                  rw [hc] at this
                  exact this
  · unfold encodeRune
    simp only [h128, if_false]
    split
    · rename_i h
      have := parseStr_u4 f 50 48 50 (hexDigit (c.toNat % 16))
        c.toNat tail acc (readHex4_202x _ _ h) (by omega)
      rw [hc] at this
      exact this
    · obtain ⟨b0, tl, he, hb0, hd⟩ := decodeRune_utf8Encode c tail (by omega)
      rw [he, List.cons_append, parseStr_plain _ _ _ _ (by omega) (by omega) (by omega),
        if_neg (by omega), hd, hc]

theorem length_encodeRune_pos (c : Char) : 0 < (encodeRune c).length := by
  unfold encodeRune utf8Encode
  simp only
  repeat' split
  all_goals simp

/-- Reading back the body of an encoded string literal. -/
theorem parseStr_encodeRunes (cs : List Char) (f : Nat) (tail : List Nat) (acc : List Char)
    (hf : cs.length < f) :
    parseStr f (encodeRunes cs ++ 34 :: tail) acc = some (String.mk (acc.reverse ++ cs), tail) := by
  induction cs generalizing f acc with
  | nil =>
    obtain ⟨f, rfl⟩ : ∃ k, f = k + 1 := ⟨f - 1, by simp at hf; omega⟩
    simp [encodeRunes, parseStr_quote]
  | cons c cs ih =>
    obtain ⟨f, rfl⟩ : ∃ k, f = k + 1 := ⟨f - 1, by simp at hf; omega⟩
    simp only [encodeRunes, List.append_assoc]
    rw [parseStr_encodeRune, ih f (c :: acc) (by simp at hf; omega)]
    simp

theorem length_encodeRunes (cs : List Char) : cs.length ≤ (encodeRunes cs).length := by
  induction cs with
  | nil => simp [encodeRunes]
  | cons c cs ih =>
    have := length_encodeRune_pos c
    simp only [encodeRunes, List.length_cons, List.length_append]
    omega

/-! ### Go strings that are not valid UTF-8 -/

/-- What `decodeRune` consumes: one byte with the result U+FFFD, when the bytes are not
a valid sequence, and otherwise a sequence that decodes the same way whatever follows. -/
theorem decodeRune_consumed (b : Nat) (rest : List Nat) :
    ((decodeRune b rest).1 = 65533 ∧ (decodeRune b rest).2 = rest) ∨
    ∃ pre, pre ≠ [] ∧ rest = pre ++ (decodeRune b rest).2 ∧ b < 256 ∧ (∀ x ∈ pre, x < 256) ∧
      ∀ tail, decodeRune b (pre ++ tail) = ((decodeRune b rest).1, tail) := by
  unfold decodeRune
  by_cases h2 : 194 ≤ b ∧ b ≤ 223
  · simp only [h2, and_self, if_true]
    cases rest with
    | nil => left; simp
    | cons b1 r =>
      by_cases hr : inRange 128 191 b1 = true
      · right
        refine ⟨[b1], by simp, by simp [hr], by omega, ?_, fun tail => by simp [hr]⟩
        intro x hx
        simp only [List.mem_singleton] at hx
        simp only [inRange, Bool.and_eq_true, decide_eq_true_eq] at hr
        omega
      · left; simp [hr]
  · simp only [h2, if_false]
    by_cases h3 : 224 ≤ b ∧ b ≤ 239
    · simp only [h3, and_self, if_true]
      cases rest with
      | nil => left; simp
      | cons b1 r =>
        cases r with
        | nil => left; simp
        | cons b2 r =>
          by_cases hr : (inRange (if b = 224 then 160 else 128) (if b = 237 then 159 else 191) b1
              && inRange 128 191 b2) = true
          · right
            refine ⟨[b1, b2], by simp, by simp [hr], by omega, ?_, fun tail => by simp [hr]⟩
            intro x hx
            simp only [List.mem_cons, List.mem_singleton, List.not_mem_nil, or_false] at hx
            simp only [inRange, Bool.and_eq_true, decide_eq_true_eq] at hr
            rcases hx with hx | hx
            · have := hr.1.2
              subst hx
              split at this <;> omega
            · omega
          · left; simp [hr]
    · simp only [h3, if_false]
      by_cases h4 : 240 ≤ b ∧ b ≤ 244
      · simp only [h4, and_self, if_true]
        cases rest with
        | nil => left; simp
        | cons b1 r =>
          cases r with
          | nil => left; simp
          | cons b2 r =>
            cases r with
            | nil => left; simp
            | cons b3 r =>
              by_cases hr : (inRange (if b = 240 then 144 else 128)
                  (if b = 244 then 143 else 191) b1
                  && inRange 128 191 b2 && inRange 128 191 b3) = true
              · right
                refine ⟨[b1, b2, b3], by simp, by simp [hr], by omega, ?_,
                  fun tail => by simp [hr]⟩
                intro x hx
                simp only [List.mem_cons, List.mem_singleton, List.not_mem_nil, or_false] at hx
                simp only [inRange, Bool.and_eq_true, decide_eq_true_eq] at hr
                rcases hx with hx | hx | hx
                · have := hr.1.1.2
                  subst hx
                  split at this <;> omega
                · omega
                · omega
              · left; simp [hr]
      · left; simp [h4]

theorem parseStr_u4_plain (f a b c d rr : Nat) (rest : List Nat) (acc : List Char)
    (h : readHex4 (a :: b :: c :: d :: rest) = some (rr, rest))
    (hs : rr < 55296 ∨ 57344 ≤ rr) :
    parseStr (f + 1) (92 :: 117 :: a :: b :: c :: d :: rest) acc
      = parseStr f rest (Char.ofNat rr :: acc) := by
  rw [parseStr]
  simp [h]
  omega

/-- Reading back the body of the string literal written for a Go string: the characters
are those of `goRunes`. -/
theorem parseStr_appendStringLoop (fuel : Nat) :
    ∀ (bs : List Nat) (f : Nat) (tail : List Nat) (acc : List Char),
      (goRunes fuel bs).length < f →
      parseStr f (appendStringLoop fuel bs ++ 34 :: tail) acc
        = some (String.mk (acc.reverse ++ goRunes fuel bs), tail) := by
  induction fuel with
  | zero =>
    intro bs f tail acc hf
    obtain ⟨f, rfl⟩ : ∃ k, f = k + 1 := ⟨f - 1, by omega⟩
    simp [appendStringLoop, goRunes, parseStr_quote]
  | succ fuel ih =>
    intro bs f tail acc hf
    cases bs with
    | nil =>
      obtain ⟨f, rfl⟩ : ∃ k, f = k + 1 := ⟨f - 1, by omega⟩
      simp [appendStringLoop, goRunes, parseStr_quote]
    | cons b rest =>
      by_cases hb : b < 128
      · simp only [goRunes, hb, if_true, List.length_cons] at hf
        obtain ⟨f, rfl⟩ : ∃ k, f = k + 1 := ⟨f - 1, by omega⟩
        simp only [appendStringLoop, goRunes, hb, if_true, List.append_assoc]
        rw [parseStr_encodeRune, ih rest f tail _ (by omega)]
        simp
      · simp only [goRunes, hb, if_false, List.length_cons] at hf
        obtain ⟨f, rfl⟩ : ∃ k, f = k + 1 := ⟨f - 1, by omega⟩
        simp only [appendStringLoop, goRunes, hb, if_false]
        rcases decodeRune_consumed b rest with ⟨hc, hafter⟩ | ⟨pre, hpre, hrest, hb256, hbytes, hdec⟩
        · rw [if_pos ⟨hc, by rw [hafter]⟩]
          simp only [List.cons_append, List.nil_append, List.append_assoc]
          rw [parseStr_u4_plain f 102 102 102 100 65533 _ _ (by simp [readHex4, hexValue])
            (by omega), ih _ f tail _ (by omega), hc]
          simp
        · have hlen : ((decodeRune b rest).2).length < rest.length := by
            have hp : 0 < pre.length := List.length_pos.mpr hpre
            have := congrArg List.length hrest
            simp only [List.length_append] at this
            omega
          rw [if_neg (by intro h; omega)]
          by_cases h28 : (decodeRune b rest).1 = 8232 ∨ (decodeRune b rest).1 = 8233
          · rw [if_pos h28]
            simp only [List.cons_append, List.nil_append, List.append_assoc]
            rw [parseStr_u4_plain f 50 48 50 _ (decodeRune b rest).1 _ _
              (readHex4_202x _ _ h28) (by omega), ih _ f tail _ (by omega)]
            simp
          · rw [if_neg h28]
            have htake : (b :: rest).take (rest.length + 1 - ((decodeRune b rest).2).length)
                = b :: pre := by
              have hl := congrArg List.length hrest
              simp only [List.length_append] at hl
              have hk : rest.length + 1 - ((decodeRune b rest).2).length = pre.length + 1 := by
                omega
              rw [hk, List.take_succ_cons]
              conv_lhs => rw [hrest]
              rw [List.take_left']
              rfl
            rw [htake]
            simp only [List.cons_append, List.append_assoc]
            rw [parseStr_plain _ _ _ _ (by omega) (by omega) (by omega), if_neg hb, hdec,
              ih _ f tail _ (by omega)]
            simp

theorem allBytes_appendStringLoop (fuel : Nat) :
    ∀ bs : List Nat, ∀ x ∈ appendStringLoop fuel bs, x < 256 := by
  induction fuel with
  | zero => intro bs x hx; simp [appendStringLoop] at hx
  | succ fuel ih =>
    intro bs x hx
    cases bs with
    | nil => simp [appendStringLoop] at hx
    | cons b rest =>
      simp only [appendStringLoop] at hx
      split at hx
      · rcases List.mem_append.mp hx with h | h
        · have hv : (Char.ofNat b).toNat < 55296 ∨
              (57343 < (Char.ofNat b).toNat ∧ (Char.ofNat b).toNat < 1114112) :=
            (Char.ofNat b).valid
          have h1 : ∀ n, n < 16 → hexDigit n < 256 := fun n hn => by
            unfold hexDigit; split <;> omega
          revert h
          unfold encodeRune utf8Encode
          simp only
          intro h
          repeat' split at h
          all_goals simp only [List.mem_cons, List.mem_singleton, List.not_mem_nil,
            or_false] at h
          all_goals first
            | omega
            | (rcases h with h | h | h | h | h | h <;>
                first | omega | (subst h; apply h1; omega))
        · exact ih _ x h
      · split at hx
        · rcases List.mem_append.mp hx with h | h
          · simp only [List.mem_cons, List.mem_singleton, List.not_mem_nil, or_false] at h
            omega
          · exact ih _ x h
        · split at hx
          · rcases List.mem_append.mp hx with h | h
            · have h1 : hexDigit ((decodeRune b rest).1 % 16) < 256 := by
                unfold hexDigit; split <;> omega
              simp only [List.mem_cons, List.mem_singleton, List.not_mem_nil, or_false] at h
              rcases h with h | h | h | h | h | h <;> omega
            · exact ih _ x h
          · rcases List.mem_append.mp hx with h | h
            · rcases decodeRune_consumed b rest with ⟨hc, hafter⟩ | ⟨pre, -, hrest, hb256, hbytes, -⟩
              · rw [hafter] at h
                have : rest.length + 1 - rest.length = 1 := by omega
                rw [this] at h
                rename_i hnot _
                exact absurd ⟨hc, by rw [hafter]⟩ hnot
              · have hl := congrArg List.length hrest
                simp only [List.length_append] at hl
                have hk : rest.length + 1 - ((decodeRune b rest).2).length = pre.length + 1 := by
                  omega
                rw [hk, List.take_succ_cons] at h
                rcases List.mem_cons.mp h with h | h
                · omega
                · have hm : x ∈ pre := by
                    have h2 : x ∈ List.take pre.length (pre ++ (decodeRune b rest).2) := by
                      rw [← hrest]; exact h
                    rw [List.take_left'] at h2
                    · exact h2
                    · rfl
                  exact hbytes x hm
            · exact ih _ x h

theorem length_goRunes_le (fuel : Nat) :
    ∀ bs : List Nat, (goRunes fuel bs).length ≤ (appendStringLoop fuel bs).length := by
  induction fuel with
  | zero => intro bs; simp [goRunes]
  | succ fuel ih =>
    intro bs
    cases bs with
    | nil => simp [goRunes]
    | cons b rest =>
      simp only [goRunes, appendStringLoop]
      split
      · have := length_encodeRune_pos (Char.ofNat b)
        have := ih rest
        simp only [List.length_cons, List.length_append]
        omega
      · have := ih (decodeRune b rest).2
        split
        · simp only [List.length_cons, List.length_append]; omega
        · split
          · simp only [List.length_cons, List.length_append]; omega
          · have hle : ((decodeRune b rest).2).length ≤ rest.length := by
              rcases decodeRune_consumed b rest with ⟨-, hafter⟩ | ⟨pre, -, hrest, -, -, -⟩
              · rw [hafter]
              · have hl := congrArg List.length hrest
                simp only [List.length_append] at hl
                omega
            simp only [List.length_cons, List.length_append, List.length_take]
            omega

theorem goRunes_goString (cs : List Char) :
    ∀ fuel, cs.length ≤ fuel →
      goRunes fuel (cs.flatMap fun c => if c.toNat < 128 then [c.toNat] else utf8Encode c.toNat)
        = cs := by
  induction cs with
  | nil => intro fuel _; cases fuel <;> simp [goRunes]
  | cons c cs ih =>
    intro fuel hf
    obtain ⟨fuel, rfl⟩ : ∃ k, fuel = k + 1 := ⟨fuel - 1, by simp at hf; omega⟩
    simp only [List.length_cons, Nat.add_le_add_iff_right] at hf
    simp only [List.flatMap_cons]
    by_cases hc : c.toNat < 128
    · simp only [hc, if_true, List.singleton_append, goRunes]
      rw [ih fuel hf, Char.ofNat_toNat]
    · obtain ⟨b0, tl, he, hb0, hd⟩ := decodeRune_utf8Encode c
        (cs.flatMap fun c => if c.toNat < 128 then [c.toNat] else utf8Encode c.toNat)
        (by omega)
      simp only [hc, if_false, he, List.cons_append, goRunes, if_neg (show ¬ b0 < 128 by omega),
        hd]
      rw [ih fuel hf, Char.ofNat_toNat]

theorem length_goString_aux (cs : List Char) :
    cs.length ≤ (cs.flatMap fun c =>
      if c.toNat < 128 then [c.toNat] else utf8Encode c.toNat).length := by
  induction cs with
  | nil => simp
  | cons c cs ih =>
    have : 0 < (if c.toNat < 128 then [c.toNat] else utf8Encode c.toNat).length := by
      split
      · simp
      · unfold utf8Encode; repeat' split
        all_goals simp
    rw [List.flatMap_cons, List.length_append, List.length_cons]
    omega

theorem length_goString (s : String) : s.length ≤ (goString s).length :=
  length_goString_aux s.toList

/-- A text, written as a Go string and read back rune by rune, is the same text. -/
theorem jsonString_goString (s : String) : jsonString (goString s) = s := by
  unfold jsonString
  have h := goRunes_goString s.toList (goString s).length (length_goString s)
  have h2 : (s.toList.flatMap fun c => if c.toNat < 128 then [c.toNat] else utf8Encode c.toNat)
      = goString s := rfl
  rw [h2] at h
  rw [h]
  rfl

/-- Every text is a valid UTF-8 Go string. -/
theorem validUTF8_goString (s : String) : ValidUTF8 (goString s) := by
  unfold ValidUTF8 toValidUTF8
  rw [jsonString_goString]

theorem toValidUTF8_idem (s : GoString) : toValidUTF8 (toValidUTF8 s) = toValidUTF8 s := by
  unfold toValidUTF8
  rw [jsonString_goString]

theorem jsonString_toValidUTF8 (s : GoString) : jsonString (toValidUTF8 s) = jsonString s := by
  unfold toValidUTF8
  rw [jsonString_goString]

/-! ## Theorems: numbers -/

theorem digitsAux_spec (n : Nat) : ∀ fuel acc, n < fuel →
    digitsAux fuel n acc = decimalDigits n ++ acc := by
  induction n using Nat.strong_induction_on with
  | _ n ih =>
    intro fuel acc hf
    obtain ⟨f, rfl⟩ : ∃ k, fuel = k + 1 := ⟨fuel - 1, by omega⟩
    by_cases h : n < 10
    · simp [digitsAux, decimalDigits, h]
    · have h1 : n / 10 < n := by omega
      simp only [digitsAux, decimalDigits, h, if_false]
      rw [ih (n / 10) h1 f _ (by omega), ih (n / 10) h1 n _ h1]
      simp

theorem decimalDigits_small (n : Nat) (h : n < 10) : decimalDigits n = [n] := by
  simp [decimalDigits, digitsAux, h]

theorem decimalDigits_step (n : Nat) (h : ¬ n < 10) :
    decimalDigits n = decimalDigits (n / 10) ++ [n % 10] := by
  have h1 : n / 10 < n := by omega
  conv_lhs => rw [decimalDigits, digitsAux]
  simp only [h, if_false]
  exact digitsAux_spec _ _ _ h1

theorem digitsValue_append (ds : List Nat) (d : Nat) :
    digitsValue (ds ++ [d]) = 10 * digitsValue ds + d := by
  simp [digitsValue, List.foldl_append]

theorem digitsValue_decimalDigits (n : Nat) : digitsValue (decimalDigits n) = n := by
  induction n using Nat.strong_induction_on with
  | _ n ih =>
    by_cases h : n < 10
    · simp [decimalDigits_small n h, digitsValue]
    · rw [decimalDigits_step n h, digitsValue_append, ih (n / 10) (by omega)]
      omega

theorem decimalDigits_lt (n : Nat) : ∀ d ∈ decimalDigits n, d < 10 := by
  induction n using Nat.strong_induction_on with
  | _ n ih =>
    by_cases h : n < 10
    · simp [decimalDigits_small n h, h]
    · rw [decimalDigits_step n h]
      intro d hd
      rcases List.mem_append.mp hd with hd | hd
      · exact ih (n / 10) (by omega) d hd
      · simp at hd; omega

theorem decimalDigits_head (n : Nat) (hn : n ≠ 0) :
    ∃ d ds, decimalDigits n = d :: ds ∧ 1 ≤ d := by
  induction n using Nat.strong_induction_on with
  | _ n ih =>
    by_cases h : n < 10
    · exact ⟨n, [], decimalDigits_small n h, by omega⟩
    · obtain ⟨d, ds, hd, h1⟩ := ih (n / 10) (by omega) (by omega)
      exact ⟨d, ds ++ [n % 10], by rw [decimalDigits_step n h, hd]; rfl, h1⟩

theorem takeDigits_map (ds rest : List Nat) (hds : ∀ d ∈ ds, d < 10) (hr : Delimited rest) :
    takeDigits (ds.map (· + 48) ++ rest) = (ds, rest) := by
  induction ds with
  | nil =>
    cases rest with
    | nil => simp [takeDigits]
    | cons b r =>
      have := hr b r rfl
      have hb : isDigit b = false := by simp [isDigit]; omega
      simp [takeDigits, hb]
  | cons d ds ih =>
    have hd : d < 10 := hds d (by simp)
    have hb : isDigit (d + 48) = true := by simp [isDigit]; omega
    have ih' := ih (fun x hx => hds x (by simp [hx]))
    simp [takeDigits, hb, ih']

theorem parseFraction_delimited (rest : List Nat) (hr : Delimited rest) :
    parseFraction rest = some ([], rest) := by
  cases rest with
  | nil => simp [parseFraction]
  | cons b r =>
    have := hr b r rfl
    have hb : b ≠ 46 := by omega
    simp [parseFraction, hb]

theorem parseExponent_delimited (rest : List Nat) (hr : Delimited rest) :
    parseExponent rest = some (0, rest) := by
  cases rest with
  | nil => simp [parseExponent]
  | cons b r =>
    have := hr b r rfl
    have hb : ¬ (b = 101 ∨ b = 69) := by omega
    simp [parseExponent, hb]

theorem parseWhole_formatNat (n : Nat) (rest : List Nat) (hr : Delimited rest) :
    parseWhole (formatNat n ++ rest) = some (decimalDigits n, rest) := by
  by_cases hn : n = 0
  · subst hn
    simp [formatNat, decimalDigits, digitsAux, parseWhole]
  · obtain ⟨d, ds, hd, h1⟩ := decimalDigits_head n hn
    have hlt := decimalDigits_lt n
    have htd := takeDigits_map (decimalDigits n) rest hlt hr
    have hd10 : d < 10 := hlt d (by rw [hd]; simp)
    rw [formatNat] at *
    rw [hd] at htd ⊢
    simp only [List.map_cons, List.cons_append] at htd ⊢
    have hb : isDigit (d + 48) = true := by simp [isDigit]; omega
    have h48 : d + 48 ≠ 48 := by omega
    simp only [parseWhole, h48, if_false, hb, if_true, htd]

theorem parseNumber_formatInt (i : Int) (rest : List Nat) (hr : Delimited rest) :
    parseNumber (formatInt i ++ rest) = some (.num (decide (i < 0)) i.natAbs 0, rest) := by
  have hw := parseWhole_formatNat i.natAbs rest hr
  have hv := digitsValue_decimalDigits i.natAbs
  by_cases hi : i < 0
  · simp only [formatInt, hi, if_true, List.cons_append, parseNumber, takeSign]
    simp [hw, parseFraction_delimited rest hr, parseExponent_delimited rest hr, hv]
  · obtain ⟨b, r, hb⟩ : ∃ b r, formatNat i.natAbs ++ rest = b :: r ∧ b ≠ 45 := by
      by_cases hn : i.natAbs = 0
      · rw [hn]; exact ⟨48, rest, by simp [formatNat, decimalDigits, digitsAux]⟩
      · obtain ⟨d, ds, hd, h1⟩ := decimalDigits_head _ hn
        exact ⟨d + 48, ds.map (· + 48) ++ rest, by simp [formatNat, hd], by omega⟩
    simp only [formatInt, hi, if_false, parseNumber]
    have hs : takeSign false (formatNat i.natAbs ++ rest) = (false, formatNat i.natAbs ++ rest) := by
      rw [hb.1]; simp [takeSign, hb.2]
    rw [hs]
    simp [hw, parseFraction_delimited rest hr, parseExponent_delimited rest hr, hv, hi]

theorem formatInt_head (i : Int) : ∃ b r, formatInt i = b :: r ∧ (b = 45 ∨ isDigit b = true) := by
  by_cases hi : i < 0
  · exact ⟨45, formatNat i.natAbs, by simp [formatInt, hi], Or.inl rfl⟩
  · by_cases hn : i.natAbs = 0
    · exact ⟨48, [], by simp [formatInt, hi, hn, formatNat, decimalDigits, digitsAux], Or.inr (by decide)⟩
    · obtain ⟨d, ds, hd, h1⟩ := decimalDigits_head _ hn
      have hd10 : d < 10 := decimalDigits_lt _ d (by rw [hd]; simp)
      exact ⟨d + 48, ds.map (· + 48), by simp [formatInt, hi, formatNat, hd],
        Or.inr (by simp [isDigit]; omega)⟩

theorem parseValue_formatInt (fuel depth : Nat) (i : Int) (rest : List Nat) (hr : Delimited rest) :
    parseValue (fuel + 1) depth (formatInt i ++ rest)
      = some (.num (decide (i < 0)) i.natAbs 0, rest) := by
  obtain ⟨b, r, hb, hd⟩ := formatInt_head i
  have hp := parseNumber_formatInt i rest hr
  rw [hb] at hp ⊢
  rw [List.cons_append] at hp ⊢
  have hne : b ≠ 123 ∧ b ≠ 91 ∧ b ≠ 34 ∧ b ≠ 116 ∧ b ≠ 102 ∧ b ≠ 110 := by
    rcases hd with hd | hd
    · omega
    · simp [isDigit] at hd; omega
  rw [parseValue]
  simp only [hne.1, hne.2.1, hne.2.2.1, hne.2.2.2.1, hne.2.2.2.2.1, hne.2.2.2.2.2, if_false]
  rw [if_pos (by rcases hd with hd | hd; exact Or.inl hd; exact Or.inr hd), hp]

theorem log2Aux_lt (k : Nat) : ∀ fuel n, n < 2 ^ (k + 1) → log2Aux fuel n ≤ k := by
  induction k with
  | zero =>
    intro fuel n h
    cases fuel with
    | zero => simp [log2Aux]
    | succ f => simp [log2Aux, show n < 2 by simpa using h]
  | succ k ih =>
    intro fuel n h
    cases fuel with
    | zero => simp [log2Aux]
    | succ f =>
      simp only [log2Aux]
      split
      · omega
      · have : n / 2 < 2 ^ (k + 1) := by
          rw [Nat.div_lt_iff_lt_mul (by decide)]
          calc n < 2 ^ (k + 1 + 1) := h
            _ = 2 ^ (k + 1) * 2 := by ring
        have := ih f (n / 2) this
        omega

theorem roundFloat64_isSome (neg : Bool) (n : Nat) (h : n < 2 ^ 64) :
    ∃ f, roundFloat64 neg n 1 = some f := by
  unfold roundFloat64
  by_cases h0 : n = 0
  · simp [h0]
  · rw [if_neg h0]
    have hL : log2 n ≤ 63 := log2Aux_lt 63 n n h
    have h1 : log2 1 = 0 := by decide
    rw [h1]
    generalize log2 n = L at hL
    have key : ∀ (m : Nat) (fl : Int) (x : Float64), fl ≤ 63 →
        (if 971 < (if m = 2 ^ 53 then max (fl - 52) (-1074) + 1 else max (fl - 52) (-1074))
          then none else some x) = some x := by
      intro m fl x hfl
      rw [if_neg]
      split <;> omega
    have hfl : ∀ b : Bool, (if b = true then (L : Int) - ((0 : Nat) : Int)
        else (L : Int) - ((0 : Nat) : Int) - 1) ≤ 63 := by
      intro b; split <;> simp <;> omega
    exact ⟨_, key _ _ _ (hfl _)⟩

theorem parseDecimal_int (i : Int) (h : i.natAbs < 2 ^ 64) :
    ∃ f, parseDecimal (decide (i < 0)) i.natAbs 0 = some f := by
  simp only [parseDecimal, le_refl, if_true, Int.toNat_zero, pow_zero, mul_one]
  exact roundFloat64_isSome _ _ h

/-! ## Theorems: integers a cursor gives back exactly -/

theorem log2Aux_spec : ∀ fuel n, 0 < n → n ≤ fuel →
    2 ^ log2Aux fuel n ≤ n ∧ n < 2 ^ (log2Aux fuel n + 1) := by
  intro fuel
  induction fuel with
  | zero => intro n h0 h; omega
  | succ f ih =>
    intro n h0 h
    simp only [log2Aux]
    split
    · simp; omega
    · obtain ⟨a, b⟩ := ih (n / 2) (by omega) (by omega)
      constructor
      · calc 2 ^ (log2Aux f (n / 2) + 1) = 2 ^ log2Aux f (n / 2) * 2 := by ring
          _ ≤ (n / 2) * 2 := Nat.mul_le_mul_right _ a
          _ ≤ n := Nat.div_mul_le_self n 2
      · have hb : n / 2 + 1 ≤ 2 ^ (log2Aux f (n / 2) + 1) := b
        calc n < (n / 2 + 1) * 2 := by omega
          _ ≤ 2 ^ (log2Aux f (n / 2) + 1) * 2 := Nat.mul_le_mul_right _ hb
          _ = 2 ^ (log2Aux f (n / 2) + 1 + 1) := by ring

/-- An integer below `2^53` is a `float64`: rounding it changes nothing. -/
theorem roundFloat64_exact (neg : Bool) (n : Nat) (h0 : 0 < n) (h : n < 2 ^ 53) :
    roundFloat64 neg n 1 = some ⟨neg, n * 2 ^ (52 - log2 n), (log2 n : Int) - 52⟩ := by
  obtain ⟨hlo, hhi⟩ := log2Aux_spec n n h0 (le_refl _)
  have hL : log2 n ≤ 52 := log2Aux_lt 52 n n h
  change 2 ^ log2 n ≤ n at hlo
  change n < 2 ^ (log2 n + 1) at hhi
  unfold roundFloat64
  rw [if_neg (by omega), show log2 1 = 0 by decide]
  generalize log2 n = L at hlo hhi hL ⊢
  have hm : n * 2 ^ (52 - L) < 2 ^ 53 := by
    calc n * 2 ^ (52 - L) < 2 ^ (L + 1) * 2 ^ (52 - L) :=
          Nat.mul_lt_mul_of_pos_right hhi (by positivity)
      _ = 2 ^ 53 := by rw [← pow_add]; congr 1; omega
  have hmpos : 0 < n * 2 ^ (52 - L) := by positivity
  have hmax : max ((L : Int) - 52) (-1074) = (L : Int) - 52 := max_eq_left (by omega)
  simp only [Nat.cast_zero, sub_zero, Nat.cast_nonneg, if_true, Int.toNat_ofNat, one_mul,
    decide_eq_true hlo, hmax]
  by_cases h52 : L = 52
  · subst h52
    simp only [Nat.cast_ofNat, sub_self, le_refl, if_true, Int.toNat_zero, pow_zero, mul_one,
      Nat.div_one, Nat.mod_one, mul_zero, Nat.sub_self]
    have hn : ¬ n = 9007199254740992 := by omega
    have hn0 : n ≠ 0 := by omega
    simp [hn, hn0]
  · have hneg : ¬ (0 : Int) ≤ (L : Int) - 52 := by omega
    have hexp : (-((L : Int) - 52)).toNat = 52 - L := by omega
    simp only [hneg, if_false, hexp, Nat.div_one, Nat.mod_one, mul_zero]
    have hn : ¬ n * 2 ^ (52 - L) = 9007199254740992 := by omega
    have hn0 : n * 2 ^ (52 - L) ≠ 0 := by omega
    have h971 : (L : Int) - 52 ≤ 971 := by omega
    simp [hn, hn0, h971]

/-- An integer of magnitude below `2^53` comes back from a cursor as itself. -/
theorem assertInt_readBack (k : Int) (h : k.natAbs < 2 ^ 53) :
    assertInt (readBack (.int k)) = k := by
  simp only [readBack, assertInt, nearestFloat64, parseDecimal, le_refl, if_true,
    Int.toNat_zero, pow_zero, mul_one]
  by_cases h0 : k.natAbs = 0
  · have hk : k = 0 := Int.natAbs_eq_zero.mp h0
    subst hk
    rfl
  · rw [roundFloat64_exact _ _ (by omega) h]
    obtain ⟨hlo, hhi⟩ := log2Aux_spec k.natAbs k.natAbs (by omega) (le_refl _)
    have hL : log2 k.natAbs ≤ 52 := log2Aux_lt 52 _ _ h
    change 2 ^ log2 k.natAbs ≤ k.natAbs at hlo
    simp only [Option.getD_some, float64ToInt]
    generalize log2 k.natAbs = L at hlo hL ⊢
    have hmag : (if (0 : Int) ≤ (L : Int) - 52 then
          k.natAbs * 2 ^ (52 - L) * 2 ^ ((L : Int) - 52).toNat
        else k.natAbs * 2 ^ (52 - L) / 2 ^ (-((L : Int) - 52)).toNat) = k.natAbs := by
      by_cases h52 : L = 52
      · subst h52; simp
      · have hneg : ¬ (0 : Int) ≤ (L : Int) - 52 := by omega
        have hexp : (-((L : Int) - 52)).toNat = 52 - L := by omega
        rw [if_neg hneg, hexp, Nat.mul_div_cancel _ (by positivity)]
    rw [hmag]
    by_cases hk : k < 0
    · simp only [decide_eq_true hk, if_true]; omega
    · simp only [decide_eq_false hk, Bool.false_eq_true, if_false]; omega

/-! ## Theorems: bytes -/

theorem AllBytes.append {l₁ l₂ : List Nat} (h₁ : AllBytes l₁) (h₂ : AllBytes l₂) :
    AllBytes (l₁ ++ l₂) := by
  intro b hb
  rcases List.mem_append.mp hb with h | h
  · exact h₁ b h
  · exact h₂ b h

theorem AllBytes.cons {b : Nat} {l : List Nat} (hb : b < 256) (h : AllBytes l) :
    AllBytes (b :: l) := by
  intro x hx
  rcases List.mem_cons.mp hx with h' | h'
  · omega
  · exact h x h'

theorem AllBytes.nil : AllBytes [] := by intro b hb; simp at hb

theorem hexDigit_lt (n : Nat) (h : n < 16) : hexDigit n < 256 := by
  unfold hexDigit; split <;> omega

theorem allBytes_encodeRune (c : Char) : AllBytes (encodeRune c) := by
  have hv : c.toNat < 55296 ∨ (57343 < c.toNat ∧ c.toNat < 1114112) := c.valid
  have h1 := hexDigit_lt (c.toNat / 16 % 16) (by omega)
  have h2 := hexDigit_lt (c.toNat % 16) (by omega)
  unfold encodeRune utf8Encode
  simp only
  intro b hb
  repeat' split at hb
  all_goals simp only [List.mem_cons, List.mem_singleton, List.not_mem_nil, or_false] at hb
  all_goals first
    | omega
    | (rcases hb with h | h | h | h | h | h <;> first | omega | (subst h; apply hexDigit_lt; omega))

theorem allBytes_encodeRunes (cs : List Char) : AllBytes (encodeRunes cs) := by
  induction cs with
  | nil => exact AllBytes.nil
  | cons c cs ih => exact (allBytes_encodeRune c).append ih

theorem allBytes_encodeString (s : GoString) : AllBytes (encodeString s) :=
  AllBytes.cons (by decide)
    (AllBytes.append (allBytes_appendStringLoop _ _) (AllBytes.cons (by decide) AllBytes.nil))

/-! ## Theorems: the texts of numbers -/

theorem digitText_append {l₁ l₂ : List Nat} (h₁ : DigitText l₁) (h₂ : DigitText l₂) :
    DigitText (l₁ ++ l₂) := by
  intro b hb
  rcases List.mem_append.mp hb with h | h
  · exact h₁ b h
  · exact h₂ b h

theorem digitText_take {l : List Nat} (h : DigitText l) (n : Nat) : DigitText (l.take n) :=
  fun b hb => h b (List.mem_of_mem_take hb)

theorem digitText_drop {l : List Nat} (h : DigitText l) (n : Nat) : DigitText (l.drop n) :=
  fun b hb => h b (List.mem_of_mem_drop hb)

theorem digitText_replicate (n : Nat) : DigitText (List.replicate n 48) := by
  intro b hb
  rw [List.mem_replicate] at hb
  rw [hb.2]; decide

theorem digitText_allBytes {l : List Nat} (h : DigitText l) : AllBytes l := by
  intro b hb
  have := h b hb
  simp [isDigit] at this
  omega

theorem digitText_formatNat (n : Nat) : DigitText (formatNat n) := by
  intro b hb
  simp only [formatNat, List.mem_map] at hb
  obtain ⟨d, hd, rfl⟩ := hb
  have := decimalDigits_lt n d hd
  simp [isDigit]; omega

theorem formatNat_ne_nil (n : Nat) : formatNat n ≠ [] := by
  by_cases hn : n = 0
  · subst hn; decide
  · obtain ⟨d, ds, hd, -⟩ := decimalDigits_head n hn
    simp [formatNat, hd]

theorem formatNat_head (n : Nat) (hn : n ≠ 0) : ∃ b r, formatNat n = b :: r ∧ b ≠ 48 := by
  obtain ⟨d, ds, hd, h1⟩ := decimalDigits_head n hn
  exact ⟨d + 48, ds.map (· + 48), by simp [formatNat, hd], by omega⟩

theorem formatNat_zero : formatNat 0 = [48] := by decide

theorem delimited_notDigit {rest : List Nat} (h : Delimited rest) : NotDigitHead rest := by
  intro b r hb
  have := h b r hb
  simp [isDigit]; omega

theorem takeDigits_text (l rest : List Nat) (hl : DigitText l) (hr : NotDigitHead rest) :
    takeDigits (l ++ rest) = (l.map (· - 48), rest) := by
  induction l with
  | nil =>
    cases rest with
    | nil => simp [takeDigits]
    | cons b r => simp [takeDigits, hr b r rfl]
  | cons d ds ih =>
    have hd : isDigit d = true := hl d (by simp)
    have ih' := ih (fun x hx => hl x (by simp [hx]))
    simp [takeDigits, hd, ih']

/-- The text of a number: an integer part, an optional fraction, an optional exponent,
and the number it is read as. -/
theorem parseNumber_text_eq (neg : Bool) (w fr ex rest : List Nat) (xneg : Bool) (xsign : List Nat)
    (hw : DigitText w) (hw0 : w ≠ []) (hlead : w = [48] ∨ ∀ b r, w = b :: r → b ≠ 48)
    (hfr : DigitText fr) (hex : DigitText ex)
    (hxs : xsign = [45] ∧ xneg = true ∨ xsign = [43] ∧ xneg = false)
    (hr : Delimited rest) :
    parseNumber ((if neg then [45] else []) ++ w
        ++ (if fr = [] then [] else 46 :: fr)
        ++ (if ex = [] then [] else 101 :: (xsign ++ ex)) ++ rest) =
      some (.num neg (digitsValue (w.map (· - 48) ++ fr.map (· - 48)))
        ((if ex = [] then 0
          else if xneg then -(digitsValue (ex.map (· - 48)) : Int)
          else (digitsValue (ex.map (· - 48)) : Int)) - ((fr.map (· - 48)).length : Int)),
        rest) := by
  -- what follows the fraction
  have hexp : parseExponent ((if ex = [] then [] else 101 :: (xsign ++ ex)) ++ rest)
      = some (if ex = [] then 0
          else if xneg then -(digitsValue (ex.map (· - 48)) : Int)
          else (digitsValue (ex.map (· - 48)) : Int), rest) := by
    by_cases he : ex = []
    · simp only [he, if_true, List.nil_append]
      cases rest with
      | nil => simp [parseExponent]
      | cons b r =>
        have := hr b r rfl
        have hb : ¬ (b = 101 ∨ b = 69) := by omega
        simp [parseExponent, hb]
    · simp only [he, if_false, List.cons_append, List.append_assoc]
      have htd := takeDigits_text ex rest hex (delimited_notDigit hr)
      rcases hxs with ⟨h1, h2⟩ | ⟨h1, h2⟩
      · subst h1 h2
        simp [parseExponent, takeSign, htd, he]
      · subst h1 h2
        simp [parseExponent, takeSign, htd, he]
  have hexpHead : NotDigitHead ((if ex = [] then [] else 101 :: (xsign ++ ex)) ++ rest) := by
    by_cases he : ex = []
    · simp only [he, if_true, List.nil_append]; exact (delimited_notDigit hr)
    · simp only [he, if_false, List.cons_append]
      intro b r hb
      simp only [List.cons.injEq] at hb
      rw [← hb.1]; decide
  have hfrac : parseFraction ((if fr = [] then [] else 46 :: fr)
      ++ ((if ex = [] then [] else 101 :: (xsign ++ ex)) ++ rest))
      = some (fr.map (· - 48), (if ex = [] then [] else 101 :: (xsign ++ ex)) ++ rest) := by
    by_cases hf : fr = []
    · simp only [hf, if_true, List.nil_append, List.map_nil]
      by_cases he : ex = []
      · simp only [he, if_true, List.nil_append]
        cases rest with
        | nil => simp [parseFraction]
        | cons b r =>
          have := hr b r rfl
          have hb : b ≠ 46 := by omega
          simp [parseFraction, hb]
      · simp [he, parseFraction]
    · simp only [hf, if_false, List.cons_append]
      have htd := takeDigits_text fr _ hfr hexpHead
      simp [parseFraction, htd, hf]
  have hfracHead : NotDigitHead ((if fr = [] then [] else 46 :: fr)
      ++ ((if ex = [] then [] else 101 :: (xsign ++ ex)) ++ rest)) := by
    by_cases hf : fr = []
    · simp only [hf, if_true, List.nil_append]; exact hexpHead
    · simp only [hf, if_false, List.cons_append]
      intro b r hb
      simp only [List.cons.injEq] at hb
      rw [← hb.1]; decide
  have hwhole : parseWhole (w ++ ((if fr = [] then [] else 46 :: fr)
      ++ ((if ex = [] then [] else 101 :: (xsign ++ ex)) ++ rest)))
      = some (w.map (· - 48), (if fr = [] then [] else 46 :: fr)
      ++ ((if ex = [] then [] else 101 :: (xsign ++ ex)) ++ rest)) := by
    rcases hlead with h | h
    · subst h
      simp [parseWhole]
    · obtain ⟨b, r, hb⟩ := List.exists_cons_of_ne_nil hw0
      have h48 : b ≠ 48 := h b r hb
      have hd : isDigit b = true := hw b (by rw [hb]; simp)
      have htd := takeDigits_text w _ hw hfracHead
      rw [hb] at htd ⊢
      simp only [List.cons_append] at htd ⊢
      simp only [parseWhole, h48, if_false, hd, if_true, htd]
  obtain ⟨b, r, hb⟩ := List.exists_cons_of_ne_nil hw0
  have hbd : isDigit b = true := hw b (by rw [hb]; simp)
  have hb45 : b ≠ 45 := by simp [isDigit] at hbd; omega
  have hsign : takeSign false ((if neg then [45] else []) ++ (w ++ ((if fr = [] then [] else 46 :: fr)
      ++ ((if ex = [] then [] else 101 :: (xsign ++ ex)) ++ rest))))
      = (neg, w ++ ((if fr = [] then [] else 46 :: fr)
      ++ ((if ex = [] then [] else 101 :: (xsign ++ ex)) ++ rest))) := by
    cases neg
    · simp only [Bool.false_eq_true, if_false, List.nil_append]
      rw [hb]; simp [takeSign, hb45]
    · simp [takeSign]
  simp only [List.append_assoc]
  simp only [parseNumber, hsign, hwhole, hfrac, hexp]

/-- The text of a number is read as a number. -/
theorem parseNumber_text (neg : Bool) (w fr ex rest : List Nat) (xneg : Bool) (xsign : List Nat)
    (hw : DigitText w) (hw0 : w ≠ []) (hlead : w = [48] ∨ ∀ b r, w = b :: r → b ≠ 48)
    (hfr : DigitText fr) (hex : DigitText ex)
    (hxs : xsign = [45] ∧ xneg = true ∨ xsign = [43] ∧ xneg = false)
    (hr : Delimited rest) :
    ∃ v, parseNumber ((if neg then [45] else []) ++ w
        ++ (if fr = [] then [] else 46 :: fr)
        ++ (if ex = [] then [] else 101 :: (xsign ++ ex)) ++ rest) = some (v, rest) :=
  ⟨_, parseNumber_text_eq neg w fr ex rest xneg xsign hw hw0 hlead hfr hex hxs hr⟩


theorem stripZeros_zero (fuel d : Nat) (e : Int) (h : d = 0 → e = 0) :
    (stripZeros fuel d e).1 = 0 → (stripZeros fuel d e).2 = 0 := by
  induction fuel generalizing d e with
  | zero => simpa [stripZeros] using h
  | succ n ih =>
    simp only [stripZeros]
    split
    · rename_i hd
      exact ih (d / 10) (e + 1) (fun h0 => by omega)
    · simpa using h

theorem getD_findSome {α β : Type} (P : β → Prop) (g : α → Option β) (dflt : β) (l : List α)
    (hg : ∀ a r, g a = some r → P r) (hd : P dflt) : P ((l.findSome? g).getD dflt) := by
  induction l with
  | nil => simpa using hd
  | cons a l ih =>
    simp only [List.findSome?]
    cases ha : g a with
    | none => simpa using ih
    | some r => simpa using hg a r ha

theorem readsBack_zero (f : Float64) (sh : Int) (h : readsBack f 0 sh = true) : f.mant = 0 := by
  simp only [readsBack, decide_eq_true_eq, parseDecimal] at h
  have h2 : ∀ den, roundFloat64 f.neg 0 den = some ⟨f.neg, 0, 0⟩ := by
    intro den; simp [roundFloat64]
  split at h
  · rw [Nat.zero_mul, h2] at h
    simp only [Option.some.injEq] at h
    rw [← h]
  · rw [h2] at h
    simp only [Option.some.injEq] at h
    rw [← h]

theorem try_zero (f : Float64) (hm : f.mant ≠ 0) (lo : Nat) (sh : Int) (c : Prop)
    [Decidable c] (r : Nat × Int)
    (hr : (if readsBack f lo sh = true ∧ c then some (lo, sh)
      else if readsBack f (lo + 1) sh = true then some (lo + 1, sh) else none) = some r) :
    r.1 = 0 → r.2 = 0 := by
  intro h0
  split at hr
  · rename_i hlo
    simp only [Option.some.injEq] at hr
    rw [← hr] at h0
    simp only at h0
    have := hlo.1
    rw [h0] at this
    exact absurd (readsBack_zero f _ this) hm
  · split at hr
    · simp only [Option.some.injEq] at hr
      rw [← hr] at h0
      simp at h0
    · simp at hr

theorem shortestDecimal_zero (f : Float64) (hm : f.mant ≠ 0) :
    (shortestDecimal f).1 = 0 → (shortestDecimal f).2 = 0 := by
  unfold shortestDecimal
  apply getD_findSome (fun r : Nat × Int => r.1 = 0 → r.2 = 0)
  · intro i r hr
    exact try_zero f hm _ _ _ r hr
  · simp


theorem numberText_mk (neg : Bool) (w fr ex : List Nat) (xneg : Bool) (xsign : List Nat)
    (t : List Nat) (hw : DigitText w) (hw0 : w ≠ [])
    (hlead : w = [48] ∨ ∀ b r, w = b :: r → b ≠ 48) (hfr : DigitText fr) (hex : DigitText ex)
    (hxs : xsign = [45] ∧ xneg = true ∨ xsign = [43] ∧ xneg = false)
    (ht : t = (if neg then [45] else []) ++ w ++ (if fr = [] then [] else 46 :: fr)
        ++ (if ex = [] then [] else 101 :: (xsign ++ ex))) : NumberText t :=
  ⟨neg, w, fr, ex, xneg, xsign, hw, hw0, hlead, hfr, hex, hxs, ht⟩

theorem numberText_formatFloat64 (f : Float64) : NumberText (formatFloat64 f) := by
  unfold formatFloat64
  by_cases hm : f.mant = 0
  · simp only [hm, if_true]
    exact numberText_mk f.neg [48] [] [] false [43] _ (by intro b hb; simp at hb; subst hb; decide)
      (by simp) (Or.inl rfl) (by intro b hb; simp at hb) (by intro b hb; simp at hb)
      (Or.inr ⟨rfl, rfl⟩) (by simp)
  · simp only [hm, if_false]
    have hz := stripZeros_zero 17 _ _ (shortestDecimal_zero f hm)
    rcases hs : stripZeros 17 (shortestDecimal f).1 (shortestDecimal f).2 with ⟨d, e⟩
    rw [hs] at hz
    simp only at hz ⊢
    have hds := digitText_formatNat d
    have hne := formatNat_ne_nil d
    have hlen : 0 < (formatNat d).length := List.length_pos.mpr hne
    split
    · -- exponent form
      refine numberText_mk f.neg ((formatNat d).take 1) ((formatNat d).drop 1)
        (formatNat ((formatNat d).length + e - 1 : Int).natAbs)
        (decide (((formatNat d).length : Int) + e - 1 < 0))
        [if ((formatNat d).length : Int) + e - 1 < 0 then 45 else 43] _
        (digitText_take hds 1) ?_ ?_ (digitText_drop hds 1) (digitText_formatNat _) ?_ ?_
      · intro h
        rw [List.take_eq_nil_iff] at h
        rcases h with h | h
        · omega
        · exact hne h
      · obtain ⟨b, r, hb⟩ := List.exists_cons_of_ne_nil hne
        rw [hb]
        by_cases h48 : b = 48
        · left; simp [h48]
        · right
          intro b2 r2 h2
          simp at h2
          omega
      · by_cases hx : ((formatNat d).length : Int) + e - 1 < 0
        · left; simp [hx]
        · right; simp [hx]
      · have hex : formatNat ((formatNat d).length + e - 1 : Int).natAbs ≠ [] := formatNat_ne_nil _
        by_cases h1 : 1 < (formatNat d).length
        · have hdrop : (formatNat d).drop 1 ≠ [] := by
            intro h; rw [List.drop_eq_nil_iff] at h; omega
          have hdrop2 : (formatNat d).tail ≠ [] := by simpa using hdrop
          simp [h1, hdrop2, hex]
        · have hdrop : (formatNat d).drop 1 = [] := by
            rw [List.drop_eq_nil_iff]; omega
          simp [h1, hdrop, hex]
    · split
      · -- 0.000ddd
        rename_i hdp
        refine numberText_mk f.neg [48]
          (List.replicate (-(((formatNat d).length : Int) + e)).toNat 48 ++ formatNat d) []
          false [43] _ (by intro b hb; simp at hb; subst hb; decide) (by simp) (Or.inl rfl)
          (digitText_append (digitText_replicate _) hds) (by intro b hb; simp at hb) (Or.inr ⟨rfl, rfl⟩) ?_
        have : List.replicate (-(((formatNat d).length : Int) + e)).toNat 48 ++ formatNat d ≠ [] := by
          simp [hne]
        simp [hne]
      · split
        · -- ddd000
          rename_i hk
          refine numberText_mk f.neg
            (formatNat d ++ List.replicate ((((formatNat d).length : Int) + e)
              - ((formatNat d).length : Int)).toNat 48) [] [] false [43] _
            (digitText_append hds (digitText_replicate _)) (by simp [hne]) ?_
            (by intro b hb; simp at hb) (by intro b hb; simp at hb) (Or.inr ⟨rfl, rfl⟩)
            (by simp)
          by_cases hd : d = 0
          · left
            have he : e = 0 := hz hd
            subst hd he
            simp [formatNat_zero]
          · right
            obtain ⟨b, r, hb, h48⟩ := formatNat_head d hd
            intro b2 r2 h2
            rw [hb] at h2
            simp at h2
            omega
        · -- ddd.ddd
          rename_i hdp0 hk
          have hdpos : 0 < ((formatNat d).length : Int) + e := by omega
          have hlt : ((formatNat d).length : Int) + e < (formatNat d).length := by omega
          have hd : d ≠ 0 := by
            intro hd
            have he : e = 0 := hz hd
            subst hd he
            simp [formatNat_zero] at hlt
          refine numberText_mk f.neg ((formatNat d).take (((formatNat d).length : Int) + e).toNat)
            ((formatNat d).drop (((formatNat d).length : Int) + e).toNat) [] false [43] _
            (digitText_take hds _) ?_ ?_ (digitText_drop hds _) (by intro b hb; simp at hb) (Or.inr ⟨rfl, rfl⟩) ?_
          · intro h
            rw [List.take_eq_nil_iff] at h
            rcases h with h | h
            · omega
            · exact hne h
          · right
            obtain ⟨b, r, hb, h48⟩ := formatNat_head d hd
            intro b2 r2 h2
            rw [hb] at h2
            obtain ⟨n, hn⟩ : ∃ n, (((b :: r).length : Int) + e).toNat = n + 1 :=
              ⟨(((b :: r).length : Int) + e).toNat - 1, by rw [hb] at hdpos; omega⟩
            rw [hn] at h2
            simp at h2
            omega
          · have hdrop : (formatNat d).drop (((formatNat d).length : Int) + e).toNat ≠ [] := by
              intro h; rw [List.drop_eq_nil_iff] at h; omega
            simp [hdrop]

theorem valueText_skipSpace {t : List Nat} (h : ValueText t) (X : List Nat) :
    skipSpace (t ++ X) = t ++ X := by
  obtain ⟨b, r, hb, hsp, -, -⟩ := h.2.1
  rw [hb]; simp [skipSpace, hsp]

theorem valueText_number (t : List Nat) (h : NumberText t) : ValueText t := by
  obtain ⟨neg, w, fr, ex, xneg, xsign, hw, hw0, hlead, hfr, hex, hxs, ht⟩ := h
  obtain ⟨b, r, hb⟩ := List.exists_cons_of_ne_nil hw0
  have hbd : isDigit b = true := hw b (by rw [hb]; simp)
  have hbr : 48 ≤ b ∧ b ≤ 57 := by simpa [isDigit] using hbd
  -- the first byte
  obtain ⟨c, r2, hc, hcd⟩ : ∃ c r2, t = c :: r2 ∧ (c = 45 ∨ isDigit c = true) := by
    cases neg
    · exact ⟨b, r ++ ((if fr = [] then [] else 46 :: fr)
        ++ if ex = [] then [] else 101 :: (xsign ++ ex)), by rw [ht, hb]; simp, Or.inr hbd⟩
    · exact ⟨45, w ++ ((if fr = [] then [] else 46 :: fr)
        ++ if ex = [] then [] else 101 :: (xsign ++ ex)), by rw [ht]; simp, Or.inl rfl⟩
  have hcr : c = 45 ∨ (48 ≤ c ∧ c ≤ 57) := by
    rcases hcd with h | h
    · exact Or.inl h
    · exact Or.inr (by simpa [isDigit] using h)
  refine ⟨?_, ⟨c, r2, hc, ?_, ?_, ?_⟩, ?_⟩
  · rw [ht]
    have hs : AllBytes (if neg = true then [45] else []) := by cases neg <;> decide
    have hf : AllBytes (if fr = [] then [] else 46 :: fr) := by
      split
      · exact AllBytes.nil
      · exact AllBytes.cons (by decide) (digitText_allBytes hfr)
    have hx : AllBytes xsign := by
      rcases hxs with ⟨h, -⟩ | ⟨h, -⟩ <;> subst h <;> decide
    have he : AllBytes (if ex = [] then [] else 101 :: (xsign ++ ex)) := by
      split
      · exact AllBytes.nil
      · exact AllBytes.cons (by decide) (hx.append (digitText_allBytes hex))
    exact ((hs.append (digitText_allBytes hw)).append hf).append he
  · simp [isSpace]; omega
  · omega
  · omega
  · intro fuel depth rest hr
    cases fuel with
    | zero => left; simp [parseValue]
    | succ f =>
      right
      obtain ⟨v, hv⟩ := parseNumber_text neg w fr ex rest xneg xsign hw hw0 hlead hfr hex hxs hr
      rw [← ht] at hv
      refine ⟨v, ?_⟩
      rw [hc] at hv ⊢
      rw [List.cons_append] at hv ⊢
      have hne : c ≠ 123 ∧ c ≠ 91 ∧ c ≠ 34 ∧ c ≠ 116 ∧ c ≠ 102 ∧ c ≠ 110 := by omega
      rw [parseValue]
      simp only [hne.1, hne.2.1, hne.2.2.1, hne.2.2.2.1, hne.2.2.2.2.1, hne.2.2.2.2.2, if_false]
      rw [if_pos hcd, hv]

/-! ## Theorems: a float64 reads back from its text -/

/-- Rounding to the nearest integer, ties to even: a quotient within half a unit of `m`
rounds to `m`. -/
theorem roundNearest_near (n d m : Nat) (hd : 0 < d) (hlo : 2 * m * d < 2 * n + d)
    (hhi : 2 * n < (2 * m + 1) * d) :
    (if d < 2 * (n % d) ∨ (2 * (n % d) = d ∧ n / d % 2 = 1) then n / d + 1 else n / d) = m := by
  have hdiv := Nat.div_add_mod n d
  have hmod := Nat.mod_lt n hd
  generalize n / d = q at *
  generalize n % d = r at *
  have hq : q = m ∨ q + 1 = m := by
    by_contra hne
    push_neg at hne
    rcases Nat.lt_or_ge q m with h | h
    · have h2 : q + 2 ≤ m := by omega
      have : (q + 2) * d ≤ m * d := Nat.mul_le_mul_right d h2
      nlinarith
    · have h2 : m + 1 ≤ q := by omega
      have : (m + 1) * d ≤ q * d := Nat.mul_le_mul_right d h2
      nlinarith
  rcases hq with hq | hq
  · subst hq
    have h1 : ¬ d < 2 * r := by nlinarith
    have h2 : ¬ 2 * r = d := by nlinarith
    simp [h1, h2]
  · subst hq
    have h1 : d < 2 * r := by nlinarith
    simp [h1]

theorem zpow_two_toNat (e : ℤ) (h : 0 ≤ e) : ((2 ^ e.toNat : ℕ) : ℚ) = (2 : ℚ) ^ e := by
  conv_rhs => rw [← Int.toNat_of_nonneg h]
  rw [zpow_natCast]
  push_cast
  rfl

theorem zpow_two_neg_toNat (e : ℤ) (h : e ≤ 0) :
    ((2 ^ (-e).toNat : ℕ) : ℚ) = ((2 : ℚ) ^ e)⁻¹ := by
  rw [zpow_two_toNat (-e) (by omega), zpow_neg]

/-- The exponent `roundFloat64` starts from is the floor of the binary logarithm of the
quotient. -/
theorem floorLog2_bounds (num den a b : ℕ) (hden : 0 < den)
    (ha1 : 2 ^ a ≤ num) (ha2 : num < 2 ^ (a + 1)) (hb1 : 2 ^ b ≤ den) (hb2 : den < 2 ^ (b + 1))
    (fl : ℤ)
    (hfl : fl = if (if 0 ≤ (a : ℤ) - b then decide (den * 2 ^ ((a : ℤ) - b).toNat ≤ num)
        else decide (den ≤ num * 2 ^ (-((a : ℤ) - b)).toNat)) = true
      then (a : ℤ) - b else (a : ℤ) - b - 1) :
    (2 : ℚ) ^ fl ≤ (num : ℚ) / den ∧ (num : ℚ) / den < (2 : ℚ) ^ (fl + 1) := by
  have hdq : (0 : ℚ) < den := by exact_mod_cast hden
  have h2 : (2 : ℚ) ≠ 0 := by norm_num
  have ha1q : (2 : ℚ) ^ a ≤ num := by exact_mod_cast ha1
  have ha2q : (num : ℚ) < 2 ^ (a + 1) := by exact_mod_cast ha2
  have hb1q : (2 : ℚ) ^ b ≤ den := by exact_mod_cast hb1
  have hb2q : (den : ℚ) < 2 ^ (b + 1) := by exact_mod_cast hb2
  have hpa : (0 : ℚ) < 2 ^ a := by positivity
  have hpb : (0 : ℚ) < 2 ^ b := by positivity
  have hk : (2 : ℚ) ^ ((a : ℤ) - b) = 2 ^ a / 2 ^ b := by
    rw [zpow_sub₀ h2, zpow_natCast, zpow_natCast]
  have hk1 : (2 : ℚ) ^ ((a : ℤ) - b + 1) = 2 ^ (a + 1) / 2 ^ b := by
    rw [zpow_add_one₀ h2, hk, pow_succ]; ring
  have hkm : (2 : ℚ) ^ ((a : ℤ) - b - 1) = 2 ^ a / 2 ^ (b + 1) := by
    rw [zpow_sub_one₀ h2, hk, pow_succ]; field_simp
  have hxlo : (2 : ℚ) ^ ((a : ℤ) - b - 1) ≤ (num : ℚ) / den := by
    rw [hkm, div_le_div_iff₀ (by positivity) hdq]
    have : (2 : ℚ) ^ a * den ≤ num * 2 ^ (b + 1) := by
      calc (2 : ℚ) ^ a * den ≤ num * den := by nlinarith
        _ ≤ num * 2 ^ (b + 1) := by
          apply mul_le_mul_of_nonneg_left hb2q.le
          exact_mod_cast Nat.zero_le _
    exact this
  have hxhi : (num : ℚ) / den < (2 : ℚ) ^ ((a : ℤ) - b + 1) := by
    rw [hk1, div_lt_div_iff₀ hdq hpb]
    calc (num : ℚ) * 2 ^ b < 2 ^ (a + 1) * 2 ^ b := by nlinarith
      _ ≤ 2 ^ (a + 1) * den := by
        apply mul_le_mul_of_nonneg_left hb1q
        positivity
  have hat : (if 0 ≤ (a : ℤ) - b then decide (den * 2 ^ ((a : ℤ) - b).toNat ≤ num)
        else decide (den ≤ num * 2 ^ (-((a : ℤ) - b)).toNat)) = true ↔
      (2 : ℚ) ^ ((a : ℤ) - b) ≤ (num : ℚ) / den := by
    by_cases hs : 0 ≤ (a : ℤ) - b
    · rw [if_pos hs, decide_eq_true_iff, le_div_iff₀ hdq, ← zpow_two_toNat _ hs]
      constructor
      · intro h
        have : ((den * 2 ^ ((a : ℤ) - b).toNat : ℕ) : ℚ) ≤ num := by exact_mod_cast h
        push_cast at this ⊢
        linarith
      · intro h
        have : ((2 ^ ((a : ℤ) - b).toNat * den : ℕ) : ℚ) ≤ num := by
          rw [Nat.cast_mul]; exact h
        have := Nat.cast_le.mp this
        linarith
    · rw [if_neg hs, decide_eq_true_iff]
      have hz := zpow_two_neg_toNat ((a : ℤ) - b) (by omega)
      have hpos : (0 : ℚ) < (2 : ℚ) ^ ((a : ℤ) - b) := zpow_pos (by norm_num) _
      rw [le_div_iff₀ hdq]
      constructor
      · intro h
        have h' : ((den : ℕ) : ℚ) ≤ ((num * 2 ^ (-((a : ℤ) - b)).toNat : ℕ) : ℚ) := by
          exact_mod_cast h
        rw [Nat.cast_mul, hz] at h'
        have := mul_le_mul_of_nonneg_right h' hpos.le
        rw [mul_assoc, inv_mul_cancel₀ hpos.ne', mul_one] at this
        linarith
      · intro h
        have h' : ((den : ℕ) : ℚ) ≤ ((num * 2 ^ (-((a : ℤ) - b)).toNat : ℕ) : ℚ) := by
          rw [Nat.cast_mul, hz, ← div_eq_mul_inv, le_div_iff₀ hpos]
          linarith
        exact_mod_cast h'
  rw [hfl]
  by_cases hc : (if 0 ≤ (a : ℤ) - b then decide (den * 2 ^ ((a : ℤ) - b).toNat ≤ num)
        else decide (den ≤ num * 2 ^ (-((a : ℤ) - b)).toNat)) = true
  · rw [if_pos hc]
    exact ⟨hat.mp hc, hxhi⟩
  · rw [if_neg hc]
    refine ⟨hxlo, ?_⟩
    have : ¬ (2 : ℚ) ^ ((a : ℤ) - b) ≤ (num : ℚ) / den := fun h => hc (hat.mpr h)
    rw [sub_add_cancel]
    exact lt_of_not_le this

theorem zpow_floor_unique (x : ℚ) (F G : ℤ) (h1 : (2 : ℚ) ^ F ≤ x) (h2 : x < (2 : ℚ) ^ (F + 1))
    (h3 : (2 : ℚ) ^ G ≤ x) (h4 : x < (2 : ℚ) ^ (G + 1)) : F = G := by
  have a : F < G + 1 := (zpow_lt_zpow_iff_right₀ (by norm_num : (1 : ℚ) < 2)).mp
    (lt_of_le_of_lt h1 h4)
  have b : G < F + 1 := (zpow_lt_zpow_iff_right₀ (by norm_num : (1 : ℚ) < 2)).mp
    (lt_of_le_of_lt h3 h2)
  omega

/-- The rounding step of `roundFloat64` at the exponent `e`: a quotient within half a
unit in the last place of `M * 2^e` gives the mantissa `M`. -/
theorem roundScaled_near (num den M : ℕ) (e : ℤ) (hden : 0 < den)
    (hlo : ((M : ℚ) - 1 / 2) * (2 : ℚ) ^ e < (num : ℚ) / den)
    (hhi : (num : ℚ) / den < ((M : ℚ) + 1 / 2) * (2 : ℚ) ^ e) (n d : ℕ)
    (hn : n = if 0 ≤ e then num else num * 2 ^ (-e).toNat)
    (hd : d = if 0 ≤ e then den * 2 ^ e.toNat else den) :
    (if d < 2 * (n % d) ∨ (2 * (n % d) = d ∧ n / d % 2 = 1) then n / d + 1 else n / d) = M := by
  have hdq : (0 : ℚ) < den := by exact_mod_cast hden
  rw [lt_div_iff₀ hdq] at hlo
  rw [div_lt_iff₀ hdq] at hhi
  by_cases hs : 0 ≤ e
  · rw [if_pos hs] at hn hd
    subst hn hd
    have hP := zpow_two_toNat e hs
    have hPpos : 0 < 2 ^ e.toNat := by positivity
    rw [← hP] at hlo hhi
    generalize 2 ^ e.toNat = P at *
    apply roundNearest_near _ _ _ (Nat.mul_pos hden hPpos)
    · have : ((2 * M * (den * P) : ℕ) : ℚ) < ((2 * n + den * P : ℕ) : ℚ) := by
        push_cast; linarith
      exact_mod_cast this
    · have : ((2 * n : ℕ) : ℚ) < (((2 * M + 1) * (den * P) : ℕ) : ℚ) := by
        push_cast; linarith
      exact_mod_cast this
  · rw [if_neg hs] at hn hd
    subst hn hd
    have hQ := zpow_two_neg_toNat e (by omega)
    have hQpos : 0 < 2 ^ (-e).toNat := by positivity
    have hpos : (0 : ℚ) < (2 : ℚ) ^ e := zpow_pos (by norm_num) _
    have hQ2 : (2 : ℚ) ^ e = ((2 ^ (-e).toNat : ℕ) : ℚ)⁻¹ := by rw [hQ, inv_inv]
    rw [hQ2] at hlo hhi
    generalize 2 ^ (-e).toNat = Q at *
    have hQq : (0 : ℚ) < Q := by exact_mod_cast hQpos
    have e1 : ((M : ℚ) - 1 / 2) * (Q : ℚ)⁻¹ * d * Q = ((M : ℚ) - 1 / 2) * d := by
      field_simp
      ring
    have e2 : ((M : ℚ) + 1 / 2) * (Q : ℚ)⁻¹ * d * Q = ((M : ℚ) + 1 / 2) * d := by
      field_simp
      ring
    have hlo' := mul_lt_mul_of_pos_right hlo hQq
    have hhi' := mul_lt_mul_of_pos_right hhi hQq
    rw [e1] at hlo'
    rw [e2] at hhi'
    apply roundNearest_near _ _ _ hden
    · have : ((2 * M * d : ℕ) : ℚ) < ((2 * (num * Q) + d : ℕ) : ℚ) := by
        push_cast; linarith
      exact_mod_cast this
    · have : ((2 * (num * Q) : ℕ) : ℚ) < (((2 * M + 1) * d : ℕ) : ℚ) := by
        push_cast; linarith
      exact_mod_cast this

/-- The function `roundFloat64` step by step. -/
theorem roundFloat64_unfold (neg : Bool) (num den : ℕ) (h0 : num ≠ 0) (fl e : ℤ) (n d m : ℕ)
    (hfl : fl = if (if 0 ≤ (log2 num : ℤ) - (log2 den : ℤ)
        then decide (den * 2 ^ ((log2 num : ℤ) - (log2 den : ℤ)).toNat ≤ num)
        else decide (den ≤ num * 2 ^ (-((log2 num : ℤ) - (log2 den : ℤ))).toNat)) = true
      then (log2 num : ℤ) - (log2 den : ℤ) else (log2 num : ℤ) - (log2 den : ℤ) - 1)
    (he : e = max (fl - 52) (-1074))
    (hn : n = if 0 ≤ e then num else num * 2 ^ (-e).toNat)
    (hd : d = if 0 ≤ e then den * 2 ^ e.toNat else den)
    (hm : m = if d < 2 * (n % d) ∨ (2 * (n % d) = d ∧ n / d % 2 = 1) then n / d + 1 else n / d) :
    roundFloat64 neg num den =
      if 971 < (if m = 2 ^ 53 then e + 1 else e) then none
      else some ⟨neg, if m = 2 ^ 53 then 2 ^ 52 else m,
        if (if m = 2 ^ 53 then 2 ^ 52 else m) = 0 then 0 else (if m = 2 ^ 53 then e + 1 else e)⟩ := by
  subst hm hd hn he hfl
  unfold roundFloat64
  rw [if_neg h0]

/-- Correct rounding: a quotient nearer to the `float64` with mantissa `m` and exponent
`e` than to any other `float64` is rounded to it. Half a unit in the last place on
either side is near enough, and a quarter of one below a power of two, where the
`float64` values are twice as dense. -/
theorem roundFloat64_near (neg : Bool) (num den m : ℕ) (e : ℤ) (hnum : 0 < num)
    (hden : 0 < den) (hm1 : 1 ≤ m) (hm2 : m < 2 ^ 53) (hcan : 2 ^ 52 ≤ m ∨ e = -1074)
    (he1 : -1074 ≤ e) (he2 : e ≤ 971)
    (hlo : ((m : ℚ) - 1 / 2) * (2 : ℚ) ^ e < (num : ℚ) / den)
    (hlo2 : m = 2 ^ 52 → -1074 < e → ((m : ℚ) - 1 / 4) * (2 : ℚ) ^ e < (num : ℚ) / den)
    (hhi : (num : ℚ) / den < ((m : ℚ) + 1 / 2) * (2 : ℚ) ^ e) :
    roundFloat64 neg num den = some ⟨neg, m, e⟩ := by
  obtain ⟨ha1, ha2⟩ := log2Aux_spec num num hnum (le_refl _)
  obtain ⟨hb1, hb2⟩ := log2Aux_spec den den hden (le_refl _)
  change 2 ^ log2 num ≤ num at ha1
  change num < 2 ^ (log2 num + 1) at ha2
  change 2 ^ log2 den ≤ den at hb1
  change den < 2 ^ (log2 den + 1) at hb2
  have h2 : (2 : ℚ) ≠ 0 := by norm_num
  have hpe : (0 : ℚ) < (2 : ℚ) ^ e := zpow_pos (by norm_num) _
  have hmq1 : (1 : ℚ) ≤ m := by exact_mod_cast hm1
  have hmq2 : (m : ℚ) ≤ 2 ^ 53 - 1 := by
    have : m + 1 ≤ 2 ^ 53 := hm2
    have : ((m + 1 : ℕ) : ℚ) ≤ ((2 ^ 53 : ℕ) : ℚ) := by exact_mod_cast this
    push_cast at this
    linarith
  obtain ⟨hf1, hf2⟩ := floorLog2_bounds num den (log2 num) (log2 den) hden ha1 ha2 hb1 hb2 _ rfl
  generalize hfl : (if (if 0 ≤ (log2 num : ℤ) - (log2 den : ℤ)
        then decide (den * 2 ^ ((log2 num : ℤ) - (log2 den : ℤ)).toNat ≤ num)
        else decide (den ≤ num * 2 ^ (-((log2 num : ℤ) - (log2 den : ℤ))).toNat)) = true
      then (log2 num : ℤ) - (log2 den : ℤ) else (log2 num : ℤ) - (log2 den : ℤ) - 1) = fl
    at hf1 hf2
  have e52 : (2 : ℚ) ^ (e + 52) = 2 ^ 52 * (2 : ℚ) ^ e := by
    rw [zpow_add₀ h2, mul_comm]; norm_num
  have e53 : (2 : ℚ) ^ (e + 52 + 1) = 2 ^ 53 * (2 : ℚ) ^ e := by
    rw [zpow_add_one₀ h2, e52]; ring
  have e51 : (2 : ℚ) ^ (e + 51) = 2 ^ 51 * (2 : ℚ) ^ e := by
    rw [zpow_add₀ h2, mul_comm]; norm_num
  have e51' : (2 : ℚ) ^ (e + 51 + 1) = 2 ^ 52 * (2 : ℚ) ^ e := by
    rw [zpow_add_one₀ h2, e51]; ring
  have em1 : (2 : ℚ) ^ (e - 1) = (2 : ℚ) ^ e / 2 := by
    rw [zpow_sub_one₀ h2]; rfl
  -- the exponent the quotient is rounded at, and the mantissa it gives
  have key : ∃ (e' : ℤ) (M : ℕ), e' = max (fl - 52) (-1074) ∧
      ((M : ℚ) - 1 / 2) * (2 : ℚ) ^ e' < (num : ℚ) / den ∧
      (num : ℚ) / den < ((M : ℚ) + 1 / 2) * (2 : ℚ) ^ e' ∧
      ((M = m ∧ e' = e) ∨ (M = 2 ^ 53 ∧ m = 2 ^ 52 ∧ e' = e - 1)) := by
    by_cases hA : (2 : ℚ) ^ (e + 52) ≤ (num : ℚ) / den
    · have hB : (num : ℚ) / den < (2 : ℚ) ^ (e + 52 + 1) := by
        rw [e53]
        calc (num : ℚ) / den < ((m : ℚ) + 1 / 2) * (2 : ℚ) ^ e := hhi
          _ ≤ 2 ^ 53 * (2 : ℚ) ^ e := by
            apply mul_le_mul_of_nonneg_right _ hpe.le
            linarith
      have hF : fl = e + 52 := zpow_floor_unique _ _ _ hf1 hf2 hA hB
      exact ⟨e, m, by rw [hF]; simp [he1], hlo, hhi, Or.inl ⟨rfl, rfl⟩⟩
    · have hA : (num : ℚ) / den < (2 : ℚ) ^ (e + 52) := lt_of_not_le hA
      have hF : fl < e + 52 :=
        (zpow_lt_zpow_iff_right₀ (by norm_num : (1 : ℚ) < 2)).mp (lt_of_le_of_lt hf1 hA)
      have hmle : m ≤ 2 ^ 52 := by
        rw [e52] at hA
        have : ((m : ℚ) - 1 / 2) * (2 : ℚ) ^ e < 2 ^ 52 * (2 : ℚ) ^ e := lt_trans hlo hA
        have h3 : (m : ℚ) - 1 / 2 < 2 ^ 52 := lt_of_mul_lt_mul_right this hpe.le
        have h4 : (m : ℚ) < ((2 ^ 52 + 1 : ℕ) : ℚ) := by push_cast; linarith
        have := Nat.cast_lt.mp h4
        omega
      by_cases hsub : e = -1074
      · exact ⟨e, m, by rw [hsub] at hF ⊢; rw [max_eq_right (by omega)], hlo, hhi,
          Or.inl ⟨rfl, rfl⟩⟩
      · have hm52 : m = 2 ^ 52 := by
          rcases hcan with h | h
          · omega
          · exact absurd h hsub
        have hlo3 := hlo2 hm52 (by omega)
        have hmq : (m : ℚ) = 2 ^ 52 := by rw [hm52]; norm_num
        have hC : (2 : ℚ) ^ (e + 51) ≤ (num : ℚ) / den := by
          rw [e51]
          apply le_trans _ hlo3.le
          apply mul_le_mul_of_nonneg_right _ hpe.le
          rw [hmq]; norm_num
        have hD : (num : ℚ) / den < (2 : ℚ) ^ (e + 51 + 1) := by
          rw [e51', ← e52]; exact hA
        have hF2 : fl = e + 51 := zpow_floor_unique _ _ _ hf1 hf2 hC hD
        refine ⟨e - 1, 2 ^ 53, by rw [hF2]; rw [max_eq_left (by omega)]; ring, ?_, ?_,
          Or.inr ⟨rfl, hm52, rfl⟩⟩
        · rw [em1]
          rw [hmq] at hlo3
          push_cast
          linarith
        · rw [em1]
          rw [e52] at hA
          push_cast
          linarith
  obtain ⟨e', M, he', hMlo, hMhi, hcase⟩ := key
  have hround := roundScaled_near num den M e' hden hMlo hMhi _ _ rfl rfl
  rw [roundFloat64_unfold neg num den (by omega) fl e' _ _ _ hfl.symm he' rfl rfl rfl, hround]
  rcases hcase with ⟨hM, hE⟩ | ⟨hM, hm52, hE⟩
  · subst hM hE
    have h53 : ¬ M = 2 ^ 53 := by omega
    have h0 : ¬ M = 0 := by omega
    simp only [h53, if_false, h0]
    rw [if_neg (by omega)]
  · subst hM hE
    simp only [if_true]
    rw [if_neg (by omega)]
    have : ¬ ((2 : ℕ) ^ 52 = 0) := by norm_num
    simp only [this, if_false, hm52]
    congr 2
    ring

theorem roundStep_scale (n d c : ℕ) (hc : 0 < c) :
    (if d * c < 2 * (n * c % (d * c)) ∨ (2 * (n * c % (d * c)) = d * c ∧ n * c / (d * c) % 2 = 1)
      then n * c / (d * c) + 1 else n * c / (d * c)) =
    (if d < 2 * (n % d) ∨ (2 * (n % d) = d ∧ n / d % 2 = 1) then n / d + 1 else n / d) := by
  rw [Nat.mul_div_mul_right _ _ hc, Nat.mul_mod_mul_right]
  have h1 : (d * c < 2 * (n % d * c)) ↔ d < 2 * (n % d) := by
    rw [← Nat.mul_assoc]
    exact Nat.mul_lt_mul_right hc
  have h2 : (2 * (n % d * c) = d * c) ↔ 2 * (n % d) = d := by
    rw [← Nat.mul_assoc]
    exact Nat.mul_left_inj (by omega)
  simp only [h1, h2]

/-- The result of `roundFloat64` depends on the quotient only: a common factor of the
numerator and the denominator changes nothing. -/
theorem roundFloat64_scale (neg : Bool) (num den c : ℕ) (hden : 0 < den) (hc : 0 < c) :
    roundFloat64 neg (num * c) (den * c) = roundFloat64 neg num den := by
  by_cases h0 : num = 0
  · subst h0
    simp [roundFloat64]
  have hnum : 0 < num := Nat.pos_of_ne_zero h0
  have hnc : 0 < num * c := Nat.mul_pos hnum hc
  have hdc : 0 < den * c := Nat.mul_pos hden hc
  obtain ⟨ha1, ha2⟩ := log2Aux_spec num num hnum (le_refl _)
  obtain ⟨hb1, hb2⟩ := log2Aux_spec den den hden (le_refl _)
  obtain ⟨hc1, hc2⟩ := log2Aux_spec (num * c) (num * c) hnc (le_refl _)
  obtain ⟨hd1, hd2⟩ := log2Aux_spec (den * c) (den * c) hdc (le_refl _)
  change 2 ^ log2 num ≤ num at ha1
  change num < 2 ^ (log2 num + 1) at ha2
  change 2 ^ log2 den ≤ den at hb1
  change den < 2 ^ (log2 den + 1) at hb2
  change 2 ^ log2 (num * c) ≤ num * c at hc1
  change num * c < 2 ^ (log2 (num * c) + 1) at hc2
  change 2 ^ log2 (den * c) ≤ den * c at hd1
  change den * c < 2 ^ (log2 (den * c) + 1) at hd2
  obtain ⟨hf1, hf2⟩ := floorLog2_bounds num den (log2 num) (log2 den) hden ha1 ha2 hb1 hb2 _ rfl
  obtain ⟨hg1, hg2⟩ := floorLog2_bounds (num * c) (den * c) (log2 (num * c)) (log2 (den * c))
    hdc hc1 hc2 hd1 hd2 _ rfl
  have hq : (((num * c : ℕ) : ℚ)) / ((den * c : ℕ) : ℚ) = (num : ℚ) / den := by
    have hcq : (c : ℚ) ≠ 0 := by exact_mod_cast hc.ne'
    push_cast
    rw [mul_div_mul_right _ _ hcq]
  rw [hq] at hg1 hg2
  have hfl := zpow_floor_unique _ _ _ hg1 hg2 hf1 hf2
  rw [roundFloat64_unfold neg num den h0 _ _ _ _ _ rfl rfl rfl rfl rfl,
    roundFloat64_unfold neg (num * c) (den * c) (by omega) _ _ _ _ _ rfl rfl rfl rfl rfl]
  rw [hfl]
  generalize max ((if (if 0 ≤ (log2 num : ℤ) - (log2 den : ℤ)
        then decide (den * 2 ^ ((log2 num : ℤ) - (log2 den : ℤ)).toNat ≤ num)
        else decide (den ≤ num * 2 ^ (-((log2 num : ℤ) - (log2 den : ℤ))).toNat)) = true
      then (log2 num : ℤ) - (log2 den : ℤ) else (log2 num : ℤ) - (log2 den : ℤ) - 1) - 52)
      (-1074) = e
  have hround : (if (if 0 ≤ e then den * c * 2 ^ e.toNat else den * c) <
          2 * ((if 0 ≤ e then num * c else num * c * 2 ^ (-e).toNat) %
            (if 0 ≤ e then den * c * 2 ^ e.toNat else den * c)) ∨
        (2 * ((if 0 ≤ e then num * c else num * c * 2 ^ (-e).toNat) %
            (if 0 ≤ e then den * c * 2 ^ e.toNat else den * c)) =
          (if 0 ≤ e then den * c * 2 ^ e.toNat else den * c) ∧
          (if 0 ≤ e then num * c else num * c * 2 ^ (-e).toNat) /
            (if 0 ≤ e then den * c * 2 ^ e.toNat else den * c) % 2 = 1)
      then (if 0 ≤ e then num * c else num * c * 2 ^ (-e).toNat) /
          (if 0 ≤ e then den * c * 2 ^ e.toNat else den * c) + 1
      else (if 0 ≤ e then num * c else num * c * 2 ^ (-e).toNat) /
          (if 0 ≤ e then den * c * 2 ^ e.toNat else den * c)) =
      (if (if 0 ≤ e then den * 2 ^ e.toNat else den) <
          2 * ((if 0 ≤ e then num else num * 2 ^ (-e).toNat) %
            (if 0 ≤ e then den * 2 ^ e.toNat else den)) ∨
        (2 * ((if 0 ≤ e then num else num * 2 ^ (-e).toNat) %
            (if 0 ≤ e then den * 2 ^ e.toNat else den)) =
          (if 0 ≤ e then den * 2 ^ e.toNat else den) ∧
          (if 0 ≤ e then num else num * 2 ^ (-e).toNat) /
            (if 0 ≤ e then den * 2 ^ e.toNat else den) % 2 = 1)
      then (if 0 ≤ e then num else num * 2 ^ (-e).toNat) /
          (if 0 ≤ e then den * 2 ^ e.toNat else den) + 1
      else (if 0 ≤ e then num else num * 2 ^ (-e).toNat) /
          (if 0 ≤ e then den * 2 ^ e.toNat else den)) := by
    by_cases hs : 0 ≤ e
    · simp only [if_pos hs]
      have e1 : den * c * 2 ^ e.toNat = den * 2 ^ e.toNat * c := by ring
      rw [e1]
      exact roundStep_scale _ _ c hc
    · simp only [if_neg hs]
      have e1 : num * c * 2 ^ (-e).toNat = num * 2 ^ (-e).toNat * c := by ring
      rw [e1]
      exact roundStep_scale _ _ c hc
  rw [hround]

/-- Two quotients that are equal are rounded to the same `float64`. -/
theorem roundFloat64_congr (neg : Bool) (n1 d1 n2 d2 : ℕ) (h1 : 0 < d1) (h2 : 0 < d2)
    (h : n1 * d2 = n2 * d1) : roundFloat64 neg n1 d1 = roundFloat64 neg n2 d2 := by
  rw [← roundFloat64_scale neg n1 d1 d2 h1 h2, ← roundFloat64_scale neg n2 d2 d1 h2 h1, h,
    Nat.mul_comm d1 d2]

theorem zpow_ten_toNat (e : ℤ) (h : 0 ≤ e) : ((10 ^ e.toNat : ℕ) : ℚ) = (10 : ℚ) ^ e := by
  conv_rhs => rw [← Int.toNat_of_nonneg h]
  rw [zpow_natCast]
  push_cast
  rfl

theorem zpow_ten_neg_toNat (e : ℤ) (h : e ≤ 0) :
    ((10 ^ (-e).toNat : ℕ) : ℚ) = ((10 : ℚ) ^ e)⁻¹ := by
  rw [zpow_ten_toNat (-e) (by omega), zpow_neg]

/-- The decimal `digits * 10^exp10` as a quotient of the two numbers `parseDecimal`
rounds. -/
theorem parseDecimal_quotient (neg : Bool) (D : ℕ) (E : ℤ) :
    ∃ n d : ℕ, 0 < d ∧ parseDecimal neg D E = roundFloat64 neg n d ∧
      (n : ℚ) / d = (D : ℚ) * (10 : ℚ) ^ E := by
  by_cases hs : 0 ≤ E
  · refine ⟨D * 10 ^ E.toNat, 1, by omega, by simp [parseDecimal, hs], ?_⟩
    rw [Nat.cast_mul, zpow_ten_toNat E hs]
    simp
  · refine ⟨D, 10 ^ (-E).toNat, by positivity, by simp [parseDecimal, hs], ?_⟩
    rw [zpow_ten_neg_toNat E (by omega), div_inv_eq_mul]

/-- The `float64` of a decimal depends on its value only. -/
theorem parseDecimal_congr (neg : Bool) (D1 D2 : ℕ) (E1 E2 : ℤ)
    (h : (D1 : ℚ) * (10 : ℚ) ^ E1 = (D2 : ℚ) * (10 : ℚ) ^ E2) :
    parseDecimal neg D1 E1 = parseDecimal neg D2 E2 := by
  obtain ⟨n1, d1, hd1, hp1, hq1⟩ := parseDecimal_quotient neg D1 E1
  obtain ⟨n2, d2, hd2, hp2, hq2⟩ := parseDecimal_quotient neg D2 E2
  rw [hp1, hp2]
  apply roundFloat64_congr neg n1 d1 n2 d2 hd1 hd2
  have hd1q : (0 : ℚ) < d1 := by exact_mod_cast hd1
  have hd2q : (0 : ℚ) < d2 := by exact_mod_cast hd2
  have : (n1 : ℚ) / d1 = (n2 : ℚ) / d2 := by rw [hq1, hq2, h]
  rw [div_eq_div_iff hd1q.ne' hd2q.ne'] at this
  exact_mod_cast this

theorem stripZeros_value (fuel : ℕ) : ∀ (d : ℕ) (e : ℤ),
    ((stripZeros fuel d e).1 : ℚ) * (10 : ℚ) ^ (stripZeros fuel d e).2 = (d : ℚ) * (10 : ℚ) ^ e := by
  induction fuel with
  | zero => intro d e; rfl
  | succ n ih =>
    intro d e
    simp only [stripZeros]
    split
    · rename_i h
      rw [ih]
      have hd : d = d / 10 * 10 := by omega
      have : (d : ℚ) = ((d / 10 : ℕ) : ℚ) * 10 := by
        conv_lhs => rw [hd]
        push_cast
        rfl
      rw [this, zpow_add_one₀ (by norm_num : (10 : ℚ) ≠ 0)]
      have e1 : ((d / 10 * 10 / 10 : ℕ) : ℚ) = ((d / 10 : ℕ) : ℚ) := by
        rw [Nat.mul_div_cancel _ (by norm_num)]
      rw [← hd] at e1
      ring
    · rfl

theorem map_sub_formatNat (d : ℕ) : (formatNat d).map (· - 48) = decimalDigits d := by
  unfold formatNat
  rw [List.map_map]
  have : ((fun x => x - 48) ∘ fun x => x + 48) = (id : ℕ → ℕ) := by
    funext x; simp
  rw [this, List.map_id]

theorem length_formatNat (d : ℕ) : (formatNat d).length = (decimalDigits d).length := by
  simp [formatNat]

theorem digitsValue_cons_zero (l : List ℕ) : digitsValue (0 :: l) = digitsValue l := by
  simp [digitsValue]

theorem digitsValue_replicate_zero (n : ℕ) (l : List ℕ) :
    digitsValue (List.replicate n 0 ++ l) = digitsValue l := by
  induction n with
  | zero => simp
  | succ n ih => rw [List.replicate_succ, List.cons_append, digitsValue_cons_zero, ih]

theorem digitsValue_append_zeros (l : List ℕ) (n : ℕ) :
    digitsValue (l ++ List.replicate n 0) = digitsValue l * 10 ^ n := by
  induction n with
  | zero => simp
  | succ n ih =>
    rw [List.replicate_succ', ← List.append_assoc, digitsValue_append, ih, pow_succ]
    ring

theorem map_replicate_48 (n : ℕ) :
    (List.replicate n 48).map (· - 48) = List.replicate n 0 := by
  simp

/-- The text `formatFloat64` writes for a `float64` other than zero is read as a number of
the value of the shortest decimal. -/
theorem parseNumber_formatFloat64 (f : Float64) (hm : f.mant ≠ 0) :
    ∃ (D : ℕ) (E : ℤ),
      (D : ℚ) * (10 : ℚ) ^ E =
        ((shortestDecimal f).1 : ℚ) * (10 : ℚ) ^ (shortestDecimal f).2 ∧
      ∀ rest, Delimited rest →
        parseNumber (formatFloat64 f ++ rest) = some (.num f.neg D E, rest) := by
  have hval := stripZeros_value 17 (shortestDecimal f).1 (shortestDecimal f).2
  have hz := stripZeros_zero 17 _ _ (shortestDecimal_zero f hm)
  unfold formatFloat64
  simp only [hm, if_false]
  rcases hs : stripZeros 17 (shortestDecimal f).1 (shortestDecimal f).2 with ⟨d, e⟩
  rw [hs] at hz hval
  simp only at hz hval ⊢
  rw [← hval]
  have hds := digitText_formatNat d
  have hne := formatNat_ne_nil d
  have hlen : 0 < (formatNat d).length := List.length_pos.mpr hne
  have hmap := map_sub_formatNat d
  have hdv := digitsValue_decimalDigits d
  split
  · -- exponent form
    have hw0 : (formatNat d).take 1 ≠ [] := by
      intro h
      rw [List.take_eq_nil_iff] at h
      rcases h with h | h
      · omega
      · exact hne h
    have hlead : (formatNat d).take 1 = [48] ∨ ∀ b r, (formatNat d).take 1 = b :: r → b ≠ 48 := by
      obtain ⟨b, r, hb⟩ := List.exists_cons_of_ne_nil hne
      rw [hb]
      by_cases h48 : b = 48
      · left; simp [h48]
      · right
        intro b2 r2 h2
        simp at h2
        omega
    have hxs : ([if ((formatNat d).length : ℤ) + e - 1 < 0 then 45 else 43] = [45] ∧
          decide (((formatNat d).length : ℤ) + e - 1 < 0) = true) ∨
        ([if ((formatNat d).length : ℤ) + e - 1 < 0 then 45 else 43] = [43] ∧
          decide (((formatNat d).length : ℤ) + e - 1 < 0) = false) := by
      by_cases hx : ((formatNat d).length : ℤ) + e - 1 < 0
      · left; simp [hx]
      · right; simp [hx]
    have hp := fun (rest : List ℕ) (hr : Delimited rest) => parseNumber_text_eq f.neg ((formatNat d).take 1) ((formatNat d).drop 1)
      (formatNat ((formatNat d).length + e - 1 : ℤ).natAbs) rest
      (decide (((formatNat d).length : ℤ) + e - 1 < 0))
      [if ((formatNat d).length : ℤ) + e - 1 < 0 then 45 else 43]
      (digitText_take hds 1) hw0 hlead (digitText_drop hds 1) (digitText_formatNat _) hxs hr
    have hex : formatNat ((formatNat d).length + e - 1 : ℤ).natAbs ≠ [] := formatNat_ne_nil _
    have htext : (if f.neg = true then [45] else []) ++
          ((formatNat d).take 1 ++ if 1 < (formatNat d).length then 46 :: (formatNat d).drop 1
            else []) ++
          [101, if ((formatNat d).length : ℤ) + e - 1 < 0 then 45 else 43] ++
          formatNat ((formatNat d).length + e - 1 : ℤ).natAbs =
        (if f.neg = true then [45] else []) ++ (formatNat d).take 1 ++
          (if (formatNat d).drop 1 = [] then [] else 46 :: (formatNat d).drop 1) ++
          (if formatNat ((formatNat d).length + e - 1 : ℤ).natAbs = [] then []
            else 101 :: ([if ((formatNat d).length : ℤ) + e - 1 < 0 then 45 else 43] ++
              formatNat ((formatNat d).length + e - 1 : ℤ).natAbs)) := by
      by_cases h1 : 1 < (formatNat d).length
      · have hdrop : (formatNat d).drop 1 ≠ [] := by
          intro h; rw [List.drop_eq_nil_iff] at h; omega
        simp only [h1, if_true, hdrop, if_false, hex]
        simp
      · have hdrop : (formatNat d).drop 1 = [] := by
          rw [List.drop_eq_nil_iff]; omega
        simp only [h1, if_false, hdrop, if_true, hex]
        simp
    refine ⟨_, _, ?_, fun rest hr => by rw [htext]; exact hp rest hr⟩
    rw [← List.map_append, List.take_append_drop, hmap, hdv, map_sub_formatNat,
      digitsValue_decimalDigits, if_neg hex]
    congr 2
    have hl : (((formatNat d).drop 1).map (· - 48)).length = (formatNat d).length - 1 := by
      simp
    rw [hl]
    by_cases hx : ((formatNat d).length : ℤ) + e - 1 < 0
    · simp only [hx, decide_True, if_true]
      omega
    · simp only [hx, decide_False, Bool.false_eq_true, if_false]
      omega
  · split
    · -- 0.000ddd
      rename_i hdp0 hdp
      have hp := fun (rest : List ℕ) (hr : Delimited rest) => parseNumber_text_eq f.neg [48]
        (List.replicate (-(((formatNat d).length : ℤ) + e)).toNat 48 ++ formatNat d) [] rest
        false [43] (by intro b hb; simp at hb; subst hb; decide) (by simp) (Or.inl rfl)
        (digitText_append (digitText_replicate _) hds) (by intro b hb; simp at hb)
        (Or.inr ⟨rfl, rfl⟩) hr
      have hfr : List.replicate (-(((formatNat d).length : ℤ) + e)).toNat 48 ++ formatNat d
          ≠ [] := by simp [hne]
      have htext : (if f.neg = true then [45] else []) ++ [48, 46] ++
            List.replicate (-(((formatNat d).length : ℤ) + e)).toNat 48 ++ formatNat d =
          (if f.neg = true then [45] else []) ++ [48] ++
            (if List.replicate (-(((formatNat d).length : ℤ) + e)).toNat 48 ++ formatNat d = []
              then []
              else 46 :: (List.replicate (-(((formatNat d).length : ℤ) + e)).toNat 48 ++
                formatNat d)) ++
            (if ([] : List ℕ) = [] then [] else 101 :: ([43] ++ [])) := by
        rw [if_neg hfr]
        simp
      refine ⟨_, _, ?_, fun rest hr => by rw [htext]; exact hp rest hr⟩
      rw [List.map_append, map_replicate_48, hmap]
      have e1 : ([48] : List ℕ).map (· - 48) = [0] := rfl
      rw [e1, List.singleton_append, digitsValue_cons_zero, digitsValue_replicate_zero, hdv]
      congr 2
      simp only [if_true, List.length_append, List.length_replicate, length_formatNat]
      rw [length_formatNat] at hdp
      push_cast
      omega
    · split
      · -- ddd000
        rename_i hdp0 hdp hk
        have hlead : (formatNat d ++ List.replicate ((((formatNat d).length : ℤ) + e)
              - ((formatNat d).length : ℤ)).toNat 48 = [48]) ∨
            ∀ b r, formatNat d ++ List.replicate ((((formatNat d).length : ℤ) + e)
              - ((formatNat d).length : ℤ)).toNat 48 = b :: r → b ≠ 48 := by
          by_cases hd : d = 0
          · left
            have he : e = 0 := hz hd
            subst hd he
            simp [formatNat_zero]
          · right
            obtain ⟨b, r, hb, h48⟩ := formatNat_head d hd
            intro b2 r2 h2
            rw [hb] at h2
            simp at h2
            omega
        have hp := fun (rest : List ℕ) (hr : Delimited rest) => parseNumber_text_eq f.neg
          (formatNat d ++ List.replicate ((((formatNat d).length : ℤ) + e)
            - ((formatNat d).length : ℤ)).toNat 48) [] [] rest false [43]
          (digitText_append hds (digitText_replicate _)) (by simp [hne]) hlead
          (by intro b hb; simp at hb) (by intro b hb; simp at hb) (Or.inr ⟨rfl, rfl⟩) hr
        have htext : (if f.neg = true then [45] else []) ++ formatNat d ++
              List.replicate ((((formatNat d).length : ℤ) + e)
                - ((formatNat d).length : ℤ)).toNat 48 =
            (if f.neg = true then [45] else []) ++
              (formatNat d ++ List.replicate ((((formatNat d).length : ℤ) + e)
                - ((formatNat d).length : ℤ)).toNat 48) ++
              (if ([] : List ℕ) = [] then [] else 46 :: []) ++
              (if ([] : List ℕ) = [] then [] else 101 :: ([43] ++ [])) := by
          simp
        refine ⟨_, _, ?_, fun rest hr => by rw [htext]; exact hp rest hr⟩
        rw [List.map_append, map_replicate_48, hmap, List.map_nil, List.append_nil,
          digitsValue_append_zeros, hdv]
        have he0 : 0 ≤ e := by omega
        have e1 : ((((formatNat d).length : ℤ) + e) - ((formatNat d).length : ℤ)).toNat
            = e.toNat := by
          congr 1; ring
        rw [e1]
        simp only [if_true, List.length_nil, Nat.cast_zero, sub_zero, zpow_zero, mul_one]
        rw [Nat.cast_mul, zpow_ten_toNat e he0]
      · -- ddd.ddd
        rename_i hdp0 hdp hk
        have hdpos : 0 < ((formatNat d).length : ℤ) + e := by omega
        have hlt : ((formatNat d).length : ℤ) + e < (formatNat d).length := by omega
        have hd : d ≠ 0 := by
          intro hd
          have he : e = 0 := hz hd
          subst hd he
          simp [formatNat_zero] at hlt
        have hw0 : (formatNat d).take (((formatNat d).length : ℤ) + e).toNat ≠ [] := by
          intro h
          rw [List.take_eq_nil_iff] at h
          rcases h with h | h
          · omega
          · exact hne h
        have hlead : (formatNat d).take (((formatNat d).length : ℤ) + e).toNat = [48] ∨
            ∀ b r, (formatNat d).take (((formatNat d).length : ℤ) + e).toNat = b :: r →
              b ≠ 48 := by
          right
          obtain ⟨b, r, hb, h48⟩ := formatNat_head d hd
          intro b2 r2 h2
          rw [hb] at h2
          obtain ⟨n, hn⟩ : ∃ n, (((b :: r).length : ℤ) + e).toNat = n + 1 :=
            ⟨(((b :: r).length : ℤ) + e).toNat - 1, by rw [hb] at hdpos; omega⟩
          rw [hn] at h2
          simp at h2
          omega
        have hp := fun (rest : List ℕ) (hr : Delimited rest) => parseNumber_text_eq f.neg
          ((formatNat d).take (((formatNat d).length : ℤ) + e).toNat)
          ((formatNat d).drop (((formatNat d).length : ℤ) + e).toNat) [] rest false [43]
          (digitText_take hds _) hw0 hlead (digitText_drop hds _) (by intro b hb; simp at hb)
          (Or.inr ⟨rfl, rfl⟩) hr
        have hdrop : (formatNat d).drop (((formatNat d).length : ℤ) + e).toNat ≠ [] := by
          intro h; rw [List.drop_eq_nil_iff] at h; omega
        have htext : (if f.neg = true then [45] else []) ++
              (formatNat d).take (((formatNat d).length : ℤ) + e).toNat ++ [46] ++
              (formatNat d).drop (((formatNat d).length : ℤ) + e).toNat =
            (if f.neg = true then [45] else []) ++
              (formatNat d).take (((formatNat d).length : ℤ) + e).toNat ++
              (if (formatNat d).drop (((formatNat d).length : ℤ) + e).toNat = [] then []
                else 46 :: (formatNat d).drop (((formatNat d).length : ℤ) + e).toNat) ++
              (if ([] : List ℕ) = [] then [] else 101 :: ([43] ++ [])) := by
          rw [if_neg hdrop]
          simp
        refine ⟨_, _, ?_, fun rest hr => by rw [htext]; exact hp rest hr⟩
        rw [← List.map_append, List.take_append_drop, hmap, hdv]
        congr 2
        simp only [if_true, List.length_map, List.length_drop]
        omega

/-- The search for the decimal exponent stops at a power of ten that is not above the
quotient. -/
theorem floorLog10_le (num den : ℕ) (hden : 0 < den) : ∀ (fuel : ℕ) (lo : ℤ),
    (10 : ℚ) ^ lo ≤ (num : ℚ) / den →
      (10 : ℚ) ^ (floorLog10 fuel lo num den) ≤ (num : ℚ) / den := by
  have hdq : (0 : ℚ) < den := by exact_mod_cast hden
  intro fuel
  induction fuel with
  | zero => intro lo h; exact h
  | succ n ih =>
    intro lo h
    simp only [floorLog10]
    by_cases hreach : (if 0 ≤ lo + 1 then decide (den * 10 ^ (lo + 1).toNat ≤ num)
        else decide (den ≤ num * 10 ^ (-(lo + 1)).toNat)) = true
    · rw [if_pos hreach]
      apply ih
      by_cases hs : 0 ≤ lo + 1
      · rw [if_pos hs, decide_eq_true_iff] at hreach
        rw [le_div_iff₀ hdq, ← zpow_ten_toNat _ hs]
        have : ((den * 10 ^ (lo + 1).toNat : ℕ) : ℚ) ≤ num := by exact_mod_cast hreach
        push_cast at this ⊢
        linarith
      · rw [if_neg hs, decide_eq_true_iff] at hreach
        have hz := zpow_ten_neg_toNat (lo + 1) (by omega)
        have hpos : (0 : ℚ) < (10 : ℚ) ^ (lo + 1) := zpow_pos (by norm_num) _
        have h' : ((den : ℕ) : ℚ) ≤ ((num * 10 ^ (-(lo + 1)).toNat : ℕ) : ℚ) := by
          exact_mod_cast hreach
        rw [Nat.cast_mul, hz] at h'
        rw [le_div_iff₀ hdq]
        have := mul_le_mul_of_nonneg_right h' hpos.le
        rw [mul_assoc, inv_mul_cancel₀ hpos.ne', mul_one] at this
        linarith
    · rw [if_neg hreach]
      exact h

theorem try_readsBack (f : Float64) (lo : ℕ) (sh : ℤ) (c : Prop) [Decidable c] (r : ℕ × ℤ)
    (hr : (if readsBack f lo sh = true ∧ c then some (lo, sh)
      else if readsBack f (lo + 1) sh = true then some (lo + 1, sh) else none) = some r) :
    readsBack f r.1 r.2 = true := by
  split at hr
  · rename_i h
    simp only [Option.some.injEq] at hr
    rw [← hr]; exact h.1
  · split at hr
    · rename_i h
      simp only [Option.some.injEq] at hr
      rw [← hr]; exact h
    · simp at hr

theorem getD_findSome_exists {α β : Type} (P : β → Prop) (g : α → Option β) (dflt : β)
    (l : List α) (hg : ∀ a r, g a = some r → P r) (hex : ∃ a ∈ l, (g a).isSome = true) :
    P ((l.findSome? g).getD dflt) := by
  induction l with
  | nil => obtain ⟨a, ha, -⟩ := hex; simp at ha
  | cons a l ih =>
    simp only [List.findSome?]
    cases ha : g a with
    | some r => simpa using hg a r ha
    | none =>
      obtain ⟨b, hb, hsome⟩ := hex
      rcases List.mem_cons.mp hb with h | h
      · subst h; rw [ha] at hsome; simp at hsome
      · simpa using ih ⟨b, h, hsome⟩

/-- The value of a `float64` as the quotient `shortestDecimal` works with. -/
theorem float_quotient (m : ℕ) (e : ℤ) :
    (((if 0 ≤ e then m * 2 ^ e.toNat else m : ℕ)) : ℚ) /
      ((if 0 ≤ e then 1 else 2 ^ (-e).toNat : ℕ) : ℚ) = (m : ℚ) * (2 : ℚ) ^ e := by
  by_cases hs : 0 ≤ e
  · rw [if_pos hs, if_pos hs, Nat.cast_mul, zpow_two_toNat e hs]
    simp
  · rw [if_neg hs, if_neg hs, zpow_two_neg_toNat e (by omega), div_inv_eq_mul]

theorem scaled_quotient (num den : ℕ) (sh : ℤ) (hden : 0 < den) :
    (((if 0 ≤ sh then num else num * 10 ^ (-sh).toNat : ℕ)) : ℚ) /
      ((if 0 ≤ sh then den * 10 ^ sh.toNat else den : ℕ) : ℚ) =
        (num : ℚ) / den / (10 : ℚ) ^ sh ∧
    0 < (if 0 ≤ sh then den * 10 ^ sh.toNat else den) := by
  by_cases hs : 0 ≤ sh
  · rw [if_pos hs, if_pos hs, Nat.cast_mul, zpow_ten_toNat sh hs]
    exact ⟨by rw [div_div], by positivity⟩
  · rw [if_neg hs, if_neg hs, Nat.cast_mul, zpow_ten_neg_toNat sh (by omega)]
    exact ⟨by rw [div_eq_mul_inv, div_eq_mul_inv, div_eq_mul_inv]; ring, hden⟩

/-- A decimal of at least 17 significant digits that is within half a unit of its last
digit of a `float64` reads back as that `float64`. -/
theorem nearDecimal_readsBack (f : Float64) (hm1 : 1 ≤ f.mant) (hm2 : f.mant < 2 ^ 53)
    (hcan : 2 ^ 52 ≤ f.mant ∨ f.exp = -1074) (he1 : -1074 ≤ f.exp) (he2 : f.exp ≤ 971)
    (c : ℕ) (sh : ℤ)
    (hp : (10 : ℚ) ^ sh * 10 ^ 16 ≤ (f.mant : ℚ) * (2 : ℚ) ^ f.exp)
    (h1 : (f.mant : ℚ) * (2 : ℚ) ^ f.exp - (10 : ℚ) ^ sh / 2 ≤ (c : ℚ) * (10 : ℚ) ^ sh)
    (h2 : (c : ℚ) * (10 : ℚ) ^ sh ≤ (f.mant : ℚ) * (2 : ℚ) ^ f.exp + (10 : ℚ) ^ sh / 2) :
    readsBack f c sh = true := by
  have ht : (0 : ℚ) < (10 : ℚ) ^ sh := zpow_pos (by norm_num) _
  have hT : (0 : ℚ) < (2 : ℚ) ^ f.exp := zpow_pos (by norm_num) _
  obtain ⟨n, d, hd, hpd, hq⟩ := parseDecimal_quotient f.neg c sh
  generalize (10 : ℚ) ^ sh = t at *
  have hmq : (f.mant : ℚ) ≤ 2 ^ 53 - 1 := by
    have : f.mant + 1 ≤ 2 ^ 53 := hm2
    have : ((f.mant + 1 : ℕ) : ℚ) ≤ ((2 ^ 53 : ℕ) : ℚ) := by exact_mod_cast this
    push_cast at this
    linarith
  have hmT : (f.mant : ℚ) * (2 : ℚ) ^ f.exp ≤ (2 ^ 53 - 1) * (2 : ℚ) ^ f.exp :=
    mul_le_mul_of_nonneg_right hmq hT.le
  have hdq : (0 : ℚ) < d := by exact_mod_cast hd
  have hxpos : (0 : ℚ) < (c : ℚ) * t := by
    norm_num at hp hmT
    linarith
  have hn : 0 < n := by
    rcases Nat.eq_zero_or_pos n with h | h
    · have h0 : (0 : ℚ) = (c : ℚ) * t := by rw [← hq, h]; simp
      rw [← h0] at hxpos
      exact absurd hxpos (lt_irrefl _)
    · exact h
  simp only [readsBack, decide_eq_true_eq]
  rw [hpd]
  have := roundFloat64_near f.neg n d f.mant f.exp hn hd hm1 hm2 hcan he1 he2
    (by rw [hq]; norm_num at hp hmT ⊢; linarith)
    (by
      intro h52 _
      rw [hq]
      have : (f.mant : ℚ) = 2 ^ 52 := by rw [h52]; norm_num
      rw [this] at hp h1 ⊢
      norm_num at hp h1 ⊢
      linarith)
    (by rw [hq]; norm_num at hp hmT ⊢; linarith)
  rw [this]

/-- One of the two decimals around a `float64` at 17 significant digits reads back. -/
theorem try_near (f : Float64) (hm1 : 1 ≤ f.mant) (hm2 : f.mant < 2 ^ 53)
    (hcan : 2 ^ 52 ≤ f.mant ∨ f.exp = -1074) (he1 : -1074 ≤ f.exp) (he2 : f.exp ≤ 971)
    (num den : ℕ) (hden : 0 < den)
    (hv : (num : ℚ) / den = (f.mant : ℚ) * (2 : ℚ) ^ f.exp) (sh : ℤ)
    (hp : (10 : ℚ) ^ sh * 10 ^ 16 ≤ (num : ℚ) / den) (sn sd : ℕ)
    (hsn : sn = if 0 ≤ sh then num else num * 10 ^ (-sh).toNat)
    (hsd : sd = if 0 ≤ sh then den * 10 ^ sh.toNat else den) :
    ((if readsBack f (sn / sd) sh = true ∧
        (¬ readsBack f (sn / sd + 1) sh = true ∨ 2 * (sn % sd) ≤ sd)
      then some (sn / sd, sh)
      else if readsBack f (sn / sd + 1) sh = true then some (sn / sd + 1, sh)
      else none).isSome) = true := by
  subst hsn hsd
  obtain ⟨hq, hsdpos⟩ := scaled_quotient num den sh hden
  generalize (if 0 ≤ sh then num else num * 10 ^ (-sh).toNat) = sn at *
  generalize (if 0 ≤ sh then den * 10 ^ sh.toNat else den) = sd at *
  have ht : (0 : ℚ) < (10 : ℚ) ^ sh := zpow_pos (by norm_num) _
  have hsdq : (0 : ℚ) < sd := by exact_mod_cast hsdpos
  have hdiv : ((sn : ℕ) : ℚ) = ((sd * (sn / sd) + sn % sd : ℕ) : ℚ) := by
    rw [Nat.div_add_mod]
  push_cast at hdiv
  have hmod : ((sn % sd : ℕ) : ℚ) < sd := by exact_mod_cast Nat.mod_lt sn hsdpos
  have hmod0 : (0 : ℚ) ≤ ((sn % sd : ℕ) : ℚ) := by exact_mod_cast Nat.zero_le _
  -- the value in units of the last digit
  have hy : (f.mant : ℚ) * (2 : ℚ) ^ f.exp
      = ((sn / sd : ℕ) : ℚ) * (10 : ℚ) ^ sh + ((sn % sd : ℕ) : ℚ) / sd * (10 : ℚ) ^ sh := by
    rw [← hv]
    have : (num : ℚ) / den = (sn : ℚ) / sd * (10 : ℚ) ^ sh := by
      rw [hq]; field_simp; ring
    rw [this, hdiv]
    field_simp
    ring
  rw [hv] at hp
  by_cases hr : 2 * (sn % sd) ≤ sd
  · have hrq : 2 * ((sn % sd : ℕ) : ℚ) ≤ sd := by exact_mod_cast hr
    have hfrac : ((sn % sd : ℕ) : ℚ) / sd ≤ 1 / 2 := by
      rw [div_le_iff₀ hsdq]; linarith
    have hfrac0 : 0 ≤ ((sn % sd : ℕ) : ℚ) / sd := div_nonneg hmod0 hsdq.le
    have hlo : readsBack f (sn / sd) sh = true := by
      apply nearDecimal_readsBack f hm1 hm2 hcan he1 he2 _ _ hp
      · rw [hy]; nlinarith
      · rw [hy]; nlinarith
    simp [hlo, hr]
  · have hrq : (sd : ℚ) < 2 * ((sn % sd : ℕ) : ℚ) := by
      have : sd < 2 * (sn % sd) := by omega
      exact_mod_cast this
    have hfrac : 1 / 2 < ((sn % sd : ℕ) : ℚ) / sd := by
      rw [lt_div_iff₀ hsdq]; linarith
    have hfrac1 : ((sn % sd : ℕ) : ℚ) / sd < 1 := by
      rw [div_lt_iff₀ hsdq]; linarith
    have hhi : readsBack f (sn / sd + 1) sh = true := by
      apply nearDecimal_readsBack f hm1 hm2 hcan he1 he2 _ _ hp
      · rw [hy]; push_cast; nlinarith
      · rw [hy]; push_cast; nlinarith
    simp [hhi, hr]

theorem pow10_le_float (m : ℕ) (e : ℤ) (hm : 1 ≤ m) (he : -1074 ≤ e) :
    (10 : ℚ) ^ (-400 : ℤ) ≤ (m : ℚ) * (2 : ℚ) ^ e := by
  have h1 : (10 : ℚ) ^ (-400 : ℤ) ≤ (2 : ℚ) ^ (-1074 : ℤ) := by
    rw [zpow_neg, zpow_neg, inv_le_inv₀ (by positivity) (by positivity)]
    norm_num
  have h2 : (2 : ℚ) ^ (-1074 : ℤ) ≤ (2 : ℚ) ^ e := zpow_le_zpow_right₀ (by norm_num) he
  have h3 : (0 : ℚ) < (2 : ℚ) ^ e := zpow_pos (by norm_num) _
  have hmq : (1 : ℚ) ≤ m := by exact_mod_cast hm
  nlinarith

/-- The decimal `shortestDecimal` finds for a finite `float64` other than zero reads back
as that `float64`: 17 significant digits are always enough. -/
theorem shortestDecimal_readsBack (f : Float64) (hm1 : 1 ≤ f.mant) (hm2 : f.mant < 2 ^ 53)
    (hcan : 2 ^ 52 ≤ f.mant ∨ f.exp = -1074) (he1 : -1074 ≤ f.exp) (he2 : f.exp ≤ 971) :
    readsBack f (shortestDecimal f).1 (shortestDecimal f).2 = true := by
  have hv := float_quotient f.mant f.exp
  have hden : 0 < (if 0 ≤ f.exp then 1 else 2 ^ (-f.exp).toNat) := by
    split
    · exact Nat.one_pos
    · positivity
  have hlow := pow10_le_float f.mant f.exp hm1 he1
  rw [← hv] at hlow
  have hp := floorLog10_le _ _ hden 800 (-400) hlow
  unfold shortestDecimal
  apply getD_findSome_exists (fun r : ℕ × ℤ => readsBack f r.1 r.2 = true)
  · intro i r hr
    exact try_readsBack f _ _ _ r hr
  · refine ⟨16, by decide, ?_⟩
    apply try_near f hm1 hm2 hcan he1 he2 _ _ hden hv _ _ _ _ rfl rfl
    have e1 : (10 : ℚ) ^ (floorLog10 800 (-400)
          (if 0 ≤ f.exp then f.mant * 2 ^ f.exp.toNat else f.mant)
          (if 0 ≤ f.exp then 1 else 2 ^ (-f.exp).toNat) - ((16 + 1 : ℕ) : ℤ) + 1) * 10 ^ 16
        = (10 : ℚ) ^ (floorLog10 800 (-400)
          (if 0 ≤ f.exp then f.mant * 2 ^ f.exp.toNat else f.mant)
          (if 0 ≤ f.exp then 1 else 2 ^ (-f.exp).toNat)) := by
      have h16 : ((10 : ℚ) ^ 16) = (10 : ℚ) ^ (16 : ℤ) := by norm_num
      rw [h16, ← zpow_add₀ (by norm_num : (10 : ℚ) ≠ 0)]
      congr 1
      push_cast
      ring
    rw [e1]
    exact hp

theorem parseValue_number (fuel depth c : ℕ) (r : List ℕ) (hcd : c = 45 ∨ isDigit c = true) :
    parseValue (fuel + 1) depth (c :: r) = parseNumber (c :: r) := by
  have hcr : c = 45 ∨ (48 ≤ c ∧ c ≤ 57) := by
    rcases hcd with h | h
    · exact Or.inl h
    · exact Or.inr (by simpa [isDigit] using h)
  have hne : c ≠ 123 ∧ c ≠ 91 ∧ c ≠ 34 ∧ c ≠ 116 ∧ c ≠ 102 ∧ c ≠ 110 := by omega
  rw [parseValue]
  simp only [hne.1, hne.2.1, hne.2.2.1, hne.2.2.2.1, hne.2.2.2.2.1, hne.2.2.2.2.2, if_false]
  rw [if_pos hcd]

theorem formatFloat64_head (f : Float64) :
    ∃ c r, formatFloat64 f = c :: r ∧ (c = 45 ∨ isDigit c = true) := by
  obtain ⟨neg, w, fr, ex, xneg, xsign, hw, hw0, hlead, hfr, hex, hxs, ht⟩ :=
    numberText_formatFloat64 f
  obtain ⟨b, r, hb⟩ := List.exists_cons_of_ne_nil hw0
  have hbd : isDigit b = true := hw b (by rw [hb]; simp)
  cases neg
  · exact ⟨b, r ++ ((if fr = [] then [] else 46 :: fr)
      ++ if ex = [] then [] else 101 :: (xsign ++ ex)), by rw [ht, hb]; simp, Or.inr hbd⟩
  · exact ⟨45, w ++ ((if fr = [] then [] else 46 :: fr)
      ++ if ex = [] then [] else 101 :: (xsign ++ ex)), by rw [ht]; simp, Or.inl rfl⟩

/-- A finite `float64` reads back from the text `json.Marshal` writes for it: the text,
followed by a delimiter, is read as one number, and `json.Unmarshal` stores that number
as the same `float64`. -/
theorem float64_scalar (f : Float64) (hf : f.Finite) :
    ∃ v, scalarJSON (.float64 f) = some v ∧ toAny v = some (.float64 f) ∧
      ∀ fuel depth rest, Delimited rest →
        parseValue (fuel + 1) depth (formatFloat64 f ++ rest) = some (v, rest) := by
  have hpv : ∀ fuel depth rest,
      parseValue (fuel + 1) depth (formatFloat64 f ++ rest)
        = parseNumber (formatFloat64 f ++ rest) := by
    intro fuel depth rest
    obtain ⟨c, r, hc, hcd⟩ := formatFloat64_head f
    rw [hc, List.cons_append]
    exact parseValue_number fuel depth c _ hcd
  rcases hf with ⟨hm, he⟩ | ⟨hm1, hm2, he1, he2, hcan⟩
  · have htext : formatFloat64 f = (if f.neg then [45] else []) ++ [48] := by
      simp [formatFloat64, hm]
    have hp : ∀ rest, Delimited rest →
        parseNumber (formatFloat64 f ++ rest) = some (.num f.neg 0 0, rest) := by
      intro rest hr
      have := parseNumber_text_eq f.neg [48] [] [] rest false [43]
        (by intro b hb; simp at hb; subst hb; decide) (by simp) (Or.inl rfl)
        (by intro b hb; simp at hb) (by intro b hb; simp at hb) (Or.inr ⟨rfl, rfl⟩) hr
      rw [htext]
      simpa [digitsValue] using this
    have h0 := hp [] (by intro b r h; simp at h)
    rw [List.append_nil] at h0
    refine ⟨.num f.neg 0 0, by simp [scalarJSON, h0], ?_, fun fuel depth rest hr => ?_⟩
    · have hfe : f = ⟨f.neg, 0, 0⟩ := by
        cases f
        simp only at hm he
        subst hm he
        rfl
      simp only [toAny, parseDecimal, le_refl, if_true, roundFloat64, Nat.zero_mul,
        Option.map_some']
      rw [← hfe]
    · rw [hpv, hp rest hr]
  · have hm : f.mant ≠ 0 := by omega
    obtain ⟨D, E, hval, hp⟩ := parseNumber_formatFloat64 f hm
    have h0 := hp [] (by intro b r h; simp at h)
    rw [List.append_nil] at h0
    refine ⟨.num f.neg D E, by simp [scalarJSON, h0], ?_, fun fuel depth rest hr => ?_⟩
    · have hrb := shortestDecimal_readsBack f hm1 hm2 hcan he1 he2
      simp only [readsBack, decide_eq_true_eq] at hrb
      simp only [toAny, parseDecimal_congr f.neg D _ E _ hval, hrb, Option.map_some']
    · rw [hpv, hp rest hr]

/-! ## Theorems: the cursor object -/

theorem parseStr_encodeString (s : GoString) (rest : List Nat) :
    parseStr (appendStringLoop s.length s ++ 34 :: rest).length
        (appendStringLoop s.length s ++ 34 :: rest) []
      = some (jsonString s, rest) := by
  have h := parseStr_appendStringLoop s.length s
    (appendStringLoop s.length s ++ 34 :: rest).length rest []
    (by have := length_goRunes_le s.length s
        simp only [List.length_append, List.length_cons]; omega)
  simpa [jsonString] using h

theorem parseValue_formatFloat64 (f : Float64) (v : JVal)
    (hv : scalarJSON (.float64 f) = some v) (fuel depth : Nat) (rest : List Nat)
    (hr : Delimited rest) :
    parseValue (fuel + 1) depth (formatFloat64 f ++ rest) = some (v, rest) := by
  obtain ⟨c, r, hc, hcd⟩ := formatFloat64_head f
  obtain ⟨neg, w, fr, ex, xneg, xsign, hw, hw0, hlead, hfr, hex, hxs, ht⟩ :=
    numberText_formatFloat64 f
  have hp := fun rest hr =>
    parseNumber_text_eq neg w fr ex rest xneg xsign hw hw0 hlead hfr hex hxs hr
  simp only [← ht] at hp
  have h0 := hp [] (by intro b r h; simp at h)
  rw [List.append_nil] at h0
  simp only [scalarJSON, h0, Option.map_some', Option.some.injEq] at hv
  subst hv
  have h := hp rest hr
  rw [hc, List.cons_append] at h ⊢
  rw [parseValue_number fuel depth c _ hcd]
  exact h

theorem parseValue_scalar (a : GoAny) (v : JVal) (text : List Nat)
    (hv : scalarJSON a = some v) (ht : marshalAny a = some text)
    (fuel depth : Nat) (rest : List Nat) (hr : Delimited rest) :
    parseValue (fuel + 1) depth (text ++ rest) = some (v, rest) := by
  cases a with
  | nil =>
    simp only [scalarJSON, Option.some.injEq] at hv
    simp only [marshalAny, Option.some.injEq] at ht
    subst hv ht
    simp [ascii, parseValue, stripLiteral]
  | bool b =>
    simp only [scalarJSON, Option.some.injEq] at hv
    simp only [marshalAny, Option.some.injEq] at ht
    subst hv ht
    cases b <;> simp [ascii, parseValue, stripLiteral]
  | int i =>
    simp only [scalarJSON, Option.some.injEq] at hv
    simp only [marshalAny, Option.some.injEq] at ht
    subst hv ht
    exact parseValue_formatInt fuel depth i rest hr
  | str s =>
    simp only [scalarJSON, Option.some.injEq] at hv
    simp only [marshalAny, Option.some.injEq] at ht
    subst hv ht
    simp only [encodeString, List.cons_append, List.append_assoc, parseValue]
    rw [parseStr_encodeString]
    simp
  | float64 f =>
    simp only [marshalAny, Option.some.injEq] at ht
    subst ht
    exact parseValue_formatFloat64 f v hv fuel depth rest hr
  | slice xs => simp [scalarJSON] at hv
  | map kvs => simp [scalarJSON] at hv
  | unsupported => simp [scalarJSON] at hv

theorem scalar_head (a : GoAny) (v : JVal) (text : List Nat)
    (hv : scalarJSON a = some v) (ht : marshalAny a = some text) :
    ∃ b r, text = b :: r ∧ isSpace b = false := by
  cases a with
  | nil => simp only [marshalAny, Option.some.injEq] at ht; subst ht; exact ⟨110, _, rfl, by decide⟩
  | bool b =>
    simp only [marshalAny, Option.some.injEq] at ht; subst ht
    cases b
    · exact ⟨102, _, rfl, by decide⟩
    · exact ⟨116, _, rfl, by decide⟩
  | int i =>
    simp only [marshalAny, Option.some.injEq] at ht; subst ht
    obtain ⟨b, r, hb, hd⟩ := formatInt_head i
    refine ⟨b, r, hb, ?_⟩
    rcases hd with hd | hd
    · subst hd; decide
    · simp [isDigit] at hd; simp [isSpace]; omega
  | str s => simp only [marshalAny, Option.some.injEq] at ht; subst ht; exact ⟨34, _, rfl, by decide⟩
  | float64 f =>
    simp only [marshalAny, Option.some.injEq] at ht; subst ht
    obtain ⟨b, r, hb, hd⟩ := formatFloat64_head f
    refine ⟨b, r, hb, ?_⟩
    rcases hd with hd | hd
    · subst hd; decide
    · simp [isDigit] at hd; simp [isSpace]; omega
  | slice xs => simp [scalarJSON] at hv
  | map kvs => simp [scalarJSON] at hv
  | unsupported => simp [scalarJSON] at hv

/-- One member of an object whose value text is read back as `v`. -/
theorem parseMembers_member (f depth : Nat) (key : GoString) (vtext : List Nat) (v : JVal)
    (d : Nat) (more : List Nat)
    (hhead : ∃ b r, vtext = b :: r ∧ isSpace b = false)
    (hval : parseValue f depth (vtext ++ d :: more) = some (v, d :: more))
    (hd : d = 44 ∨ d = 125) :
    parseMembers (f + 1) depth (encodeString key ++ 58 :: (vtext ++ d :: more)) =
      if d = 44 then
        (parseMembers f depth (skipSpace more)).map fun p => ((jsonString key, v) :: p.1, p.2)
      else some ([(jsonString key, v)], more) := by
  obtain ⟨b, r, hb, hsp⟩ := hhead
  have hskip : skipSpace (vtext ++ d :: more) = vtext ++ d :: more := by
    rw [hb]; simp [skipSpace, hsp]
  have hskipd : skipSpace (d :: more) = d :: more := by
    rcases hd with hd | hd <;> subst hd <;> simp [skipSpace, isSpace]
  simp only [encodeString, List.cons_append, List.append_assoc, List.singleton_append]
  rw [parseMembers]
  simp only [ne_eq, not_true_eq_false, if_false]
  rw [parseStr_encodeString]
  have hcolon : ∀ X, skipSpace (58 :: X) = 58 :: X := fun X => by simp [skipSpace, isSpace]
  simp only [List.nil_append, hcolon, ne_eq, not_true_eq_false, if_false, hskip, hval, hskipd]
  rcases hd with hd | hd <;> subst hd <;> simp


theorem skipSpace_encodeString (k : GoString) (X : List Nat) :
    skipSpace (encodeString k ++ X) = encodeString k ++ X := by
  simp [encodeString, skipSpace, isSpace]

/-- The text `jsonMarshal` writes, member by member. -/
theorem jsonMarshal_eq (r : preCursor) (cid sub : List Nat)
    (hid : marshalAny r.CursorID = some cid) (hsub : marshalAny r.SubCursor = some sub) :
    jsonMarshal r = some (123 :: (encodeString "id" ++ 58 :: (cid ++ 44 ::
      (encodeString "points_next" ++ 58 ::
        ((if r.CursorPointsNext then ascii "true" else ascii "false") ++ 44 ::
      (encodeString "sub_cursor_name" ++ 58 :: (encodeString r.SubCursorName ++ 44 ::
      (encodeString "sub_cursor" ++ 58 :: (sub ++ [125]))))))))) := by
  have h1 : ascii "\x7b\"id\":" = 123 :: (encodeString "id" ++ [58]) := by decide
  have h2 : ascii ",\"points_next\":" = 44 :: (encodeString "points_next" ++ [58]) := by decide
  have h3 : ascii ",\"sub_cursor_name\":" = 44 :: (encodeString "sub_cursor_name" ++ [58]) := by
    decide
  have h4 : ascii ",\"sub_cursor\":" = 44 :: (encodeString "sub_cursor" ++ [58]) := by decide
  have h5 : ascii "\x7d" = [125] := by decide
  simp only [jsonMarshal, hid, hsub, h1, h2, h3, h4, h5]
  simp

theorem parseJSON_marshal (r : preCursor) (vid vsub : JVal) (cid sub : List Nat)
    (hid : scalarJSON r.CursorID = some vid) (hsub : scalarJSON r.SubCursor = some vsub)
    (hcid : marshalAny r.CursorID = some cid) (hcsub : marshalAny r.SubCursor = some sub)
    (T : List Nat) (hT : jsonMarshal r = some T) :
    parseJSON T = some (.obj [("id", vid), ("points_next", .bool r.CursorPointsNext),
      ("sub_cursor_name", .str (jsonString r.SubCursorName)), ("sub_cursor", vsub)]) := by
  rw [jsonMarshal_eq r cid sub hcid hcsub] at hT
  simp only [Option.some.injEq] at hT
  subst hT
  unfold parseJSON
  generalize hF : 2 * List.length _ + 2 = F
  obtain ⟨k, rfl⟩ : ∃ k, F = k + 6 := ⟨F - 6, by simp at hF; omega⟩
  have hdel44 : ∀ X, Delimited (44 :: X) := fun X b r h => by
    simp only [List.cons.injEq] at h; omega
  have hdel125 : ∀ X, Delimited (125 :: X) := fun X b r h => by
    simp only [List.cons.injEq] at h; omega
  have hb : marshalAny (.bool r.CursorPointsNext)
      = some (if r.CursorPointsNext then ascii "true" else ascii "false") := by simp [marshalAny]
  have m4 := parseMembers_member (k + 1) (maxNestingDepth - 1) "sub_cursor" sub vsub 125 []
    (scalar_head _ _ _ hsub hcsub) (parseValue_scalar _ _ _ hsub hcsub _ _ _ (hdel125 _))
    (Or.inr rfl)
  have m3 := parseMembers_member (k + 2) (maxNestingDepth - 1) "sub_cursor_name"
    (encodeString r.SubCursorName) (.str (jsonString r.SubCursorName)) 44
    (encodeString "sub_cursor" ++ 58 :: (sub ++ [125]))
    (scalar_head (.str r.SubCursorName) _ _ rfl rfl)
    (parseValue_scalar (.str r.SubCursorName) _ _ rfl rfl _ _ _ (hdel44 _)) (Or.inl rfl)
  have m2 := parseMembers_member (k + 3) (maxNestingDepth - 1) "points_next"
    _ (.bool r.CursorPointsNext) 44
    (encodeString "sub_cursor_name" ++ 58 :: (encodeString r.SubCursorName ++ 44 ::
      (encodeString "sub_cursor" ++ 58 :: (sub ++ [125]))))
    (scalar_head (.bool r.CursorPointsNext) _ _ rfl hb)
    (parseValue_scalar (.bool r.CursorPointsNext) _ _ rfl hb _ _ _ (hdel44 _)) (Or.inl rfl)
  have m1 := parseMembers_member (k + 4) (maxNestingDepth - 1) "id" cid vid 44
    (encodeString "points_next" ++ 58 ::
        ((if r.CursorPointsNext then ascii "true" else ascii "false") ++ 44 ::
      (encodeString "sub_cursor_name" ++ 58 :: (encodeString r.SubCursorName ++ 44 ::
      (encodeString "sub_cursor" ++ 58 :: (sub ++ [125]))))))
    (scalar_head _ _ _ hid hcid) (parseValue_scalar _ _ _ hid hcid _ _ _ (hdel44 _))
    (Or.inl rfl)
  simp only [if_true, skipSpace_encodeString, List.singleton_append] at m1 m2 m3 m4
  have hs : ∀ X, skipSpace (123 :: X) = 123 :: X := fun X => by simp [skipSpace, isSpace]
  have hq : ∀ X, skipSpace (encodeString "id" ++ X) = encodeString "id" ++ X :=
    fun X => skipSpace_encodeString _ X
  have hq1 : ∀ X, encodeString "id" ++ X = 34 :: (ascii "id\"" ++ X) := fun X => by
    have : encodeString "id" = 34 :: ascii "id\"" := by decide
    rw [this]; rfl
  have hq2 : ∀ X, 34 :: (ascii "id\"" ++ X) = encodeString "id" ++ X := fun X => (hq1 X).symm
  have hk1 : jsonString (goString "id") = "id" := by decide
  have hk2 : jsonString (goString "points_next") = "points_next" := by decide
  have hk3 : jsonString (goString "sub_cursor_name") = "sub_cursor_name" := by decide
  have hk4 : jsonString (goString "sub_cursor") = "sub_cursor" := by decide
  simp only [hk1, hk2, hk3, hk4] at m1 m2 m3 m4
  rw [hs, parseValue]
  simp only [if_true, hq]
  rw [hq1]
  simp only [hq2]
  have hdepth : maxNestingDepth ≠ 0 := by decide
  have h34 : (34 : Nat) ≠ 125 := by decide
  have h125 : (125 : Nat) ≠ 44 := by decide
  simp only [hdepth, h34, h125, if_false, hq2, m1, m2, m3, m4, Option.map_some, Option.map_map]
  simp [skipSpace]

/-! ## Theorems: every marshalled value reads back or fails -/

theorem valueText_string (s : GoString) : ValueText (encodeString s) := by
  refine ⟨allBytes_encodeString s, ⟨34, _, rfl, by decide, by decide, by decide⟩, ?_⟩
  intro fuel depth rest hr
  cases fuel with
  | zero => left; simp [parseValue]
  | succ f =>
    right
    refine ⟨.str (jsonString s), ?_⟩
    simp only [encodeString, List.cons_append, List.append_assoc, parseValue, List.nil_append]
    rw [parseStr_encodeString]
    simp

theorem valueText_literal (lit : List Nat) (v : JVal)
    (h : lit = ascii "null" ∧ v = .null ∨ lit = ascii "true" ∧ v = .bool true
      ∨ lit = ascii "false" ∧ v = .bool false) : ValueText lit := by
  refine ⟨?_, ?_, ?_⟩
  · rcases h with ⟨h, -⟩ | ⟨h, -⟩ | ⟨h, -⟩ <;> subst h <;> decide
  · rcases h with ⟨h, -⟩ | ⟨h, -⟩ | ⟨h, -⟩ <;> subst h
    · exact ⟨110, _, rfl, by decide, by decide, by decide⟩
    · exact ⟨116, _, rfl, by decide, by decide, by decide⟩
    · exact ⟨102, _, rfl, by decide, by decide, by decide⟩
  · intro fuel depth rest hr
    cases fuel with
    | zero => left; simp [parseValue]
    | succ f =>
      right
      rcases h with ⟨h, -⟩ | ⟨h, -⟩ | ⟨h, -⟩ <;> subst h
      · exact ⟨.null, by simp [ascii, parseValue, stripLiteral]⟩
      · exact ⟨.bool true, by simp [ascii, parseValue, stripLiteral]⟩
      · exact ⟨.bool false, by simp [ascii, parseValue, stripLiteral]⟩

theorem allBytes_joinComma (ts : List (List Nat)) (h : ∀ t ∈ ts, AllBytes t) :
    AllBytes (joinComma ts) := by
  induction ts with
  | nil => exact AllBytes.nil
  | cons t ts ih =>
    cases ts with
    | nil => simpa [joinComma] using h t (by simp)
    | cons t2 ts2 =>
      simp only [joinComma]
      exact (h t (by simp)).append (AllBytes.cons (by decide)
        (ih (fun x hx => h x (by simp [hx]))))

theorem delimited_of_head (b : Nat) (X : List Nat) (hb : b = 44 ∨ b = 125 ∨ b = 93) :
    Delimited (b :: X) := by
  intro c r h
  simp only [List.cons.injEq] at h
  rw [← h.1]; exact hb

/-- The elements of an array whose texts are value texts. -/
theorem parseElems_texts (ts : List (List Nat)) (h : ∀ t ∈ ts, ValueText t) (hne : ts ≠ []) :
    ∀ fuel depth rest, parseElems fuel depth (joinComma ts ++ 93 :: rest) = none ∨
      ∃ vs, parseElems fuel depth (joinComma ts ++ 93 :: rest) = some (vs, rest) := by
  induction ts with
  | nil => exact absurd rfl hne
  | cons t ts ih =>
    intro fuel depth rest
    cases fuel with
    | zero => left; simp [parseElems]
    | succ f =>
      have ht := h t (by simp)
      cases ts with
      | nil =>
        simp only [joinComma]
        rcases ht.2.2 f depth (93 :: rest) (delimited_of_head _ _ (by omega)) with h1 | ⟨v, h1⟩
        · left; simp [parseElems, h1]
        · right; exact ⟨[v], by simp [parseElems, h1, skipSpace, isSpace]⟩
      | cons t2 ts2 =>
        simp only [joinComma, List.append_assoc, List.cons_append]
        rcases ht.2.2 f depth (44 :: (joinComma (t2 :: ts2) ++ 93 :: rest))
          (delimited_of_head _ _ (by omega)) with h1 | ⟨v, h1⟩
        · left; simp [parseElems, h1]
        · have ht2 := h t2 (by simp)
          have hskip : skipSpace (joinComma (t2 :: ts2) ++ 93 :: rest)
              = joinComma (t2 :: ts2) ++ 93 :: rest := by
            cases ts2 with
            | nil => simpa [joinComma] using valueText_skipSpace ht2 _
            | cons t3 ts3 =>
              simp only [joinComma, List.append_assoc]
              exact valueText_skipSpace ht2 _
          have h44 : skipSpace (44 :: (joinComma (t2 :: ts2) ++ 93 :: rest))
              = 44 :: (joinComma (t2 :: ts2) ++ 93 :: rest) := by simp [skipSpace, isSpace]
          rcases ih (fun x hx => h x (by simp [hx])) (by simp) f depth rest with h2 | ⟨vs, h2⟩
          · left
            rw [parseElems]
            simp only [h1, h44, if_true, hskip, h2, Option.map_none']
          · right
            refine ⟨v :: vs, ?_⟩
            rw [parseElems]
            simp only [h1, h44, if_true, hskip, h2, Option.map_some']

theorem joinComma_head (ts : List (List Nat)) (t : List Nat) (rest : List Nat) :
    ∃ Y, joinComma (t :: ts) ++ rest = t ++ Y := by
  cases ts with
  | nil => exact ⟨rest, by simp [joinComma]⟩
  | cons t2 ts2 => exact ⟨44 :: (joinComma (t2 :: ts2) ++ rest), by simp [joinComma]⟩

theorem valueText_array (ts : List (List Nat)) (h : ∀ t ∈ ts, ValueText t) :
    ValueText (91 :: (joinComma ts ++ [93])) := by
  refine ⟨AllBytes.cons (by decide) ((allBytes_joinComma ts (fun t ht => (h t ht).1)).append
    (AllBytes.cons (by decide) AllBytes.nil)), ⟨91, _, rfl, by decide, by decide, by decide⟩, ?_⟩
  intro fuel depth rest hr
  cases fuel with
  | zero => left; simp [parseValue]
  | succ f =>
    simp only [List.cons_append, List.append_assoc, List.singleton_append, List.nil_append]
    rw [parseValue]
    simp only [if_neg (show (91 : Nat) ≠ 123 by decide), if_true, List.nil_append]
    by_cases hd : depth = 0
    · left; simp [hd]
    · simp only [hd, if_false]
      cases ts with
      | nil =>
        right
        exact ⟨.arr [], by simp [joinComma, skipSpace, isSpace]⟩
      | cons t ts2 =>
        have ht := h t (by simp)
        obtain ⟨b, r, hb, hsp, h93, -⟩ := ht.2.1
        obtain ⟨Y, hY⟩ := joinComma_head ts2 t (93 :: rest)
        have hsk : skipSpace (joinComma (t :: ts2) ++ 93 :: rest)
            = joinComma (t :: ts2) ++ 93 :: rest := by rw [hY]; exact valueText_skipSpace ht Y
        have hhead : joinComma (t :: ts2) ++ 93 :: rest = b :: (r ++ Y) := by rw [hY, hb]; rfl
        rw [hsk, hhead]
        simp only [h93, if_false]
        rw [← hhead]
        rcases parseElems_texts (t :: ts2) h (by simp) f (depth - 1) rest with h1 | ⟨vs, h1⟩
        · left; simp [h1]
        · right; exact ⟨.arr vs, by simp [h1]⟩


theorem parseMembers_member_none (f depth : Nat) (key : GoString) (vtext : List Nat)
    (d : Nat) (more : List Nat)
    (hhead : ∃ b r, vtext = b :: r ∧ isSpace b = false)
    (hval : parseValue f depth (vtext ++ d :: more) = none) :
    parseMembers (f + 1) depth (encodeString key ++ 58 :: (vtext ++ d :: more)) = none := by
  obtain ⟨b, r, hb, hsp⟩ := hhead
  have hskip : skipSpace (vtext ++ d :: more) = vtext ++ d :: more := by
    rw [hb]; simp [skipSpace, hsp]
  simp only [encodeString, List.cons_append, List.append_assoc, List.singleton_append]
  rw [parseMembers]
  simp only [ne_eq, not_true_eq_false, if_false]
  rw [parseStr_encodeString]
  have hcolon : ∀ X, skipSpace (58 :: X) = 58 :: X := fun X => by simp [skipSpace, isSpace]
  simp only [List.nil_append, hcolon, ne_eq, not_true_eq_false, if_false, hskip, hval]

theorem allBytes_memberText (m : GoString × List Nat) (h : AllBytes m.2) :
    AllBytes (memberText m) :=
  (allBytes_encodeString m.1).append (AllBytes.cons (by decide) h)

theorem skipSpace_memberText (m : GoString × List Nat) (X : List Nat) :
    skipSpace (memberText m ++ X) = memberText m ++ X := by
  simp [memberText, encodeString, skipSpace, isSpace]

/-- The members of an object whose value texts are value texts. -/
theorem parseMembers_texts (ms : List (GoString × List Nat)) (h : ∀ m ∈ ms, ValueText m.2)
    (hne : ms ≠ []) :
    ∀ fuel depth rest,
      parseMembers fuel depth (joinComma (ms.map memberText) ++ 125 :: rest) = none ∨
      ∃ kvs, parseMembers fuel depth (joinComma (ms.map memberText) ++ 125 :: rest)
        = some (kvs, rest) := by
  induction ms with
  | nil => exact absurd rfl hne
  | cons m ms ih =>
    intro fuel depth rest
    cases fuel with
    | zero => left; simp [parseMembers]
    | succ f =>
      have hm := h m (by simp)
      have hhead : ∃ b r, m.2 = b :: r ∧ isSpace b = false := by
        obtain ⟨b, r, hb, hsp, -, -⟩ := hm.2.1
        exact ⟨b, r, hb, hsp⟩
      cases ms with
      | nil =>
        simp only [List.map_cons, List.map_nil, joinComma, memberText, List.append_assoc,
          List.cons_append]
        rcases hm.2.2 f depth (125 :: rest) (delimited_of_head _ _ (by omega)) with h1 | ⟨v, h1⟩
        · left; exact parseMembers_member_none f depth m.1 m.2 125 rest hhead h1
        · right
          refine ⟨[(jsonString m.1, v)], ?_⟩
          rw [parseMembers_member f depth m.1 m.2 v 125 rest hhead h1 (Or.inr rfl)]
          simp
      | cons m2 ms2 =>
        simp only [List.map_cons, joinComma, List.append_assoc, List.cons_append]
        have hmt : memberText m = encodeString m.1 ++ 58 :: m.2 := rfl
        rw [hmt]
        simp only [List.append_assoc, List.cons_append]
        rcases hm.2.2 f depth
          (44 :: (joinComma (memberText m2 :: ms2.map memberText) ++ 125 :: rest))
          (delimited_of_head _ _ (by omega)) with h1 | ⟨v, h1⟩
        · left; exact parseMembers_member_none f depth m.1 m.2 44 _ hhead h1
        · rw [parseMembers_member f depth m.1 m.2 v 44 _ hhead h1 (Or.inl rfl)]
          simp only [if_true]
          have hskip : skipSpace (joinComma (memberText m2 :: ms2.map memberText) ++ 125 :: rest)
              = joinComma (memberText m2 :: ms2.map memberText) ++ 125 :: rest := by
            obtain ⟨Y, hY⟩ := joinComma_head (ms2.map memberText) (memberText m2) (125 :: rest)
            rw [hY]; exact skipSpace_memberText m2 Y
          rw [hskip]
          have ih' := ih (fun x hx => h x (by simp [hx])) (by simp) f depth rest
          simp only [List.map_cons] at ih'
          rcases ih' with h2 | ⟨kvs, h2⟩
          · left; simp [h2]
          · right; exact ⟨(jsonString m.1, v) :: kvs, by simp [h2]⟩

theorem valueText_object (ms : List (GoString × List Nat)) (h : ∀ m ∈ ms, ValueText m.2) :
    ValueText (123 :: (joinComma (ms.map memberText) ++ [125])) := by
  refine ⟨AllBytes.cons (by decide) ((allBytes_joinComma _ (fun t ht => ?_)).append
    (AllBytes.cons (by decide) AllBytes.nil)), ⟨123, _, rfl, by decide, by decide, by decide⟩, ?_⟩
  · rw [List.mem_map] at ht
    obtain ⟨m, hm, rfl⟩ := ht
    exact allBytes_memberText m (h m hm).1
  intro fuel depth rest hr
  cases fuel with
  | zero => left; simp [parseValue]
  | succ f =>
    simp only [List.cons_append, List.append_assoc, List.singleton_append, List.nil_append]
    rw [parseValue]
    simp only [if_true, List.nil_append]
    by_cases hd : depth = 0
    · left; simp [hd]
    · simp only [hd, if_false]
      cases ms with
      | nil =>
        right
        exact ⟨.obj [], by simp [joinComma, skipSpace, isSpace]⟩
      | cons m ms2 =>
        simp only [List.map_cons]
        obtain ⟨Y, hY⟩ := joinComma_head (ms2.map memberText) (memberText m) (125 :: rest)
        have hsk : skipSpace (joinComma (memberText m :: ms2.map memberText) ++ 125 :: rest)
            = joinComma (memberText m :: ms2.map memberText) ++ 125 :: rest := by
          rw [hY]; exact skipSpace_memberText m Y
        have hhead : joinComma (memberText m :: ms2.map memberText) ++ 125 :: rest
            = 34 :: (appendStringLoop m.1.length m.1 ++ [34] ++ 58 :: m.2 ++ Y) := by
          rw [hY]; simp [memberText, encodeString]
        rw [hsk, hhead]
        simp only [if_neg (show (34 : Nat) ≠ 125 by decide)]
        rw [← hhead]
        have := parseMembers_texts (m :: ms2) h (by simp) f (depth - 1) rest
        simp only [List.map_cons] at this
        rcases this with h1 | ⟨kvs, h1⟩
        · left; simp [h1]
        · right; exact ⟨.obj kvs, by simp [h1]⟩

theorem mem_insertEntry (e x : GoString × List Nat) (l : List (GoString × List Nat))
    (h : x ∈ insertEntry e l) : x = e ∨ x ∈ l := by
  induction l with
  | nil => simpa [insertEntry] using h
  | cons y ys ih =>
    simp only [insertEntry] at h
    split at h
    · simpa using h
    · rcases List.mem_cons.mp h with h | h
      · right; simp [h]
      · rcases ih h with h | h
        · left; exact h
        · right; simp [h]

theorem mem_sortEntries (x : GoString × List Nat) (l : List (GoString × List Nat))
    (h : x ∈ sortEntries l) : x ∈ l := by
  induction l with
  | nil => simp [sortEntries] at h
  | cons y ys ih =>
    simp only [sortEntries] at h
    rcases mem_insertEntry _ _ _ h with h | h
    · simp [h]
    · simp [ih h]


theorem numberText_formatInt (i : Int) : NumberText (formatInt i) := by
  refine ⟨decide (i < 0), formatNat i.natAbs, [], [], false, [43], digitText_formatNat _,
    formatNat_ne_nil _, ?_, by intro b hb; simp at hb, by intro b hb; simp at hb,
    Or.inr ⟨rfl, rfl⟩, ?_⟩
  · by_cases hn : i.natAbs = 0
    · left; rw [hn, formatNat_zero]
    · right
      obtain ⟨b, r, hb, h48⟩ := formatNat_head _ hn
      intro b2 r2 h2
      rw [hb] at h2
      simp only [List.cons.injEq] at h2
      omega
  · unfold formatInt
    by_cases hi : i < 0 <;> simp [hi]

mutual
/-- Every text `marshalAny` writes is a value text. -/
theorem valueText_marshalAny : ∀ (a : GoAny) (t : List Nat), marshalAny a = some t → ValueText t
  | .nil, t, h => by
    simp only [marshalAny, Option.some.injEq] at h
    exact valueText_literal t .null (Or.inl ⟨h.symm, rfl⟩)
  | .bool b, t, h => by
    simp only [marshalAny, Option.some.injEq] at h
    cases b
    · exact valueText_literal t (.bool false) (Or.inr (Or.inr ⟨by simpa using h.symm, rfl⟩))
    · exact valueText_literal t (.bool true) (Or.inr (Or.inl ⟨by simpa using h.symm, rfl⟩))
  | .int i, t, h => by
    simp only [marshalAny, Option.some.injEq] at h
    rw [← h]; exact valueText_number _ (numberText_formatInt i)
  | .float64 f, t, h => by
    simp only [marshalAny, Option.some.injEq] at h
    rw [← h]; exact valueText_number _ (numberText_formatFloat64 f)
  | .str s, t, h => by
    simp only [marshalAny, Option.some.injEq] at h
    rw [← h]; exact valueText_string s
  | .slice xs, t, h => by
    simp only [marshalAny, Option.map_eq_some'] at h
    obtain ⟨ts, hts, rfl⟩ := h
    exact valueText_array ts (valueText_marshalElems xs ts hts)
  | .map kvs, t, h => by
    simp only [marshalAny, Option.map_eq_some'] at h
    obtain ⟨ms, hms, rfl⟩ := h
    exact valueText_object (sortEntries ms)
      (fun m hm => valueText_marshalMembers kvs ms hms m (mem_sortEntries m ms hm))
  | .unsupported, t, h => by simp [marshalAny] at h
/-- Every element text `marshalElems` writes is a value text. -/
theorem valueText_marshalElems : ∀ (xs : List GoAny) (ts : List (List Nat)),
    marshalElems xs = some ts → ∀ t ∈ ts, ValueText t
  | [], ts, h => by
    simp only [marshalElems, Option.some.injEq] at h
    subst h; intro t ht; simp at ht
  | x :: xs, ts, h => by
    simp only [marshalElems] at h
    cases hx : marshalAny x with
    | none => simp [hx] at h
    | some b =>
      cases hxs : marshalElems xs with
      | none => simp [hx, hxs] at h
      | some bs =>
        simp only [hx, hxs, Option.some.injEq] at h
        subst h
        intro t ht
        rcases List.mem_cons.mp ht with ht | ht
        · rw [ht]; exact valueText_marshalAny x b hx
        · exact valueText_marshalElems xs bs hxs t ht
/-- Every entry text `marshalMembers` writes is a value text. -/
theorem valueText_marshalMembers : ∀ (kvs : List (GoString × GoAny))
    (ms : List (GoString × List Nat)), marshalMembers kvs = some ms → ∀ m ∈ ms, ValueText m.2
  | [], ms, h => by
    simp only [marshalMembers, Option.some.injEq] at h
    subst h; intro t ht; simp at ht
  | (k, v) :: kvs, ms, h => by
    simp only [marshalMembers] at h
    cases hx : marshalAny v with
    | none => simp [hx] at h
    | some b =>
      cases hxs : marshalMembers kvs with
      | none => simp [hx, hxs] at h
      | some bs =>
        simp only [hx, hxs, Option.some.injEq] at h
        subst h
        intro t ht
        rcases List.mem_cons.mp ht with ht | ht
        · rw [ht]; exact valueText_marshalAny v b hx
        · exact valueText_marshalMembers kvs bs hxs t ht
end

theorem valueText_head {t : List Nat} (h : ValueText t) :
    ∃ b r, t = b :: r ∧ isSpace b = false := by
  obtain ⟨b, r, hb, hsp, -, -⟩ := h.2.1
  exact ⟨b, r, hb, hsp⟩

theorem allBytes_jsonMarshal (r : preCursor) (cid sub : List Nat) (hb1 : AllBytes cid)
    (hb2 : AllBytes sub) :
    AllBytes (123 :: (encodeString "id" ++ 58 :: (cid ++ 44 ::
      (encodeString "points_next" ++ 58 ::
        ((if r.CursorPointsNext then ascii "true" else ascii "false") ++ 44 ::
      (encodeString "sub_cursor_name" ++ 58 :: (encodeString r.SubCursorName ++ 44 ::
      (encodeString "sub_cursor" ++ 58 :: (sub ++ [125]))))))))) := by
  have hpn : AllBytes (if r.CursorPointsNext = true then ascii "true" else ascii "false") := by
    split <;> decide
  have c58 : (58 : Nat) < 256 := by decide
  have c44 : (44 : Nat) < 256 := by decide
  have e := fun k => allBytes_encodeString k
  have t5 := hb2.append (AllBytes.cons (show (125 : Nat) < 256 by decide) AllBytes.nil)
  have t4 := (e "sub_cursor").append (AllBytes.cons c58 t5)
  have t3 := (e "sub_cursor_name").append
    (AllBytes.cons c58 ((e r.SubCursorName).append (AllBytes.cons c44 t4)))
  have t2 := (e "points_next").append (AllBytes.cons c58 (hpn.append (AllBytes.cons c44 t3)))
  exact AllBytes.cons (by decide)
    ((e "id").append (AllBytes.cons c58 (hb1.append (AllBytes.cons c44 t2))))

/-- Parsing the text of a marshalled record fails or gives its four members. -/
theorem parseJSON_marshal_any (r : preCursor) (T : List Nat) (hT : jsonMarshal r = some T) :
    AllBytes T ∧ (parseJSON T = none ∨ ∃ vid vsub,
      parseJSON T = some (.obj [("id", vid), ("points_next", .bool r.CursorPointsNext),
        ("sub_cursor_name", .str (jsonString r.SubCursorName)), ("sub_cursor", vsub)])) := by
  cases hcid : marshalAny r.CursorID with
  | none => simp [jsonMarshal, hcid] at hT
  | some cid =>
  cases hcsub : marshalAny r.SubCursor with
  | none => simp [jsonMarshal, hcid, hcsub] at hT
  | some sub =>
  have hvid := valueText_marshalAny _ _ hcid
  have hvsub := valueText_marshalAny _ _ hcsub
  rw [jsonMarshal_eq r cid sub hcid hcsub] at hT
  simp only [Option.some.injEq] at hT
  subst hT
  refine ⟨allBytes_jsonMarshal r cid sub hvid.1 hvsub.1, ?_⟩
  unfold parseJSON
  generalize hF : 2 * List.length _ + 2 = F
  obtain ⟨k, rfl⟩ : ∃ k, F = k + 6 := ⟨F - 6, by simp at hF; omega⟩
  have hb : marshalAny (.bool r.CursorPointsNext)
      = some (if r.CursorPointsNext then ascii "true" else ascii "false") := by simp [marshalAny]
  have hs : ∀ X, skipSpace (123 :: X) = 123 :: X := fun X => by simp [skipSpace, isSpace]
  have hq1 : ∀ X, encodeString "id" ++ X = 34 :: (ascii "id\"" ++ X) := fun X => by
    have : encodeString "id" = 34 :: ascii "id\"" := by decide
    rw [this]; rfl
  have hq : ∀ X, skipSpace (encodeString "id" ++ X) = 34 :: (ascii "id\"" ++ X) :=
    fun X => by rw [skipSpace_encodeString, hq1]
  have hq2 : ∀ X, 34 :: (ascii "id\"" ++ X) = encodeString "id" ++ X := fun X => (hq1 X).symm
  have hk1 : jsonString (goString "id") = "id" := by decide
  have hk2 : jsonString (goString "points_next") = "points_next" := by decide
  have hk3 : jsonString (goString "sub_cursor_name") = "sub_cursor_name" := by decide
  have hk4 : jsonString (goString "sub_cursor") = "sub_cursor" := by decide
  have hdepth : maxNestingDepth ≠ 0 := by decide
  have h34 : (34 : Nat) ≠ 125 := by decide
  have h125 : (125 : Nat) ≠ 44 := by decide
  have m3 := parseMembers_member (k + 2) (maxNestingDepth - 1) "sub_cursor_name"
    (encodeString r.SubCursorName) (.str (jsonString r.SubCursorName)) 44
    (encodeString "sub_cursor" ++ 58 :: (sub ++ [125]))
    (scalar_head (.str r.SubCursorName) _ _ rfl rfl)
    (parseValue_scalar (.str r.SubCursorName) _ _ rfl rfl _ _ _ (delimited_of_head _ _ (by omega)))
    (Or.inl rfl)
  have m2 := parseMembers_member (k + 3) (maxNestingDepth - 1) "points_next"
    _ (.bool r.CursorPointsNext) 44
    (encodeString "sub_cursor_name" ++ 58 :: (encodeString r.SubCursorName ++ 44 ::
      (encodeString "sub_cursor" ++ 58 :: (sub ++ [125]))))
    (scalar_head (.bool r.CursorPointsNext) _ _ rfl hb)
    (parseValue_scalar (.bool r.CursorPointsNext) _ _ rfl hb _ _ _
      (delimited_of_head _ _ (by omega))) (Or.inl rfl)
  simp only [if_true, skipSpace_encodeString, List.singleton_append, hk2, hk3] at m2 m3
  rw [hs, parseValue]
  simp only [if_true, hq]
  simp only [hdepth, h34, if_false, hq2]
  -- the member `id`
  rcases hvid.2.2 (k + 4) (maxNestingDepth - 1)
      (44 :: (encodeString "points_next" ++ 58 ::
        ((if r.CursorPointsNext then ascii "true" else ascii "false") ++ 44 ::
      (encodeString "sub_cursor_name" ++ 58 :: (encodeString r.SubCursorName ++ 44 ::
      (encodeString "sub_cursor" ++ 58 :: (sub ++ [125])))))))
      (delimited_of_head _ _ (by omega)) with h1 | ⟨vid, h1⟩
  · left
    rw [parseMembers_member_none (k + 4) _ "id" cid 44 _ (valueText_head hvid) h1]
    simp
  · have m1 := parseMembers_member (k + 4) (maxNestingDepth - 1) "id" cid vid 44 _ (valueText_head hvid) h1
      (Or.inl rfl)
    simp only [if_true, skipSpace_encodeString, hk1] at m1
    -- the member `sub_cursor`
    rcases hvsub.2.2 (k + 1) (maxNestingDepth - 1) (125 :: []) (delimited_of_head _ _ (by omega))
      with h4 | ⟨vsub, h4⟩
    · left
      have m4 := parseMembers_member_none (k + 1) (maxNestingDepth - 1) "sub_cursor" sub 125 []
        (valueText_head hvsub) h4
      simp only [List.singleton_append] at m1 m2 m3 m4 ⊢
      simp only [m1, m2, m3, m4, Option.map_none']
    · right
      refine ⟨vid, vsub, ?_⟩
      have m4 := parseMembers_member (k + 1) (maxNestingDepth - 1) "sub_cursor" sub vsub 125 []
        (valueText_head hvsub) h4 (Or.inr rfl)
      simp only [h125, if_false, List.singleton_append, hk4] at m1 m2 m3 m4 ⊢
      simp only [m1, m2, m3, m4, Option.map_some']
      simp [skipSpace]

/-- Reading the text of a marshalled record, followed by any bytes, as a JSON value fails
or gives its four members and leaves the bytes that follow. -/
theorem parseValue_marshal_any (r : preCursor) (T : List Nat) (hT : jsonMarshal r = some T)
    (k : Nat) (G : List Nat) :
    skipSpace (T ++ G) = T ++ G ∧ 2 ≤ T.length ∧
    (parseValue (k + 6) maxNestingDepth (T ++ G) = none ∨ ∃ vid vsub,
      parseValue (k + 6) maxNestingDepth (T ++ G) =
        some (.obj [("id", vid), ("points_next", .bool r.CursorPointsNext),
          ("sub_cursor_name", .str (jsonString r.SubCursorName)), ("sub_cursor", vsub)], G)) := by
  cases hcid : marshalAny r.CursorID with
  | none => simp [jsonMarshal, hcid] at hT
  | some cid =>
  cases hcsub : marshalAny r.SubCursor with
  | none => simp [jsonMarshal, hcid, hcsub] at hT
  | some sub =>
  have hvid := valueText_marshalAny _ _ hcid
  have hvsub := valueText_marshalAny _ _ hcsub
  rw [jsonMarshal_eq r cid sub hcid hcsub] at hT
  simp only [Option.some.injEq] at hT
  subst hT
  have hs : ∀ X, skipSpace (123 :: X) = 123 :: X := fun X => by simp [skipSpace, isSpace]
  refine ⟨by rw [List.cons_append, hs], by simp [encodeString], ?_⟩
  simp only [List.cons_append, List.append_assoc, List.singleton_append, List.nil_append]
  have hb : marshalAny (.bool r.CursorPointsNext)
      = some (if r.CursorPointsNext then ascii "true" else ascii "false") := by simp [marshalAny]
  have hq1 : ∀ X, encodeString "id" ++ X = 34 :: (ascii "id\"" ++ X) := fun X => by
    have : encodeString "id" = 34 :: ascii "id\"" := by decide
    rw [this]; rfl
  have hq : ∀ X, skipSpace (encodeString "id" ++ X) = 34 :: (ascii "id\"" ++ X) :=
    fun X => by rw [skipSpace_encodeString, hq1]
  have hq2 : ∀ X, 34 :: (ascii "id\"" ++ X) = encodeString "id" ++ X := fun X => (hq1 X).symm
  have hk1 : jsonString (goString "id") = "id" := by decide
  have hk2 : jsonString (goString "points_next") = "points_next" := by decide
  have hk3 : jsonString (goString "sub_cursor_name") = "sub_cursor_name" := by decide
  have hk4 : jsonString (goString "sub_cursor") = "sub_cursor" := by decide
  have hdepth : maxNestingDepth ≠ 0 := by decide
  have h34 : (34 : Nat) ≠ 125 := by decide
  have h125 : (125 : Nat) ≠ 44 := by decide
  have m3 := parseMembers_member (k + 2) (maxNestingDepth - 1) "sub_cursor_name"
    (encodeString r.SubCursorName) (.str (jsonString r.SubCursorName)) 44
    (encodeString "sub_cursor" ++ 58 :: (sub ++ 125 :: G))
    (scalar_head (.str r.SubCursorName) _ _ rfl rfl)
    (parseValue_scalar (.str r.SubCursorName) _ _ rfl rfl _ _ _ (delimited_of_head _ _ (by omega)))
    (Or.inl rfl)
  have m2 := parseMembers_member (k + 3) (maxNestingDepth - 1) "points_next"
    _ (.bool r.CursorPointsNext) 44
    (encodeString "sub_cursor_name" ++ 58 :: (encodeString r.SubCursorName ++ 44 ::
      (encodeString "sub_cursor" ++ 58 :: (sub ++ 125 :: G))))
    (scalar_head (.bool r.CursorPointsNext) _ _ rfl hb)
    (parseValue_scalar (.bool r.CursorPointsNext) _ _ rfl hb _ _ _
      (delimited_of_head _ _ (by omega))) (Or.inl rfl)
  simp only [if_true, skipSpace_encodeString, List.singleton_append, hk2, hk3] at m2 m3
  rw [parseValue]
  simp only [if_true, hq]
  simp only [hdepth, h34, if_false, hq2]
  rcases hvid.2.2 (k + 4) (maxNestingDepth - 1)
      (44 :: (encodeString "points_next" ++ 58 ::
        ((if r.CursorPointsNext then ascii "true" else ascii "false") ++ 44 ::
      (encodeString "sub_cursor_name" ++ 58 :: (encodeString r.SubCursorName ++ 44 ::
      (encodeString "sub_cursor" ++ 58 :: (sub ++ 125 :: G)))))))
      (delimited_of_head _ _ (by omega)) with h1 | ⟨vid, h1⟩
  · left
    rw [parseMembers_member_none (k + 4) _ "id" cid 44 _ (valueText_head hvid) h1]
    simp
  · have m1 := parseMembers_member (k + 4) (maxNestingDepth - 1) "id" cid vid 44 _
      (valueText_head hvid) h1 (Or.inl rfl)
    simp only [if_true, skipSpace_encodeString, hk1] at m1
    rcases hvsub.2.2 (k + 1) (maxNestingDepth - 1) (125 :: G) (delimited_of_head _ _ (by omega))
      with h4 | ⟨vsub, h4⟩
    · left
      have m4 := parseMembers_member_none (k + 1) (maxNestingDepth - 1) "sub_cursor" sub 125 G
        (valueText_head hvsub) h4
      simp only [m1, m2, m3, m4, Option.map_none']
    · right
      refine ⟨vid, vsub, ?_⟩
      have m4 := parseMembers_member (k + 1) (maxNestingDepth - 1) "sub_cursor" sub vsub 125 G
        (valueText_head hvsub) h4 (Or.inr rfl)
      simp only [h125, if_false, hk4] at m1 m2 m3 m4 ⊢
      simp only [m1, m2, m3, m4, Option.map_some']

theorem skipSpace_ne_nil (G : List Nat) (h : ∃ b ∈ G, isSpace b = false) : skipSpace G ≠ [] := by
  induction G with
  | nil => obtain ⟨b, hb, -⟩ := h; simp at hb
  | cons x xs ih =>
    obtain ⟨b, hb, hsp⟩ := h
    simp only [skipSpace]
    split
    · rename_i hx
      rcases List.mem_cons.mp hb with h1 | h1
      · rw [h1] at hsp; rw [hsp] at hx; simp at hx
      · exact ih ⟨b, h1, hsp⟩
    · simp

/-- The text of a marshalled record followed by bytes that are not all white space is not
a JSON value. -/
theorem parseJSON_marshal_trailing (r : preCursor) (T : List Nat) (hT : jsonMarshal r = some T)
    (G : List Nat) (hG : ∃ b ∈ G, isSpace b = false) : parseJSON (T ++ G) = none := by
  unfold parseJSON
  obtain ⟨k, hk⟩ : ∃ k, 2 * (T ++ G).length + 2 = k + 6 := by
    have := (parseValue_marshal_any r T hT 0 G).2.1
    exact ⟨2 * (T ++ G).length + 2 - 6, by simp only [List.length_append]; omega⟩
  obtain ⟨hsk, -, hp⟩ := parseValue_marshal_any r T hT k G
  rw [hk, hsk]
  rcases hp with hp | ⟨vid, vsub, hp⟩
  · rw [hp]
  · rw [hp]
    simp only [if_neg (skipSpace_ne_nil G hG)]

/-- Unmarshalling the text of a marshalled record fails or gives a record with the same
direction flag, the sub-cursor name read as UTF-8, and `valid = false`. -/
theorem jsonUnmarshal_marshal_any (r : preCursor) (T : List Nat) (hT : jsonMarshal r = some T) :
    AllBytes T ∧ (jsonUnmarshal T = none ∨ ∃ a b, jsonUnmarshal T = some
      { valid := false, CursorID := a, CursorPointsNext := r.CursorPointsNext,
        SubCursorName := toValidUTF8 r.SubCursorName, SubCursor := b }) := by
  obtain ⟨hb, hp⟩ := parseJSON_marshal_any r T hT
  refine ⟨hb, ?_⟩
  rcases hp with hp | ⟨vid, vsub, hp⟩
  · left; simp [jsonUnmarshal, hp]
  · have k1 : keyMatches "id" "id" = true := by decide
    have k2 : keyMatches "points_next" "id" = false := by decide
    have k3 : keyMatches "points_next" "points_next" = true := by decide
    have k4 : keyMatches "sub_cursor_name" "id" = false := by decide
    have k5 : keyMatches "sub_cursor_name" "points_next" = false := by decide
    have k6 : keyMatches "sub_cursor_name" "sub_cursor_name" = true := by decide
    have k7 : keyMatches "sub_cursor" "id" = false := by decide
    have k8 : keyMatches "sub_cursor" "points_next" = false := by decide
    have k9 : keyMatches "sub_cursor" "sub_cursor_name" = false := by decide
    have k10 : keyMatches "sub_cursor" "sub_cursor" = true := by decide
    cases h3 : toAny vid with
    | none =>
      left
      simp [jsonUnmarshal, hp, assignFields, assignField, k1, h3]
    | some a =>
      cases h6 : toAny vsub with
      | none =>
        left
        simp [jsonUnmarshal, hp, assignFields, assignField, storeBool, storeString, k1, k2, k3,
          k4, k5, k6, k7, k8, k9, k10, h3, h6]
      | some b =>
        right
        refine ⟨a, b, ?_⟩
        simp [jsonUnmarshal, hp, assignFields, assignField, storeBool, storeString, k1, k2, k3,
          k4, k5, k6, k7, k8, k9, k10, h3, h6, toValidUTF8]

theorem decodeCursor_empty : decodeCursor "" = ({}, some .ErrFailedDecodeCursor) := by rfl

/-- Decoding the token of any record fails or gives a record with the same direction
flag, the sub-cursor name read as UTF-8, and `valid = false`. -/
theorem decode_encode_any (r : preCursor) :
    decodeCursor (encodeCursor r) = ({}, some .ErrFailedDecodeCursor) ∨
    ∃ a b, decodeCursor (encodeCursor r) =
      ({ valid := false, CursorID := a, CursorPointsNext := r.CursorPointsNext,
         SubCursorName := toValidUTF8 r.SubCursorName, SubCursor := b }, none) := by
  unfold encodeCursor
  by_cases hv : r.valid = true
  · simp only [hv, Bool.not_true, Bool.false_eq_true, if_false]
    cases hT : jsonMarshal r with
    | none => left; exact decodeCursor_empty
    | some T =>
      obtain ⟨hb, hu⟩ := jsonUnmarshal_marshal_any r T hT
      simp only [decodeCursor]
      rw [base64_roundtrip T hb]
      rcases hu with hu | ⟨a, b, hu⟩
      · left; simp [hu]
      · right; exact ⟨a, b, by simp [hu]⟩
  · left
    simp only [hv, Bool.not_eq_true] at *
    simp [hv, decodeCursor_empty]

/-! ## Theorems: the codec -/

theorem allBytes_formatInt (i : Int) : AllBytes (formatInt i) := by
  have h : AllBytes (formatNat i.natAbs) := by
    intro b hb
    simp only [formatNat, List.mem_map] at hb
    obtain ⟨d, hd, rfl⟩ := hb
    have := decimalDigits_lt _ d hd
    omega
  unfold formatInt
  split
  · exact AllBytes.cons (by decide) h
  · exact h

theorem plain_scalar (a : GoAny) (hp : Plain a) :
    ∃ v text, scalarJSON a = some v ∧ marshalAny a = some text ∧ toAny v = some (readBack a)
      ∧ AllBytes text := by
  cases a with
  | nil => exact ⟨_, _, rfl, rfl, by simp [toAny, readBack], by decide⟩
  | bool b =>
    refine ⟨_, _, rfl, rfl, by simp [toAny, readBack], ?_⟩
    cases b <;> decide
  | int i =>
    obtain ⟨f, hf⟩ := parseDecimal_int i hp
    exact ⟨_, _, rfl, rfl, by simp [toAny, readBack, nearestFloat64, hf], allBytes_formatInt i⟩
  | str s =>
    exact ⟨_, _, rfl, rfl, by simp [toAny, readBack, toValidUTF8], allBytes_encodeString s⟩
  | float64 f =>
    obtain ⟨v, h1, h2, -⟩ := float64_scalar f hp
    exact ⟨v, _, h1, rfl, by simpa [readBack] using h2,
      (valueText_number _ (numberText_formatFloat64 f)).1⟩
  | slice xs => exact absurd hp (by simp [Plain])
  | map kvs => exact absurd hp (by simp [Plain])
  | unsupported => exact absurd hp (by simp [Plain])

/-- Marshalling a record with scalar `id` and `sub_cursor`, and unmarshalling the text. -/
theorem jsonUnmarshal_marshal (r : preCursor) (hid : Plain r.CursorID)
    (hsub : Plain r.SubCursor) :
    ∃ T, jsonMarshal r = some T ∧ AllBytes T ∧ jsonUnmarshal T = some
      { valid := false, CursorID := readBack r.CursorID,
        CursorPointsNext := r.CursorPointsNext,
        SubCursorName := toValidUTF8 r.SubCursorName,
        SubCursor := readBack r.SubCursor } := by
  obtain ⟨vid, cid, h1, h2, h3, hb1⟩ := plain_scalar _ hid
  obtain ⟨vsub, csub, h4, h5, h6, hb2⟩ := plain_scalar _ hsub
  have hT := jsonMarshal_eq r cid csub h2 h5
  refine ⟨_, hT, ?_, ?_⟩
  · have hpn : AllBytes (if r.CursorPointsNext = true then ascii "true" else ascii "false") := by
      split <;> decide
    have c58 : (58 : Nat) < 256 := by decide
    have c44 : (44 : Nat) < 256 := by decide
    have e := fun k => allBytes_encodeString k
    have t5 := hb2.append (AllBytes.cons (show (125 : Nat) < 256 by decide) AllBytes.nil)
    have t4 := (e "sub_cursor").append (AllBytes.cons c58 t5)
    have t3 := (e "sub_cursor_name").append
      (AllBytes.cons c58 ((e r.SubCursorName).append (AllBytes.cons c44 t4)))
    have t2 := (e "points_next").append (AllBytes.cons c58 (hpn.append (AllBytes.cons c44 t3)))
    exact AllBytes.cons (by decide)
      ((e "id").append (AllBytes.cons c58 (hb1.append (AllBytes.cons c44 t2))))
  · have hp := parseJSON_marshal r vid vsub cid csub h1 h4 h2 h5 _ hT
    have k1 : keyMatches "id" "id" = true := by decide
    have k2 : keyMatches "points_next" "id" = false := by decide
    have k3 : keyMatches "points_next" "points_next" = true := by decide
    have k4 : keyMatches "sub_cursor_name" "id" = false := by decide
    have k5 : keyMatches "sub_cursor_name" "points_next" = false := by decide
    have k6 : keyMatches "sub_cursor_name" "sub_cursor_name" = true := by decide
    have k7 : keyMatches "sub_cursor" "id" = false := by decide
    have k8 : keyMatches "sub_cursor" "points_next" = false := by decide
    have k9 : keyMatches "sub_cursor" "sub_cursor_name" = false := by decide
    have k10 : keyMatches "sub_cursor" "sub_cursor" = true := by decide
    simp only [jsonUnmarshal, hp, assignFields, assignField, storeBool, storeString, k1, k2, k3,
      k4, k5, k6, k7, k8, k9, k10, h3, h6, if_true, Option.map_some]
    simp [toValidUTF8]

/-- The token of a valid record with scalar `id` and `sub_cursor` is not empty. -/
theorem encodeCursor_plain (r : preCursor) (hv : r.valid = true) (hid : Plain r.CursorID)
    (hsub : Plain r.SubCursor) :
    ∃ T, jsonMarshal r = some T ∧ AllBytes T ∧ T ≠ [] ∧
      encodeCursor r = base64StdEncodeToString T := by
  obtain ⟨T, hT, hb, _⟩ := jsonUnmarshal_marshal r hid hsub
  refine ⟨T, hT, hb, ?_, by simp [encodeCursor, hv, hT]⟩
  obtain ⟨vid, cid, h1, h2, h3, hb1⟩ := plain_scalar _ hid
  obtain ⟨vsub, csub, h4, h5, h6, hb2⟩ := plain_scalar _ hsub
  rw [jsonMarshal_eq r cid csub h2 h5] at hT
  simp only [Option.some.injEq] at hT
  rw [← hT]
  simp

/-- Decoding the token of a valid record with scalar `id` and `sub_cursor`. -/
theorem decode_encode_aux (r : preCursor) (hv : r.valid = true) (hid : Plain r.CursorID)
    (hsub : Plain r.SubCursor) :
    decodeCursor (encodeCursor r) =
      ({ valid := false, CursorID := readBack r.CursorID,
         CursorPointsNext := r.CursorPointsNext,
         SubCursorName := toValidUTF8 r.SubCursorName,
         SubCursor := readBack r.SubCursor }, none) := by
  obtain ⟨T, hT, hb, hu⟩ := jsonUnmarshal_marshal r hid hsub
  simp only [encodeCursor, hv, hT, decodeCursor]
  simp only [Bool.not_true, Bool.false_eq_true, if_false]
  rw [base64_roundtrip T hb]
  simp only [hu]


/-- C1, as amended: for every valid cursor record whose id and sub-cursor value are nil,
a boolean, a string, a Go integer or a finite `float64`, `decodeCursor (encodeCursor r)`
succeeds, and it returns the record with the same direction flag, the sub-cursor name
read as UTF-8 (every byte that is not part of a valid encoding replaced by U+FFFD, so a
name that is valid UTF-8 unchanged), the id and the sub-cursor value as JSON reads them
back (an integer as the nearest `float64`, a string read as UTF-8 in the same way, nil,
a boolean and a `float64` unchanged), and the `valid` marker false. -/
theorem decode_encode_plain (r : preCursor) (hv : r.valid = true) (hid : Plain r.CursorID)
    (hsub : Plain r.SubCursor) :
    decodeCursor (encodeCursor r) =
      ({ valid := false, CursorID := readBack r.CursorID,
         CursorPointsNext := r.CursorPointsNext,
         SubCursorName := toValidUTF8 r.SubCursorName,
         SubCursor := readBack r.SubCursor }, none) :=
  decode_encode_aux r hv hid hsub

/-- C1, witness: the record of key 2 under the order `default`, whose sort value is the
`float64` 1.5. -/
theorem decode_encode_plain_witness :
    decodeCursor (encodeCursor
        (createPreCursor (.int 2) true "default" (.float64 ⟨false, 3 * 2 ^ 51, -52⟩))) =
      ({ valid := false, CursorID := .float64 ⟨false, 2 ^ 52, -51⟩, CursorPointsNext := true,
         SubCursorName := "default", SubCursor := .float64 ⟨false, 3 * 2 ^ 51, -52⟩ }, none) :=
  decode_encode_plain
    (createPreCursor (.int 2) true "default" (.float64 ⟨false, 3 * 2 ^ 51, -52⟩)) rfl
    (by decide) (by decide)

/-- C1, counterexample: a valid record does not come back equal to itself. The record
of key 2 comes back with `valid = false` and the id as a `float64`; the record whose name
is the bytes `n`, `0xff` and whose sort value is the string of the bytes `i`, `0xff`
comes back with U+FFFD (the bytes `0xef`, `0xbf`, `0xbd`) in the place of `0xff` in
both. -/
theorem decode_encode_not_identity :
    (createPreCursor (.int 2) true "default" .nil).valid = true ∧
    (decodeCursor (encodeCursor (createPreCursor (.int 2) true "default" .nil))).2 = none ∧
    (decodeCursor (encodeCursor (createPreCursor (.int 2) true "default" .nil))).1.valid = false ∧
    (decodeCursor (encodeCursor (createPreCursor (.int 2) true "default" .nil))).1.CursorID
      = .float64 ⟨false, 2 ^ 52, -51⟩ ∧
    decodeCursor (encodeCursor (createPreCursor (.int 2) true "default" .nil))
      ≠ (createPreCursor (.int 2) true "default" .nil, none) ∧
    decodeCursor (encodeCursor (createPreCursor (.bool true) true [110, 255] (.str [105, 255])))
      = ({ valid := false, CursorID := .bool true, CursorPointsNext := true,
           SubCursorName := [110, 239, 191, 189],
           SubCursor := .str [105, 239, 191, 189] }, none) := by
  refine ⟨rfl, by decide, by decide, by rfl, fun h => ?_, by rfl⟩
  have h2 := congrArg (fun p => p.1.valid) h
  revert h2
  decide

/-! ## Theorems: the calculator and the orchestrator -/

/-- C2: a record whose `valid` marker is false encodes to the empty string, whatever its
other fields hold; so `generatePager` gives an empty `NextCursor` (`PrevCursor`) for an
absent next (previous) record. -/
theorem encodeCursor_invalid (c other : preCursor) (h : c.valid = false) :
    encodeCursor c = "" ∧ (generatePager c other).NextCursor = ""
      ∧ (generatePager other c).PrevCursor = "" := by
  have : encodeCursor c = "" := by simp [encodeCursor, h]
  exact ⟨this, this, this⟩

/-- C2, witness: a record with `valid = false` and all other fields set. -/
theorem encodeCursor_invalid_witness :
    encodeCursor { createPreCursor (.int 7) true "name" (.str "x") with valid := false } = ""
      ∧ (generatePager { createPreCursor (.int 7) true "name" (.str "x") with valid := false }
          (createPreCursor (.int 7) true "name" (.str "x"))).NextCursor = ""
      ∧ (generatePager (createPreCursor (.int 7) true "name" (.str "x"))
          { createPreCursor (.int 7) true "name" (.str "x") with valid := false }).PrevCursor
        = "" :=
  encodeCursor_invalid _ _ rfl

theorem encodeCursor_zero : encodeCursor {} = "" := by simp [encodeCursor]

/-- The three rules of the calculator. -/
theorem calculatePagination_rules (hasMore pointsNext : Bool) (firstRow lastRow : cursorData) :
    calculatePagination true hasMore pointsNext firstRow lastRow =
      { NextCursor := if hasMore then encodeCursor (edgeCursor true lastRow) else "",
        PrevCursor := "" } ∧
    calculatePagination false hasMore true firstRow lastRow =
      { NextCursor := if hasMore then encodeCursor (edgeCursor true lastRow) else "",
        PrevCursor := encodeCursor (edgeCursor false firstRow) } ∧
    calculatePagination false hasMore false firstRow lastRow =
      { NextCursor := encodeCursor (edgeCursor true lastRow),
        PrevCursor := if hasMore then encodeCursor (edgeCursor false firstRow) else "" } := by
  cases hasMore <;> simp [calculatePagination, generatePager, encodeCursor_zero, edgeCursor]

/-- C3, calculator rule 1: on a first page the previous cursor is empty, and the next
cursor is the token of the last row with `pointsToNext = true` when there are more rows
and empty otherwise; the direction and the first row play no part. -/
theorem calculatePagination_first (hasMore pointsNext : Bool) (firstRow lastRow : cursorData) :
    (calculatePagination true hasMore pointsNext firstRow lastRow).PrevCursor = "" ∧
    (calculatePagination true hasMore pointsNext firstRow lastRow).NextCursor =
      if hasMore then
        encodeCursor (createPreCursor lastRow.ID true lastRow.Name lastRow.Value)
      else "" := by
  cases hasMore <;> simp [calculatePagination, generatePager, encodeCursor_zero]

/-- C4, calculator rule 2: after the first page, walking forward, the previous cursor is
the token of the first row with `pointsToNext = false` whatever `hasMore` is, and the
next cursor is the token of the last row with `pointsToNext = true` when there are more
rows and empty otherwise. -/
theorem calculatePagination_forward (hasMore : Bool) (firstRow lastRow : cursorData) :
    (calculatePagination false hasMore true firstRow lastRow).PrevCursor =
      encodeCursor (createPreCursor firstRow.ID false firstRow.Name firstRow.Value) ∧
    (calculatePagination false hasMore true firstRow lastRow).NextCursor =
      if hasMore then
        encodeCursor (createPreCursor lastRow.ID true lastRow.Name lastRow.Value)
      else "" := by
  cases hasMore <;> simp [calculatePagination, generatePager, encodeCursor_zero]

/-- C5, calculator rule 3: after the first page, walking backward, the next cursor is
the token of the last row with `pointsToNext = true` whatever `hasMore` is, and the
previous cursor is the token of the first row with `pointsToNext = false` when there are
more rows and empty otherwise. -/
theorem calculatePagination_backward (hasMore : Bool) (firstRow lastRow : cursorData) :
    (calculatePagination false hasMore false firstRow lastRow).NextCursor =
      encodeCursor (createPreCursor lastRow.ID true lastRow.Name lastRow.Value) ∧
    (calculatePagination false hasMore false firstRow lastRow).PrevCursor =
      if hasMore then
        encodeCursor (createPreCursor firstRow.ID false firstRow.Name firstRow.Value)
      else "" := by
  cases hasMore <;> simp [calculatePagination, generatePager, encodeCursor_zero]

/-! ### The orchestrator -/

theorem cursorCheck_accepted (key : GoString) (cursor : String) (d : preCursor)
    (hdec : decodeCursor cursor = (d, none)) (hname : d.SubCursorName = key) :
    cursorCheck key cursor = (true, d, d.SubCursor) := by
  simp [cursorCheck, hdec, hname]

theorem cursorCheck_rejected (key : GoString) (cursor : String)
    (h : (decodeCursor cursor).2 ≠ none ∨ (decodeCursor cursor).1.SubCursorName ≠ key) :
    (cursorCheck key cursor).1 = false := by
  unfold cursorCheck
  rcases hd : decodeCursor cursor with ⟨d, _ | e⟩
  · rw [hd] at h
    simp only [ne_eq, not_true_eq_false, false_or] at h
    simp [h]
  · simp

/-- The request of an accepted cursor. -/
theorem prepare_accepted (cursor : String) (order : OrderMethod) (limit : Int) (d : preCursor)
    (hcur : cursor ≠ "") (hdec : decodeCursor cursor = (d, none))
    (hname : d.SubCursorName = order.GetCursorKeyName) :
    prepare cursor order limit =
      { isFirst := false, pointsNext := d.CursorPointsNext,
        call := .withCursorParams order.GetCursorKeyName order.GetStringValue
          (wrapInt32 (limit + 1)) (if d.CursorPointsNext then "next" else "prev")
          d.CursorID d.SubCursor } := by
  simp [prepare, cursorCheck_accepted _ _ d hdec hname, hcur]

/-- The request of an empty or rejected cursor. -/
theorem prepare_first (cursor : String) (order : OrderMethod) (limit : Int)
    (h : cursor = "" ∨ (decodeCursor cursor).2 ≠ none
      ∨ (decodeCursor cursor).1.SubCursorName ≠ order.GetCursorKeyName) :
    prepare cursor order limit =
      { isFirst := true, pointsNext := false,
        call := .withLimit order.GetStringValue (wrapInt32 (limit + 1)) } := by
  rcases h with h | h
  · simp [prepare, h]
  · simp [prepare, cursorCheck_rejected _ _ h]

theorem trimPage_ne_nil {T : Type} (limit : Int) (data : List T) (hlimit : 1 ≤ limit)
    (hrows : data ≠ []) : trimPage limit data ≠ [] := by
  unfold trimPage
  split
  · intro h
    rw [List.take_eq_nil_iff] at h
    rcases h with h | h
    · omega
    · exact hrows h
  · exact hrows

/-- The result of `paginate` on a page that is not empty. -/
theorem paginate_rows {T : Type} (q : Querier T) (key : GoString) (limit : Int)
    (isFirst pointsNext : Bool) (data : List T) (hlimit : 1 ≤ limit) (hrows : data ≠ [])
    (first last : T) (hfirst : (trimPage limit data).head? = some first)
    (hlast : (trimPage limit data).getLast? = some last) :
    paginate q key limit isFirst pointsNext data =
      .returned (trimPage limit data)
        (if pointsNext || isFirst then
          calculatePagination isFirst (decide ((data.length : Int) > limit)) pointsNext
            (edgeOf q key first) (edgeOf q key last)
        else
          calculatePagination isFirst (decide ((data.length : Int) > limit)) pointsNext
            (edgeOf q key last) (edgeOf q key first)) none := by
  have hne := trimPage_ne_nil limit data hlimit hrows
  have hlen : data.length ≠ 0 := by simpa using hrows
  have h0 : (trimPage limit data).get? 0 = some first := by
    rw [← hfirst]; cases trimPage limit data <;> simp
  have hl : (trimPage limit data).get? ((trimPage limit data).length - 1) = some last := by
    rw [← hlast, List.getLast?_eq_getElem?]; simp
  have hidx : (if ((trimPage limit data).length : Int) - 1 < 0 then (0 : Int)
      else ((trimPage limit data).length : Int) - 1).toNat = (trimPage limit data).length - 1 := by
    have : 0 < (trimPage limit data).length := List.length_pos.mpr hne
    split <;> omega
  unfold paginate
  rw [if_neg hlen, if_neg (by omega)]
  simp only [hidx, h0, hl, edgeOf]


theorem GetCursorData_of_request {T : Type} (q : Querier T) (cursor : String)
    (order : OrderMethod) (limit : Int) (req : Request) (data : List T)
    (hreq : prepare cursor order limit = req) (hq : runQuery q req.call = (data, none)) :
    GetCursorData q cursor order limit =
      paginate q order.GetCursorKeyName limit req.isFirst req.pointsNext data := by
  simp only [GetCursorData, hreq, hq]

/-- C6: with `limit ≥ 1` and a fetch that succeeds with at least one row, let `first` and
`last` be the first and the last row of the trimmed page. For an accepted backward cursor
the calculator is called with `firstRow` = the projection of `last` and `lastRow` = the
projection of `first`, so the next cursor is the token of `first` with
`pointsToNext = true`, and the previous cursor is the token of `last` with
`pointsToNext = false` when more than `limit` rows were fetched and empty otherwise. For
an accepted forward cursor and for a first page the edges are passed in page order. -/
theorem backward_edge_swap {T : Type} (q : Querier T) (cursor : String) (order : OrderMethod)
    (limit : Int) (data : List T) (first last : T) (hlimit : 1 ≤ limit) (hrows : data ≠ [])
    (hfirst : (trimPage limit data).head? = some first)
    (hlast : (trimPage limit data).getLast? = some last) :
    (∀ d : preCursor, cursor ≠ "" → decodeCursor cursor = (d, none) →
      d.SubCursorName = order.GetCursorKeyName → d.CursorPointsNext = false →
      q.RunQueryWithCursorParamsFunc order.GetCursorKeyName order.GetStringValue
        (wrapInt32 (limit + 1)) "prev" d.CursorID d.SubCursor = (data, none) →
      GetCursorData q cursor order limit =
        .returned (trimPage limit data)
          (calculatePagination false (decide ((data.length : Int) > limit)) false
            (edgeOf q order.GetCursorKeyName last) (edgeOf q order.GetCursorKeyName first)) none
      ∧ (calculatePagination false (decide ((data.length : Int) > limit)) false
            (edgeOf q order.GetCursorKeyName last)
            (edgeOf q order.GetCursorKeyName first)).NextCursor
          = encodeCursor (edgeCursor true (edgeOf q order.GetCursorKeyName first))
      ∧ (calculatePagination false (decide ((data.length : Int) > limit)) false
            (edgeOf q order.GetCursorKeyName last)
            (edgeOf q order.GetCursorKeyName first)).PrevCursor
          = if (data.length : Int) > limit then
              encodeCursor (edgeCursor false (edgeOf q order.GetCursorKeyName last))
            else "") ∧
    (∀ d : preCursor, cursor ≠ "" → decodeCursor cursor = (d, none) →
      d.SubCursorName = order.GetCursorKeyName → d.CursorPointsNext = true →
      q.RunQueryWithCursorParamsFunc order.GetCursorKeyName order.GetStringValue
        (wrapInt32 (limit + 1)) "next" d.CursorID d.SubCursor = (data, none) →
      GetCursorData q cursor order limit =
        .returned (trimPage limit data)
          (calculatePagination false (decide ((data.length : Int) > limit)) true
            (edgeOf q order.GetCursorKeyName first) (edgeOf q order.GetCursorKeyName last))
          none) ∧
    ((cursor = "" ∨ (decodeCursor cursor).2 ≠ none
        ∨ (decodeCursor cursor).1.SubCursorName ≠ order.GetCursorKeyName) →
      q.RunQueryWithLimitFunc order.GetStringValue (wrapInt32 (limit + 1)) = (data, none) →
      GetCursorData q cursor order limit =
        .returned (trimPage limit data)
          (calculatePagination true (decide ((data.length : Int) > limit)) false
            (edgeOf q order.GetCursorKeyName first) (edgeOf q order.GetCursorKeyName last))
          none) := by
  refine ⟨fun d hcur hdec hname hback hq => ⟨?_, ?_, ?_⟩, fun d hcur hdec hname hfwd hq => ?_,
    fun h hq => ?_⟩
  · have hreq := prepare_accepted cursor order limit d hcur hdec hname
    rw [GetCursorData_of_request q cursor order limit _ data hreq
      (by simpa [runQuery, hback] using hq)]
    rw [paginate_rows q _ limit _ _ data hlimit hrows first last hfirst hlast]
    simp [hback]
  · rw [(calculatePagination_rules _ false _ _).2.2]
  · rw [(calculatePagination_rules _ false _ _).2.2]
    simp
  · have hreq := prepare_accepted cursor order limit d hcur hdec hname
    rw [GetCursorData_of_request q cursor order limit _ data hreq
      (by simpa [runQuery, hfwd] using hq)]
    rw [paginate_rows q _ limit _ _ data hlimit hrows first last hfirst hlast]
    simp [hfwd]
  · have hreq := prepare_first cursor order limit h
    rw [GetCursorData_of_request q cursor order limit _ data hreq (by simpa [runQuery] using hq)]
    rw [paginate_rows q _ limit _ _ data hlimit hrows first last hfirst hlast]
    simp

/-- The token of key 3 pointing backward under the order `default`. -/
theorem prevToken3 :
    encodeCursor (createPreCursor (.int 3) false "default" .nil) =
      "eyJpZCI6MywicG9pbnRzX25leHQiOmZhbHNlLCJzdWJfY3Vyc29yX25hbWUiOiJkZWZhdWx0Iiwic3ViX2N1cnNvciI6bnVsbH0=" := by
  decide

/-- C6, witness: on the six rows with page size 2, the backward cursor of key 3 fetches
the rows 2 and 1; the next cursor is the token of row 2, the first row fetched, and the
previous cursor is empty. -/
theorem backward_edge_swap_witness :
    GetCursorData (cursorQuerier sixRows)
        (encodeCursor (createPreCursor (.int 3) false "default" .nil)) (dummyOrder "default") 2
      = .returned [⟨2, "e", 31⟩, ⟨1, "f", 30⟩]
          (calculatePagination false false false
            (edgeOf (cursorQuerier sixRows) "default" ⟨1, "f", 30⟩)
            (edgeOf (cursorQuerier sixRows) "default" ⟨2, "e", 31⟩)) none
    ∧ (calculatePagination false false false
            (edgeOf (cursorQuerier sixRows) "default" ⟨1, "f", 30⟩)
            (edgeOf (cursorQuerier sixRows) "default" ⟨2, "e", 31⟩)).NextCursor
        = encodeCursor (createPreCursor (.int 2) true "default" .nil)
    ∧ (calculatePagination false false false
            (edgeOf (cursorQuerier sixRows) "default" ⟨1, "f", 30⟩)
            (edgeOf (cursorQuerier sixRows) "default" ⟨2, "e", 31⟩)).PrevCursor = "" :=
  (backward_edge_swap (cursorQuerier sixRows)
    (encodeCursor (createPreCursor (.int 3) false "default" .nil)) (dummyOrder "default") 2
    [⟨2, "e", 31⟩, ⟨1, "f", 30⟩] ⟨2, "e", 31⟩ ⟨1, "f", 30⟩ (by decide) (by decide)
    (by decide) (by decide)).1
    { CursorID := .float64 ⟨false, 3 * 2 ^ 51, -51⟩, SubCursorName := "default" }
    (by decide) (by rfl) (by decide) rfl (by decide)

theorem paginate_err {T : Type} (q : Querier T) (key : GoString) (limit : Int)
    (isFirst pointsNext : Bool) (data rows : List T) (page : CursorPaginationAttribute)
    (err : Option GoError)
    (h : paginate q key limit isFirst pointsNext data = .returned rows page err) :
    (err = none ∧ rows = trimPage limit data ∧ rows ≠ [])
      ∨ (err = some .ErrDataNoRecord ∧ rows = [] ∧ page = {} ∧ data = []) := by
  unfold paginate at h
  by_cases h0 : data.length = 0
  · rw [if_pos h0] at h
    simp only [Outcome.returned.injEq] at h
    exact Or.inr ⟨h.2.2.symm, h.1.symm, h.2.1.symm, List.length_eq_zero.mp h0⟩
  · rw [if_neg h0] at h
    simp only at h
    by_cases hp : decide ((data.length : Int) > limit) = true ∧ limit < 0
    · rw [if_pos hp] at h
      exact absurd h (by simp)
    · rw [if_neg hp] at h
      cases h1 : (trimPage limit data).get? 0 with
      | none => rw [h1] at h; simp at h
      | some e0 =>
        cases h2 : (trimPage limit data).get? (if ((trimPage limit data).length : Int) - 1 < 0
            then (0 : Int) else ((trimPage limit data).length : Int) - 1).toNat with
        | none => rw [h1, h2] at h; simp at h
        | some eLast =>
          rw [h1, h2] at h
          simp only [Outcome.returned.injEq] at h
          refine Or.inl ⟨h.2.2.symm, h.1.symm, ?_⟩
          rw [← h.1]
          intro hnil
          rw [hnil] at h1
          simp at h1

/-- A cursor that is rejected gives the request of the empty cursor. -/
theorem fallback_aux {T : Type} (q : Querier T) (cursor : String) (order : OrderMethod)
    (limit : Int)
    (h : (decodeCursor cursor).2 ≠ none
      ∨ (decodeCursor cursor).1.SubCursorName ≠ order.GetCursorKeyName) :
    GetCursorData q cursor order limit = GetCursorData q "" order limit := by
  have h1 := prepare_first cursor order limit (Or.inr h)
  have h2 := prepare_first "" order limit (Or.inl rfl)
  simp only [GetCursorData, h1, h2]

/-- C7: when the cursor does not decode, or decodes to a record whose sub-cursor name is
not the order method's cursor key name, `GetCursorData` makes the first-page query
`RunQueryWithLimitFunc`, returns exactly what the call with the empty cursor returns, and
the error it returns, if any, is not the decode error. -/
theorem fallback_first_page {T : Type} (q : Querier T) (cursor : String) (order : OrderMethod)
    (limit : Int)
    (h : (decodeCursor cursor).2 ≠ none
      ∨ (decodeCursor cursor).1.SubCursorName ≠ order.GetCursorKeyName) :
    GetCursorData q cursor order limit = GetCursorData q "" order limit
    ∧ (prepare cursor order limit).call = .withLimit order.GetStringValue (wrapInt32 (limit + 1))
    ∧ ∀ rows page err, GetCursorData q cursor order limit = .returned rows page (some err) →
        err ≠ .ErrFailedDecodeCursor := by
  have h1 := prepare_first cursor order limit (Or.inr h)
  have h2 := prepare_first "" order limit (Or.inl rfl)
  refine ⟨by simp only [GetCursorData, h1, h2], by rw [h1], ?_⟩
  intro rows page err hres
  simp only [GetCursorData, h1] at hres
  split at hres
  · simp only [Outcome.returned.injEq, Option.some.injEq] at hres
    rw [← hres.2.2]; simp
  · rcases paginate_err _ _ _ _ _ _ _ _ _ hres with h | h
    · exact absurd h.1 (by simp)
    · have := h.1
      simp only [Option.some.injEq] at this
      rw [this]; simp

/-- C7, witness: the cursor `invalid` does not decode. -/
theorem fallback_first_page_witness :
    GetCursorData (cursorQuerier sixRows) "invalid" (dummyOrder "default") 2
      = GetCursorData (cursorQuerier sixRows) "" (dummyOrder "default") 2
    ∧ (prepare "invalid" (dummyOrder "default") 2).call
      = .withLimit (dummyOrder "default").GetStringValue (wrapInt32 (2 + 1))
    ∧ ∀ rows page err,
        GetCursorData (cursorQuerier sixRows) "invalid" (dummyOrder "default") 2
          = .returned rows page (some err) → err ≠ .ErrFailedDecodeCursor :=
  fallback_first_page (cursorQuerier sixRows) "invalid" (dummyOrder "default") 2
    (Or.inl (by decide))

/-- C10: when the query `GetCursorData` makes succeeds with no rows, it returns nil rows,
an empty `CursorPaginationAttribute` and `ErrDataNoRecord`; and whenever it returns
without an error the page is not empty. -/
theorem empty_result_is_error {T : Type} (q : Querier T) (cursor : String)
    (order : OrderMethod) (limit : Int) :
    (runQuery q (prepare cursor order limit).call = ([], none) →
      GetCursorData q cursor order limit = .returned [] {} (some .ErrDataNoRecord))
    ∧ ∀ rows page, GetCursorData q cursor order limit = .returned rows page none →
        rows ≠ [] := by
  refine ⟨fun h => ?_, fun rows page hres => ?_⟩
  · simp [GetCursorData, h, paginate]
  · simp only [GetCursorData] at hres
    split at hres
    · simp at hres
    · rcases paginate_err _ _ _ _ _ _ _ _ _ hres with h | h
      · exact h.2.2
      · exact absurd h.1 (by simp)

/-- C10, witness: the test collaborator over no rows. -/
theorem empty_result_is_error_witness :
    GetCursorData (cursorQuerier []) "" (dummyOrder "default") 2
      = .returned [] {} (some .ErrDataNoRecord) :=
  (empty_result_is_error (cursorQuerier []) "" (dummyOrder "default") 2).1 (by decide)

/-! ## Theorems: rejected cursors -/

theorem encodeSextet_ne_pad (v : Nat) : encodeSextet v ≠ '=' := by
  intro h
  obtain ⟨s, hs⟩ := decodeMap_encodeSextet_some v
  rw [h, decodeMap_pad] at hs
  exact absurd hs (by simp)

theorem base64Encode_last (bs : List Nat) (h : bs.length % 3 = 0) :
    (base64Encode bs).getLast? ≠ some '=' := by
  induction bs using base64Encode.induct with
  | case1 => simp [base64Encode]
  | case2 a => simp at h
  | case3 a b => simp at h
  | case4 a b c rest ih =>
    have hr : rest.length % 3 = 0 := by simp only [List.length_cons] at h; omega
    have ih := ih hr
    simp only [base64Encode]
    cases hrest : base64Encode rest with
    | nil =>
      simp only [List.getLast?_cons_cons, List.getLast?_singleton, ne_eq, Option.some.injEq]
      exact encodeSextet_ne_pad _
    | cons x xs =>
      rw [hrest] at ih
      simpa [List.getLast?_cons_cons] using ih

theorem decodeLoop_newlines (g : List Char) (dbuf : List Nat) (h : skipNewlines g = []) :
    decodeLoop g dbuf = decodeLoop [] dbuf := by
  induction g with
  | nil => rfl
  | cons c cs ih =>
    simp only [skipNewlines] at h
    split at h
    · rename_i hc
      have hm : decodeMap c = none := by
        rcases hc with hc | hc <;> subst hc <;> decide
      have hstep : decodeLoop (c :: cs) dbuf = decodeLoop cs dbuf := by
        rw [decodeLoop, hm]
        simp only [hc, if_true]
      rw [hstep]
      exact ih h
    · exact absurd h (by simp)

/-- A token followed by garbage does not decode when the garbage is not base64 itself,
or when the token ends in padding and the garbage is more than CR and LF. -/
theorem base64_tampered (T : List Nat) (g : String)
    (hg : base64StdDecodeString g = none ∨
      ((base64StdEncodeToString T).toList.getLast? = some '=' ∧ skipNewlines g.toList ≠ [])) :
    base64StdDecodeString (base64StdEncodeToString T ++ g) = none := by
  obtain ⟨out, -, h⟩ := decodeLoop_encode_append T
  have happ : (base64StdEncodeToString T ++ g).toList = base64Encode T ++ g.toList := by
    simp [base64StdEncodeToString]
  simp only [base64StdDecodeString, happ, h]
  simp only [String.toList] at hg ⊢
  rcases hg with hg | ⟨hpad, hg⟩
  · simp only [base64StdDecodeString, String.toList] at hg
    split
    · simp [hg]
    · split
      · rename_i hnl
        rw [decodeLoop_newlines _ _ hnl] at hg
        simp [decodeLoop] at hg
      · rfl
  · have hlen : ¬ T.length % 3 = 0 := fun h0 => base64Encode_last T h0 (by
      simpa [base64StdEncodeToString] using hpad)
    simp [hlen, hg]


/-- A token with garbage appended is rejected when the garbage breaks the base64 text, and
when the garbage is base64 of bytes that are not all white space. -/
theorem decodeCursor_tampered (r : preCursor) (g : String) (ht : encodeCursor r ≠ "")
    (hg : base64StdDecodeString g = none ∨
      ((encodeCursor r).toList.getLast? = some '=' ∧ skipNewlines g.toList ≠ []) ∨
      ∃ G, base64StdDecodeString g = some G ∧ ∃ b ∈ G, isSpace b = false) :
    decodeCursor (encodeCursor r ++ g) = ({}, some .ErrFailedDecodeCursor) := by
  unfold encodeCursor at ht hg ⊢
  split at ht
  · exact absurd rfl ht
  · rename_i hv
    simp only [hv, if_false] at hg ⊢
    cases hm : jsonMarshal r with
    | none => rw [hm] at ht; exact absurd rfl ht
    | some T =>
      rw [hm] at hg
      simp only [Bool.false_eq_true, if_false] at hg ⊢
      rcases hg with hg | hg | ⟨G, hG, hsp⟩
      · simp only [decodeCursor, base64_tampered T g (Or.inl hg)]
      · simp only [decodeCursor, base64_tampered T g (Or.inr hg)]
      · obtain ⟨out, hout, h⟩ := decodeLoop_encode_append T
        have hT : out = T := hout (parseJSON_marshal_any r T hm).1
        subst hT
        have happ : (base64StdEncodeToString out ++ g).toList = base64Encode out ++ g.toList := by
          simp [base64StdEncodeToString]
        have hG2 : decodeLoop g.toList [] = some G := hG
        have hdec : base64StdDecodeString (base64StdEncodeToString out ++ g) = none ∨
            base64StdDecodeString (base64StdEncodeToString out ++ g) = some (out ++ G) := by
          simp only [base64StdDecodeString, happ, h, hG2]
          by_cases h3 : out.length % 3 = 0
          · right; rw [if_pos h3]; rfl
          · by_cases hnl : skipNewlines g.toList = []
            · rw [decodeLoop_newlines _ _ hnl] at hG2
              simp only [decodeLoop, if_true, Option.some.injEq] at hG2
              obtain ⟨b, hb, -⟩ := hsp
              rw [← hG2] at hb
              simp at hb
            · left; rw [if_neg h3, if_neg hnl]
        rcases hdec with hdec | hdec
        · simp only [decodeCursor, hdec]
        · simp only [decodeCursor, hdec, jsonUnmarshal,
            parseJSON_marshal_trailing r out hm G hsp]

/-- C8, as amended: for every cursor token `t` produced by the pager and every string `g`
that is not valid base64 by itself, every `g` that holds a character other than CR and LF
when `t` ends in `=` padding, and every `g` that is base64 of bytes that are not all white
space: `decodeCursor` rejects `t ++ g`, and `GetCursorData` called with `t ++ g` returns
what it returns for the empty cursor. What is left out is a `g` of CR and LF characters
only, and, after a token without padding, a `g` that is base64 of white space. -/
theorem tamper_falls_back {T : Type} (r : preCursor) (g : String) (ht : encodeCursor r ≠ "")
    (hg : base64StdDecodeString g = none ∨
      ((encodeCursor r).toList.getLast? = some '=' ∧ skipNewlines g.toList ≠ []) ∨
      ∃ G, base64StdDecodeString g = some G ∧ ∃ b ∈ G, isSpace b = false) :
    decodeCursor (encodeCursor r ++ g) = ({}, some .ErrFailedDecodeCursor) ∧
    ∀ (q : Querier T) (order : OrderMethod) (limit : Int),
      GetCursorData q (encodeCursor r ++ g) order limit = GetCursorData q "" order limit := by
  have h := decodeCursor_tampered r g ht hg
  exact ⟨h, fun q order limit => fallback_aux q _ order limit (Or.inl (by rw [h]; simp))⟩

/-- C8, witness: the token of key 2 followed by `invalid`, and followed by `x`; and the
token of key 5 under the order `name`, which has no padding, followed by `AAAA`. -/
theorem tamper_falls_back_witness :
    (decodeCursor (encodeCursor (createPreCursor (.int 2) true "default" .nil) ++ "invalid")
        = ({}, some .ErrFailedDecodeCursor) ∧
      ∀ (q : Querier DummyStatus) (order : OrderMethod) (limit : Int),
        GetCursorData q (encodeCursor (createPreCursor (.int 2) true "default" .nil) ++ "invalid")
          order limit = GetCursorData q "" order limit) ∧
    (decodeCursor (encodeCursor (createPreCursor (.int 2) true "default" .nil) ++ "x")
        = ({}, some .ErrFailedDecodeCursor) ∧
      ∀ (q : Querier DummyStatus) (order : OrderMethod) (limit : Int),
        GetCursorData q (encodeCursor (createPreCursor (.int 2) true "default" .nil) ++ "x")
          order limit = GetCursorData q "" order limit) ∧
    (decodeCursor (encodeCursor (createPreCursor (.int 5) true "name" (.str "b")) ++ "AAAA")
        = ({}, some .ErrFailedDecodeCursor) ∧
      ∀ (q : Querier DummyStatus) (order : OrderMethod) (limit : Int),
        GetCursorData q (encodeCursor (createPreCursor (.int 5) true "name" (.str "b")) ++ "AAAA")
          order limit = GetCursorData q "" order limit) :=
  ⟨tamper_falls_back (createPreCursor (.int 2) true "default" .nil) "invalid" (by decide)
      (Or.inl (by decide)),
    tamper_falls_back (createPreCursor (.int 2) true "default" .nil) "x" (by decide)
      (Or.inr (Or.inl (by decide))),
    tamper_falls_back (createPreCursor (.int 5) true "name" (.str "b")) "AAAA" (by decide)
      (Or.inr (Or.inr ⟨[0, 0, 0], by decide, 0, by decide, by decide⟩))⟩

/-- C8, counterexample: a line feed appended to the next cursor of the first page is
not rejected; the call returns the second page, not the first. And the next cursor of the
first page under the order `name`, a token without padding, followed by `IA==`, the
base64 text of one space, is not rejected either: the call returns the second page. -/
theorem tamper_newline_accepted :
    GetCursorData (cursorQuerier sixRows) "" (dummyOrder "default") 2
      = .returned [⟨1, "f", 30⟩, ⟨2, "e", 31⟩]
          { NextCursor := encodeCursor (createPreCursor (.int 2) true "default" .nil),
            PrevCursor := "" } none
    ∧ GetCursorData (cursorQuerier sixRows)
        (encodeCursor (createPreCursor (.int 2) true "default" .nil) ++ "\n")
        (dummyOrder "default") 2
      = .returned [⟨3, "d", 32⟩, ⟨4, "c", 33⟩]
          { NextCursor := encodeCursor (createPreCursor (.int 4) true "default" .nil),
            PrevCursor := encodeCursor (createPreCursor (.int 3) false "default" .nil) } none
    ∧ GetCursorData (cursorQuerier sixRows)
        (encodeCursor (createPreCursor (.int 2) true "default" .nil) ++ "\n")
        (dummyOrder "default") 2
      ≠ GetCursorData (cursorQuerier sixRows) "" (dummyOrder "default") 2
    ∧ GetCursorData (cursorQuerier sixRows) "" (dummyOrder "name") 2
      = .returned [⟨6, "a", 35⟩, ⟨5, "b", 34⟩]
          { NextCursor := encodeCursor (createPreCursor (.int 5) true "name" (.str "b")),
            PrevCursor := "" } none
    ∧ base64StdDecodeString "IA==" = some [32]
    ∧ GetCursorData (cursorQuerier sixRows)
        (encodeCursor (createPreCursor (.int 5) true "name" (.str "b")) ++ "IA==")
        (dummyOrder "name") 2
      = .returned [⟨4, "c", 33⟩, ⟨3, "d", 32⟩]
          { NextCursor := encodeCursor (createPreCursor (.int 3) true "name" (.str "d")),
            PrevCursor := encodeCursor (createPreCursor (.int 4) false "name" (.str "c")) } none
    ∧ GetCursorData (cursorQuerier sixRows)
        (encodeCursor (createPreCursor (.int 5) true "name" (.str "b")) ++ "IA==")
        (dummyOrder "name") 2
      ≠ GetCursorData (cursorQuerier sixRows) "" (dummyOrder "name") 2 := by
  decide

theorem calculatePagination_cursors (isFirst hasMore pointsNext : Bool)
    (firstRow lastRow : cursorData) :
    ((calculatePagination isFirst hasMore pointsNext firstRow lastRow).NextCursor = "" ∨
      (calculatePagination isFirst hasMore pointsNext firstRow lastRow).NextCursor
        = encodeCursor (edgeCursor true lastRow)) ∧
    ((calculatePagination isFirst hasMore pointsNext firstRow lastRow).PrevCursor = "" ∨
      (calculatePagination isFirst hasMore pointsNext firstRow lastRow).PrevCursor
        = encodeCursor (edgeCursor false firstRow)) := by
  have hz : encodeCursor {} = "" := by simp [encodeCursor]
  cases isFirst <;> cases hasMore <;> cases pointsNext <;>
    simp [calculatePagination, generatePager, edgeCursor, hz]

/-- Every cursor of a successful call is empty or the token of a row of the page. -/
theorem minted_cursors {T : Type} (q : Querier T) (cursor : String) (order : OrderMethod)
    (limit : Int) (rows : List T) (page : CursorPaginationAttribute)
    (h : GetCursorData q cursor order limit = .returned rows page none) :
    (page.NextCursor = "" ∨ ∃ row ∈ rows,
      page.NextCursor = encodeCursor (edgeCursor true (edgeOf q order.GetCursorKeyName row))) ∧
    (page.PrevCursor = "" ∨ ∃ row ∈ rows,
      page.PrevCursor = encodeCursor (edgeCursor false (edgeOf q order.GetCursorKeyName row))) := by
  simp only [GetCursorData] at h
  split at h
  · simp at h
  · rename_i data hq
    unfold paginate at h
    by_cases h0 : data.length = 0
    · rw [if_pos h0] at h; simp at h
    · rw [if_neg h0] at h
      simp only at h
      by_cases hp : decide ((data.length : Int) > limit) = true ∧ limit < 0
      · rw [if_pos hp] at h; simp at h
      · rw [if_neg hp] at h
        cases h1 : (trimPage limit data).get? 0 with
        | none => rw [h1] at h; simp at h
        | some e0 =>
          cases h2 : (trimPage limit data).get? (if ((trimPage limit data).length : Int) - 1 < 0
              then (0 : Int) else ((trimPage limit data).length : Int) - 1).toNat with
          | none => rw [h1, h2] at h; simp at h
          | some eLast =>
            rw [h1, h2] at h
            simp only [Outcome.returned.injEq, and_true] at h
            obtain ⟨hrows, hpage⟩ := h
            have m0 : e0 ∈ rows := by rw [← hrows]; exact List.get?_mem h1
            have m1 : eLast ∈ rows := by rw [← hrows]; exact List.get?_mem h2
            rw [← hpage]
            split
            · have := calculatePagination_cursors (prepare cursor order limit).isFirst
                (decide ((data.length : Int) > limit)) (prepare cursor order limit).pointsNext
                (edgeOf q order.GetCursorKeyName e0) (edgeOf q order.GetCursorKeyName eLast)
              exact ⟨this.1.imp id fun h => ⟨eLast, m1, h⟩, this.2.imp id fun h => ⟨e0, m0, h⟩⟩
            · have := calculatePagination_cursors (prepare cursor order limit).isFirst
                (decide ((data.length : Int) > limit)) (prepare cursor order limit).pointsNext
                (edgeOf q order.GetCursorKeyName eLast) (edgeOf q order.GetCursorKeyName e0)
              exact ⟨this.1.imp id fun h => ⟨e0, m0, h⟩, this.2.imp id fun h => ⟨eLast, m1, h⟩⟩

/-- C9, as amended: a cursor minted by `GetCursorData` under an order method `A` is
treated as a first-page request under every order method `B` whose cursor key name
differs from the key name the cursor carries: the cursor key name of `A` with every byte
that is not valid UTF-8 replaced by U+FFFD, which is the cursor key name of `A` itself
when that is valid UTF-8. -/
theorem other_key_falls_back {T U : Type} (q : Querier T) (cursor : String)
    (A B : OrderMethod) (limit : Int) (rows : List T) (page : CursorPaginationAttribute)
    (c : String) (q2 : Querier U) (limit2 : Int)
    (hmint : GetCursorData q cursor A limit = .returned rows page none)
    (hc : c = page.NextCursor ∨ c = page.PrevCursor)
    (hkey : toValidUTF8 A.GetCursorKeyName ≠ B.GetCursorKeyName) :
    GetCursorData q2 c B limit2 = GetCursorData q2 "" B limit2 := by
  have hm := minted_cursors q cursor A limit rows page hmint
  have key : ∀ pn : Bool, ∀ row ∈ rows,
      GetCursorData q2 (encodeCursor (edgeCursor pn (edgeOf q A.GetCursorKeyName row))) B limit2
        = GetCursorData q2 "" B limit2 := by
    intro pn row _
    rcases decode_encode_any (edgeCursor pn (edgeOf q A.GetCursorKeyName row)) with hd | ⟨a, b, hd⟩
    · exact fallback_aux q2 _ B limit2 (Or.inl (by rw [hd]; simp))
    · exact fallback_aux q2 _ B limit2 (Or.inr (by rw [hd]; exact hkey))
  rcases hc with hc | hc
  · rcases hm.1 with h | ⟨row, hrow, h⟩
    · rw [hc, h]
    · rw [hc, h]; exact key true row hrow
  · rcases hm.2 with h | ⟨row, hrow, h⟩
    · rw [hc, h]
    · rw [hc, h]; exact key false row hrow

/-- C9, witness: the next cursor of the first page under `name` (key `name`), used under
`default` (key `default`). -/
theorem other_key_falls_back_witness :
    GetCursorData (cursorQuerier sixRows)
        (encodeCursor (createPreCursor (.int 5) true "name" (.str "b"))) (dummyOrder "default") 2
      = GetCursorData (cursorQuerier sixRows) "" (dummyOrder "default") 2 :=
  other_key_falls_back (cursorQuerier sixRows) "" (dummyOrder "name") (dummyOrder "default") 2
    [⟨6, "a", 35⟩, ⟨5, "b", 34⟩]
    { NextCursor := encodeCursor (createPreCursor (.int 5) true "name" (.str "b")),
      PrevCursor := "" }
    (encodeCursor (createPreCursor (.int 5) true "name" (.str "b")))
    (cursorQuerier sixRows) 2 (by decide) (Or.inl rfl) (by decide)

/-- C9, counterexample: the orders `name` and `r_name` differ but share the cursor key
`name`; the next cursor of the first page under `name` is accepted under `r_name`, and
the call returns the row after it, not the first page of `r_name`. And two order methods
whose cursor key names differ, the bytes `n`, `0xff` and the text `n` followed by U+FFFD:
the next cursor of the first page under the first carries the name as the second has it,
and is accepted under the second: the call returns the second page, not the first. -/
theorem same_key_accepted :
    GetCursorData (cursorQuerier sixRows) "" (dummyOrder "name") 2
      = .returned [⟨6, "a", 35⟩, ⟨5, "b", 34⟩]
          { NextCursor := encodeCursor (createPreCursor (.int 5) true "name" (.str "b")),
            PrevCursor := "" } none
    ∧ (dummyOrder "name").GetStringValue ≠ (dummyOrder "r_name").GetStringValue
    ∧ GetCursorData (cursorQuerier sixRows)
        (encodeCursor (createPreCursor (.int 5) true "name" (.str "b"))) (dummyOrder "r_name") 2
      ≠ GetCursorData (cursorQuerier sixRows) "" (dummyOrder "r_name") 2
    ∧ GetCursorData (cursorQuerier sixRows) "" rawKeyOrder 2
      = .returned [⟨1, "f", 30⟩, ⟨2, "e", 31⟩]
          { NextCursor := encodeCursor (createPreCursor (.int 2) true [110, 255] .nil),
            PrevCursor := "" } none
    ∧ rawKeyOrder.GetCursorKeyName ≠ replacedKeyOrder.GetCursorKeyName
    ∧ GetCursorData (cursorQuerier sixRows)
        (encodeCursor (createPreCursor (.int 2) true [110, 255] .nil)) replacedKeyOrder 2
      = .returned [⟨3, "d", 32⟩, ⟨4, "c", 33⟩]
          { NextCursor := encodeCursor (createPreCursor (.int 4) true [110, 239, 191, 189] .nil),
            PrevCursor :=
              encodeCursor (createPreCursor (.int 3) false [110, 239, 191, 189] .nil) } none
    ∧ GetCursorData (cursorQuerier sixRows)
        (encodeCursor (createPreCursor (.int 2) true [110, 255] .nil)) replacedKeyOrder 2
      ≠ GetCursorData (cursorQuerier sixRows) "" replacedKeyOrder 2 := by
  decide

theorem paginate_returns {T : Type} (q : Querier T) (key : GoString) (limit : Int)
    (isFirst pointsNext : Bool) (data : List T) (hlimit : 1 ≤ limit) :
    ∃ rows page err, paginate q key limit isFirst pointsNext data = .returned rows page err := by
  by_cases hrows : data = []
  · subst hrows
    exact ⟨[], {}, some .ErrDataNoRecord, by simp [paginate]⟩
  · have hne := trimPage_ne_nil limit data hlimit hrows
    obtain ⟨first, hfirst⟩ : ∃ first, (trimPage limit data).head? = some first := by
      cases h : trimPage limit data with
      | nil => exact absurd h hne
      | cons a l => exact ⟨a, rfl⟩
    obtain ⟨last, hlast⟩ : ∃ last, (trimPage limit data).getLast? = some last :=
      ⟨_, List.getLast?_eq_getLast _ hne⟩
    exact ⟨_, _, _, paginate_rows q key limit isFirst pointsNext data hlimit hrows first last
      hfirst hlast⟩

/-- C11: when the query `GetCursorData` makes fails with an error `e`, it returns nil
rows, an empty `CursorPaginationAttribute` and an error that wraps `e`; every result it
returns is either nil rows, an empty `CursorPaginationAttribute` and an error, or a page
that is not empty and no error; and for `limit ≥ 1` it does return. -/
theorem query_error_wrapped {T : Type} (q : Querier T) (cursor : String) (order : OrderMethod)
    (limit : Int) :
    (∀ data e, runQuery q (prepare cursor order limit).call = (data, some e) →
      GetCursorData q cursor order limit =
        .returned [] {}
          (some (.wrap
            (if (prepare cursor order limit).isFirst then
              "failed to run query with numbered params: "
            else "failed to run query with cursor params: ") e))) ∧
    (∀ rows page err, GetCursorData q cursor order limit = .returned rows page err →
      (rows = [] ∧ page = {} ∧ err ≠ none) ∨ (rows ≠ [] ∧ err = none)) ∧
    (1 ≤ limit → ∃ rows page err, GetCursorData q cursor order limit = .returned rows page err) := by
  refine ⟨fun data e h => ?_, fun rows page err hres => ?_, fun hlimit => ?_⟩
  · simp only [GetCursorData, h]
  · simp only [GetCursorData] at hres
    split at hres
    · simp only [Outcome.returned.injEq] at hres
      exact Or.inl ⟨hres.1.symm, hres.2.1.symm, by rw [← hres.2.2]; simp⟩
    · rcases paginate_err _ _ _ _ _ _ _ _ _ hres with h | h
      · exact Or.inr ⟨h.2.2, h.1⟩
      · exact Or.inl ⟨h.2.1, h.2.2.1, by rw [h.1]; simp⟩
  · simp only [GetCursorData]
    split
    · exact ⟨_, _, _, rfl⟩
    · exact paginate_returns _ _ _ _ _ _ hlimit

/-- C11, witness: a collaborator whose queries fail with the error `boom`. -/
theorem query_error_wrapped_witness :
    GetCursorData (failingQuerier (.other "boom")) "" (dummyOrder "default") 2
      = .returned [] {}
          (some (.wrap "failed to run query with numbered params: " (.other "boom"))) :=
  (query_error_wrapped (failingQuerier (.other "boom")) "" (dummyOrder "default") 2).1 []
    (.other "boom") (by decide)

theorem wrapInt32_id (x : Int) (h1 : -2147483648 ≤ x) (h2 : x < 2147483648) :
    wrapInt32 x = x := by
  unfold wrapInt32
  omega

/-- The query of a request with `1 ≤ limit < 2^31 - 1` asks for `limit + 1` rows. -/
theorem fetch_arguments (cursor : String) (order : OrderMethod) (limit : Int)
    (h1 : 1 ≤ limit) (h2 : limit < 2147483647) :
    (∀ d : preCursor, cursor ≠ "" → decodeCursor cursor = (d, none) →
      d.SubCursorName = order.GetCursorKeyName →
      (prepare cursor order limit).call =
        .withCursorParams order.GetCursorKeyName order.GetStringValue (limit + 1)
          (if d.CursorPointsNext then "next" else "prev") d.CursorID d.SubCursor) ∧
    ((cursor = "" ∨ (decodeCursor cursor).2 ≠ none
        ∨ (decodeCursor cursor).1.SubCursorName ≠ order.GetCursorKeyName) →
      (prepare cursor order limit).call = .withLimit order.GetStringValue (limit + 1)) := by
  have hw : wrapInt32 (limit + 1) = limit + 1 := wrapInt32_id _ (by omega) (by omega)
  refine ⟨fun d hcur hdec hname => ?_, fun h => ?_⟩
  · rw [prepare_accepted cursor order limit d hcur hdec hname, hw]
  · rw [prepare_first cursor order limit h, hw]

/-- C12, at the failing input: with `limit = 2147483647`, the largest `int32`, the sum
`limit + 1` wraps around, and the collaborator is asked for `-2147483648` rows, on a first
page and with an accepted cursor alike. -/
theorem fetch_limit_overflow (order : OrderMethod) :
    (prepare "" order 2147483647).call = .withLimit order.GetStringValue (-2147483648) ∧
    (prepare (encodeCursor (createPreCursor (.int 2) true "default" .nil)) (dummyOrder "default")
        2147483647).call =
      .withCursorParams "default" "default" (-2147483648) "next"
        (.float64 ⟨false, 2 ^ 52, -51⟩) .nil ∧
    (-2147483648 : Int) ≠ 2147483647 + 1 := by
  refine ⟨?_, ?_, by decide⟩
  · rw [prepare_first _ _ _ (Or.inl rfl)]; rfl
  · rw [prepare_accepted _ (dummyOrder "default") _
      { CursorID := .float64 ⟨false, 2 ^ 52, -51⟩, CursorPointsNext := true,
        SubCursorName := "default" } (by decide) (by rfl) (by decide)]
    rfl

/-- C13: with `limit ≥ 1` and a query that succeeds with rows `R`, not empty,
`GetCursorData` returns `R` itself when `len(R) ≤ limit` and the first `limit` rows of `R`
otherwise, without an error; the page has between 1 and `limit` rows; and the calculator
is called with `hasMore` true exactly when `len(R) > limit`, on the first and the last
row of the page. -/
theorem trimming {T : Type} (q : Querier T) (cursor : String) (order : OrderMethod)
    (limit : Int) (R : List T) (hlimit : 1 ≤ limit)
    (hq : runQuery q (prepare cursor order limit).call = (R, none)) (hR : R ≠ []) :
    ∃ rows first last,
      rows = (if (R.length : Int) ≤ limit then R else R.take limit.toNat) ∧
      1 ≤ rows.length ∧ (rows.length : Int) ≤ limit ∧
      rows.head? = some first ∧ rows.getLast? = some last ∧
      GetCursorData q cursor order limit =
        .returned rows
          (if (prepare cursor order limit).pointsNext || (prepare cursor order limit).isFirst then
            calculatePagination (prepare cursor order limit).isFirst
              (decide ((R.length : Int) > limit)) (prepare cursor order limit).pointsNext
              (edgeOf q order.GetCursorKeyName first) (edgeOf q order.GetCursorKeyName last)
          else
            calculatePagination (prepare cursor order limit).isFirst
              (decide ((R.length : Int) > limit)) (prepare cursor order limit).pointsNext
              (edgeOf q order.GetCursorKeyName last) (edgeOf q order.GetCursorKeyName first))
          none := by
  have hne := trimPage_ne_nil limit R hlimit hR
  have htrim : trimPage limit R = (if (R.length : Int) ≤ limit then R else R.take limit.toNat) := by
    unfold trimPage
    by_cases h : (R.length : Int) ≤ limit
    · rw [if_neg (by omega), if_pos h]
    · rw [if_pos (by omega), if_neg h]
  obtain ⟨first, hfirst⟩ : ∃ first, (trimPage limit R).head? = some first := by
    cases h : trimPage limit R with
    | nil => exact absurd h hne
    | cons a l => exact ⟨a, rfl⟩
  have hlast : (trimPage limit R).getLast? = some ((trimPage limit R).getLast hne) :=
    List.getLast?_eq_getLast _ hne
  refine ⟨trimPage limit R, first, _, htrim, List.length_pos.mpr hne, ?_, hfirst, hlast, ?_⟩
  · rw [htrim]
    split
    · assumption
    · rw [List.length_take]
      omega
  · rw [GetCursorData_of_request q cursor order limit _ R rfl hq]
    exact paginate_rows q _ limit _ _ R hlimit hR first _ hfirst hlast

/-- C13, witness: the first page of the six rows with page size 2: three rows are
fetched and the first two are returned. -/
theorem trimming_witness :
    ∃ rows first last,
      rows = (if (([⟨1, "f", 30⟩, ⟨2, "e", 31⟩, ⟨3, "d", 32⟩] : List DummyStatus).length : Int) ≤ 2
        then [⟨1, "f", 30⟩, ⟨2, "e", 31⟩, ⟨3, "d", 32⟩]
        else ([⟨1, "f", 30⟩, ⟨2, "e", 31⟩, ⟨3, "d", 32⟩] : List DummyStatus).take (2 : Int).toNat) ∧
      1 ≤ rows.length ∧ (rows.length : Int) ≤ 2 ∧
      rows.head? = some first ∧ rows.getLast? = some last ∧
      GetCursorData (cursorQuerier sixRows) "" (dummyOrder "default") 2 =
        .returned rows
          (if (prepare "" (dummyOrder "default") 2).pointsNext
              || (prepare "" (dummyOrder "default") 2).isFirst then
            calculatePagination (prepare "" (dummyOrder "default") 2).isFirst
              (decide ((([⟨1, "f", 30⟩, ⟨2, "e", 31⟩, ⟨3, "d", 32⟩] : List DummyStatus).length : Int) > 2))
              (prepare "" (dummyOrder "default") 2).pointsNext
              (edgeOf (cursorQuerier sixRows) (dummyOrder "default").GetCursorKeyName first)
              (edgeOf (cursorQuerier sixRows) (dummyOrder "default").GetCursorKeyName last)
          else
            calculatePagination (prepare "" (dummyOrder "default") 2).isFirst
              (decide ((([⟨1, "f", 30⟩, ⟨2, "e", 31⟩, ⟨3, "d", 32⟩] : List DummyStatus).length : Int) > 2))
              (prepare "" (dummyOrder "default") 2).pointsNext
              (edgeOf (cursorQuerier sixRows) (dummyOrder "default").GetCursorKeyName last)
              (edgeOf (cursorQuerier sixRows) (dummyOrder "default").GetCursorKeyName first))
          none :=
  trimming (cursorQuerier sixRows) "" (dummyOrder "default") 2
    [⟨1, "f", 30⟩, ⟨2, "e", 31⟩, ⟨3, "d", 32⟩] (by decide) (by decide) (by decide)

/-- C18, the defect: for every `limit ≤ 0`, every cursor and every collaborator, a query
that succeeds with one row or more makes `GetCursorData` panic: at the slice expression
`data[:limit]` when `limit` is negative, at the index expression `data[0]` on the page
trimmed to no rows when `limit` is 0. -/
theorem nonpositive_limit_panics {T : Type} (q : Querier T) (cursor : String)
    (order : OrderMethod) (limit : Int) (data : List T) (hlimit : limit ≤ 0)
    (hq : runQuery q (prepare cursor order limit).call = (data, none)) (hrows : data ≠ []) :
    GetCursorData q cursor order limit = .panicked := by
  rw [GetCursorData_of_request q cursor order limit _ data rfl hq]
  have hlen : data.length ≠ 0 := by simpa using hrows
  unfold paginate
  rw [if_neg hlen]
  by_cases hneg : limit < 0
  · simp only
    rw [if_pos ⟨by simp; omega, hneg⟩]
  · have h0 : limit = 0 := by omega
    subst h0
    have ht : trimPage 0 data = [] := by
      unfold trimPage
      rw [if_pos (by omega)]
      simp
    simp only [ht]
    rw [if_neg (by simp)]
    simp

/-- C18, witness: the test collaborator over the six rows with `limit = 0` (it is asked
for one row and returns it), and a collaborator that returns one row with `limit = -1`. -/
theorem nonpositive_limit_panics_witness :
    GetCursorData (cursorQuerier sixRows) "" (dummyOrder "default") 0 = .panicked ∧
    GetCursorData (constQuerier [⟨1, "f", 30⟩]) "" (dummyOrder "default") (-1) = .panicked :=
  ⟨nonpositive_limit_panics (cursorQuerier sixRows) "" (dummyOrder "default") 0
      [⟨1, "f", 30⟩] (by decide) (by decide) (by decide),
    nonpositive_limit_panics (constQuerier [⟨1, "f", 30⟩]) "" (dummyOrder "default") (-1)
      [⟨1, "f", 30⟩] (by decide) (by decide) (by decide)⟩

/-! ## Theorems: what decodeCursor accepts and rejects -/

theorem storeBool_isSome (v : JVal) (a b : Bool) :
    (storeBool v a).isSome = (storeBool v b).isSome := by
  cases v <;> rfl

theorem storeString_isSome (v : JVal) (a b : GoString) :
    (storeString v a).isSome = (storeString v b).isSome := by
  cases v <;> rfl

/-- Whether a member is stored does not depend on what the record holds. -/
theorem assignField_isSome (c c2 : preCursor) (k : String) (v : JVal) :
    (assignField c k v).isSome = (assignField c2 k v).isSome := by
  unfold assignField
  split
  · simp
  · split
    · simp only [Option.isSome_map']
      exact storeBool_isSome _ _ _
    · split
      · simp only [Option.isSome_map']
        exact storeString_isSome _ _ _
      · split
        · simp
        · rfl

/-- A member changes only the field its key selects, and never the validity marker. -/
theorem assignField_keeps (c c2 : preCursor) (k : String) (v : JVal)
    (h : assignField c k v = some c2) :
    c2.valid = c.valid ∧
    (keyMatches k "id" = false → c2.CursorID = c.CursorID) ∧
    (keyMatches k "points_next" = false → c2.CursorPointsNext = c.CursorPointsNext) ∧
    (keyMatches k "sub_cursor_name" = false → c2.SubCursorName = c.SubCursorName) ∧
    (keyMatches k "sub_cursor" = false → c2.SubCursor = c.SubCursor) := by
  unfold assignField at h
  by_cases h1 : keyMatches k "id" = true
  · rw [if_pos h1] at h
    obtain ⟨a, -, rfl⟩ := Option.map_eq_some'.mp h
    simp [h1]
  · rw [if_neg h1] at h
    by_cases h2 : keyMatches k "points_next" = true
    · rw [if_pos h2] at h
      obtain ⟨a, -, rfl⟩ := Option.map_eq_some'.mp h
      simp [h2]
    · rw [if_neg h2] at h
      by_cases h3 : keyMatches k "sub_cursor_name" = true
      · rw [if_pos h3] at h
        obtain ⟨a, -, rfl⟩ := Option.map_eq_some'.mp h
        simp [h3]
      · rw [if_neg h3] at h
        by_cases h4 : keyMatches k "sub_cursor" = true
        · rw [if_pos h4] at h
          obtain ⟨a, -, rfl⟩ := Option.map_eq_some'.mp h
          simp [h4]
        · rw [if_neg h4] at h
          simp only [Option.some.injEq] at h
          subst h
          simp

/-- An object whose members all fit is stored, and a field no key selects keeps its
value. -/
theorem assignFields_fits (kvs : List (String × JVal)) :
    ∀ c : preCursor, (∀ m ∈ kvs, memberFits m = true) →
      ∃ c2, assignFields kvs c = some c2 ∧ c2.valid = c.valid ∧
        ((∀ m ∈ kvs, keyMatches m.1 "id" = false) → c2.CursorID = c.CursorID) ∧
        ((∀ m ∈ kvs, keyMatches m.1 "points_next" = false) →
          c2.CursorPointsNext = c.CursorPointsNext) ∧
        ((∀ m ∈ kvs, keyMatches m.1 "sub_cursor_name" = false) →
          c2.SubCursorName = c.SubCursorName) ∧
        ((∀ m ∈ kvs, keyMatches m.1 "sub_cursor" = false) → c2.SubCursor = c.SubCursor) := by
  induction kvs with
  | nil => intro c _; exact ⟨c, rfl, rfl, fun _ => rfl, fun _ => rfl, fun _ => rfl, fun _ => rfl⟩
  | cons m kvs ih =>
    intro c hfit
    obtain ⟨k, v⟩ := m
    have hm : (assignField c k v).isSome = true := by
      rw [assignField_isSome c {} k v]
      exact hfit (k, v) (List.mem_cons_self _ _)
    obtain ⟨c1, hc1⟩ := Option.isSome_iff_exists.mp hm
    obtain ⟨hv, hid, hpn, hname, hsub⟩ := assignField_keeps c c1 k v hc1
    obtain ⟨c2, hc2, hv2, hid2, hpn2, hname2, hsub2⟩ :=
      ih c1 (fun m hmem => hfit m (List.mem_cons_of_mem _ hmem))
    refine ⟨c2, by simp only [assignFields, hc1, hc2], hv2.trans hv, ?_, ?_, ?_, ?_⟩
    · intro h
      rw [hid2 fun m hmem => h m (List.mem_cons_of_mem _ hmem),
        hid (h (k, v) (List.mem_cons_self _ _))]
    · intro h
      rw [hpn2 fun m hmem => h m (List.mem_cons_of_mem _ hmem),
        hpn (h (k, v) (List.mem_cons_self _ _))]
    · intro h
      rw [hname2 fun m hmem => h m (List.mem_cons_of_mem _ hmem),
        hname (h (k, v) (List.mem_cons_self _ _))]
    · intro h
      rw [hsub2 fun m hmem => h m (List.mem_cons_of_mem _ hmem),
        hsub (h (k, v) (List.mem_cons_self _ _))]

/-- C19, counterexample: the token `e30=` is the base64 text of the payload `{}`, which
omits all four fields, and `decodeCursor` returns the zero record for it without an
error; the token of `{"id":7}` decodes too. -/
theorem empty_object_accepted :
    base64StdDecodeString "e30=" = some [123, 125] ∧
    decodeCursor "e30=" = ({}, none) ∧
    base64StdDecodeString "eyJpZCI6N30=" = some [123, 34, 105, 100, 34, 58, 55, 125] ∧
    decodeCursor "eyJpZCI6N30=" = ({ CursorID := .float64 ⟨false, 7 * 2 ^ 50, -50⟩ }, none) :=
  ⟨by decide, by rfl, by decide, by rfl⟩

/-- C19, as amended: a token that is valid base64 of a JSON object in which every member
present fits the field its key selects is decoded without an error, whichever of the
fields `id`, `points_next`, `sub_cursor_name` and `sub_cursor` the object omits; a field
no key of the object selects has its zero value in the record returned, and the validity
marker is false. -/
theorem missing_fields_accepted (token : String) (data : List Nat)
    (kvs : List (String × JVal)) (hb : base64StdDecodeString token = some data)
    (hj : parseJSON data = some (.obj kvs)) (hfit : ∀ m ∈ kvs, memberFits m = true) :
    ∃ c, decodeCursor token = (c, none) ∧ c.valid = false ∧
      ((∀ m ∈ kvs, keyMatches m.1 "id" = false) → c.CursorID = .nil) ∧
      ((∀ m ∈ kvs, keyMatches m.1 "points_next" = false) → c.CursorPointsNext = false) ∧
      ((∀ m ∈ kvs, keyMatches m.1 "sub_cursor_name" = false) → c.SubCursorName = "") ∧
      ((∀ m ∈ kvs, keyMatches m.1 "sub_cursor" = false) → c.SubCursor = .nil) := by
  obtain ⟨c, hc, hrest⟩ := assignFields_fits kvs {} hfit
  exact ⟨c, by simp only [decodeCursor, hb, jsonUnmarshal, hj, hc], hrest⟩

/-- C19, witness: the payload `{"points_next":true}`, which omits `id`,
`sub_cursor_name` and `sub_cursor`. -/
theorem missing_fields_accepted_witness :
    ∃ c, decodeCursor "eyJwb2ludHNfbmV4dCI6dHJ1ZX0=" = (c, none) ∧ c.valid = false ∧
      ((∀ m ∈ [("points_next", JVal.bool true)], keyMatches m.1 "id" = false) →
        c.CursorID = .nil) ∧
      ((∀ m ∈ [("points_next", JVal.bool true)], keyMatches m.1 "points_next" = false) →
        c.CursorPointsNext = false) ∧
      ((∀ m ∈ [("points_next", JVal.bool true)], keyMatches m.1 "sub_cursor_name" = false) →
        c.SubCursorName = "") ∧
      ((∀ m ∈ [("points_next", JVal.bool true)], keyMatches m.1 "sub_cursor" = false) →
        c.SubCursor = .nil) :=
  missing_fields_accepted "eyJwb2ludHNfbmV4dCI6dHJ1ZX0="
    [123, 34, 112, 111, 105, 110, 116, 115, 95, 110, 101, 120, 116, 34, 58, 116, 114, 117,
      101, 125]
    [("points_next", .bool true)] (by decide) (by rfl) (by decide)

theorem mem_skipNewlines (c : Char) (h1 : c ≠ '\n') (h2 : c ≠ '\r') :
    ∀ cs : List Char, c ∈ cs → c ∈ skipNewlines cs := by
  intro cs
  induction cs with
  | nil => intro h; exact h
  | cons x xs ih =>
    intro h
    simp only [skipNewlines]
    split
    · rename_i hx
      rcases List.mem_cons.mp h with h | h
      · subst h
        rcases hx with hx | hx
        · exact absurd hx h1
        · exact absurd hx h2
      · exact ih h
    · exact h

/-- A text with a character outside the base64 alphabet, other than CR, LF and the
padding character, is not decoded. -/
theorem decodeLoop_foreign (c : Char) (hmap : decodeMap c = none) (h1 : c ≠ '\n')
    (h2 : c ≠ '\r') (h3 : c ≠ '=') :
    ∀ (cs : List Char) (dbuf : List Nat), c ∈ cs → decodeLoop cs dbuf = none := by
  intro cs
  induction cs with
  | nil => intro dbuf h; simp at h
  | cons x xs ih =>
    intro dbuf h
    by_cases hx : x = c
    · subst hx
      rw [decodeLoop, hmap]
      simp only [h1, h2, or_self, if_false, ne_eq, h3, not_false_eq_true, if_true]
    · have hin : c ∈ xs := by
        rcases List.mem_cons.mp h with h | h
        · exact absurd h.symm hx
        · exact h
      rw [decodeLoop]
      cases hm : decodeMap x with
      | some v =>
        simp only
        split
        · rw [ih [] hin]; rfl
        · exact ih _ hin
      | none =>
        simp only
        split
        · exact ih _ hin
        · split
          · rfl
          · rename_i hpad
            have hpad : x = '=' := by simpa using hpad
            split
            · rfl
            · split
              · have hs := mem_skipNewlines c h1 h2 xs hin
                cases hsk : skipNewlines xs with
                | nil => rfl
                | cons c2 cs2 =>
                  simp only
                  split
                  · rfl
                  · rename_i hc2
                    have hc2 : c2 = '=' := by simpa using hc2
                    rw [hsk] at hs
                    have hin2 : c ∈ cs2 := by
                      rcases List.mem_cons.mp hs with h | h
                      · exact absurd (h.trans hc2) h3
                      · exact h
                    have := mem_skipNewlines c h1 h2 cs2 hin2
                    rw [if_neg (by intro h0; rw [h0] at this; simp at this)]
              · have hs := mem_skipNewlines c h1 h2 xs hin
                rw [if_neg (by intro h0; rw [h0] at hs; simp at hs)]

theorem withoutNewlines_skip (cs : List Char) :
    withoutNewlines (skipNewlines cs) = withoutNewlines cs := by
  induction cs with
  | nil => rfl
  | cons c cs ih =>
    simp only [skipNewlines]
    split
    · rename_i hc
      rw [ih]
      rcases hc with hc | hc <;> subst hc <;> rfl
    · rfl

theorem skipNewlines_head (cs : List Char) (c : Char) (rest : List Char)
    (h : skipNewlines cs = c :: rest) : c ≠ '\n' ∧ c ≠ '\r' := by
  induction cs with
  | nil => simp [skipNewlines] at h
  | cons x xs ih =>
    simp only [skipNewlines] at h
    split at h
    · exact ih h
    · rename_i hx
      simp only [List.cons.injEq] at h
      rw [← h.1]
      exact ⟨fun h1 => hx (Or.inl h1), fun h2 => hx (Or.inr h2)⟩

theorem withoutNewlines_cons (c : Char) (cs : List Char) (h1 : c ≠ '\n') (h2 : c ≠ '\r') :
    withoutNewlines (c :: cs) = c :: withoutNewlines cs := by
  simp [withoutNewlines, List.filter_cons, h1, h2]

/-- What `base64.StdEncoding` decodes is standard base64 once its CR and LF characters are
removed. -/
theorem decodeLoop_valid : ∀ (cs : List Char) (dbuf out : List Nat),
    decodeLoop cs dbuf = some out → dbuf.length ≤ 3 →
      stdBase64From dbuf.length (withoutNewlines cs) = true := by
  intro cs
  induction cs with
  | nil =>
    intro dbuf out h _
    simp only [decodeLoop] at h
    split at h
    · rename_i hd; subst hd; rfl
    · simp at h
  | cons c cs ih =>
    intro dbuf out h hlen
    rw [decodeLoop] at h
    cases hm : decodeMap c with
    | some v =>
      have hn1 : c ≠ '\n' := by
        intro hc; subst hc
        rw [show decodeMap '\n' = none by decide] at hm
        simp at hm
      have hn2 : c ≠ '\r' := by
        intro hc; subst hc
        rw [show decodeMap '\r' = none by decide] at hm
        simp at hm
      rw [withoutNewlines_cons c cs hn1 hn2, stdBase64From]
      simp only [hm, Option.isSome_some, if_true]
      simp only [hm] at h
      split at h
      · rename_i h3
        obtain ⟨o, ho, -⟩ := Option.map_eq_some'.mp h
        have := ih [] o ho (by simp)
        rw [h3]
        exact this
      · rename_i h3
        have := ih (dbuf ++ [v]) out h (by simp only [List.length_append, List.length_singleton]; omega)
        simp only [List.length_append, List.length_singleton] at this
        rw [Nat.mod_eq_of_lt (by omega)]
        exact this
    | none =>
      simp only [hm] at h
      split at h
      · rename_i hc
        have hw : withoutNewlines (c :: cs) = withoutNewlines cs := by
          rcases hc with hc | hc <;> subst hc <;> rfl
        rw [hw]
        exact ih dbuf out h hlen
      · rename_i hc
        have hn1 : c ≠ '\n' := fun h1 => hc (Or.inl h1)
        have hn2 : c ≠ '\r' := fun h2 => hc (Or.inr h2)
        rw [withoutNewlines_cons c cs hn1 hn2, stdBase64From]
        simp only [hm, Option.isSome_none, Bool.false_eq_true, if_false]
        split at h
        · simp at h
        · rename_i hpad
          have hpad : c = '=' := by simpa using hpad
          rw [if_pos hpad]
          split at h
          · simp at h
          · split at h
            · rename_i h2
              split at h
              · simp at h
              · rename_i c2 cs2 hsk
                split at h
                · simp at h
                · rename_i hc2
                  have hc2 : c2 = '=' := by simpa using hc2
                  split at h
                  · rename_i hend
                    have e1 := withoutNewlines_skip cs
                    rw [hsk] at e1
                    obtain ⟨n1, n2⟩ := skipNewlines_head cs c2 cs2 hsk
                    rw [withoutNewlines_cons c2 cs2 n1 n2] at e1
                    have e2 := withoutNewlines_skip cs2
                    rw [hend] at e2
                    have e3 : withoutNewlines cs2 = [] := by rw [← e2]; rfl
                    rw [← e1, e3, hc2, h2]
                    rfl
                  · simp at h
            · rename_i h2 h3
              split at h
              · rename_i hend
                have e2 := withoutNewlines_skip cs
                rw [hend] at e2
                have e3 : withoutNewlines cs = [] := by rw [← e2]; rfl
                have h33 : dbuf.length = 3 := by omega
                rw [e3, h33]
                rfl
              · simp at h

/-- An object that is stored has members that all fit. -/
theorem assignFields_some_fits (kvs : List (String × JVal)) :
    ∀ c c2 : preCursor, assignFields kvs c = some c2 → ∀ m ∈ kvs, memberFits m = true := by
  induction kvs with
  | nil => intro c c2 _ m hm; simp at hm
  | cons kv kvs ih =>
    intro c c2 h m hm
    obtain ⟨k, v⟩ := kv
    simp only [assignFields] at h
    cases h1 : assignField c k v with
    | none => rw [h1] at h; simp at h
    | some c1 =>
      rw [h1] at h
      rcases List.mem_cons.mp hm with hm | hm
      · subst hm
        unfold memberFits
        rw [assignField_isSome {} c k v, h1]
        rfl
      · exact ih c1 c2 h m hm

/-- The bytes `json.Unmarshal` accepts as a record are the JSON value `null` and the
well-formed records. -/
theorem jsonUnmarshal_none (data : List Nat) (hw : wellFormedRecord data = false)
    (hn : nullText data = false) : jsonUnmarshal data = none := by
  unfold jsonUnmarshal
  unfold wellFormedRecord at hw
  unfold nullText at hn
  cases hp : parseJSON data with
  | none => rfl
  | some v =>
    rw [hp] at hw hn
    cases v with
    | null => simp at hn
    | bool b => rfl
    | num a b c => rfl
    | str t => rfl
    | arr xs => rfl
    | obj kvs =>
      simp only at hw ⊢
      cases ha : assignFields kvs {} with
      | none => rfl
      | some c2 =>
        have := assignFields_some_fits kvs {} c2 ha
        rw [List.all_eq_true.mpr this] at hw
        simp at hw

/-- C20, counterexample: `e30=` followed by a line feed is not standard base64, and the
payload of `bnVsbA==`, the JSON value `null`, is not a serialized record; `decodeCursor`
returns the zero record without an error for both. -/
theorem null_payload_accepted :
    validStdBase64 "e30=\n" = false ∧ decodeCursor "e30=\n" = ({}, none) ∧
    validStdBase64 "bnVsbA==" = true ∧
    base64StdDecodeString "bnVsbA==" = some [110, 117, 108, 108] ∧
    wellFormedRecord [110, 117, 108, 108] = false ∧
    decodeCursor "bnVsbA==" = ({}, none) :=
  ⟨by decide, by rfl, by decide, by decide, by rfl, by rfl⟩

/-- C20, as amended: `decodeCursor` returns the zero record and `ErrFailedDecodeCursor`
for every string that is not valid standard base64 once its CR and LF characters are
removed; for every string whose base64-decoded bytes are neither a well-formed serialized
record (a JSON object whose members fit the fields they select) nor the JSON value `null`,
among them bytes that are not one JSON value; and for the empty string. It returns no
other error, and with an error never another record. -/
theorem malformed_rejected (s : String) :
    (stdBase64From 0 (withoutNewlines s.toList) = false →
      decodeCursor s = ({}, some .ErrFailedDecodeCursor)) ∧
    (∀ data, base64StdDecodeString s = some data → wellFormedRecord data = false →
      nullText data = false → decodeCursor s = ({}, some .ErrFailedDecodeCursor)) ∧
    (∀ c e, decodeCursor s = (c, some e) → e = .ErrFailedDecodeCursor ∧ c = {}) ∧
    decodeCursor "" = ({}, some .ErrFailedDecodeCursor) := by
  refine ⟨fun h => ?_, fun data hb hw hn => ?_, fun c e h => ?_, by rfl⟩
  · cases hd : base64StdDecodeString s with
    | none => simp only [decodeCursor, hd]
    | some out =>
      have := decodeLoop_valid s.toList [] out hd (by simp)
      rw [List.length_nil, h] at this
      simp at this
  · simp only [decodeCursor, hb, jsonUnmarshal_none data hw hn]
  · unfold decodeCursor at h
    split at h
    · simp only [Prod.mk.injEq, Option.some.injEq] at h
      exact ⟨h.2.symm, h.1.symm⟩
    · split at h
      · simp only [Prod.mk.injEq, Option.some.injEq] at h
        exact ⟨h.2.symm, h.1.symm⟩
      · simp at h

/-- C20, witness: `e30` is cut short, `e3 0=` holds a space, `ew==` is the text `{`, and
`WzFd` is the text `[1]`. -/
theorem malformed_rejected_witness :
    decodeCursor "e30" = ({}, some .ErrFailedDecodeCursor) ∧
    decodeCursor "e3 0=" = ({}, some .ErrFailedDecodeCursor) ∧
    decodeCursor "ew==" = ({}, some .ErrFailedDecodeCursor) ∧
    decodeCursor "WzFd" = ({}, some .ErrFailedDecodeCursor) :=
  ⟨(malformed_rejected "e30").1 (by decide),
    (malformed_rejected "e3 0=").1 (by decide),
    (malformed_rejected "ew==").2.1 [123] (by decide) (by rfl) (by rfl),
    (malformed_rejected "WzFd").2.1 [91, 49, 93] (by decide) (by rfl) (by rfl)⟩

/-! ## Theorems: the order of the rows of a page -/

theorem trimPage_initial {T : Type} (limit : Int) (data : List T) :
    trimPage limit data <+: data := by
  unfold trimPage
  split
  · exact List.take_prefix _ _
  · exact List.prefix_refl _

/-- C14, counterexample: on the six rows under the order `default` with page size 2, the
backward cursor of key 5 is answered with the rows 4, 3, 2 in descending order, and the
page returned is 4, 3: not in ascending order of the key. -/
theorem backward_page_descending :
    GetCursorData (cursorQuerier sixRows)
        (encodeCursor (createPreCursor (.int 5) false "default" .nil)) (dummyOrder "default") 2
      = .returned [⟨4, "c", 33⟩, ⟨3, "d", 32⟩]
          { NextCursor := encodeCursor (createPreCursor (.int 4) true "default" .nil),
            PrevCursor := encodeCursor (createPreCursor (.int 3) false "default" .nil) } none
    ∧ ¬ Canonical "default" [⟨4, "c", 33⟩, ⟨3, "d", 32⟩]
    ∧ Canonical "default" [⟨3, "d", 32⟩, ⟨4, "c", 33⟩] := by
  decide

/-- C14, as amended: the page of every successful call is the rows the collaborator
returned, cut to the first `limit` when there are more, in the order the collaborator
returned them; whatever holds between each row and the rows after it in what was fetched
holds in the page. So the page is ascending when the fetch is, and descending when the
fetch is, as for a backward request. -/
theorem page_in_fetch_order {T : Type} (q : Querier T) (cursor : String) (order : OrderMethod)
    (limit : Int) (rows : List T) (page : CursorPaginationAttribute)
    (h : GetCursorData q cursor order limit = .returned rows page none) :
    ∃ data, runQuery q (prepare cursor order limit).call = (data, none) ∧
      rows = trimPage limit data ∧ rows <+: data ∧
      ∀ r : T → T → Prop, data.Pairwise r → rows.Pairwise r := by
  simp only [GetCursorData] at h
  split at h
  · simp at h
  · rename_i data hq
    rcases paginate_err _ _ _ _ _ _ _ _ _ h with h1 | h1
    · have hp : rows <+: data := by rw [h1.2.1]; exact trimPage_initial _ _
      exact ⟨data, hq, h1.2.1, hp, fun r hr => hr.sublist hp.sublist⟩
    · exact absurd h1.1 (by simp)

/-- C14, witness: the backward page 4, 3 of the six rows is the head of the rows 4, 3, 2
fetched. -/
theorem page_in_fetch_order_witness :
    ∃ data, runQuery (cursorQuerier sixRows)
        (prepare (encodeCursor (createPreCursor (.int 5) false "default" .nil))
          (dummyOrder "default") 2).call = (data, none) ∧
      [⟨4, "c", 33⟩, ⟨3, "d", 32⟩] = trimPage 2 data ∧
      [⟨4, "c", 33⟩, ⟨3, "d", 32⟩] <+: data ∧
      ∀ r : DummyStatus → DummyStatus → Prop, data.Pairwise r →
        ([⟨4, "c", 33⟩, ⟨3, "d", 32⟩] : List DummyStatus).Pairwise r :=
  page_in_fetch_order (cursorQuerier sixRows)
    (encodeCursor (createPreCursor (.int 5) false "default" .nil)) (dummyOrder "default") 2
    [⟨4, "c", 33⟩, ⟨3, "d", 32⟩]
    { NextCursor := encodeCursor (createPreCursor (.int 4) true "default" .nil),
      PrevCursor := encodeCursor (createPreCursor (.int 3) false "default" .nil) } (by decide)

/-- C17, counterexample: call 3 of the scenario, with the previous cursor of call 2,
returns the rows 2, 1; it does not return what call 1 returned, the rows 1, 2. -/
theorem scenario_third_call :
    GetCursorData (cursorQuerier sixRows)
        (encodeCursor (createPreCursor (.int 3) false "default" .nil)) (dummyOrder "default") 2
      = .returned [⟨2, "e", 31⟩, ⟨1, "f", 30⟩]
          { NextCursor := encodeCursor (createPreCursor (.int 2) true "default" .nil),
            PrevCursor := "" } none
    ∧ GetCursorData (cursorQuerier sixRows)
        (encodeCursor (createPreCursor (.int 3) false "default" .nil)) (dummyOrder "default") 2
      ≠ GetCursorData (cursorQuerier sixRows) "" (dummyOrder "default") 2
    ∧ ([⟨2, "e", 31⟩, ⟨1, "f", 30⟩] : List DummyStatus) ≠ [⟨1, "f", 30⟩, ⟨2, "e", 31⟩] := by
  decide

/-- C17, as amended: on the rows with the keys 1 to 6 under the order `default` with page
size 2, call 1 with the empty cursor returns the rows 1, 2, an empty previous cursor and
the token of (id = 2, pointsToNext = true) as next cursor; call 2 with that next cursor
returns the rows 3, 4, and its previous cursor is the token of (id = 3,
pointsToNext = false); call 3 with that previous cursor returns the rows 2, 1: the rows
of call 1 in reverse order, with the token of (id = 2, pointsToNext = true) as next cursor
and an empty previous cursor. -/
theorem worked_scenario :
    GetCursorData (cursorQuerier sixRows) "" (dummyOrder "default") 2
      = .returned [⟨1, "f", 30⟩, ⟨2, "e", 31⟩]
          { NextCursor := encodeCursor (createPreCursor (.int 2) true "default" .nil),
            PrevCursor := "" } none
    ∧ GetCursorData (cursorQuerier sixRows)
        (encodeCursor (createPreCursor (.int 2) true "default" .nil)) (dummyOrder "default") 2
      = .returned [⟨3, "d", 32⟩, ⟨4, "c", 33⟩]
          { NextCursor := encodeCursor (createPreCursor (.int 4) true "default" .nil),
            PrevCursor := encodeCursor (createPreCursor (.int 3) false "default" .nil) } none
    ∧ GetCursorData (cursorQuerier sixRows)
        (encodeCursor (createPreCursor (.int 3) false "default" .nil)) (dummyOrder "default") 2
      = .returned [⟨2, "e", 31⟩, ⟨1, "f", 30⟩]
          { NextCursor := encodeCursor (createPreCursor (.int 2) true "default" .nil),
            PrevCursor := "" } none
    ∧ ([⟨2, "e", 31⟩, ⟨1, "f", 30⟩] : List DummyStatus)
      = ([⟨1, "f", 30⟩, ⟨2, "e", 31⟩] : List DummyStatus).reverse := by
  decide

/-! ## Theorems: walking the pages -/

theorem base64Encode_ne_nil (bs : List Nat) (h : bs ≠ []) : base64Encode bs ≠ [] := by
  match bs, h with
  | [a], _ => simp [base64Encode]
  | [a, b], _ => simp [base64Encode]
  | a :: b :: c :: rest, _ => simp [base64Encode]

/-- The token of a row that decodes is not empty, and it is accepted under a cursor key
name that is valid UTF-8. -/
theorem rowToken_accepted {T : Type} (q : Querier T) (order : OrderMethod) (pn : Bool) (e : T)
    (limit : Int) (d : preCursor) (hkey : ValidUTF8 order.GetCursorKeyName)
    (hdec : decodeCursor (rowToken q order.GetCursorKeyName pn e) = (d, none)) :
    rowToken q order.GetCursorKeyName pn e ≠ "" ∧
    prepare (rowToken q order.GetCursorKeyName pn e) order limit =
      { isFirst := false, pointsNext := pn,
        call := .withCursorParams order.GetCursorKeyName order.GetStringValue
          (wrapInt32 (limit + 1)) (if pn then "next" else "prev") d.CursorID d.SubCursor } := by
  have hne : rowToken q order.GetCursorKeyName pn e ≠ "" := by
    intro h
    rw [h, decodeCursor_empty] at hdec
    simp at hdec
  refine ⟨hne, ?_⟩
  have hd : d.SubCursorName = order.GetCursorKeyName ∧ d.CursorPointsNext = pn := by
    rcases decode_encode_any (edgeCursor pn (edgeOf q order.GetCursorKeyName e))
      with h | ⟨a, b, h⟩
    · unfold rowToken at hdec
      rw [h] at hdec
      simp at hdec
    · unfold rowToken at hdec
      rw [h] at hdec
      have hd := (Prod.mk.inj hdec).1
      rw [← hd]
      exact ⟨hkey, rfl⟩
  have := prepare_accepted (rowToken q order.GetCursorKeyName pn e) order limit d hne hdec hd.1
  rw [this, hd.2]

theorem trimPage_take {T : Type} (P : Nat) (F : List T) :
    trimPage (P : Int) (F.take (P + 1)) = F.take P ∧
    decide ((((F.take (P + 1)).length : Nat) : Int) > (P : Int)) = decide (P < F.length) := by
  have hlen : (F.take (P + 1)).length = min (P + 1) F.length := List.length_take _ _
  unfold trimPage
  by_cases h : P < F.length
  · have h1 : (((F.take (P + 1)).length : Nat) : Int) > (P : Int) := by rw [hlen]; omega
    rw [if_pos h1]
    simp only [Int.toNat_ofNat, List.take_take, decide_eq_true h1, decide_eq_true h]
    exact ⟨by rw [Nat.min_eq_left (by omega)], trivial⟩
  · have h1 : ¬ (((F.take (P + 1)).length : Nat) : Int) > (P : Int) := by rw [hlen]; omega
    rw [if_neg h1]
    simp only [decide_eq_false h1, decide_eq_false h, and_true]
    rw [List.take_of_length_le (by omega), List.take_of_length_le (by omega)]

/-- The page `GetCursorData` makes of a fetch of up to `P + 1` of the rows `F`. -/
theorem page_of_fetch {T : Type} (q : Querier T) (cursor : String) (order : OrderMethod)
    (P : Nat) (F : List T) (first : T) (hP : 1 ≤ P)
    (hq : runQuery q (prepare cursor order P).call = (F.take (P + 1), none))
    (hfirst : F.head? = some first) :
    ∃ last, (P < F.length → F[P - 1]? = some last) ∧
      GetCursorData q cursor order P =
        .returned (F.take P)
          (if (prepare cursor order P).pointsNext || (prepare cursor order P).isFirst then
            calculatePagination (prepare cursor order P).isFirst (decide (P < F.length))
              (prepare cursor order P).pointsNext
              (edgeOf q order.GetCursorKeyName first) (edgeOf q order.GetCursorKeyName last)
          else
            calculatePagination (prepare cursor order P).isFirst (decide (P < F.length))
              (prepare cursor order P).pointsNext
              (edgeOf q order.GetCursorKeyName last) (edgeOf q order.GetCursorKeyName first))
          none := by
  have hF : F ≠ [] := by intro h; rw [h] at hfirst; simp at hfirst
  have hFlen : 0 < F.length := List.length_pos.mpr hF
  have hD : F.take (P + 1) ≠ [] := by
    intro h
    rw [List.take_eq_nil_iff] at h
    rcases h with h | h
    · omega
    · exact hF h
  obtain ⟨htrim, hmore⟩ := trimPage_take P F
  have hT : F.take P ≠ [] := by
    intro h
    rw [List.take_eq_nil_iff] at h
    rcases h with h | h
    · omega
    · exact hF h
  have hlast : (F.take P).getLast? = some ((F.take P).getLast hT) :=
    List.getLast?_eq_getLast _ hT
  have hhead : (F.take P).head? = some first := by
    cases F with
    | nil => exact absurd rfl hF
    | cons a l =>
      obtain ⟨p, rfl⟩ : ∃ p, P = p + 1 := ⟨P - 1, by omega⟩
      simpa using hfirst
  refine ⟨(F.take P).getLast hT, ?_, ?_⟩
  · intro hlt
    have : (F.take P).getLast? = F[P - 1]? := by
      rw [List.getLast?_eq_getElem?, List.length_take, Nat.min_eq_left (by omega),
        List.getElem?_take_of_lt (by omega)]
    rw [← this, hlast]
  · rw [GetCursorData_of_request q cursor order P _ _ rfl hq]
    rw [paginate_rows q _ P _ _ _ (by exact_mod_cast hP) hD first _
      (by rw [htrim]; exact hhead) (by rw [htrim]; exact hlast)]
    rw [htrim, hmore]

/-- The first page over a keyset-respecting collaborator. -/
theorem keyset_first_page {T : Type} (q : Querier T) (order : OrderMethod) (data : List T)
    (P : Nat) (hK : KeysetForward q order data) (hP : 1 ≤ P) (hmax : P < 2147483647)
    (first : T) (h0 : data.head? = some first) :
    ∃ last, (P < data.length → data[P - 1]? = some last) ∧
      GetCursorData q "" order P =
        .returned (data.take P)
          { NextCursor :=
              if P < data.length then rowToken q order.GetCursorKeyName true last else "",
            PrevCursor := "" } none := by
  have hreq := prepare_first "" order P (Or.inl rfl)
  have hw : wrapInt32 ((P : Int) + 1) = ((P + 1 : Nat) : Int) := by
    rw [wrapInt32_id _ (by omega) (by omega)]; push_cast; rfl
  have hq : runQuery q (prepare "" order P).call = (data.take (P + 1), none) := by
    rw [hreq]
    simp only [runQuery, hw]
    exact hK.firstPage (P + 1)
  obtain ⟨last, hl, hres⟩ := page_of_fetch q "" order P data first hP hq h0
  refine ⟨last, hl, ?_⟩
  rw [hres, hreq]
  simp only [Bool.or_true, if_true]
  rw [(calculatePagination_rules _ false _ _).1]
  by_cases h : P < data.length <;> simp [h, rowToken]

/-- A forward page over a keyset-respecting collaborator: the rows after the row the
cursor was minted from. -/
theorem keyset_next_page {T : Type} (q : Querier T) (order : OrderMethod) (data : List T)
    (P : Nat) (hK : KeysetForward q order data) (hkey : ValidUTF8 order.GetCursorKeyName)
    (hP : 1 ≤ P) (hmax : P < 2147483647)
    (i : Nat) (e first : T) (hi : data[i]? = some e) (h0 : data[i + 1]? = some first) :
    ∃ last, (i + 1 + P < data.length → data[i + P]? = some last) ∧
      GetCursorData q (rowToken q order.GetCursorKeyName true e) order P =
        .returned ((data.drop (i + 1)).take P)
          { NextCursor :=
              if i + 1 + P < data.length then rowToken q order.GetCursorKeyName true last
              else "",
            PrevCursor := rowToken q order.GetCursorKeyName false first } none := by
  obtain ⟨d, hdec, hafter⟩ := hK.after i e hi
  obtain ⟨-, hreq⟩ := rowToken_accepted q order true e P d hkey hdec
  have hw : wrapInt32 ((P : Int) + 1) = ((P + 1 : Nat) : Int) := by
    rw [wrapInt32_id _ (by omega) (by omega)]; push_cast; rfl
  have hq : runQuery q (prepare (rowToken q order.GetCursorKeyName true e) order P).call
      = ((data.drop (i + 1)).take (P + 1), none) := by
    rw [hreq]
    simp only [runQuery, hw, if_true]
    exact hafter (P + 1)
  have hhead : (data.drop (i + 1)).head? = some first := by
    rw [List.head?_drop]; exact h0
  obtain ⟨last, hl, hres⟩ := page_of_fetch q _ order P (data.drop (i + 1)) first hP hq hhead
  have hlen : (data.drop (i + 1)).length = data.length - (i + 1) := List.length_drop _ _
  refine ⟨last, ?_, ?_⟩
  · intro hlt
    have := hl (by rw [hlen]; omega)
    have hidx : i + 1 + (P - 1) = i + P := by omega
    rw [List.getElem?_drop, hidx] at this
    exact this
  · rw [hres, hreq]
    simp only [Bool.true_or, if_true]
    rw [(calculatePagination_rules _ true _ _).2.1, hlen]
    by_cases h : i + 1 + P < data.length
    · have h2 : P < data.length - (i + 1) := by omega
      simp [h, h2, rowToken]
    · have h2 : ¬ P < data.length - (i + 1) := by omega
      simp [h, h2, rowToken]

/-- A backward page over a keyset-respecting collaborator: the rows before the row the
cursor was minted from, nearest first. -/
theorem keyset_prev_page {T : Type} (q : Querier T) (order : OrderMethod) (data : List T)
    (P : Nat) (hK : KeysetBackward q order data) (hkey : ValidUTF8 order.GetCursorKeyName)
    (hP : 1 ≤ P) (hmax : P < 2147483647)
    (i : Nat) (e first : T) (hi : data[i + 1]? = some e) (h0 : data[i]? = some first) :
    ∃ last, (P < i + 1 → data[i + 1 - P]? = some last) ∧
      GetCursorData q (rowToken q order.GetCursorKeyName false e) order P =
        .returned ((data.take (i + 1)).reverse.take P)
          { NextCursor := rowToken q order.GetCursorKeyName true first,
            PrevCursor :=
              if P < i + 1 then rowToken q order.GetCursorKeyName false last else "" }
          none := by
  obtain ⟨d, hdec, hbefore⟩ := hK.before (i + 1) e hi
  obtain ⟨-, hreq⟩ := rowToken_accepted q order false e P d hkey hdec
  have hw : wrapInt32 ((P : Int) + 1) = ((P + 1 : Nat) : Int) := by
    rw [wrapInt32_id _ (by omega) (by omega)]; push_cast; rfl
  have hq : runQuery q (prepare (rowToken q order.GetCursorKeyName false e) order P).call
      = ((data.take (i + 1)).reverse.take (P + 1), none) := by
    rw [hreq]
    simp only [runQuery, hw, Bool.false_eq_true, if_false]
    exact hbefore (P + 1)
  have hiN : i + 1 < data.length := by
    rcases Nat.lt_or_ge (i + 1) data.length with h | h
    · exact h
    · rw [List.getElem?_eq_none h] at hi; simp at hi
  have hlen : (data.take (i + 1)).length = i + 1 := by
    rw [List.length_take]; omega
  have hhead : (data.take (i + 1)).reverse.head? = some first := by
    rw [List.head?_reverse, List.getLast?_eq_getElem?, hlen]
    simp only [Nat.add_sub_cancel]
    rw [List.getElem?_take_of_lt (by omega)]
    exact h0
  obtain ⟨last, hl, hres⟩ :=
    page_of_fetch q _ order P (data.take (i + 1)).reverse first hP hq hhead
  rw [List.length_reverse, hlen] at hl hres
  refine ⟨last, ?_, ?_⟩
  · intro hlt
    have := hl hlt
    have hidx : i + 1 - 1 - (P - 1) = i + 1 - P := by omega
    rw [List.getElem?_reverse (by rw [hlen]; omega), hlen, hidx,
      List.getElem?_take_of_lt (by omega)] at this
    exact this
  · rw [hres, hreq]
    simp only [Bool.false_or, Bool.false_eq_true, if_false]
    rw [(calculatePagination_rules _ false _ _).2.2]
    by_cases h : P < i + 1 <;> simp [h, rowToken]

/-- A page of a forward walk. When the cursor `c` stands at position `s` (it is empty at
the start, and otherwise the forward token of the row before position `s`), the call
returns the next `P` rows from position `s`; its next cursor stands at position `s + P`
when rows are left there and is empty otherwise; its previous cursor is the backward token
of the first row of the page, and empty on the first page. -/
theorem keyset_forward {T : Type} (q : Querier T) (order : OrderMethod) (data : List T)
    (P : Nat) (hK : KeysetForward q order data) (hkey : ValidUTF8 order.GetCursorKeyName)
    (hP : 1 ≤ P) (hmax : P < 2147483647)
    (s : Nat) (c : String) (hs : s < data.length)
    (hc : (s = 0 ∧ c = "") ∨
      ∃ e, 0 < s ∧ data[s - 1]? = some e ∧ c = rowToken q order.GetCursorKeyName true e) :
    ∃ page, GetCursorData q c order P = .returned ((data.drop s).take P) page none ∧
      (s + P < data.length → page.NextCursor ≠ "" ∧
        ∃ e, data[s + P - 1]? = some e ∧
          page.NextCursor = rowToken q order.GetCursorKeyName true e) ∧
      (¬ s + P < data.length → page.NextCursor = "") ∧
      (s = 0 → page.PrevCursor = "") ∧
      (0 < s → ∃ f, data[s]? = some f ∧
        page.PrevCursor = rowToken q order.GetCursorKeyName false f) := by
  obtain ⟨first, hfirst⟩ : ∃ first, data[s]? = some first :=
    ⟨data[s], List.getElem?_eq_getElem hs⟩
  rcases hc with ⟨h0, rfl⟩ | ⟨e, hpos, he, rfl⟩
  · subst h0
    have hhead : data.head? = some first := by
      rw [← hfirst]; cases data <;> simp
    obtain ⟨last, hl, hres⟩ := keyset_first_page q order data P hK hP hmax first hhead
    refine ⟨_, by simpa using hres, ?_, ?_, fun _ => rfl, fun h => absurd h (by omega)⟩
    · intro hlt
      have hlt2 : P < data.length := by omega
      have hlast := hl hlt2
      obtain ⟨d, hdec, -⟩ := hK.after (P - 1) last hlast
      simp only [hlt2, if_true, Nat.zero_add]
      exact ⟨(rowToken_accepted q order true last P d hkey hdec).1, last, hlast, rfl⟩
    · intro hlt
      have hlt2 : ¬ P < data.length := by omega
      simp only [hlt2, if_false]
  · obtain ⟨i, rfl⟩ : ∃ i, s = i + 1 := ⟨s - 1, by omega⟩
    simp only [Nat.add_sub_cancel] at he
    obtain ⟨last, hl, hres⟩ :=
      keyset_next_page q order data P hK hkey hP hmax i e first he hfirst
    refine ⟨_, hres, ?_, ?_, fun h => absurd h (by omega), fun _ => ⟨first, hfirst, rfl⟩⟩
    · intro hlt
      have hlast := hl hlt
      obtain ⟨d, hdec, -⟩ := hK.after (i + P) last hlast
      simp only [hlt, if_true]
      have hidx : i + 1 + P - 1 = i + P := by omega
      rw [hidx]
      exact ⟨(rowToken_accepted q order true last P d hkey hdec).1, last, hlast, rfl⟩
    · intro hlt
      simp only [hlt, if_false]

/-- Following the next cursors from position `s` reads the rest of the rows, in pages of
`P` rows. -/
theorem followNext_from {T : Type} (q : Querier T) (order : OrderMethod) (data : List T)
    (P : Nat) (hK : KeysetForward q order data) (hkey : ValidUTF8 order.GetCursorKeyName)
    (hP : 1 ≤ P) (hmax : P < 2147483647) :
    ∀ (m s : Nat) (c : String), data.length - s ≤ m → s < data.length →
      ((s = 0 ∧ c = "") ∨
        ∃ e, 0 < s ∧ data[s - 1]? = some e ∧ c = rowToken q order.GetCursorKeyName true e) →
      ∃ pages : List (List T × CursorPaginationAttribute),
        (∀ fuel, (data.length - s + P - 1) / P ≤ fuel →
          followNext q order P fuel c = some pages) ∧
        (pages.map Prod.fst).flatten = data.drop s ∧
        pages.length = (data.length - s + P - 1) / P ∧
        (∀ pg ∈ pages, pg.1 ≠ [] ∧ pg.1.length ≤ P) ∧
        (∀ pg, pages.getLast? = some pg → pg.2.NextCursor = "") ∧
        (∀ pg ∈ pages.dropLast, pg.2.NextCursor ≠ "") := by
  intro m
  induction m with
  | zero => intro s c hm hs; omega
  | succ m ih =>
    intro s c hm hs hc
    obtain ⟨page, hres, hmore, hend, -, -⟩ :=
      keyset_forward q order data P hK hkey hP hmax s c hs hc
    have hrows : (data.drop s).take P ≠ [] ∧ ((data.drop s).take P).length ≤ P := by
      constructor
      · intro h
        have := congrArg List.length h
        simp only [List.length_take, List.length_drop, List.length_nil] at this
        omega
      · rw [List.length_take]; omega
    by_cases hlt : s + P < data.length
    · obtain ⟨hne, e, he, htok⟩ := hmore hlt
      obtain ⟨pages, hrun, hjoin, hlen, hpg, hlast, hinit⟩ :=
        ih (s + P) page.NextCursor (by omega) hlt
          (Or.inr ⟨e, by omega, he, htok⟩)
      have hcnt : (data.length - s + P - 1) / P = (data.length - (s + P) + P - 1) / P + 1 := by
        have : data.length - s + P - 1 = (data.length - (s + P) + P - 1) + P := by omega
        rw [this, Nat.add_div_right _ (by omega)]
      have hpne : pages ≠ [] := by
        intro h
        rw [h] at hlen
        have : 0 < (data.length - (s + P) + P - 1) / P :=
          Nat.div_pos (by omega) (by omega)
        simp at hlen
        omega
      refine ⟨((data.drop s).take P, page) :: pages, ?_, ?_, ?_, ?_, ?_, ?_⟩
      · intro fuel hfuel
        obtain ⟨f, rfl⟩ : ∃ f, fuel = f + 1 := ⟨fuel - 1, by omega⟩
        simp only [followNext, hres, if_neg hne]
        rw [hrun f (by omega)]
        rfl
      · simp only [List.map_cons, List.flatten_cons, hjoin]
        rw [← List.drop_drop, List.take_append_drop]
      · simp only [List.length_cons, hlen, hcnt]
      · intro pg hmem
        rcases List.mem_cons.mp hmem with h | h
        · rw [h]; exact hrows
        · exact hpg pg h
      · intro pg hpgl
        obtain ⟨p0, ps, hps⟩ := List.exists_cons_of_ne_nil hpne
        rw [hps, List.getLast?_cons_cons, ← hps] at hpgl
        exact hlast pg hpgl
      · intro pg hmem
        rw [List.dropLast_cons_of_ne_nil hpne] at hmem
        rcases List.mem_cons.mp hmem with h | h
        · rw [h]; exact hne
        · exact hinit pg h
    · have hcnt : (data.length - s + P - 1) / P = 1 :=
        Nat.div_eq_of_lt_le (by omega) (by omega)
      refine ⟨[((data.drop s).take P, page)], ?_, ?_, ?_, ?_, ?_, ?_⟩
      · intro fuel hfuel
        obtain ⟨f, rfl⟩ : ∃ f, fuel = f + 1 := ⟨fuel - 1, by omega⟩
        simp only [followNext, hres, hend hlt, if_true]
      · simp only [List.map_cons, List.map_nil, List.flatten_cons, List.flatten_nil, List.append_nil]
        rw [List.take_of_length_le (by rw [List.length_drop]; omega)]
      · simp only [List.length_singleton, hcnt]
      · intro pg hmem
        rw [List.mem_singleton.mp hmem]; exact hrows
      · intro pg hpgl
        simp only [List.getLast?_singleton, Option.some.injEq] at hpgl
        rw [← hpgl]; exact hend hlt
      · intro pg hmem
        simp at hmem

/-! ## Theorems: the collaborator of the tests respects the keyset -/

theorem default_ne :
    goString "default" ≠ goString "name" ∧ goString "default" ≠ goString "r_name" ∧
    goString "default" ≠ goString "age" ∧ goString "default" ≠ goString "r_age" ∧
    goString "prev" ≠ goString "next" := by decide

theorem sortByMethod_default (rows : List DummyStatus) :
    sortByMethod "default" rows = rows.insertionSort (fun a b => ¬ b.Pkey < a.Pkey) := by
  obtain ⟨h1, h2, h3, h4, -⟩ := default_ne
  simp [sortByMethod, h1, h2, h3, h4]

theorem keysetOrder_default_next (rows : List DummyStatus) :
    keysetOrder "default" "next" rows = rows.insertionSort (fun a b => ¬ b.Pkey < a.Pkey) := by
  obtain ⟨h1, h2, h3, h4, -⟩ := default_ne
  simp [keysetOrder, h1, h2, h3, h4]

theorem keysetOrder_default_prev (rows : List DummyStatus) :
    keysetOrder "default" "prev" rows = rows.insertionSort (fun a b => ¬ a.Pkey < b.Pkey) := by
  obtain ⟨h1, h2, h3, h4, h5⟩ := default_ne
  simp [keysetOrder, h1, h2, h3, h4, h5]

theorem keysetFilter_default_next (cursor : Int) (nameCur : GoString) (ageCur : Int) :
    keysetFilter "default" "next" cursor nameCur ageCur = fun v => decide (v.Pkey > cursor) := by
  obtain ⟨h1, h2, h3, h4, -⟩ := default_ne
  funext v
  simp [keysetFilter, h1, h2, h3, h4]

theorem keysetFilter_default_prev (cursor : Int) (nameCur : GoString) (ageCur : Int) :
    keysetFilter "default" "prev" cursor nameCur ageCur = fun v => decide (v.Pkey < cursor) := by
  obtain ⟨h1, h2, h3, h4, h5⟩ := default_ne
  funext v
  simp [keysetFilter, h1, h2, h3, h4, h5]

theorem insertionSort_ascending (l : List DummyStatus)
    (h : l.Pairwise (fun a b => a.Pkey < b.Pkey)) :
    l.insertionSort (fun a b => ¬ b.Pkey < a.Pkey) = l := by
  apply List.Sorted.insertionSort_eq
  exact h.imp (fun hab => by omega)

theorem orderedInsert_last (r : DummyStatus → DummyStatus → Prop) [DecidableRel r]
    (a : DummyStatus) : ∀ l : List DummyStatus, (∀ b ∈ l, ¬ r a b) →
      l.orderedInsert r a = l ++ [a] := by
  intro l
  induction l with
  | nil => intro _; rfl
  | cons x xs ih =>
    intro h
    rw [List.orderedInsert, if_neg (h x (List.mem_cons_self _ _)),
      ih (fun b hb => h b (List.mem_cons_of_mem _ hb))]
    rfl

theorem insertionSort_descending (l : List DummyStatus)
    (h : l.Pairwise (fun a b => a.Pkey < b.Pkey)) :
    l.insertionSort (fun a b => ¬ a.Pkey < b.Pkey) = l.reverse := by
  induction l with
  | nil => rfl
  | cons a l ih =>
    rw [List.pairwise_cons] at h
    rw [List.insertionSort, ih h.2, List.reverse_cons]
    apply orderedInsert_last
    intro b hb
    have := h.1 b (List.mem_reverse.mp hb)
    simp only [not_not]
    exact this

theorem filter_after (data : List DummyStatus) (i : Nat) (e : DummyStatus)
    (h : data.Pairwise (fun a b => a.Pkey < b.Pkey)) (hi : data[i]? = some e) :
    data.filter (fun v => decide (v.Pkey > e.Pkey)) = data.drop (i + 1) ∧
    data.filter (fun v => decide (v.Pkey < e.Pkey)) = data.take i := by
  have hlt : i < data.length := by
    rcases Nat.lt_or_ge i data.length with h | h
    · exact h
    · rw [List.getElem?_eq_none h] at hi; simp at hi
  have he : data[i] = e := by
    rw [List.getElem?_eq_getElem hlt] at hi
    exact Option.some.inj hi
  have hsplit : data = data.take i ++ e :: data.drop (i + 1) := by
    rw [← he, ← List.drop_eq_getElem_cons hlt, List.take_append_drop]
  rw [hsplit] at h
  rw [List.pairwise_append] at h
  obtain ⟨-, h2, h3⟩ := h
  rw [List.pairwise_cons] at h2
  have hpre : ∀ a ∈ data.take i, a.Pkey < e.Pkey := fun a ha => h3 a ha e (List.mem_cons_self _ _)
  have hpost : ∀ b ∈ data.drop (i + 1), e.Pkey < b.Pkey := h2.1
  constructor
  · conv_lhs => rw [hsplit]
    rw [List.filter_append, List.filter_cons]
    have h1 : (data.take i).filter (fun v => decide (v.Pkey > e.Pkey)) = [] := by
      rw [List.filter_eq_nil_iff]
      intro a ha
      have := hpre a ha
      simp only [decide_eq_true_eq]; omega
    have h4 : (data.drop (i + 1)).filter (fun v => decide (v.Pkey > e.Pkey))
        = data.drop (i + 1) := by
      rw [List.filter_eq_self]
      intro b hb
      have := hpost b hb
      simp only [decide_eq_true_eq]; omega
    rw [h1, h4]
    simp
  · conv_lhs => rw [hsplit]
    rw [List.filter_append, List.filter_cons]
    have h1 : (data.take i).filter (fun v => decide (v.Pkey < e.Pkey)) = data.take i := by
      rw [List.filter_eq_self]
      intro a ha
      have := hpre a ha
      simp only [decide_eq_true_eq]; omega
    have h4 : (data.drop (i + 1)).filter (fun v => decide (v.Pkey < e.Pkey)) = [] := by
      rw [List.filter_eq_nil_iff]
      intro b hb
      have := hpost b hb
      simp only [decide_eq_true_eq]; omega
    rw [h1, h4]
    simp

/-- The cursor of a row of the collaborator of the tests under the order `default`
decodes to the key as a `float64`, with no sort value. -/
theorem cursorQuerier_token (data : List DummyStatus) (pn : Bool) (e : DummyStatus)
    (h : e.Pkey.natAbs < 2 ^ 53) :
    decodeCursor (rowToken (cursorQuerier data) (dummyOrder "default").GetCursorKeyName pn e)
      = ({ valid := false, CursorID := readBack (.int e.Pkey), CursorPointsNext := pn,
           SubCursorName := "default", SubCursor := .nil }, none) := by
  have hkey : toValidUTF8 (goString "default") = goString "default" := by decide
  have := decode_encode_aux
    (edgeCursor pn (edgeOf (cursorQuerier data) (dummyOrder "default").GetCursorKeyName e)) rfl
    (show Plain (.int e.Pkey) from lt_trans h (by decide)) (show Plain .nil from trivial)
  rw [rowToken, this]
  have hname : (edgeCursor pn (edgeOf (cursorQuerier data)
      (dummyOrder "default").GetCursorKeyName e)).SubCursorName = goString "default" := rfl
  rw [hname, hkey]
  rfl

/-- The collaborator of the tests respects the keyset forward under the order `default`,
over rows listed by ascending key with keys of magnitude below `2^53`, which a cursor
gives back exactly. -/
theorem cursorQuerier_forward (data : List DummyStatus)
    (hsorted : data.Pairwise (fun a b => a.Pkey < b.Pkey))
    (hsmall : ∀ e ∈ data, e.Pkey.natAbs < 2 ^ 53) :
    KeysetForward (cursorQuerier data) (dummyOrder "default") data where
  firstPage l := by
    show (RetrieveWithNumbered data "default" (l : Int), none) = _
    unfold RetrieveWithNumbered
    simp only [sortByMethod_default, insertionSort_ascending data hsorted, Int.toNat_ofNat]
    split
    · rfl
    · rw [List.take_of_length_le (by omega)]
  after i e hi := by
    have hx := assertInt_readBack e.Pkey (hsmall e (List.getElem?_mem hi))
    refine ⟨_, cursorQuerier_token data true e (hsmall e (List.getElem?_mem hi)), fun l => ?_⟩
    show (RetrieveWithCursor data "default"
      (assertInt (readBack (.int e.Pkey))) (l : Int) "next" _ _, none) = _
    unfold RetrieveWithCursor
    rw [hx]
    simp only [keysetFilter_default_next, keysetOrder_default_next,
      (filter_after data i e hsorted hi).1, Int.toNat_ofNat]
    rw [insertionSort_ascending _ (hsorted.sublist (List.drop_sublist _ _))]
    split
    · rfl
    · rw [List.take_of_length_le (by omega)]

/-- The collaborator of the tests respects the keyset backward under the order `default`,
over rows listed by ascending key with keys of magnitude below `2^53`. -/
theorem cursorQuerier_backward (data : List DummyStatus)
    (hsorted : data.Pairwise (fun a b => a.Pkey < b.Pkey))
    (hsmall : ∀ e ∈ data, e.Pkey.natAbs < 2 ^ 53) :
    KeysetBackward (cursorQuerier data) (dummyOrder "default") data where
  before i e hi := by
    have hx := assertInt_readBack e.Pkey (hsmall e (List.getElem?_mem hi))
    refine ⟨_, cursorQuerier_token data false e (hsmall e (List.getElem?_mem hi)), fun l => ?_⟩
    show (RetrieveWithCursor data "default"
      (assertInt (readBack (.int e.Pkey))) (l : Int) "prev" _ _, none) = _
    unfold RetrieveWithCursor
    rw [hx]
    simp only [keysetFilter_default_prev, keysetOrder_default_prev,
      (filter_after data i e hsorted hi).2, Int.toNat_ofNat]
    rw [insertionSort_descending _ (hsorted.sublist (List.take_sublist _ _))]
    split
    · rfl
    · rename_i hlen
      have := List.take_of_length_le (show ((data.take i).reverse).length ≤ l by omega)
      rw [this]

/-! ## Theorems: traversal -/

/-- C15, as amended: over rows `data`, `N ≥ 1` of them listed in canonical order, and a
collaborator that respects the keyset forward as the cursors carry it (the first-page
query returns the first rows; the forward cursor of each row decodes, and the `next` query
with the id and the sort value it carries returns the rows strictly after that row,
ascending), under an order method whose cursor key name is valid UTF-8 and with a page
size `1 ≤ P < 2^31 - 1`, following the next cursors from the empty cursor ends after
`⌈N / P⌉` calls: the pages, each of 1 to `P` rows, concatenated are exactly `data`; the
last page has an empty next cursor and every page before it has one that is not empty. -/
theorem next_traversal {T : Type} (q : Querier T) (order : OrderMethod) (data : List T)
    (P : Nat) (hK : KeysetForward q order data) (hkey : ValidUTF8 order.GetCursorKeyName)
    (hN : data ≠ []) (hP : 1 ≤ P) (hmax : P < 2147483647) :
    ∃ pages : List (List T × CursorPaginationAttribute),
      (∀ fuel, (data.length + P - 1) / P ≤ fuel → followNext q order P fuel "" = some pages) ∧
      (pages.map Prod.fst).flatten = data ∧
      pages.length = (data.length + P - 1) / P ∧
      (∀ pg ∈ pages, pg.1 ≠ [] ∧ pg.1.length ≤ P) ∧
      (∀ pg, pages.getLast? = some pg → pg.2.NextCursor = "") ∧
      (∀ pg ∈ pages.dropLast, pg.2.NextCursor ≠ "") := by
  have h := followNext_from q order data P hK hkey hP hmax data.length 0 "" (by omega)
    (List.length_pos.mpr hN) (Or.inl ⟨rfl, rfl⟩)
  simpa using h

/-- C15, witness: the six rows of the tests under the order `default`, read in pages of
two: three calls, the pages 1, 2 then 3, 4 then 5, 6. -/
theorem next_traversal_witness :
    (∃ pages : List (List DummyStatus × CursorPaginationAttribute),
      (∀ fuel, (sixRows.length + 2 - 1) / 2 ≤ fuel →
        followNext (cursorQuerier sixRows) (dummyOrder "default") ((2 : Nat) : Int) fuel ""
          = some pages) ∧
      (pages.map Prod.fst).flatten = sixRows ∧
      pages.length = (sixRows.length + 2 - 1) / 2 ∧
      (∀ pg ∈ pages, pg.1 ≠ [] ∧ pg.1.length ≤ 2) ∧
      (∀ pg, pages.getLast? = some pg → pg.2.NextCursor = "") ∧
      (∀ pg ∈ pages.dropLast, pg.2.NextCursor ≠ "")) ∧
    (followNext (cursorQuerier sixRows) (dummyOrder "default") 2 3 "").map (List.map Prod.fst)
      = some [[⟨1, "f", 30⟩, ⟨2, "e", 31⟩], [⟨3, "d", 32⟩, ⟨4, "c", 33⟩],
          [⟨5, "b", 34⟩, ⟨6, "a", 35⟩]] :=
  ⟨next_traversal (cursorQuerier sixRows) (dummyOrder "default") sixRows 2
      (cursorQuerier_forward sixRows (by decide) (by decide)) (by decide) (by decide)
      (by decide) (by decide),
    by decide⟩

theorem followNext_loop {T : Type} (q : Querier T) (order : OrderMethod) (limit : Int)
    (c : String) (rows : List T) (page : CursorPaginationAttribute) (hc : c ≠ "")
    (hpage : page.NextCursor = c)
    (h : GetCursorData q c order limit = .returned rows page none) :
    ∀ fuel, followNext q order limit fuel c = none := by
  intro fuel
  induction fuel with
  | zero => rfl
  | succ f ih =>
    simp only [followNext, h, hpage, if_neg hc, ih]
    rfl

/-- C15, counterexample: the keys `2^53`, `2^53 + 1`, `2^53 + 2` in pages of one row,
over a collaborator that returns the rows whose key is above the boundary. The cursor of
the row `2^53 + 1` carries its key as a JSON number, which is decoded to the `float64`
`2^53`; so the call with that cursor returns the row `2^53 + 1` again, with the same next
cursor: following the next cursors repeats this row, never reaches the row `2^53 + 2`,
and never ends. And the six rows of the tests in pages of two, under an order method whose
cursor key name, the bytes `n` and `0xff`, is not valid UTF-8: the next cursor of the
first page carries the name with U+FFFD in place of the byte `0xff`, so the call with it
is treated as a first-page request and returns the first page again, with the same next
cursor: following the next cursors never ends. -/
theorem wide_keys_repeat :
    GetCursorData (int64Querier wideKeys) "" (dummyOrder "default") 1
      = .returned [9007199254740992]
          { NextCursor := rowToken (int64Querier wideKeys) "default" true 9007199254740992,
            PrevCursor := "" } none ∧
    GetCursorData (int64Querier wideKeys)
        (rowToken (int64Querier wideKeys) "default" true 9007199254740992)
        (dummyOrder "default") 1
      = .returned [9007199254740993]
          { NextCursor := rowToken (int64Querier wideKeys) "default" true 9007199254740993,
            PrevCursor := rowToken (int64Querier wideKeys) "default" false 9007199254740993 }
          none ∧
    GetCursorData (int64Querier wideKeys)
        (rowToken (int64Querier wideKeys) "default" true 9007199254740993)
        (dummyOrder "default") 1
      = .returned [9007199254740993]
          { NextCursor := rowToken (int64Querier wideKeys) "default" true 9007199254740993,
            PrevCursor := rowToken (int64Querier wideKeys) "default" false 9007199254740993 }
          none ∧
    (∀ fuel, followNext (int64Querier wideKeys) (dummyOrder "default") 1 fuel "" = none) ∧
    GetCursorData (cursorQuerier sixRows) "" rawKeyOrder 2
      = .returned [⟨1, "f", 30⟩, ⟨2, "e", 31⟩]
          { NextCursor := rowToken (cursorQuerier sixRows) [110, 255] true ⟨2, "e", 31⟩,
            PrevCursor := "" } none ∧
    (decodeCursor (rowToken (cursorQuerier sixRows) [110, 255] true ⟨2, "e", 31⟩)).1.SubCursorName
      = [110, 239, 191, 189] ∧
    GetCursorData (cursorQuerier sixRows)
        (rowToken (cursorQuerier sixRows) [110, 255] true ⟨2, "e", 31⟩) rawKeyOrder 2
      = .returned [⟨1, "f", 30⟩, ⟨2, "e", 31⟩]
          { NextCursor := rowToken (cursorQuerier sixRows) [110, 255] true ⟨2, "e", 31⟩,
            PrevCursor := "" } none ∧
    ∀ fuel, followNext (cursorQuerier sixRows) rawKeyOrder 2 fuel "" = none := by
  have h1 : GetCursorData (int64Querier wideKeys) "" (dummyOrder "default") 1
      = .returned [9007199254740992]
          { NextCursor := rowToken (int64Querier wideKeys) "default" true 9007199254740992,
            PrevCursor := "" } none := by decide
  have h2 : GetCursorData (int64Querier wideKeys)
        (rowToken (int64Querier wideKeys) "default" true 9007199254740992)
        (dummyOrder "default") 1
      = .returned [9007199254740993]
          { NextCursor := rowToken (int64Querier wideKeys) "default" true 9007199254740993,
            PrevCursor := rowToken (int64Querier wideKeys) "default" false 9007199254740993 }
          none := by decide
  have h3 : GetCursorData (int64Querier wideKeys)
        (rowToken (int64Querier wideKeys) "default" true 9007199254740993)
        (dummyOrder "default") 1
      = .returned [9007199254740993]
          { NextCursor := rowToken (int64Querier wideKeys) "default" true 9007199254740993,
            PrevCursor := rowToken (int64Querier wideKeys) "default" false 9007199254740993 }
          none := by decide
  have hne1 : rowToken (int64Querier wideKeys) "default" true 9007199254740992 ≠ "" := by
    decide
  have hne2 : rowToken (int64Querier wideKeys) "default" true 9007199254740993 ≠ "" := by
    decide
  have hloop := followNext_loop _ _ _ _ _ _ hne2 rfl h3
  have r1 : GetCursorData (cursorQuerier sixRows) "" rawKeyOrder 2
      = .returned [⟨1, "f", 30⟩, ⟨2, "e", 31⟩]
          { NextCursor := rowToken (cursorQuerier sixRows) [110, 255] true ⟨2, "e", 31⟩,
            PrevCursor := "" } none := by decide
  have r2 : GetCursorData (cursorQuerier sixRows)
        (rowToken (cursorQuerier sixRows) [110, 255] true ⟨2, "e", 31⟩) rawKeyOrder 2
      = .returned [⟨1, "f", 30⟩, ⟨2, "e", 31⟩]
          { NextCursor := rowToken (cursorQuerier sixRows) [110, 255] true ⟨2, "e", 31⟩,
            PrevCursor := "" } none := by decide
  have rne : rowToken (cursorQuerier sixRows) [110, 255] true ⟨2, "e", 31⟩ ≠ "" := by decide
  have rloop := followNext_loop _ _ _ _ _ _ rne rfl r2
  refine ⟨h1, h2, h3, ?_, r1, by decide, r2, ?_⟩
  · intro fuel
    cases fuel with
    | zero => rfl
    | succ f =>
      simp only [followNext, h1, if_neg hne1]
      cases f with
      | zero => rfl
      | succ f2 =>
        simp only [followNext, h2, if_neg hne2, hloop]
        rfl
  · intro fuel
    cases fuel with
    | zero => rfl
    | succ f =>
      simp only [followNext, r1, if_neg rne, rloop]
      rfl

/-- Following the next cursor `k` times from position `s` leads to position `s + k * P`
when there are rows left there. -/
theorem walk_forward {T : Type} (q : Querier T) (order : OrderMethod) (data : List T)
    (P : Nat) (hK : KeysetForward q order data) (hkey : ValidUTF8 order.GetCursorKeyName)
    (hP : 1 ≤ P) (hmax : P < 2147483647) :
    ∀ (k s : Nat) (c : String), s + k * P < data.length →
      ((s = 0 ∧ c = "") ∨
        ∃ e, 0 < s ∧ data[s - 1]? = some e ∧ c = rowToken q order.GetCursorKeyName true e) →
      ∃ c2, ((s + k * P = 0 ∧ c2 = "") ∨
          ∃ e, 0 < s + k * P ∧ data[s + k * P - 1]? = some e ∧
            c2 = rowToken q order.GetCursorKeyName true e) ∧
        ∀ ds, walk q order P (List.replicate k true ++ ds) c = walk q order P ds c2 := by
  intro k
  induction k with
  | zero =>
    intro s c _ hc
    exact ⟨c, by simpa using hc, fun ds => by simp⟩
  | succ k ih =>
    intro s c hs hc
    have hs1 : s + P + k * P < data.length := by
      have : (k + 1) * P = k * P + P := by ring
      omega
    obtain ⟨page, hres, hmore, -, -, -⟩ :=
      keyset_forward q order data P hK hkey hP hmax s c (by omega) hc
    obtain ⟨hne, e, he, htok⟩ := hmore (by
      have : 0 ≤ k * P := Nat.zero_le _
      omega)
    obtain ⟨c2, hc2, hwalk⟩ := ih (s + P) page.NextCursor hs1 (Or.inr ⟨e, by omega, he, htok⟩)
    have hidx : s + (k + 1) * P = s + P + k * P := by ring
    refine ⟨c2, by rw [hidx]; exact hc2, fun ds => ?_⟩
    rw [List.replicate_succ, List.cons_append]
    simp only [walk, hres, if_true, if_neg hne]
    exact hwalk ds

/-- Following the next cursor `k ≥ 1` times fails when no rows are left there. -/
theorem walk_forward_none {T : Type} (q : Querier T) (order : OrderMethod) (data : List T)
    (P : Nat) (hK : KeysetForward q order data) (hkey : ValidUTF8 order.GetCursorKeyName)
    (hP : 1 ≤ P) (hmax : P < 2147483647) :
    ∀ (k s : Nat) (c : String), s < data.length → ¬ s + (k + 1) * P < data.length →
      ((s = 0 ∧ c = "") ∨
        ∃ e, 0 < s ∧ data[s - 1]? = some e ∧ c = rowToken q order.GetCursorKeyName true e) →
      ∀ ds, walk q order P (List.replicate (k + 1) true ++ ds) c = none := by
  intro k
  induction k with
  | zero =>
    intro s c hs hk hc ds
    obtain ⟨page, hres, -, hend, -, -⟩ := keyset_forward q order data P hK hkey hP hmax s c hs hc
    have hnext := hend (by simpa using hk)
    simp only [List.replicate_succ, List.replicate_zero, List.cons_append, List.nil_append,
      walk, hres, if_true, hnext]
  | succ k ih =>
    intro s c hs hk hc ds
    obtain ⟨page, hres, hmore, hend, -, -⟩ := keyset_forward q order data P hK hkey hP hmax s c hs hc
    rw [List.replicate_succ, List.cons_append]
    by_cases hlt : s + P < data.length
    · obtain ⟨hne, e, he, htok⟩ := hmore hlt
      simp only [walk, hres, if_true, if_neg hne]
      apply ih (s + P) page.NextCursor hlt _ (Or.inr ⟨e, by omega, he, htok⟩)
      have : (k + 1 + 1) * P = (k + 1) * P + P := by ring
      omega
    · simp only [walk, hres, if_true, hend hlt]

/-- Following the previous cursor from the backward token of the row at position
`(j + 1) * P`, `j` times, leads to the first `P` rows, nearest first. -/
theorem walk_backward {T : Type} (q : Querier T) (order : OrderMethod) (data : List T)
    (P : Nat) (hK : KeysetBackward q order data) (hkey : ValidUTF8 order.GetCursorKeyName)
    (hP : 1 ≤ P) (hmax : P < 2147483647) :
    ∀ (j : Nat) (e : T), data[(j + 1) * P]? = some e →
      ∃ page, walk q order P (List.replicate j false)
          (rowToken q order.GetCursorKeyName false e) = some ((data.take P).reverse, page) := by
  intro j
  induction j with
  | zero =>
    intro e he
    obtain ⟨i, hi⟩ : ∃ i, P = i + 1 := ⟨P - 1, by omega⟩
    subst hi
    have hlen : i + 1 < data.length := by
      rcases Nat.lt_or_ge (i + 1) data.length with h | h
      · exact h
      · rw [Nat.zero_add, Nat.one_mul, List.getElem?_eq_none h] at he; simp at he
    have he2 : data[i + 1]? = some e := by simpa using he
    obtain ⟨last, -, hres⟩ := keyset_prev_page q order data (i + 1) hK hkey hP hmax i e data[i]
      he2 (List.getElem?_eq_getElem (by omega))
    refine ⟨{ NextCursor := rowToken q order.GetCursorKeyName true data[i],
              PrevCursor :=
                if i + 1 < i + 1 then rowToken q order.GetCursorKeyName false last
                else "" }, ?_⟩
    simp only [List.replicate_zero, walk, hres]
    rw [List.take_of_length_le (by simp)]
  | succ j ih =>
    intro e he
    have hidx : (j + 1 + 1) * P = (j + 1) * P + P := by ring
    obtain ⟨i, hi⟩ : ∃ i, (j + 1 + 1) * P = i + 1 := ⟨(j + 1 + 1) * P - 1, by
      have : 0 < (j + 1) * P := Nat.mul_pos (by omega) (by omega)
      omega⟩
    have hlen : (j + 1 + 1) * P < data.length := by
      rcases Nat.lt_or_ge ((j + 1 + 1) * P) data.length with h | h
      · exact h
      · rw [List.getElem?_eq_none h] at he; simp at he
    rw [hi] at he
    obtain ⟨last, hl, hres⟩ := keyset_prev_page q order data P hK hkey hP hmax i e data[i]
      he (List.getElem?_eq_getElem (by omega))
    have hjP : 0 < (j + 1) * P := Nat.mul_pos (by omega) (by omega)
    have hPi : P < i + 1 := by omega
    have hlast : data[(j + 1) * P]? = some last := by
      have := hl hPi
      have h2 : i + 1 - P = (j + 1) * P := by omega
      rw [h2] at this
      exact this
    obtain ⟨d, hdec, -⟩ := hK.before _ last hlast
    have hne := (rowToken_accepted q order false last P d hkey hdec).1
    obtain ⟨page, hpage⟩ := ih last hlast
    refine ⟨page, ?_⟩
    rw [List.replicate_succ]
    simp only [walk, hres, Bool.false_eq_true, if_false, if_pos hPi, if_neg hne]
    exact hpage

/-- C16, as amended: over rows `data` listed in canonical order and a collaborator that
respects the keyset forward and backward as the cursors carry it (the first-page query
returns the first rows; the forward and the backward cursor of each row decode, and the
`next` query with the id and the sort value the forward cursor carries returns the rows
strictly after that row, ascending, the `prev` query with those of the backward cursor the
rows strictly before it, nearest first), under an order method whose cursor key name is
valid UTF-8 and with a page size `1 ≤ P < 2^31 - 1`, for every `k ≥ 1` such that the next
cursor can be followed `k` times from the first page, following the previous cursor `k`
times from the page reached returns a page without an error, and its rows are the rows of
the first page in reverse order: the same set of rows. -/
theorem prev_returns_to_first {T : Type} (q : Querier T) (order : OrderMethod) (data : List T)
    (P k : Nat) (hK : KeysetForward q order data) (hB : KeysetBackward q order data)
    (hkey : ValidUTF8 order.GetCursorKeyName) (hP : 1 ≤ P) (hmax : P < 2147483647)
    (hk : 1 ≤ k) (hfollow : (walk q order P (List.replicate k true) "").isSome = true) :
    ∃ firstPage rows page,
      walk q order P [] "" = some (data.take P, firstPage) ∧
      walk q order P (List.replicate k true ++ List.replicate k false) "" = some (rows, page) ∧
      rows = (data.take P).reverse ∧ ∀ e, e ∈ rows ↔ e ∈ data.take P := by
  have hN : 0 < data.length := by
    rcases Nat.eq_zero_or_pos data.length with h | h
    · have hnil : data = [] := List.length_eq_zero.mp h
      have hq : runQuery q (prepare "" order P).call = ([], none) := by
        rw [prepare_first "" order P (Or.inl rfl)]
        have hw : wrapInt32 ((P : Int) + 1) = ((P + 1 : Nat) : Int) := by
          rw [wrapInt32_id _ (by omega) (by omega)]; push_cast; rfl
        simp only [runQuery, hw]
        rw [hK.firstPage (P + 1), hnil]
        rfl
      have hres : GetCursorData q "" order P = .returned [] {} (some .ErrDataNoRecord) := by
        rw [GetCursorData_of_request q "" order P _ [] rfl hq]
        simp [paginate]
      obtain ⟨k2, rfl⟩ : ∃ k2, k = k2 + 1 := ⟨k - 1, by omega⟩
      simp [List.replicate_succ, walk, hres] at hfollow
    · exact h
  have hkP : 0 + k * P < data.length := by
    by_contra hnot
    obtain ⟨k2, rfl⟩ : ∃ k2, k = k2 + 1 := ⟨k - 1, by omega⟩
    have := walk_forward_none q order data P hK hkey hP hmax k2 0 "" hN hnot
      (Or.inl ⟨rfl, rfl⟩) []
    rw [List.append_nil] at this
    rw [this] at hfollow
    simp at hfollow
  obtain ⟨page0, hres0, -, -, -, -⟩ :=
    keyset_forward q order data P hK hkey hP hmax 0 "" hN (Or.inl ⟨rfl, rfl⟩)
  obtain ⟨c2, hc2, hwalk⟩ :=
    walk_forward q order data P hK hkey hP hmax k 0 "" hkP (Or.inl ⟨rfl, rfl⟩)
  have hpos : 0 < 0 + k * P := by
    have : 0 < k * P := Nat.mul_pos (by omega) (by omega)
    omega
  rcases hc2 with ⟨h0, -⟩ | ⟨e, -, he, hc2⟩
  · omega
  · obtain ⟨page, hres, -, -, -, hprev⟩ :=
      keyset_forward q order data P hK hkey hP hmax (0 + k * P) c2 hkP (Or.inr ⟨e, hpos, he, hc2⟩)
    obtain ⟨f, hf, hpf⟩ := hprev hpos
    obtain ⟨d, hdec, -⟩ := hB.before _ f hf
    have hne := (rowToken_accepted q order false f P d hkey hdec).1
    obtain ⟨k2, rfl⟩ : ∃ k2, k = k2 + 1 := ⟨k - 1, by omega⟩
    obtain ⟨pageEnd, hend⟩ := walk_backward q order data P hB hkey hP hmax k2 f (by
      rw [Nat.zero_add] at hf; exact hf)
    refine ⟨page0, (data.take P).reverse, pageEnd, ?_, ?_, rfl, fun e => List.mem_reverse⟩
    · simp only [walk, hres0, List.drop_zero]
    · rw [hwalk (List.replicate (k2 + 1) false)]
      rw [List.replicate_succ]
      simp only [walk, hres, Bool.false_eq_true, if_false, hpf, if_neg hne]
      exact hend

set_option maxHeartbeats 2000000 in
/-- C16, witness: the six rows of the tests in pages of two, two steps forward and two
steps back: the page reached holds the rows 2, 1. -/
theorem prev_returns_to_first_witness :
    (∃ firstPage rows page,
      walk (cursorQuerier sixRows) (dummyOrder "default") ((2 : Nat) : Int) [] ""
        = some (sixRows.take 2, firstPage) ∧
      walk (cursorQuerier sixRows) (dummyOrder "default") ((2 : Nat) : Int)
          (List.replicate 2 true ++ List.replicate 2 false) "" = some (rows, page) ∧
      rows = (sixRows.take 2).reverse ∧ ∀ e, e ∈ rows ↔ e ∈ sixRows.take 2) ∧
    (walk (cursorQuerier sixRows) (dummyOrder "default") 2 [true, true, false, false] "").map
        Prod.fst = some [⟨2, "e", 31⟩, ⟨1, "f", 30⟩] :=
  ⟨prev_returns_to_first (cursorQuerier sixRows) (dummyOrder "default") sixRows 2 2
      (cursorQuerier_forward sixRows (by decide) (by decide))
      (cursorQuerier_backward sixRows (by decide) (by decide)) (by decide) (by decide)
      (by decide) (by decide) (by decide),
    by decide⟩

/-- C16, counterexample: the keys `2^53` and `2^53 + 1` in pages of one row, over a
collaborator that returns the rows whose key is below the boundary. The next cursor of the
first page leads to the row `2^53 + 1`; the previous cursor of that page carries the key
`2^53 + 1`, which is decoded to the `float64` `2^53`, and no row has a key below it: the
call returns `ErrDataNoRecord`, not the first page. And the six rows of the tests in pages
of two, under an order method whose cursor key name is not valid UTF-8: the next cursor of
the first page can be followed, it leads to the first page again, which has no previous
cursor to follow back. -/
theorem wide_keys_no_return :
    walk (int64Querier [9007199254740992, 9007199254740993]) (dummyOrder "default") 1 [] ""
      = some ([9007199254740992],
          { NextCursor :=
              rowToken (int64Querier [9007199254740992, 9007199254740993]) "default" true
                9007199254740992,
            PrevCursor := "" }) ∧
    walk (int64Querier [9007199254740992, 9007199254740993]) (dummyOrder "default") 1 [true] ""
      = some ([9007199254740993],
          { NextCursor := "",
            PrevCursor :=
              rowToken (int64Querier [9007199254740992, 9007199254740993]) "default" false
                9007199254740993 }) ∧
    GetCursorData (int64Querier [9007199254740992, 9007199254740993])
        (rowToken (int64Querier [9007199254740992, 9007199254740993]) "default" false
          9007199254740993) (dummyOrder "default") 1
      = .returned [] {} (some .ErrDataNoRecord) ∧
    walk (int64Querier [9007199254740992, 9007199254740993]) (dummyOrder "default") 1
      [true, false] "" = none ∧
    walk (cursorQuerier sixRows) rawKeyOrder 2 [true] ""
      = some ([⟨1, "f", 30⟩, ⟨2, "e", 31⟩],
          { NextCursor := rowToken (cursorQuerier sixRows) [110, 255] true ⟨2, "e", 31⟩,
            PrevCursor := "" }) ∧
    walk (cursorQuerier sixRows) rawKeyOrder 2 [true, false] "" = none := by
  have h1 : GetCursorData (int64Querier [9007199254740992, 9007199254740993]) ""
        (dummyOrder "default") 1
      = .returned [9007199254740992]
          { NextCursor :=
              rowToken (int64Querier [9007199254740992, 9007199254740993]) "default" true
                9007199254740992,
            PrevCursor := "" } none := by decide
  have h2 : GetCursorData (int64Querier [9007199254740992, 9007199254740993])
        (rowToken (int64Querier [9007199254740992, 9007199254740993]) "default" true
          9007199254740992) (dummyOrder "default") 1
      = .returned [9007199254740993]
          { NextCursor := "",
            PrevCursor :=
              rowToken (int64Querier [9007199254740992, 9007199254740993]) "default" false
                9007199254740993 } none := by decide
  have h3 : GetCursorData (int64Querier [9007199254740992, 9007199254740993])
        (rowToken (int64Querier [9007199254740992, 9007199254740993]) "default" false
          9007199254740993) (dummyOrder "default") 1
      = .returned [] {} (some .ErrDataNoRecord) := by decide
  have hne1 : rowToken (int64Querier [9007199254740992, 9007199254740993]) "default" true
      9007199254740992 ≠ "" := by decide
  have hne2 : rowToken (int64Querier [9007199254740992, 9007199254740993]) "default" false
      9007199254740993 ≠ "" := by decide
  have r1 : GetCursorData (cursorQuerier sixRows) "" rawKeyOrder 2
      = .returned [⟨1, "f", 30⟩, ⟨2, "e", 31⟩]
          { NextCursor := rowToken (cursorQuerier sixRows) [110, 255] true ⟨2, "e", 31⟩,
            PrevCursor := "" } none := by decide
  have r2 : GetCursorData (cursorQuerier sixRows)
        (rowToken (cursorQuerier sixRows) [110, 255] true ⟨2, "e", 31⟩) rawKeyOrder 2
      = .returned [⟨1, "f", 30⟩, ⟨2, "e", 31⟩]
          { NextCursor := rowToken (cursorQuerier sixRows) [110, 255] true ⟨2, "e", 31⟩,
            PrevCursor := "" } none := by decide
  have rne : rowToken (cursorQuerier sixRows) [110, 255] true ⟨2, "e", 31⟩ ≠ "" := by decide
  refine ⟨?_, ?_, h3, ?_, ?_, ?_⟩
  · simp only [walk, h1]
  · simp only [walk, h1, if_true, if_neg hne1, h2]
  · simp only [walk, h1, if_true, if_neg hne1, h2, Bool.false_eq_true, if_false, if_neg hne2,
      h3]
  · simp only [walk, r1, if_true, if_neg rne, r2]
  · simp only [walk, r1, if_true, if_neg rne, r2, Bool.false_eq_true, if_false]

/-! ## Theorems: the wire format -/

theorem wireText_eq (r : preCursor) (cid sub : List Nat) :
    wireText cid r.CursorPointsNext r.SubCursorName sub =
      123 :: (encodeString "id" ++ 58 :: (cid ++ 44 ::
      (encodeString "points_next" ++ 58 ::
        ((if r.CursorPointsNext then ascii "true" else ascii "false") ++ 44 ::
      (encodeString "sub_cursor_name" ++ 58 :: (encodeString r.SubCursorName ++ 44 ::
      (encodeString "sub_cursor" ++ 58 :: (sub ++ [125])))))))) := by
  have h1 : ascii "\x7b\"id\":" = 123 :: (encodeString "id" ++ [58]) := by decide
  have h2 : ascii ",\"points_next\":" = 44 :: (encodeString "points_next" ++ [58]) := by decide
  have h3 : ascii ",\"sub_cursor_name\":" = 44 :: (encodeString "sub_cursor_name" ++ [58]) := by
    decide
  have h4 : ascii ",\"sub_cursor\":" = 44 :: (encodeString "sub_cursor" ++ [58]) := by decide
  have h5 : ascii "\x7d" = [125] := by decide
  simp only [wireText, h1, h2, h3, h4, h5]
  cases r.CursorPointsNext <;> simp

/-- The token of a valid record whose id and sub-cursor value have a JSON text. -/
theorem encodeCursor_wire (r : preCursor) (hv : r.valid = true) (cid sub : List Nat)
    (hid : marshalAny r.CursorID = some cid) (hsub : marshalAny r.SubCursor = some sub) :
    jsonMarshal r = some (wireText cid r.CursorPointsNext r.SubCursorName sub) ∧
    AllBytes (wireText cid r.CursorPointsNext r.SubCursorName sub) ∧
    encodeCursor r =
      base64StdEncodeToString (wireText cid r.CursorPointsNext r.SubCursorName sub) := by
  have hm : jsonMarshal r = some (wireText cid r.CursorPointsNext r.SubCursorName sub) := by
    rw [jsonMarshal_eq r cid sub hid hsub, wireText_eq]
  refine ⟨hm, ?_, by simp [encodeCursor, hv, hm]⟩
  rw [wireText_eq]
  exact allBytes_jsonMarshal r cid sub (valueText_marshalAny _ _ hid).1
    (valueText_marshalAny _ _ hsub).1

/-- C21, counterexample: a valid record whose id is a value `json.Marshal` rejects (a
channel, a function, a NaN) has no JSON text, and `encodeCursor` returns the empty string
for it, which is the base64 text of no JSON object. -/
theorem unsupported_id_no_wire :
    (createPreCursor .unsupported true "default" .nil).valid = true ∧
    jsonMarshal (createPreCursor .unsupported true "default" .nil) = none ∧
    encodeCursor (createPreCursor .unsupported true "default" .nil) = "" ∧
    base64StdDecodeString "" = some [] ∧ parseJSON [] = none :=
  ⟨by decide, by decide, by decide, by decide, by rfl⟩

/-- C21, as amended: for every valid record whose id and sub-cursor value `json.Marshal`
serializes, to the texts `cid` and `sub`, `encodeCursor` returns the standard padded
base64 text of the JSON object with the keys `id`, `points_next`, `sub_cursor_name` and
`sub_cursor`, in that order, holding `cid`, the direction flag, the sub-cursor name and
`sub`; the `valid` marker is not in it. The token decodes back to that text as base64;
the text, read as JSON, is an object of exactly these four members in this order or is
not accepted at all, and when the id and the sub-cursor value are scalars it is the
object that holds them (the sub-cursor name as JSON reads it, with U+FFFD for every byte
that is not valid UTF-8). -/
theorem wire_format (r : preCursor) (hv : r.valid = true) (cid sub : List Nat)
    (hid : marshalAny r.CursorID = some cid) (hsub : marshalAny r.SubCursor = some sub) :
    encodeCursor r =
      base64StdEncodeToString (wireText cid r.CursorPointsNext r.SubCursorName sub) ∧
    base64StdDecodeString (encodeCursor r) =
      some (wireText cid r.CursorPointsNext r.SubCursorName sub) ∧
    (parseJSON (wireText cid r.CursorPointsNext r.SubCursorName sub) = none ∨
      ∃ vid vsub, parseJSON (wireText cid r.CursorPointsNext r.SubCursorName sub)
        = some (wireObject vid r.CursorPointsNext (jsonString r.SubCursorName) vsub)) ∧
    (∀ vid vsub, scalarJSON r.CursorID = some vid → scalarJSON r.SubCursor = some vsub →
      parseJSON (wireText cid r.CursorPointsNext r.SubCursorName sub)
        = some (wireObject vid r.CursorPointsNext (jsonString r.SubCursorName) vsub)) := by
  obtain ⟨hm, hb, henc⟩ := encodeCursor_wire r hv cid sub hid hsub
  refine ⟨henc, by rw [henc]; exact base64_roundtrip _ hb, ?_, ?_⟩
  · exact (parseJSON_marshal_any r _ hm).2
  · intro vid vsub h1 h2
    exact parseJSON_marshal r vid vsub cid sub h1 h2 hid hsub _ hm

/-- C21, witness: the record (id = 2, pointsToNext = true, name = `default`, value = nil)
and its wire text `{"id":2,"points_next":true,"sub_cursor_name":"default","sub_cursor":null}`. -/
theorem wire_format_witness :
    (encodeCursor (createPreCursor (.int 2) true "default" .nil) =
      base64StdEncodeToString (wireText (ascii "2") true "default" (ascii "null")) ∧
    base64StdDecodeString (encodeCursor (createPreCursor (.int 2) true "default" .nil)) =
      some (wireText (ascii "2") true "default" (ascii "null")) ∧
    (parseJSON (wireText (ascii "2") true "default" (ascii "null")) = none ∨
      ∃ vid vsub, parseJSON (wireText (ascii "2") true "default" (ascii "null"))
        = some (wireObject vid true "default" vsub)) ∧
    (∀ vid vsub, scalarJSON (.int 2) = some vid → scalarJSON .nil = some vsub →
      parseJSON (wireText (ascii "2") true "default" (ascii "null"))
        = some (wireObject vid true "default" vsub))) ∧
    wireText (ascii "2") true "default" (ascii "null") =
      ascii "\x7b\"id\":2,\"points_next\":true,\"sub_cursor_name\":\"default\",\"sub_cursor\":null\x7d" ∧
    encodeCursor (createPreCursor (.int 2) true "default" .nil) =
      "eyJpZCI6MiwicG9pbnRzX25leHQiOnRydWUsInN1Yl9jdXJzb3JfbmFtZSI6ImRlZmF1bHQiLCJzdWJfY3Vyc29yIjpudWxsfQ==" :=
  ⟨wire_format (createPreCursor (.int 2) true "default" .nil) rfl (ascii "2") (ascii "null")
      (by decide) (by decide),
    by decide, by decide⟩

/-! ## Theorems: when a token is empty -/

/-- The token of a record built by `createPreCursor` is empty exactly when `json.Marshal`
rejects the id or the sub-cursor value. -/
theorem encodeCursor_ne_empty_iff (id value : GoAny) (pn : Bool) (name : GoString) :
    encodeCursor (createPreCursor id pn name value) ≠ "" ↔
      (marshalAny id).isSome = true ∧ (marshalAny value).isSome = true := by
  constructor
  · intro h
    cases hid : marshalAny id with
    | none => exact absurd (by simp [encodeCursor, createPreCursor, jsonMarshal, hid]) h
    | some cid =>
      cases hsub : marshalAny value with
      | none => exact absurd (by simp [encodeCursor, createPreCursor, jsonMarshal, hid, hsub]) h
      | some sub => exact ⟨rfl, rfl⟩
  · rintro ⟨h1, h2⟩
    obtain ⟨cid, hid⟩ := Option.isSome_iff_exists.mp h1
    obtain ⟨sub, hsub⟩ := Option.isSome_iff_exists.mp h2
    obtain ⟨-, -, henc⟩ := encodeCursor_wire (createPreCursor id pn name value) rfl cid sub hid hsub
    rw [henc]
    intro h
    have := congrArg String.toList h
    simp only [base64StdEncodeToString, String.toList] at this
    refine base64Encode_ne_nil _ ?_ this
    rw [wireText_eq]
    simp

/-- C22, counterexample: a record built by `createPreCursor` whose sub-cursor value
`json.Marshal` rejects (a NaN sort value, say) is valid and its token is empty; with such
a first row the previous cursor of rule 2 is empty, and with such a last row the next
cursor of rule 3 is. -/
theorem unsupported_value_empty :
    (createPreCursor (.int 1) true "age" .unsupported).valid = true ∧
    encodeCursor (createPreCursor (.int 1) true "age" .unsupported) = "" ∧
    (calculatePagination false true true ⟨.int 1, "age", .unsupported⟩
      ⟨.int 2, "age", .int 30⟩).PrevCursor = "" ∧
    (calculatePagination false true false ⟨.int 1, "age", .int 30⟩
      ⟨.int 2, "age", .unsupported⟩).NextCursor = "" := by
  decide

/-- C22, as amended: for every record built by `createPreCursor` whose id and sub-cursor
value `json.Marshal` serializes, `encodeCursor` returns a token that is not empty; so the
previous cursor of rule 2 is not empty when the first row is such, and the next cursor of
rule 3 is not empty when the last row is such. -/
theorem encode_never_empty (d : cursorData) (hid : (marshalAny d.ID).isSome = true)
    (hval : (marshalAny d.Value).isSome = true) :
    (∀ pn, encodeCursor (createPreCursor d.ID pn d.Name d.Value) ≠ "") ∧
    (∀ hasMore lastRow, (calculatePagination false hasMore true d lastRow).PrevCursor ≠ "") ∧
    (∀ hasMore firstRow,
      (calculatePagination false hasMore false firstRow d).NextCursor ≠ "") := by
  have h : ∀ pn, encodeCursor (createPreCursor d.ID pn d.Name d.Value) ≠ "" :=
    fun pn => (encodeCursor_ne_empty_iff d.ID d.Value pn d.Name).mpr ⟨hid, hval⟩
  refine ⟨h, fun hasMore lastRow => ?_, fun hasMore firstRow => ?_⟩
  · rw [(calculatePagination_rules hasMore true d lastRow).2.1]
    exact h false
  · rw [(calculatePagination_rules hasMore false firstRow d).2.2]
    exact h true

/-- C22, witness: the row with id 2 and a nil sort value. -/
theorem encode_never_empty_witness :
    (∀ pn, encodeCursor (createPreCursor (.int 2) pn "default" .nil) ≠ "") ∧
    (∀ hasMore lastRow,
      (calculatePagination false hasMore true ⟨.int 2, "default", .nil⟩ lastRow).PrevCursor
        ≠ "") ∧
    (∀ hasMore firstRow,
      (calculatePagination false hasMore false firstRow ⟨.int 2, "default", .nil⟩).NextCursor
        ≠ "") :=
  encode_never_empty ⟨.int 2, "default", .nil⟩ (by decide) (by decide)

/-! ## Theorems: the rewritten cursor of the tests -/

/-- C23: for every token `t` returned by `encodeCursor` that is not empty,
`decodeCursor (t ++ "invalid")` fails with `ErrFailedDecodeCursor`, and `GetCursorData`
called with `t ++ "invalid"` returns what it returns for the empty cursor, the first page,
with no decode error; the same holds for `"invalid"` appended to the empty cursor. -/
theorem rewritten_cursor (r : preCursor) (ht : encodeCursor r ≠ "") :
    decodeCursor (encodeCursor r ++ "invalid") = ({}, some .ErrFailedDecodeCursor) ∧
    decodeCursor ("" ++ "invalid") = ({}, some .ErrFailedDecodeCursor) ∧
    ∀ (T : Type) (q : Querier T) (order : OrderMethod) (limit : Int),
      GetCursorData q (encodeCursor r ++ "invalid") order limit = GetCursorData q "" order limit ∧
      GetCursorData q ("" ++ "invalid") order limit = GetCursorData q "" order limit ∧
      (prepare (encodeCursor r ++ "invalid") order limit).call
        = .withLimit order.GetStringValue (wrapInt32 (limit + 1)) ∧
      ∀ rows page err,
        GetCursorData q (encodeCursor r ++ "invalid") order limit = .returned rows page (some err) →
          err ≠ .ErrFailedDecodeCursor := by
  have h1 := decodeCursor_tampered r "invalid" ht (Or.inl (by decide))
  have h2 : decodeCursor ("" ++ "invalid") = ({}, some .ErrFailedDecodeCursor) := by rfl
  refine ⟨h1, h2, fun T q order limit => ?_⟩
  have hf := fallback_aux q (encodeCursor r ++ "invalid") order limit
    (Or.inl (by rw [h1]; simp))
  refine ⟨hf, fallback_aux q _ order limit (Or.inl (by rw [h2]; simp)), ?_, ?_⟩
  · rw [prepare_first _ order limit (Or.inr (Or.inl (by rw [h1]; simp)))]
  · intro rows page err hres
    rw [hf] at hres
    simp only [GetCursorData] at hres
    split at hres
    · simp only [Outcome.returned.injEq, Option.some.injEq] at hres
      rw [← hres.2.2]; simp
    · rcases paginate_err _ _ _ _ _ _ _ _ _ hres with h | h
      · exact absurd h.1 (by simp)
      · have := h.1
        simp only [Option.some.injEq] at this
        rw [this]; simp

/-- C23, witness: the next cursor of the first page of the six rows, rewritten: the call
returns the first page again. -/
theorem rewritten_cursor_witness :
    decodeCursor (encodeCursor (createPreCursor (.int 2) true "default" .nil) ++ "invalid")
      = ({}, some .ErrFailedDecodeCursor) ∧
    GetCursorData (cursorQuerier sixRows)
        (encodeCursor (createPreCursor (.int 2) true "default" .nil) ++ "invalid")
        (dummyOrder "default") 2
      = GetCursorData (cursorQuerier sixRows) "" (dummyOrder "default") 2 ∧
    GetCursorData (cursorQuerier sixRows) "" (dummyOrder "default") 2
      = .returned [⟨1, "f", 30⟩, ⟨2, "e", 31⟩]
          { NextCursor := encodeCursor (createPreCursor (.int 2) true "default" .nil),
            PrevCursor := "" } none :=
  ⟨(rewritten_cursor (createPreCursor (.int 2) true "default" .nil) (by decide)).1,
    ((rewritten_cursor (createPreCursor (.int 2) true "default" .nil) (by decide)).2.2
      DummyStatus (cursorQuerier sixRows) (dummyOrder "default") 2).1,
    by decide⟩

/-! ## Theorems: minted cursors -/

/-- A token of a row, submitted again under the same order: when it decodes, the record
has the direction it was minted with and the cursor key name read as UTF-8, and, when the
cursor key name is valid UTF-8, the request is not a first-page request; when the
projections of the row are scalars it does decode, to the id and the sort value as JSON
reads them back. -/
theorem rowToken_resubmitted {T : Type} (q : Querier T) (order : OrderMethod) (pn : Bool)
    (row : T) (h : rowToken q order.GetCursorKeyName pn row ≠ "") :
    (∀ d, decodeCursor (rowToken q order.GetCursorKeyName pn row) = (d, none) →
      d.CursorPointsNext = pn ∧ d.SubCursorName = toValidUTF8 order.GetCursorKeyName ∧
      d.valid = false ∧
      (ValidUTF8 order.GetCursorKeyName → ∀ limit,
        (prepare (rowToken q order.GetCursorKeyName pn row) order limit).isFirst = false ∧
        (prepare (rowToken q order.GetCursorKeyName pn row) order limit).call =
          .withCursorParams order.GetCursorKeyName order.GetStringValue (wrapInt32 (limit + 1))
            (if pn then "next" else "prev") d.CursorID d.SubCursor)) ∧
    (Plain (q.CursorIDAndValueSelector order.GetCursorKeyName row).1 →
      Plain (q.CursorIDAndValueSelector order.GetCursorKeyName row).2 →
      decodeCursor (rowToken q order.GetCursorKeyName pn row) =
        ({ valid := false,
           CursorID := readBack (q.CursorIDAndValueSelector order.GetCursorKeyName row).1,
           CursorPointsNext := pn, SubCursorName := toValidUTF8 order.GetCursorKeyName,
           SubCursor := readBack (q.CursorIDAndValueSelector order.GetCursorKeyName row).2 },
          none)) := by
  constructor
  · intro d hd
    have hfacts : d.CursorPointsNext = pn ∧ d.SubCursorName = toValidUTF8 order.GetCursorKeyName
        ∧ d.valid = false := by
      rcases decode_encode_any (edgeCursor pn (edgeOf q order.GetCursorKeyName row))
        with hfail | ⟨a, b, hok⟩
      · unfold rowToken at hd
        rw [hfail] at hd
        simp at hd
      · unfold rowToken at hd
        rw [hok] at hd
        simp only [Prod.mk.injEq, and_true] at hd
        rw [← hd]
        exact ⟨rfl, rfl, rfl⟩
    refine ⟨hfacts.1, hfacts.2.1, hfacts.2.2, fun hkey limit => ?_⟩
    rw [prepare_accepted _ order limit d h hd (hfacts.2.1.trans hkey), hfacts.1]
    exact ⟨rfl, rfl⟩
  · intro hid hsub
    exact decode_encode_aux (edgeCursor pn (edgeOf q order.GetCursorKeyName row)) rfl hid hsub

/-- C24, counterexample: over the keys `2^53`, `2^53 + 1`, `2^53 + 2` in pages of one
row, the second page holds the row `2^53 + 1` alone; its next cursor decodes without an
error to a record whose id is the `float64` `2^53`, which is the id of no row of the
page. And under an order method whose cursor key name, the bytes `n` and `0xff`, is not
valid UTF-8, the next cursor of the first page of the six rows decodes to a record whose
name is `n` followed by U+FFFD, not the cursor key name, and submitting it again under the
same order method is a first-page request. -/
theorem minted_id_rounded :
    GetCursorData (int64Querier wideKeys)
        (rowToken (int64Querier wideKeys) "default" true 9007199254740992)
        (dummyOrder "default") 1
      = .returned [9007199254740993]
          { NextCursor := rowToken (int64Querier wideKeys) "default" true 9007199254740993,
            PrevCursor := rowToken (int64Querier wideKeys) "default" false 9007199254740993 }
          none ∧
    decodeCursor (rowToken (int64Querier wideKeys) "default" true 9007199254740993)
      = ({ CursorID := .float64 ⟨false, 2 ^ 52, 1⟩, CursorPointsNext := true,
           SubCursorName := "default" }, none) ∧
    float64ToInt ⟨false, 2 ^ 52, 1⟩ = 9007199254740992 ∧
    (9007199254740992 : Int) ∉ ([9007199254740993] : List Int) ∧
    GetCursorData (cursorQuerier sixRows) "" rawKeyOrder 2
      = .returned [⟨1, "f", 30⟩, ⟨2, "e", 31⟩]
          { NextCursor := rowToken (cursorQuerier sixRows) [110, 255] true ⟨2, "e", 31⟩,
            PrevCursor := "" } none ∧
    decodeCursor (rowToken (cursorQuerier sixRows) [110, 255] true ⟨2, "e", 31⟩)
      = ({ CursorID := .float64 ⟨false, 2 ^ 52, -51⟩, CursorPointsNext := true,
           SubCursorName := [110, 239, 191, 189] }, none) ∧
    rawKeyOrder.GetCursorKeyName ≠ [110, 239, 191, 189] ∧
    (prepare (rowToken (cursorQuerier sixRows) [110, 255] true ⟨2, "e", 31⟩) rawKeyOrder
      2).isFirst = true :=
  ⟨by decide, by rfl, by decide, by decide, by decide, by rfl, by decide, by decide⟩

/-- C24, as amended: for every successful `GetCursorData` call with the order method `O`,
each next cursor that is not empty is the forward token of a row of the returned page,
and each previous cursor that is not empty the backward token of one. Such a token, when
it decodes, gives a record with `pointsToNext` true for a next cursor and false for a
previous cursor and with the cursor key name of `O` read as UTF-8 (every byte that is not
valid UTF-8 replaced by U+FFFD); when the cursor key name of `O` is valid UTF-8, that is
the cursor key name of `O` itself, and submitting the token again with `O` is not a
first-page request: the cursor query is made with the decoded id and sort value. When the
id and the sort value of the row are scalars (nil, a boolean, a string, a Go integer or a
finite `float64`), the token does decode, to the id and the sort value as JSON reads them
back: an integer as the nearest `float64`, a string read as UTF-8, the others
unchanged. -/
theorem minted_accepted {T : Type} (q : Querier T) (cursor : String) (O : OrderMethod)
    (limit : Int) (rows : List T) (page : CursorPaginationAttribute)
    (h : GetCursorData q cursor O limit = .returned rows page none) :
    (page.NextCursor ≠ "" → ∃ row ∈ rows,
      page.NextCursor = rowToken q O.GetCursorKeyName true row ∧
      (∀ d, decodeCursor page.NextCursor = (d, none) →
        d.CursorPointsNext = true ∧ d.SubCursorName = toValidUTF8 O.GetCursorKeyName ∧
        d.valid = false ∧
        (ValidUTF8 O.GetCursorKeyName →
          ∀ limit2, (prepare page.NextCursor O limit2).isFirst = false ∧
            (prepare page.NextCursor O limit2).call =
              .withCursorParams O.GetCursorKeyName O.GetStringValue (wrapInt32 (limit2 + 1))
                "next" d.CursorID d.SubCursor)) ∧
      (Plain (q.CursorIDAndValueSelector O.GetCursorKeyName row).1 →
        Plain (q.CursorIDAndValueSelector O.GetCursorKeyName row).2 →
        decodeCursor page.NextCursor =
          ({ valid := false,
             CursorID := readBack (q.CursorIDAndValueSelector O.GetCursorKeyName row).1,
             CursorPointsNext := true, SubCursorName := toValidUTF8 O.GetCursorKeyName,
             SubCursor := readBack (q.CursorIDAndValueSelector O.GetCursorKeyName row).2 },
            none))) ∧
    (page.PrevCursor ≠ "" → ∃ row ∈ rows,
      page.PrevCursor = rowToken q O.GetCursorKeyName false row ∧
      (∀ d, decodeCursor page.PrevCursor = (d, none) →
        d.CursorPointsNext = false ∧ d.SubCursorName = toValidUTF8 O.GetCursorKeyName ∧
        d.valid = false ∧
        (ValidUTF8 O.GetCursorKeyName →
          ∀ limit2, (prepare page.PrevCursor O limit2).isFirst = false ∧
            (prepare page.PrevCursor O limit2).call =
              .withCursorParams O.GetCursorKeyName O.GetStringValue (wrapInt32 (limit2 + 1))
                "prev" d.CursorID d.SubCursor)) ∧
      (Plain (q.CursorIDAndValueSelector O.GetCursorKeyName row).1 →
        Plain (q.CursorIDAndValueSelector O.GetCursorKeyName row).2 →
        decodeCursor page.PrevCursor =
          ({ valid := false,
             CursorID := readBack (q.CursorIDAndValueSelector O.GetCursorKeyName row).1,
             CursorPointsNext := false, SubCursorName := toValidUTF8 O.GetCursorKeyName,
             SubCursor := readBack (q.CursorIDAndValueSelector O.GetCursorKeyName row).2 },
            none))) := by
  obtain ⟨hn, hp⟩ := minted_cursors q cursor O limit rows page h
  constructor
  · intro hne
    rcases hn with h0 | ⟨row, hrow, htok⟩
    · exact absurd h0 hne
    · have htok2 : page.NextCursor = rowToken q O.GetCursorKeyName true row := htok
      have := rowToken_resubmitted q O true row (by rw [← htok2]; exact hne)
      rw [← htok2] at this
      exact ⟨row, hrow, htok2, by simpa using this.1, this.2⟩
  · intro hne
    rcases hp with h0 | ⟨row, hrow, htok⟩
    · exact absurd h0 hne
    · have htok2 : page.PrevCursor = rowToken q O.GetCursorKeyName false row := htok
      have := rowToken_resubmitted q O false row (by rw [← htok2]; exact hne)
      rw [← htok2] at this
      exact ⟨row, hrow, htok2, by simpa using this.1, this.2⟩

set_option maxHeartbeats 2000000 in
/-- C24, witness: the second page of the six rows, with its two cursors. -/
theorem minted_accepted_witness :
    ((encodeCursor (createPreCursor (.int 4) true "default" .nil)) ≠ "" → ∃ row ∈ ([⟨3, "d", 32⟩, ⟨4, "c", 33⟩] : List DummyStatus),
      (encodeCursor (createPreCursor (.int 4) true "default" .nil)) = rowToken (cursorQuerier sixRows) (dummyOrder "default").GetCursorKeyName true row ∧
      (∀ d, decodeCursor (encodeCursor (createPreCursor (.int 4) true "default" .nil)) = (d, none) →
        d.CursorPointsNext = true ∧ d.SubCursorName = toValidUTF8 (dummyOrder "default").GetCursorKeyName ∧
        d.valid = false ∧
        (ValidUTF8 (dummyOrder "default").GetCursorKeyName →
          ∀ limit2, (prepare (encodeCursor (createPreCursor (.int 4) true "default" .nil)) (dummyOrder "default") limit2).isFirst = false ∧
            (prepare (encodeCursor (createPreCursor (.int 4) true "default" .nil)) (dummyOrder "default") limit2).call =
              .withCursorParams (dummyOrder "default").GetCursorKeyName (dummyOrder "default").GetStringValue (wrapInt32 (limit2 + 1))
                "next" d.CursorID d.SubCursor)) ∧
      (Plain ((cursorQuerier sixRows).CursorIDAndValueSelector (dummyOrder "default").GetCursorKeyName row).1 →
        Plain ((cursorQuerier sixRows).CursorIDAndValueSelector (dummyOrder "default").GetCursorKeyName row).2 →
        decodeCursor (encodeCursor (createPreCursor (.int 4) true "default" .nil)) =
          ({ valid := false,
             CursorID := readBack ((cursorQuerier sixRows).CursorIDAndValueSelector (dummyOrder "default").GetCursorKeyName row).1,
             CursorPointsNext := true, SubCursorName := toValidUTF8 (dummyOrder "default").GetCursorKeyName,
             SubCursor := readBack ((cursorQuerier sixRows).CursorIDAndValueSelector (dummyOrder "default").GetCursorKeyName row).2 },
            none))) ∧
    ((encodeCursor (createPreCursor (.int 3) false "default" .nil)) ≠ "" → ∃ row ∈ ([⟨3, "d", 32⟩, ⟨4, "c", 33⟩] : List DummyStatus),
      (encodeCursor (createPreCursor (.int 3) false "default" .nil)) = rowToken (cursorQuerier sixRows) (dummyOrder "default").GetCursorKeyName false row ∧
      (∀ d, decodeCursor (encodeCursor (createPreCursor (.int 3) false "default" .nil)) = (d, none) →
        d.CursorPointsNext = false ∧ d.SubCursorName = toValidUTF8 (dummyOrder "default").GetCursorKeyName ∧
        d.valid = false ∧
        (ValidUTF8 (dummyOrder "default").GetCursorKeyName →
          ∀ limit2, (prepare (encodeCursor (createPreCursor (.int 3) false "default" .nil)) (dummyOrder "default") limit2).isFirst = false ∧
            (prepare (encodeCursor (createPreCursor (.int 3) false "default" .nil)) (dummyOrder "default") limit2).call =
              .withCursorParams (dummyOrder "default").GetCursorKeyName (dummyOrder "default").GetStringValue (wrapInt32 (limit2 + 1))
                "prev" d.CursorID d.SubCursor)) ∧
      (Plain ((cursorQuerier sixRows).CursorIDAndValueSelector (dummyOrder "default").GetCursorKeyName row).1 →
        Plain ((cursorQuerier sixRows).CursorIDAndValueSelector (dummyOrder "default").GetCursorKeyName row).2 →
        decodeCursor (encodeCursor (createPreCursor (.int 3) false "default" .nil)) =
          ({ valid := false,
             CursorID := readBack ((cursorQuerier sixRows).CursorIDAndValueSelector (dummyOrder "default").GetCursorKeyName row).1,
             CursorPointsNext := false, SubCursorName := toValidUTF8 (dummyOrder "default").GetCursorKeyName,
             SubCursor := readBack ((cursorQuerier sixRows).CursorIDAndValueSelector (dummyOrder "default").GetCursorKeyName row).2 },
            none))) :=
  minted_accepted (cursorQuerier sixRows)
    (encodeCursor (createPreCursor (.int 2) true "default" .nil)) (dummyOrder "default") 2
    [⟨3, "d", 32⟩, ⟨4, "c", 33⟩]
    { NextCursor := encodeCursor (createPreCursor (.int 4) true "default" .nil),
      PrevCursor := encodeCursor (createPreCursor (.int 3) false "default" .nil) } (by decide)

/-! ## Theorems: decoded records -/

theorem assignFields_valid (kvs : List (String × JVal)) :
    ∀ c c2 : preCursor, assignFields kvs c = some c2 → c2.valid = c.valid := by
  induction kvs with
  | nil =>
    intro c c2 h
    simp only [assignFields, Option.some.injEq] at h
    rw [← h]
  | cons m kvs ih =>
    intro c c2 h
    obtain ⟨k, v⟩ := m
    simp only [assignFields] at h
    cases h1 : assignField c k v with
    | none => rw [h1] at h; simp at h
    | some c1 =>
      rw [h1] at h
      exact (ih c1 c2 h).trans (assignField_keeps c c1 k v h1).1

/-- A record `json.Unmarshal` fills is not marked valid. -/
theorem jsonUnmarshal_valid (data : List Nat) (c : preCursor) (h : jsonUnmarshal data = some c) :
    c.valid = false := by
  unfold jsonUnmarshal at h
  split at h
  · exact assignFields_valid _ _ _ h
  · simp only [Option.some.injEq] at h
    rw [← h]
  · simp at h

/-- C25: for every token on which `decodeCursor` succeeds, the record returned has
`valid` false, so `encodeCursor` of it is the empty string, which is not the token: a
token that decodes is never empty. -/
theorem decoded_never_valid (t : String) (c : preCursor) (h : decodeCursor t = (c, none)) :
    c.valid = false ∧ encodeCursor c = "" ∧ encodeCursor (decodeCursor t).1 = "" ∧
      t ≠ "" ∧ encodeCursor (decodeCursor t).1 ≠ t := by
  have hv : c.valid = false := by
    unfold decodeCursor at h
    split at h
    · simp at h
    · split at h
      · simp at h
      · rename_i cur hcur
        simp only [Prod.mk.injEq, and_true] at h
        rw [← h]
        exact jsonUnmarshal_valid _ _ hcur
  have he : encodeCursor c = "" := by simp [encodeCursor, hv]
  have ht : t ≠ "" := by
    intro h0
    rw [h0, decodeCursor_empty] at h
    simp at h
  refine ⟨hv, he, by rw [h]; exact he, ht, ?_⟩
  rw [h]
  simp only [he]
  exact fun h0 => ht h0.symm

/-- C25, witness: the token of (id = 2, pointsToNext = true) under `default`. -/
theorem decoded_never_valid_witness :
    ({ createPreCursor (.float64 ⟨false, 2 ^ 52, -51⟩) true "default" .nil
        with valid := false }).valid = false ∧
    encodeCursor { createPreCursor (.float64 ⟨false, 2 ^ 52, -51⟩) true "default" .nil
        with valid := false } = "" ∧
    encodeCursor
        (decodeCursor (encodeCursor (createPreCursor (.int 2) true "default" .nil))).1 = "" ∧
    encodeCursor (createPreCursor (.int 2) true "default" .nil) ≠ "" ∧
    encodeCursor (decodeCursor (encodeCursor (createPreCursor (.int 2) true "default" .nil))).1
      ≠ encodeCursor (createPreCursor (.int 2) true "default" .nil) :=
  decoded_never_valid (encodeCursor (createPreCursor (.int 2) true "default" .nil))
    { createPreCursor (.float64 ⟨false, 2 ^ 52, -51⟩) true "default" .nil with valid := false }
    (by rfl)

/-! ## Theorems: the edge rows are in range -/

/-- C26: with `limit ≥ 1` and a query that succeeds with one row or more, the trimmed
page is not empty; the index 0 and the index `len - 1` are within it, where the first
and the last row are read; the condition `lastIndex < 0` of the guard is false; and
`GetCursorData` returns, with the trimmed page and no error, without a panic. -/
theorem edges_in_range {T : Type} (q : Querier T) (cursor : String) (order : OrderMethod)
    (limit : Int) (data : List T) (hlimit : 1 ≤ limit)
    (hq : runQuery q (prepare cursor order limit).call = (data, none)) (hrows : data ≠ []) :
    trimPage limit data ≠ [] ∧
    0 < (trimPage limit data).length ∧
    ¬ (((trimPage limit data).length : Int) - 1 < 0) ∧
    (if ((trimPage limit data).length : Int) - 1 < 0 then (0 : Int)
      else ((trimPage limit data).length : Int) - 1).toNat = (trimPage limit data).length - 1 ∧
    (trimPage limit data).length - 1 < (trimPage limit data).length ∧
    (∃ first last, (trimPage limit data).get? 0 = some first ∧
      (trimPage limit data).get? ((trimPage limit data).length - 1) = some last ∧
      (trimPage limit data).head? = some first ∧ (trimPage limit data).getLast? = some last) ∧
    GetCursorData q cursor order limit ≠ .panicked ∧
    ∃ page, GetCursorData q cursor order limit = .returned (trimPage limit data) page none := by
  have hne := trimPage_ne_nil limit data hlimit hrows
  have hpos : 0 < (trimPage limit data).length := List.length_pos.mpr hne
  obtain ⟨first, hfirst⟩ : ∃ first, (trimPage limit data).head? = some first := by
    cases h : trimPage limit data with
    | nil => exact absurd h hne
    | cons a l => exact ⟨a, rfl⟩
  have hlast : (trimPage limit data).getLast? = some ((trimPage limit data).getLast hne) :=
    List.getLast?_eq_getLast _ hne
  have h0 : (trimPage limit data).get? 0 = some first := by
    rw [← hfirst]; cases trimPage limit data <;> simp
  have hl : (trimPage limit data).get? ((trimPage limit data).length - 1)
      = some ((trimPage limit data).getLast hne) := by
    rw [← hlast, List.getLast?_eq_getElem?]; simp
  have hres := paginate_rows q order.GetCursorKeyName limit (prepare cursor order limit).isFirst
    (prepare cursor order limit).pointsNext data hlimit hrows first _ hfirst hlast
  rw [← GetCursorData_of_request q cursor order limit _ data rfl hq] at hres
  refine ⟨hne, hpos, by omega, ?_, by omega, ⟨first, _, h0, hl, hfirst, hlast⟩, ?_, _, hres⟩
  · split <;> omega
  · rw [hres]; simp

/-- C26, witness: the first page of the six rows with page size 2. -/
theorem edges_in_range_witness :
    GetCursorData (cursorQuerier sixRows) "" (dummyOrder "default") 2 ≠ .panicked ∧
    ∃ page, GetCursorData (cursorQuerier sixRows) "" (dummyOrder "default") 2
      = .returned (trimPage 2 [⟨1, "f", 30⟩, ⟨2, "e", 31⟩, ⟨3, "d", 32⟩]) page none :=
  (edges_in_range (cursorQuerier sixRows) "" (dummyOrder "default") 2
    [⟨1, "f", 30⟩, ⟨2, "e", 31⟩, ⟨3, "d", 32⟩] (by decide) (by decide)
    (by decide)).2.2.2.2.2.2

end CursorPager
